import Mathlib

/-!
# Triangle-Mesh-Rasterization-Projection: the PLY reader

A shallow embedding of `src/text.hpp` and `src/ply.hpp`.

* `std::string_view` and `std::string` are `List Char`; the input stream `std::istream`
  is the list of characters that are still unread. A byte of the binary body is the
  character's code modulo 256.
* An exception is a value of `failure`; functions that can throw return `Except`.
* `std::size_t` is taken to be 64 bits wide.
* Stored numbers are `value`s: integers of the six integer types as `Int`, `float` and
  `double` as their IEEE-754 bit pattern.
* `std::vector<T>::reserve` throws `std::length_error` above `max_size()`, which is that of
  libstdc++. An allocation never fails for lack of memory: `std::bad_alloc` and
  `std::bad_array_new_length` are not modelled.
-/

deriving instance DecidableEq for Except

set_option linter.dupNamespace false

namespace ply

/-! ## text.hpp -/

namespace detail

/-- The function `isspace` of text.hpp: space, form feed, line feed, carriage return,
tab, vertical tab. -/
def isspace (c : Char) : Bool :=
  c = ' ' || c = '\x0c' || c = '\n' || c = '\r' || c = '\t' || c = '\x0b'

/-- The function `trim_right`: the text up to the base of the first non-space found
from the back. -/
def trim_right (text : List Char) : List Char :=
  (text.reverse.dropWhile isspace).reverse

/-- The function `trim_left`: the text from the first non-space on. -/
def trim_left (text : List Char) : List Char :=
  text.dropWhile isspace

/-- The function `trim`. -/
def trim (text : List Char) : List Char :=
  trim_left (trim_right text)

/-- One round of the loop of `split_front`: the slice before the first space and the
left-trimmed remainder. -/
def split_front_step (line : List Char) : List Char × List Char :=
  (line.takeWhile (fun c => !isspace c), trim_left (line.dropWhile (fun c => !isspace c)))

/-- The function `split_front<N>`: `N - 1` rounds, then the untouched remainder
(`N > 0` is a static assertion of the source). -/
def split_front : Nat → List Char → List (List Char)
  | 0, _ => []
  | 1, line => [line]
  | n + 2, line => (split_front_step line).1 :: split_front (n + 1) (split_front_step line).2

/-- One round of the loop of `split_back`: the slice after the last space and the
right-trimmed text before it. -/
def split_back_step (line : List Char) : List Char × List Char :=
  ((line.reverse.takeWhile (fun c => !isspace c)).reverse,
   trim_right (line.reverse.dropWhile (fun c => !isspace c)).reverse)

/-- The function `split_back<N>`: the slices are filled from the back. -/
def split_back : Nat → List Char → List (List Char)
  | 0, _ => []
  | 1, line => [line]
  | n + 2, line => split_back (n + 1) (split_back_step line).2 ++ [(split_back_step line).1]

/-- The call `split_front(line)` bound to two names. -/
def split_front2 (line : List Char) : List Char × List Char :=
  match split_front 2 line with
  | [a, b] => (a, b)
  | _ => ([], [])

/-- The call `split_front<3>(line)` bound to three names. -/
def split_front3 (line : List Char) : List Char × List Char × List Char :=
  match split_front 3 line with
  | [a, b, c] => (a, b, c)
  | _ => ([], [], [])

/-- The call `split_back(line)` bound to two names. -/
def split_back2 (line : List Char) : List Char × List Char :=
  match split_back 2 line with
  | [a, b] => (a, b)
  | _ => ([], [])

end detail

/-! ## ply.hpp: types, names, parsing of numbers -/

/-- What a call can raise. `runtime_error` is `std::runtime_error` with its message;
`end_of_input` is the `std::ios_base::failure` (a `std::system_error`) that the stream
throws when a read meets the end of the input, the stream having
`exceptions(failbit | badbit | eofbit)`; `undefined_behavior` marks an execution the
language gives no meaning to (an array index past the end, a floating value converted
to an integer type that cannot hold it); `length_error` is the `std::length_error` of
`std::vector<T>::reserve`, a `std::logic_error` and no `std::runtime_error`. -/
inductive failure where
  | runtime_error (what : String)
  | end_of_input
  | undefined_behavior (what : String)
  | length_error (what : String)
  deriving DecidableEq, Repr

/-- The enumeration `file_type`. -/
inductive file_type where
  | ascii
  | binary_big_endian
  | binary_little_endian
  deriving DecidableEq, Repr

/-- The eight scalar types, in the order of `index_of`. -/
inductive scalar_type where
  | int8
  | uint8
  | int16
  | uint16
  | int32
  | uint32
  | float32
  | float64
  deriving DecidableEq, Repr

/-- The byte order of `boost::endian::order`. -/
inductive order where
  | big
  | little
  deriving DecidableEq, Repr

/-- A stored number: the integer of an integer type, or the bit pattern of a `float`
or `double`. -/
inductive value where
  | int (v : Int)
  | float (bits : Nat)
  deriving DecidableEq, Repr

/-- The array `file_type_strings`. -/
def file_type_strings : List (List Char) :=
  ["ascii".toList, "binary_big_endian".toList, "binary_little_endian".toList]

/-- The array `header_entry_strings`. -/
def header_entry_strings : List (List Char) :=
  ["comment".toList, "property".toList, "element".toList, "end_header".toList]

/-- The array `type_strings`. -/
def type_strings : List (List Char) :=
  ["char".toList, "uchar".toList, "short".toList, "ushort".toList,
   "int".toList, "uint".toList, "float".toList, "double".toList]

/-- The array `list_type_strings`. -/
def list_type_strings : List (List Char) :=
  ["list of char".toList, "list of uchar".toList, "list of short".toList,
   "list of ushort".toList, "list of int".toList, "list of uint".toList,
   "list of float".toList, "list of double".toList]

/-- The function `find_index`: the position of the first equal entry, the size of the
container when there is none. -/
def find_index : List (List Char) → List Char → Nat
  | [], _ => 0
  | x :: xs, element => if x = element then 0 else find_index xs element + 1

/-- The variable template `index_of`. -/
def index_of : scalar_type → Nat
  | .int8 => 0
  | .uint8 => 1
  | .int16 => 2
  | .uint16 => 3
  | .int32 => 4
  | .uint32 => 5
  | .float32 => 6
  | .float64 => 7

/-- The scalar type of an index into the tables `make_scalar_property`,
`make_list_property` and `make_list_count_loader`, which have eight entries. -/
def scalar_type_at : Nat → Option scalar_type
  | 0 => some .int8
  | 1 => some .uint8
  | 2 => some .int16
  | 3 => some .uint16
  | 4 => some .int32
  | 5 => some .uint32
  | 6 => some .float32
  | 7 => some .float64
  | _ => none

/-- The value of `sizeof(T)`. -/
def sizeof : scalar_type → Nat
  | .int8 => 1
  | .uint8 => 1
  | .int16 => 2
  | .uint16 => 2
  | .int32 => 4
  | .uint32 => 4
  | .float32 => 4
  | .float64 => 8

/-- The value of `std::is_floating_point_v<T>`. -/
def is_floating_point : scalar_type → Bool
  | .float32 => true
  | .float64 => true
  | _ => false

/-- The value of `std::is_signed_v<T>` for the integer types. -/
def is_signed : scalar_type → Bool
  | .int8 => true
  | .int16 => true
  | .int32 => true
  | _ => false

/-- The least value of an integer type. -/
def min_value (T : scalar_type) : Int :=
  if is_signed T then -(2 ^ (8 * sizeof T - 1) : Int) else 0

/-- The greatest value of an integer type. -/
def max_value (T : scalar_type) : Int :=
  if is_signed T then 2 ^ (8 * sizeof T - 1) - 1 else 2 ^ (8 * sizeof T) - 1

/-- The function `as_string<T>` for a scalar type. -/
def as_string (T : scalar_type) : List Char :=
  type_strings.getD (index_of T) []

/-- The function `as_string<std::vector<T>>`. -/
def as_string_list (T : scalar_type) : List Char :=
  list_type_strings.getD (index_of T) []

/-- The text that `std::quoted` writes: the text between double quotes, each double quote
and backslash of it after a backslash. -/
def quoted (text : List Char) : List Char :=
  '"' :: (text.foldr (fun c acc => if c = '"' ∨ c = '\\' then '\\' :: c :: acc else c :: acc) ['"'])

/-- The decimal digit a character stands for. -/
def digit_value (c : Char) : Option Nat :=
  if '0' ≤ c ∧ c ≤ '9' then some (c.toNat - '0'.toNat) else none

/-- The digits at the front of a text, up to the first character that is no digit. -/
def digit_run : List Char → List Nat
  | [] => []
  | c :: cs =>
    match digit_value c with
    | some d => d :: digit_run cs
    | none => []

/-- The number a sequence of decimal digits denotes. -/
def digits_value (ds : List Nat) : Nat :=
  ds.foldl (fun acc d => acc * 10 + d) 0

/-- The function `std::from_chars` for an integer type with bounds `lo` and `hi`, in base
10: a minus sign when the type is signed, then the longest run of digits; `none` when
there is no digit (`invalid_argument`) or the number is outside the type
(`result_out_of_range`). The source ignores the returned end pointer. -/
def from_chars (signed : Bool) (lo hi : Int) (text : List Char) : Option Int :=
  let negative := signed && text.head? = some '-'
  let ds := digit_run (if negative then text.drop 1 else text)
  let v : Int := if negative then -(digits_value ds : Int) else (digits_value ds : Int)
  if ds = [] then none
  else if lo ≤ v ∧ v ≤ hi then some v
  else none

/-- The exception of `parse_value`. -/
def can_not_convert (text : List Char) (type_string : List Char) : failure :=
  .runtime_error (String.mk ("Can not convert ".toList ++ quoted text ++ " to ".toList ++ type_string))

/-- The function `parse_value<std::size_t>`. -/
def parse_size_t (text : List Char) : Except failure Nat :=
  match from_chars false 0 (2 ^ 64 - 1) text with
  | some v => .ok v.toNat
  | none => .error (can_not_convert text "std::size_t".toList)

/-- The function `parse_value<T>` for a scalar type. For `float` and `double` the source
calls `std::from_chars` of the standard library, which is the parameter `from_chars_float`
here: it gives the bit pattern of the parsed number or nothing. -/
def parse_value (from_chars_float : scalar_type → List Char → Option Nat)
    (T : scalar_type) (text : List Char) : Except failure value :=
  if is_floating_point T then
    match from_chars_float T text with
    | some bits => .ok (.float bits)
    | none => .error (can_not_convert text (as_string T))
  else
    match from_chars (is_signed T) (min_value T) (max_value T) text with
    | some v => .ok (.int v)
    | none => .error (can_not_convert text (as_string T))

/-- The function `load_ascii<T>`: the first slice of the line is parsed, the line goes on
behind it. -/
def load_ascii (from_chars_float : scalar_type → List Char → Option Nat)
    (T : scalar_type) (line : List Char) : Except failure (value × List Char) :=
  match parse_value from_chars_float T (detail.split_front2 line).1 with
  | .ok v => .ok (v, (detail.split_front2 line).2)
  | .error e => .error e

/-- The byte a character of the stream is read as. -/
def byte (c : Char) : Nat :=
  c.toNat % 256

/-- The function `boost::endian::endian_load<T, sizeof(T), Order>`: the bytes of the buffer
make an unsigned number, most significant byte first or last; a signed type reads it in
two's complement, a floating type keeps it as its bit pattern. -/
def endian_load (T : scalar_type) (o : order) (buffer : List Char) : value :=
  let u : Nat :=
    match o with
    | .big => (buffer.map byte).foldl (fun acc b => acc * 256 + b) 0
    | .little => (buffer.map byte).foldr (fun b acc => b + 256 * acc) 0
  if is_floating_point T then .float u
  else if is_signed T ∧ 2 ^ (8 * sizeof T - 1) ≤ u then .int ((u : Int) - 2 ^ (8 * sizeof T))
  else .int u

/-- The function `load_binary<T, Order>`: `is.read` of `sizeof(T)` bytes, which throws at
the end of the input, then `endian_load`. -/
def load_binary (T : scalar_type) (o : order) (is : List Char) :
    Except failure (value × List Char) :=
  if is.length < sizeof T then .error .end_of_input
  else .ok (endian_load T o (is.take (sizeof T)), is.drop (sizeof T))

/-- The function `load_big_endian<T>`. -/
def load_big_endian (T : scalar_type) (is : List Char) : Except failure (value × List Char) :=
  load_binary T .big is

/-- The function `load_little_endian<T>`. -/
def load_little_endian (T : scalar_type) (is : List Char) : Except failure (value × List Char) :=
  load_binary T .little is

/-- The number a `float` or `double` holds. -/
inductive floating where
  | finite (q : ℚ)
  | pos_inf
  | neg_inf
  | nan
  deriving DecidableEq

/-- The number denoted by an IEEE-754 bit pattern with `ebits` exponent bits and `mbits`
fraction bits. -/
def ieee_value (ebits mbits : Nat) (bits : Nat) : floating :=
  let sign := (bits / 2 ^ (ebits + mbits)) % 2
  let e := (bits / 2 ^ mbits) % 2 ^ ebits
  let m := bits % 2 ^ mbits
  let bias : Int := 2 ^ (ebits - 1) - 1
  if e = 2 ^ ebits - 1 then
    if m = 0 then (if sign = 0 then .pos_inf else .neg_inf) else .nan
  else
    let magnitude : ℚ :=
      if e = 0 then (m : ℚ) * (2 : ℚ) ^ (1 - bias - (mbits : Int))
      else ((2 : ℚ) ^ mbits + (m : ℚ)) * (2 : ℚ) ^ ((e : Int) - bias - (mbits : Int))
    .finite (if sign = 0 then magnitude else -magnitude)

/-- The number held by a value of a floating type: binary32 for `float`, binary64 for
`double`. -/
def float_value (T : scalar_type) (bits : Nat) : floating :=
  match T with
  | .float32 => ieee_value 8 23 bits
  | _ => ieee_value 11 52 bits

/-- The function `list_count_loader<T>::convert_value`. A value of a floating type is the
bit pattern; `count != std::floor(count)` is true of a NaN and false of an infinity;
`static_cast<std::size_t>` of a floating value of 2^64 or more is undefined. -/
def list_count_loader.convert_value (T : scalar_type) : value → Except failure Nat
  | .float bits =>
    match float_value T bits with
    | .nan => .error (.runtime_error "list property length is not integer")
    | .neg_inf => .error (.runtime_error "list property length is negative")
    | .pos_inf => .error (.undefined_behavior "static_cast<std::size_t> out of range")
    | .finite count =>
      if count ≠ (⌊count⌋ : ℚ) then .error (.runtime_error "list property length is not integer")
      else if count < 0 then .error (.runtime_error "list property length is negative")
      else if ⌊count⌋ < 2 ^ 64 then .ok ⌊count⌋.toNat
      else .error (.undefined_behavior "static_cast<std::size_t> out of range")
  | .int count =>
    if is_signed T then
      if count < 0 then .error (.runtime_error "list property length is negative")
      else .ok count.toNat
    else .ok count.toNat

/-- The function `list_count_loader<T>::load_ascii`. -/
def list_count_loader.load_ascii (from_chars_float : scalar_type → List Char → Option Nat)
    (T : scalar_type) (line : List Char) : Except failure (Nat × List Char) :=
  match ply.load_ascii from_chars_float T line with
  | .ok (v, rest) =>
    match list_count_loader.convert_value T v with
    | .ok count => .ok (count, rest)
    | .error e => .error e
  | .error e => .error e

/-- The function `list_count_loader<T>::load_big_endian`. -/
def list_count_loader.load_big_endian (T : scalar_type) (is : List Char) :
    Except failure (Nat × List Char) :=
  match ply.load_big_endian T is with
  | .ok (v, rest) =>
    match list_count_loader.convert_value T v with
    | .ok count => .ok (count, rest)
    | .error e => .error e
  | .error e => .error e

/-- The function `list_count_loader<T>::load_little_endian`. -/
def list_count_loader.load_little_endian (T : scalar_type) (is : List Char) :
    Except failure (Nat × List Char) :=
  match ply.load_little_endian T is with
  | .ok (v, rest) =>
    match list_count_loader.convert_value T v with
    | .ok count => .ok (count, rest)
    | .error e => .error e
  | .error e => .error e

/-! ## ply.hpp: properties and elements -/

/-- The variant `property_variant`: a `scalar_property<T>` with its name and its column,
or a `list_property<T>` with its name, its column of rows and the type of its count
loader. -/
inductive property where
  | scalar (T : scalar_type) (name : List Char) (values : List value)
  | list (T : scalar_type) (name : List Char) (values : List (List value)) (loader : scalar_type)
  deriving DecidableEq

/-- The value a column entry of type `T` is initialised with. -/
def zero (T : scalar_type) : value :=
  if is_floating_point T then .float 0 else .int 0

/-- The table `make_scalar_property`: a column of `count` value-initialised entries. -/
def make_scalar_property (T : scalar_type) (name : List Char) (count : Nat) : property :=
  .scalar T name (List.replicate count (zero T))

/-- The table `make_list_property`: a column of `count` empty rows. -/
def make_list_property (T : scalar_type) (name : List Char) (count : Nat)
    (loader : scalar_type) : property :=
  .list T name (List.replicate count []) loader

/-- The member `name()` of a property. -/
def property.name : property → List Char
  | .scalar _ name _ => name
  | .list _ name _ _ => name

/-- The member `max_size()` of `std::vector<T>`, which the implementation defines: that of
libstdc++, the greatest `std::ptrdiff_t` divided by `sizeof(T)`. -/
def vector_max_size (T : scalar_type) : Nat :=
  9223372036854775807 / sizeof T

/-- The call `values_[i].reserve(count)` of `list_property`, which throws
`std::length_error` for a count above `max_size()`. The memory is taken to be without
limit: no `std::bad_alloc` is thrown. -/
def reserve (T : scalar_type) (count : Nat) : Except failure Unit :=
  if vector_max_size T < count then .error (.length_error "vector::reserve") else .ok ()

/-- The loop `for(j < count) values_[i].push_back(load<T>(is))` of `list_property`. -/
def push_back_loop (load : List Char → Except failure (value × List Char)) :
    Nat → List value → List Char → Except failure (List value × List Char)
  | 0, row, is => .ok (row, is)
  | n + 1, row, is =>
    match load is with
    | .ok (v, rest) => push_back_loop load n (row ++ [v]) rest
    | .error e => .error e

/-- The body shared by `load_ascii`, `load_big_endian` and `load_little_endian` of
`scalar_property<T>` and `list_property<T>`, with the loader of a value and the loader of
a count as arguments: a scalar property assigns `values_[i]`, a list property loads the
count, reserves the memory and pushes that many values to `values_[i]`. -/
def property.load_with (load : scalar_type → List Char → Except failure (value × List Char))
    (load_count : scalar_type → List Char → Except failure (Nat × List Char))
    (i : Nat) (is : List Char) : property → Except failure (property × List Char)
  | .scalar T name values =>
    match load T is with
    | .ok (v, rest) => .ok (.scalar T name (values.set i v), rest)
    | .error e => .error e
  | .list T name values loader =>
    match load_count loader is with
    | .ok (count, rest) =>
      match reserve T count with
      | .ok _ =>
        match push_back_loop (load T) count (values.getD i []) rest with
        | .ok (row, rest2) => .ok (.list T name (values.set i row) loader, rest2)
        | .error e => .error e
      | .error e => .error e
    | .error e => .error e

/-- The visit of `load_ascii(i, line)` on a property. -/
def property.load_ascii (from_chars_float : scalar_type → List Char → Option Nat)
    (i : Nat) (line : List Char) (p : property) : Except failure (property × List Char) :=
  p.load_with (ply.load_ascii from_chars_float)
    (list_count_loader.load_ascii from_chars_float) i line

/-- The visit of `load_big_endian(i, is)` on a property. -/
def property.load_big_endian (i : Nat) (is : List Char) (p : property) :
    Except failure (property × List Char) :=
  p.load_with ply.load_big_endian list_count_loader.load_big_endian i is

/-- The visit of `load_little_endian(i, is)` on a property. -/
def property.load_little_endian (i : Nat) (is : List Char) (p : property) :
    Except failure (property × List Char) :=
  p.load_with ply.load_little_endian list_count_loader.load_little_endian i is

/-- The loop `for(auto& property: properties_)` of the element loaders: every property
loads its entry of record `i` from where the one before stopped. -/
def for_properties (load : Nat → List Char → property → Except failure (property × List Char))
    (i : Nat) : List property → List Char → Except failure (List property × List Char)
  | [], is => .ok ([], is)
  | p :: ps, is =>
    match load i is p with
    | .ok (p1, rest) =>
      match for_properties load i ps rest with
      | .ok (ps1, rest2) => .ok (p1 :: ps1, rest2)
      | .error e => .error e
    | .error e => .error e

/-- The class `element`. -/
structure element where
  name_ : List Char
  count_ : Nat
  properties_ : List property
  deriving DecidableEq

/-- The member `element::add_property`. The two tables it indexes have eight entries; an
index past them is undefined behaviour. -/
def element.add_property (e : element) (specification : List Char) : Except failure element :=
  let type := (detail.split_front2 specification).1
  let rest := (detail.split_front2 specification).2
  if type = "list".toList then
    let count_data := (detail.split_front2 rest).1
    let count_rest := (detail.split_front2 rest).2
    let count_index := find_index type_strings count_data
    if count_index > type_strings.length then
      .error (.runtime_error "invalid property list count type")
    else
      let type_data := (detail.split_front2 count_rest).1
      let property_name := (detail.split_front2 count_rest).2
      let data_index := find_index type_strings type_data
      if data_index > type_strings.length then
        .error (.runtime_error "invalid property list data type")
      else if property_name = [] then
        .error (.runtime_error "no list property name defined")
      else
        match scalar_type_at count_index with
        | none => .error (.undefined_behavior "make_list_count_loader[count_index]")
        | some count_loader =>
          match scalar_type_at data_index with
          | none => .error (.undefined_behavior "make_list_property[data_index]")
          | some T =>
            .ok { e with properties_ :=
                    e.properties_ ++ [make_list_property T property_name e.count_ count_loader] }
  else
    let data_index := find_index type_strings type
    if data_index > type_strings.length then
      .error (.runtime_error "invalid property data type")
    else if rest = [] then
      .error (.runtime_error "no property name defined")
    else
      match scalar_type_at data_index with
      | none => .error (.undefined_behavior "make_scalar_property[data_index]")
      | some T => .ok { e with properties_ := e.properties_ ++ [make_scalar_property T rest e.count_] }

/-- The function `std::getline`: the characters before the first line feed and the stream
behind it; nothing when the input ends before a line feed, where the stream sets `eofbit`
and throws. -/
def getline : List Char → Option (List Char × List Char)
  | [] => none
  | c :: cs =>
    if c = '\n' then some ([], cs)
    else
      match getline cs with
      | some (line, rest) => some (c :: line, rest)
      | none => none

/-- The function `read_line`: the line counter is advanced, then the line is read. The
second component is the line counter after the call, also when the call throws. -/
def read_line (is : List Char) (line_number : Nat) :
    Except failure (List Char × List Char) × Nat :=
  match getline is with
  | some (line, rest) => (.ok (line, rest), line_number + 1)
  | none => (.error .end_of_input, line_number + 1)

/-- The body of the loop `for(i < count_)` of `element::load_ascii` behind `read_line`: the
line is trimmed, every property takes its part, and what is left of the line must be
empty. -/
def element.load_ascii_record (from_chars_float : scalar_type → List Char → Option Nat)
    (i : Nat) (properties : List property) (line : List Char) :
    Except failure (List property) :=
  match for_properties (property.load_ascii from_chars_float) i properties
      (detail.trim line) with
  | .error e => .error e
  | .ok (properties1, trimmed_line) =>
    if trimmed_line ≠ [] then
      .error (.runtime_error "data line contains more values than specified")
    else .ok properties1

/-- The loop `for(i < count_)` of `element::load_ascii`, `rows` records being left and `i`
the next one. -/
def element.load_ascii_rows (from_chars_float : scalar_type → List Char → Option Nat) :
    Nat → Nat → List property → List Char → Nat →
      Except failure (List property × List Char) × Nat
  | 0, _, properties, is, line_number => (.ok (properties, is), line_number)
  | rows + 1, i, properties, is, line_number =>
    match read_line is line_number with
    | (.error e, line_number1) => (.error e, line_number1)
    | (.ok (line, rest), line_number1) =>
      match element.load_ascii_record from_chars_float i properties line with
      | .error e => (.error e, line_number1)
      | .ok properties1 =>
        element.load_ascii_rows from_chars_float rows (i + 1) properties1 rest line_number1

/-- The member `element::load_ascii`. -/
def element.load_ascii (from_chars_float : scalar_type → List Char → Option Nat)
    (e : element) (is : List Char) (line_number : Nat) :
    Except failure (element × List Char) × Nat :=
  match element.load_ascii_rows from_chars_float e.count_ 0 e.properties_ is line_number with
  | (.ok (properties, rest), line_number1) =>
    (.ok ({ e with properties_ := properties }, rest), line_number1)
  | (.error err, line_number1) => (.error err, line_number1)

/-- The loop `for(i < count_)` of `element::load_big_endian` and
`element::load_little_endian`, `rows` records being left and `i` the next one. -/
def element.load_binary_rows
    (load : Nat → List Char → property → Except failure (property × List Char)) :
    Nat → Nat → List property → List Char → Except failure (List property × List Char)
  | 0, _, properties, is => .ok (properties, is)
  | rows + 1, i, properties, is =>
    match for_properties load i properties is with
    | .ok (properties1, rest) => element.load_binary_rows load rows (i + 1) properties1 rest
    | .error e => .error e

/-- The member `element::load_big_endian`. -/
def element.load_big_endian (e : element) (is : List Char) :
    Except failure (element × List Char) :=
  match element.load_binary_rows property.load_big_endian e.count_ 0 e.properties_ is with
  | .ok (properties, rest) => .ok ({ e with properties_ := properties }, rest)
  | .error err => .error err

/-- The member `element::load_little_endian`. -/
def element.load_little_endian (e : element) (is : List Char) :
    Except failure (element × List Char) :=
  match element.load_binary_rows property.load_little_endian e.count_ 0 e.properties_ is with
  | .ok (properties, rest) => .ok ({ e with properties_ := properties }, rest)
  | .error err => .error err

/-- The member `element::property_names`. -/
def element.property_names (e : element) : List (List Char) :=
  e.properties_.map property.name

/-- The visit of `element::property_type_name` on a property: `as_string` of the type its
column holds. -/
def property.type_name : property → List Char
  | .scalar T _ _ => as_string T
  | .list T _ _ _ => as_string_list T

/-- The member `element::property_type_name`; nothing for an index out of range, where
the source is undefined. -/
def element.property_type_name (e : element) (index : Nat) : Option (List Char) :=
  e.properties_[index]?.map property.type_name

/-- The member `element::name`. -/
def element.name (e : element) : List Char :=
  e.name_

/-- The member `element::value_count`. -/
def element.value_count (e : element) : Nat :=
  e.count_

/-! ## ply.hpp: the class `ply` -/

/-- The class `ply`. -/
structure ply where
  comments_ : List (List Char)
  elements_ : List element
  file_type_ : file_type
  deriving DecidableEq

/-- The text `fmt::format` writes for `{:d}`. -/
def format_d (n : Nat) : String :=
  toString n

/-- The member `ply::rethrow_with_line`: what is thrown in place of the caught exception.
The end of the input is the only `std::system_error` of the stream. The handler catches a
`std::runtime_error`; a `std::length_error` passes it as it is. -/
def ply.rethrow_with_line (error : failure) (line_number : Nat) : failure :=
  match error with
  | .end_of_input =>
    .runtime_error ("line " ++ format_d line_number ++ ": unexpected end of input")
  | .runtime_error what => .runtime_error ("line " ++ format_d line_number ++ ": " ++ what)
  | .undefined_behavior what => .undefined_behavior what
  | .length_error what => .length_error what

/-- The member `ply::rethrow_while_binary_read`. -/
def ply.rethrow_while_binary_read (error : failure) : failure :=
  match error with
  | .end_of_input => .runtime_error "binary file part: unexpected end of input"
  | .runtime_error what => .runtime_error ("binary file part: " ++ what)
  | .undefined_behavior what => .undefined_behavior what
  | .length_error what => .length_error what

/-- The conversion `file_type(format_index)` of an index below three. -/
def file_type_of_index : Nat → file_type
  | 0 => .ascii
  | 1 => .binary_big_endian
  | _ => .binary_little_endian

/-- The lambda of `ply::process_header` that reads the format line, applied to the line
read. -/
def ply.process_format_line (line : List Char) : Except failure file_type :=
  let entry := (detail.split_front3 line).1
  let type := (detail.split_front3 line).2.1
  let version := (detail.split_front3 line).2.2
  if entry ≠ "format".toList then .error (.runtime_error "invalid format line")
  else if version ≠ "1.0".toList then .error (.runtime_error "unsupported format version")
  else if find_index file_type_strings type ≥ file_type_strings.length then
    .error (.runtime_error "invalid format")
  else .ok (file_type_of_index (find_index file_type_strings type))

/-- The member `ply::add_element`. -/
def ply.add_element (p : ply) (specification : List Char) : Except failure ply :=
  match parse_size_t (detail.split_back2 specification).2 with
  | .ok count =>
    .ok { p with elements_ := p.elements_ ++ [⟨(detail.split_back2 specification).1, count, []⟩] }
  | .error e => .error e

/-- The member `ply::add_property`. -/
def ply.add_property (p : ply) (specification : List Char) : Except failure ply :=
  match p.elements_.getLast? with
  | none => .error (.runtime_error "property without previous element")
  | some back =>
    match back.add_property specification with
    | .ok back1 => .ok { p with elements_ := p.elements_.dropLast ++ [back1] }
    | .error e => .error e

/-- The loop `for(;;)` of `ply::process_header`. Every round reads a line, so the number
of rounds is bounded by the length of the input; `fuel` is that bound. -/
def ply.process_header_loop : Nat → ply → List Char → Nat →
    Except failure (ply × List Char) × Nat
  | 0, _, _, line_number => (.error .end_of_input, line_number)
  | fuel + 1, p, is, line_number =>
    match read_line is line_number with
    | (.error e, line_number1) => (.error e, line_number1)
    | (.ok (line, rest), line_number1) =>
      let entry := (detail.split_front2 (detail.trim line)).1
      let spec := (detail.split_front2 (detail.trim line)).2
      let entry_index := find_index header_entry_strings entry
      if entry_index ≥ header_entry_strings.length then
        (.error (.runtime_error "invalid format"), line_number1)
      else if entry_index = find_index header_entry_strings "comment".toList then
        ply.process_header_loop fuel { p with comments_ := p.comments_ ++ [spec] } rest line_number1
      else if entry_index = find_index header_entry_strings "element".toList then
        match p.add_element spec with
        | .ok p1 => ply.process_header_loop fuel p1 rest line_number1
        | .error e => (.error e, line_number1)
      else if entry_index = find_index header_entry_strings "property".toList then
        match p.add_property spec with
        | .ok p1 => ply.process_header_loop fuel p1 rest line_number1
        | .error e => (.error e, line_number1)
      else (.ok (p, rest), line_number1)

/-- The member `ply::process_header`, entered with the comments and elements `p` has. -/
def ply.process_header (p : ply) (is : List Char) (line_number : Nat) :
    Except failure (ply × List Char) × Nat :=
  match read_line is line_number with
  | (.error e, line_number1) => (.error e, line_number1)
  | (.ok (line, rest), line_number1) =>
    match ply.process_format_line line with
    | .error e => (.error e, line_number1)
    | .ok type =>
      ply.process_header_loop (rest.length + 1) { p with file_type_ := type } rest line_number1

/-- The loop `for(auto& element: elements_) element.load_ascii(is, line_number)`. -/
def ply.load_ascii_elements (from_chars_float : scalar_type → List Char → Option Nat) :
    List element → List Char → Nat → Except failure (List element × List Char) × Nat
  | [], is, line_number => (.ok ([], is), line_number)
  | e :: es, is, line_number =>
    match e.load_ascii from_chars_float is line_number with
    | (.error err, line_number1) => (.error err, line_number1)
    | (.ok (e1, rest), line_number1) =>
      match ply.load_ascii_elements from_chars_float es rest line_number1 with
      | (.ok (es1, rest2), line_number2) => (.ok (e1 :: es1, rest2), line_number2)
      | (.error err, line_number2) => (.error err, line_number2)

/-- The loops `for(auto& element: elements_) element.load_big_endian(is)` and
`element.load_little_endian(is)`. -/
def ply.load_binary_elements (load : element → List Char → Except failure (element × List Char)) :
    List element → List Char → Except failure (List element × List Char)
  | [], is => .ok ([], is)
  | e :: es, is =>
    match load e is with
    | .error err => .error err
    | .ok (e1, rest) =>
      match ply.load_binary_elements load es rest with
      | .ok (es1, rest2) => .ok (e1 :: es1, rest2)
      | .error err => .error err

/-- The member `ply::process_data`; the result has the stream as the call leaves it. -/
def ply.process_data (from_chars_float : scalar_type → List Char → Option Nat)
    (p : ply) (is : List Char) (line_number : Nat) : Except failure (ply × List Char) :=
  match p.file_type_ with
  | .ascii =>
    match ply.load_ascii_elements from_chars_float p.elements_ is line_number with
    | (.ok (es, rest), _) => .ok ({ p with elements_ := es }, rest)
    | (.error e, line_number1) => .error (ply.rethrow_with_line e line_number1)
  | .binary_big_endian =>
    match ply.load_binary_elements element.load_big_endian p.elements_ is with
    | .ok (es, rest) => .ok ({ p with elements_ := es }, rest)
    | .error e => .error (ply.rethrow_while_binary_read e)
  | .binary_little_endian =>
    match ply.load_binary_elements element.load_little_endian p.elements_ is with
    | .ok (es, rest) => .ok ({ p with elements_ := es }, rest)
    | .error e => .error (ply.rethrow_while_binary_read e)

/-- The member `ply::load(std::istream&)`: comments and elements are cleared, the line
counter starts at 0, the first line and the header are read inside the `try` whose handler
is `rethrow_with_line`, then the data. The result has the loaded file and the stream as
the call leaves it. -/
def ply.load (from_chars_float : scalar_type → List Char → Option Nat) (is : List Char) :
    Except failure (ply × List Char) :=
  match read_line is 0 with
  | (.error e, line_number) => .error (ply.rethrow_with_line e line_number)
  | (.ok (line, rest), line_number) =>
    if detail.trim line ≠ "ply".toList then
      .error (ply.rethrow_with_line (.runtime_error "invalid first line") line_number)
    else
      match ply.process_header ⟨[], [], .ascii⟩ rest line_number with
      | (.error e, line_number1) => .error (ply.rethrow_with_line e line_number1)
      | (.ok (p, rest1), line_number1) => ply.process_data from_chars_float p rest1 line_number1

/-- The member `ply::comments`. -/
def ply.comment_list (p : ply) : List (List Char) :=
  p.comments_

/-- The member `ply::element_names`. -/
def ply.element_names (p : ply) : List (List Char) :=
  p.elements_.map element.name

/-- The member `ply::value_count(element_index)`; nothing for an index out of range,
where the source is undefined. -/
def ply.value_count (p : ply) (element_index : Nat) : Option Nat :=
  p.elements_[element_index]?.map element.value_count

/-- The member `ply::property_names(element_index)`. -/
def ply.property_names (p : ply) (element_index : Nat) : Option (List (List Char)) :=
  p.elements_[element_index]?.map element.property_names

/-- The member `ply::property_type_name(element_index, property_index)`. -/
def ply.property_type_name (p : ply) (element_index property_index : Nat) :
    Option (List Char) :=
  match p.elements_[element_index]? with
  | some e => e.property_type_name property_index
  | none => none

/-- The member `element::find_property`: the position of the first property with the name,
the number of properties (the end iterator) when there is none. -/
def element.find_property (e : element) (name : List Char) : Nat :=
  e.properties_.findIdx (fun property => property.name = name)

/-- The member `element::property_index`. -/
def element.property_index (e : element) (name : List Char) : Except failure Nat :=
  if e.find_property name = e.properties_.length then
    .error (.runtime_error (String.mk ("PLY element ".toList ++ quoted e.name_ ++
      " contains no property ".toList ++ quoted name)))
  else .ok (e.find_property name)

/-- The member `element::property_name`; nothing for an index out of range, where the
source is undefined. -/
def element.property_name (e : element) (index : Nat) : Option (List Char) :=
  e.properties_[index]?.map property.name

/-- The member `element::contains`. -/
def element.contains (e : element) (name : List Char) : Bool :=
  e.find_property name != e.properties_.length

/-- The concept `valid_value`: a scalar type `T` or `std::vector<T>` of a scalar type. -/
inductive valid_value where
  | scalar (T : scalar_type)
  | list (T : scalar_type)
  deriving DecidableEq, Repr

/-- The function `as_string<T>` for every valid value type. -/
def valid_value.as_string : valid_value → List Char
  | .scalar T => ply.as_string T
  | .list T => as_string_list T

/-- The variant `value_variant`: a span of values of a scalar type, or a span of rows. -/
inductive value_variant where
  | scalars (T : scalar_type) (values : List value)
  | lists (T : scalar_type) (values : List (List value))
  deriving DecidableEq

/-- The member `base_property::values(count)` behind the visit of `element::values`: the
span of the first `count` entries of the column. -/
def property.values (count : Nat) : property → value_variant
  | .scalar T _ values => .scalars T (values.take count)
  | .list T _ values _ => .lists T (values.take count)

/-- The member `element::values(index)`; nothing for an index out of range, where the
source is undefined. -/
def element.values (e : element) (index : Nat) : Option value_variant :=
  e.properties_[index]?.map (property.values e.count_)

/-- The value type a property stores: `T` for `scalar_property<T>`, `std::vector<T>` for
`list_property<T>`. -/
def property.stored_type : property → valid_value
  | .scalar T _ _ => .scalar T
  | .list T _ _ _ => .list T

/-- The member template `element::values<T>(index)`. Its body tests
`std::get_if<T>(properties_[index])`, throws when the test gives a null pointer, and ends
there: it has no `return` statement, so a call that does not throw flows off the end of a
function that returns a value, which is undefined. The test is read as it is meant, the
property storing values of type `T`; as written (the variant where a pointer is expected,
the value type where an alternative is expected) the template does not compile once it is
instantiated, and nothing in the repository instantiates it. -/
def element.values_as (e : element) (T : valid_value) (index : Nat) :
    Except failure value_variant :=
  match e.properties_[index]? with
  | none => .error (.undefined_behavior "properties_[index]")
  | some property =>
    if property.stored_type ≠ T then
      .error (.runtime_error (String.mk ("PLY element ".toList ++ quoted e.name_ ++
        " property ".toList ++ quoted property.name ++ " accessed as ".toList ++
        T.as_string ++ " but its type is ".toList ++ property.type_name)))
    else .error (.undefined_behavior "no return statement")

/-- The member `ply::find_element`: the position of the first element with the name, the
number of elements (the end iterator) when there is none. -/
def ply.find_element (p : ply) (element_name : List Char) : Nat :=
  p.elements_.findIdx (fun element => element.name = element_name)

/-- The member `ply::element_index`. -/
def ply.element_index (p : ply) (name : List Char) : Except failure Nat :=
  if p.find_element name = p.elements_.length then
    .error (.runtime_error (String.mk ("PLY contains no element ".toList ++ quoted name)))
  else .ok (p.find_element name)

/-- The member `ply::element_name`; nothing for an index out of range, where the source is
undefined. -/
def ply.element_name (p : ply) (index : Nat) : Option (List Char) :=
  p.elements_[index]?.map element.name

/-- The member `ply::contains_element`. -/
def ply.contains_element (p : ply) (name : List Char) : Bool :=
  p.find_element name != p.elements_.length

/-- The member `ply::property_index(element_index, property_name)`; an element index out
of range is undefined. -/
def ply.property_index (p : ply) (element_index : Nat) (property_name : List Char) :
    Except failure Nat :=
  match p.elements_[element_index]? with
  | none => .error (.undefined_behavior "elements_[element_index]")
  | some e => e.property_index property_name

/-- The member `ply::property_index(element_name, property_name)`. -/
def ply.property_index_by_name (p : ply) (element_name property_name : List Char) :
    Except failure Nat :=
  match p.element_index element_name with
  | .error err => .error err
  | .ok element_index => p.property_index element_index property_name

/-- The member `ply::property_name(element_index, property_index)`; nothing for an index
out of range, where the source is undefined. -/
def ply.property_name (p : ply) (element_index property_index : Nat) : Option (List Char) :=
  match p.elements_[element_index]? with
  | some e => e.property_name property_index
  | none => none

/-- The member `ply::contains_property(element_name, property_name)`. -/
def ply.contains_property (p : ply) (element_name property_name : List Char) : Bool :=
  match p.elements_[p.find_element element_name]? with
  | none => false
  | some e => e.contains property_name

/-- The member `ply::values(element_index, property_index)`; nothing for an index out of
range, where the source is undefined. -/
def ply.values (p : ply) (element_index property_index : Nat) : Option value_variant :=
  match p.elements_[element_index]? with
  | some e => e.values property_index
  | none => none

/-- The member template `ply::values<T>(element_index, property_index)`, which returns what
`element::values<T>` returns. -/
def ply.values_as (p : ply) (T : valid_value) (element_index property_index : Nat) :
    Except failure value_variant :=
  match p.elements_[element_index]? with
  | none => .error (.undefined_behavior "elements_[element_index]")
  | some e => e.values_as T property_index

/-- The member `ply::value_count(element_name)`. -/
def ply.value_count_by_name (p : ply) (element_name : List Char) : Except failure Nat :=
  match p.element_index element_name with
  | .error err => .error err
  | .ok element_index =>
    match p.value_count element_index with
    | none => .error (.undefined_behavior "elements_[element_index]")
    | some count => .ok count

/-- The member `ply::values(element_name, property_name)`. -/
def ply.values_by_name (p : ply) (element_name property_name : List Char) :
    Except failure value_variant :=
  match p.element_index element_name with
  | .error err => .error err
  | .ok element_index =>
    match p.property_index element_index property_name with
    | .error err => .error err
    | .ok property_index =>
      match p.values element_index property_index with
      | none => .error (.undefined_behavior "properties_[property_index]")
      | some values => .ok values

/-! ## Definitions used to state the properties -/

/-- The name of a file type in the format line. -/
def file_type.name : file_type → List Char
  | .ascii => "ascii".toList
  | .binary_big_endian => "binary_big_endian".toList
  | .binary_little_endian => "binary_little_endian".toList

/-- The text of a sequence of lines, each ended by a line feed. -/
def lines_text : List (List Char) → List Char
  | [] => []
  | line :: lines => line ++ '\n' :: lines_text lines

/-- The decimal digits of a number, most significant first; `fuel` bounds their number. -/
def decimal_digits : Nat → Nat → List Nat
  | 0, _ => []
  | fuel + 1, n => if n < 10 then [n] else decimal_digits fuel (n / 10) ++ [n % 10]

/-- The character of a decimal digit. -/
def digit_char (d : Nat) : Char :=
  Char.ofNat ('0'.toNat + d)

/-- The decimal text of a number. -/
def decimal (n : Nat) : List Char :=
  (decimal_digits (n + 1) n).map digit_char

/-- A line a header declares behind the format line. -/
inductive header_line where
  | comment (text : List Char)
  | element (name : List Char) (count : Nat)
  | property (type : scalar_type) (name : List Char)
  | property_list (count_type type : scalar_type) (name : List Char)
  deriving DecidableEq

/-- The text of a declared line: `comment <text>`, `element <name> <count>`,
`property <type> <name>` or `property list <countType> <type> <name>`. -/
def header_line.text : header_line → List Char
  | .comment text => "comment ".toList ++ text
  | .element name count => "element ".toList ++ name ++ ' ' :: decimal count
  | .property type name => "property ".toList ++ as_string type ++ ' ' :: name
  | .property_list count_type type name =>
    "property list ".toList ++ as_string count_type ++ ' ' :: (as_string type ++ ' ' :: name)

/-- The text of a header: `ply`, the format line, the declared lines, `end_header`. -/
def header_text (type : file_type) (lines : List header_line) : List Char :=
  "ply\n".toList ++ ("format ".toList ++ type.name ++ " 1.0\n".toList ++
    (lines_text (lines.map header_line.text) ++ "end_header\n".toList))

/-- A name of the header: not empty and without whitespace. -/
def is_name (name : List Char) : Prop :=
  name ≠ [] ∧ ∀ c ∈ name, detail.isspace c = false

instance (name : List Char) : Decidable (is_name name) := by
  unfold is_name; infer_instance

/-- What a declared line may hold: a comment has no line feed, names are names, the count
of an element fits `std::size_t`. -/
def header_line.well_formed : header_line → Prop
  | .comment text => '\n' ∉ text
  | .element name count => is_name name ∧ count < 2 ^ 64
  | .property _ name => is_name name
  | .property_list _ _ name => is_name name

instance (l : header_line) : Decidable l.well_formed := by
  cases l <;> unfold header_line.well_formed <;> infer_instance

/-- Every property line follows some element line; `opened` tells whether an element line
came before the lines. -/
def properties_follow_element : Bool → List header_line → Bool
  | _, [] => true
  | opened, .comment _ :: lines => properties_follow_element opened lines
  | _, .element _ _ :: lines => properties_follow_element true lines
  | opened, .property _ _ :: lines => opened && properties_follow_element opened lines
  | opened, .property_list _ _ _ :: lines => opened && properties_follow_element opened lines

/-- The comment texts the lines declare, in order, as written behind `comment` and one
space. -/
def declared_comments : List header_line → List (List Char)
  | [] => []
  | .comment text :: lines => text :: declared_comments lines
  | _ :: lines => declared_comments lines

/-- The properties declared at the front of the lines, up to the next element line: name
and type name, `<type>` for a scalar and `list of <type>` for a list. -/
def declared_properties : List header_line → List (List Char × List Char)
  | [] => []
  | .comment _ :: lines => declared_properties lines
  | .element _ _ :: _ => []
  | .property type name :: lines => (name, as_string type) :: declared_properties lines
  | .property_list _ type name :: lines =>
    (name, as_string_list type) :: declared_properties lines

/-- The elements the lines declare, in order: name, count and properties. -/
def declared_elements : List header_line → List (List Char × Nat × List (List Char × List Char))
  | [] => []
  | .element name count :: lines =>
    (name, count, declared_properties lines) :: declared_elements lines
  | _ :: lines => declared_elements lines

/-- The columns, not yet loaded, of the properties declared at the front of the lines up
to the next element line, for an element of `count` records. -/
def declared_columns (count : Nat) : List header_line → List property
  | [] => []
  | .comment _ :: lines => declared_columns count lines
  | .element _ _ :: _ => []
  | .property type name :: lines =>
    make_scalar_property type name count :: declared_columns count lines
  | .property_list count_type type name :: lines =>
    make_list_property type name count count_type :: declared_columns count lines

/-- The elements as the header leaves them: the declared elements, their columns not yet
loaded. -/
def header_elements : List header_line → List element
  | [] => []
  | .element name count :: lines =>
    ⟨name, count, declared_columns count lines⟩ :: header_elements lines
  | _ :: lines => header_elements lines

/-- What the accessors tell of an element: its name, its value count, and the name and
type name of each of its properties. -/
def element.declaration (e : element) : List Char × Nat × List (List Char × List Char) :=
  (e.name, e.value_count, e.properties_.map (fun q => (q.name, q.type_name)))

/-- The type of the values a property holds: `T` of `scalar_property<T>` and of
`list_property<T>`. -/
def property.value_type : property → scalar_type
  | .scalar T _ _ => T
  | .list T _ _ _ => T

/-- Whether a property is a `scalar_property`. -/
def property.is_scalar : property → Bool
  | .scalar _ _ _ => true
  | .list _ _ _ _ => false

/-- What the input holds for one property of one record: a value for a scalar property;
for a list property the count that was read and the values of the row. -/
inductive entry where
  | scalar (v : value)
  | list (count : Nat) (row : List value)
  deriving DecidableEq

/-- The property with an entry stored at record `i`: a scalar property has the value at
`values_[i]`, a list property has the row appended to `values_[i]`. -/
def property.store (i : Nat) : entry → property → property
  | .scalar v, .scalar T name values => .scalar T name (values.set i v)
  | .list _ row, .list T name values loader =>
    .list T name (values.set i (values.getD i [] ++ row)) loader
  | _, q => q

/-- The next `n` values of the input, in order, read with `load`. -/
def read_values (load : List Char → Except failure (value × List Char)) :
    Nat → List Char → Except failure (List value × List Char)
  | 0, is => .ok ([], is)
  | n + 1, is =>
    match load is with
    | .ok (v, rest) =>
      match read_values load n rest with
      | .ok (vs, rest2) => .ok (v :: vs, rest2)
      | .error e => .error e
    | .error e => .error e

/-- The count of a row of a list property of the value type `T` at the front of the input:
the count is read with its loader, and the memory for that many values is reserved. -/
def read_count (load_count : scalar_type → List Char → Except failure (Nat × List Char))
    (T loader : scalar_type) (is : List Char) : Except failure (Nat × List Char) :=
  match load_count loader is with
  | .ok (count, rest) =>
    match reserve T count with
    | .ok _ => .ok (count, rest)
    | .error e => .error e
  | .error e => .error e

/-- The entry of a property at the front of the input: a scalar property takes one value;
a list property takes the count, for which the memory is reserved, then that many
values. -/
def read_entry (load : scalar_type → List Char → Except failure (value × List Char))
    (load_count : scalar_type → List Char → Except failure (Nat × List Char))
    (is : List Char) : property → Except failure (entry × List Char)
  | .scalar T _ _ =>
    match load T is with
    | .ok (v, rest) => .ok (.scalar v, rest)
    | .error e => .error e
  | .list T _ _ loader =>
    match read_count load_count T loader is with
    | .ok (count, rest) =>
      match read_values (load T) count rest with
      | .ok (row, rest2) => .ok (.list count row, rest2)
      | .error e => .error e
    | .error e => .error e

/-- The entries of one record at the front of the input, in property order. -/
def read_record (load : scalar_type → List Char → Except failure (value × List Char))
    (load_count : scalar_type → List Char → Except failure (Nat × List Char)) :
    List property → List Char → Except failure (List entry × List Char)
  | [], is => .ok ([], is)
  | q :: qs, is =>
    match read_entry load load_count is q with
    | .ok (en, rest) =>
      match read_record load load_count qs rest with
      | .ok (ens, rest2) => .ok (en :: ens, rest2)
      | .error e => .error e
    | .error e => .error e

/-- The entries of `rows` records at the front of a binary input, in record order. -/
def read_table (load : scalar_type → List Char → Except failure (value × List Char))
    (load_count : scalar_type → List Char → Except failure (Nat × List Char))
    (properties : List property) : Nat → List Char → Except failure (List (List entry) × List Char)
  | 0, is => .ok ([], is)
  | rows + 1, is =>
    match read_record load load_count properties is with
    | .ok (record, rest) =>
      match read_table load load_count properties rows rest with
      | .ok (table, rest2) => .ok (record :: table, rest2)
      | .error e => .error e
    | .error e => .error e

/-- The properties with the entries of one record stored at record `i`. -/
def store_record (i : Nat) (record : List entry) (properties : List property) : List property :=
  List.zipWith (property.store i) record properties

/-- The properties with the records of a table stored from record `i` on. -/
def store_table : Nat → List (List entry) → List property → List property
  | _, [], properties => properties
  | i, record :: table, properties => store_table (i + 1) table (store_record i record properties)

/-- A property with the entries of consecutive records stored from record `i` on. -/
def store_column : Nat → List entry → property → property
  | _, [], q => q
  | i, en :: ens, q => store_column (i + 1) ens (q.store i en)

/-- The entries of column `j` of a table, in record order. -/
def column_entries (j : Nat) (table : List (List entry)) : List entry :=
  table.filterMap (fun record => record[j]?)

/-- The values of an entry: the value of a scalar entry, the row of a list entry. -/
def entry.values : entry → List value
  | .scalar v => [v]
  | .list _ row => row

/-- A property as the header leaves it for an element of `count` records: a column of
`count` value-initialised entries, or of `count` empty rows. -/
def property.is_fresh (count : Nat) : property → Prop
  | .scalar T _ values => values = List.replicate count (zero T)
  | .list _ _ values _ => values = List.replicate count []

instance (count : Nat) (q : property) : Decidable (q.is_fresh count) := by
  cases q <;> unfold property.is_fresh <;> infer_instance

/-- The entries of `rows` records at the front of an ASCII input, one record a line: the
line is trimmed, its entries are read in property order, and nothing may be left of it. -/
def read_lines (from_chars_float : scalar_type → List Char → Option Nat)
    (properties : List property) : Nat → List Char → Except failure (List (List entry) × List Char)
  | 0, is => .ok ([], is)
  | rows + 1, is =>
    match getline is with
    | none => .error .end_of_input
    | some (line, rest) =>
      match read_record (load_ascii from_chars_float)
          (list_count_loader.load_ascii from_chars_float) properties (detail.trim line) with
      | .error e => .error e
      | .ok (record, left) =>
        if left ≠ [] then
          .error (.runtime_error "data line contains more values than specified")
        else
          match read_lines from_chars_float properties rows rest with
          | .ok (table, rest2) => .ok (record :: table, rest2)
          | .error e => .error e

/-- The number of bytes of an entry of a property in a binary body: `sizeof(T)` for a
scalar, `sizeof(countT) + n * sizeof(T)` for a list row of length `n`. -/
def entry_size : property → entry → Nat
  | .scalar T _ _, _ => sizeof T
  | .list T _ _ loader, en => sizeof loader + en.values.length * sizeof T

/-- The number of bytes of a record in a binary body. -/
def record_size : List property → List entry → Nat
  | q :: qs, en :: ens => entry_size q en + record_size qs ens
  | _, _ => 0

/-- The number of bytes of a table in a binary body. -/
def table_size (properties : List property) (table : List (List entry)) : Nat :=
  (table.map (record_size properties)).sum

/-- The rows of the list properties are the rows of the table: every list property has
`count` rows, and row `k` of list property `j` is the row of entry `j` of record `k`,
which has as many values as the count read with it. -/
def rows_as_read (count : Nat) (properties : List property) (table : List (List entry)) : Prop :=
  table.length = count ∧
  ∀ (j : Nat) (T : scalar_type) (name : List Char) (values : List (List value))
    (loader : scalar_type), properties[j]? = some (.list T name values loader) →
    values.length = count ∧
    ∀ k, k < count → ∃ (c : Nat) (row : List value),
      (table[k]?.bind (fun record => record[j]?)) = some (.list c row) ∧
      values[k]? = some row ∧ row.length = c

/-- The call `R is` reads the first `k` characters of the input and no more: it returns
`x` and leaves the input behind them, it returns the same whatever follows them, and it
meets the end of the input when the input stops before the `k`-th. -/
def reads {α : Type} (R : List Char → Except failure (α × List Char)) (is : List Char)
    (x : α) (rest : List Char) (k : Nat) : Prop :=
  R is = .ok (x, rest) ∧ k ≤ is.length ∧ rest = is.drop k ∧
  (∀ tail, R (is.take k ++ tail) = .ok (x, tail)) ∧
  (∀ m, m < k → R (is.take m) = .error .end_of_input)

/-- The `width` bytes of a number, least significant first. -/
def le_bytes : Nat → Nat → List Nat
  | 0, _ => []
  | width + 1, u => u % 256 :: le_bytes width (u / 256)

/-- The bytes of an integer `z` as a value of type `T` in a binary body: two's complement
in `sizeof(T)` bytes, in the byte order `o`. -/
def encode (T : scalar_type) (o : order) (z : Int) : List Char :=
  let bytes := le_bytes (sizeof T) (z % 2 ^ (8 * sizeof T)).toNat
  match o with
  | .little => bytes.map Char.ofNat
  | .big => bytes.reverse.map Char.ofNat

/-- Whether a type is one of the six integer types. -/
def is_integer (T : scalar_type) : Bool :=
  !is_floating_point T

/-- The bytes of a sequence of integers of type `T`, one after the other. -/
def encode_values (T : scalar_type) (o : order) (zs : List Int) : List Char :=
  (zs.map (encode T o)).flatten

/-- The bytes of a list row: the count as a value of the count type, then the values. -/
def encode_list (T loader : scalar_type) (o : order) (zs : List Int) : List Char :=
  encode loader o zs.length ++ encode_values T o zs

/-- An integer within the bounds of the integer type `T`. -/
def in_range (T : scalar_type) (z : Int) : Prop :=
  is_integer T = true ∧ min_value T ≤ z ∧ z ≤ max_value T

instance (T : scalar_type) (z : Int) : Decidable (in_range T z) := by
  unfold in_range; infer_instance

/-- The bytes of a record of the S3 layout, little-endian: a `uchar` value `a`, then a
`list uchar int` row. -/
def s3_record (a : Int) (l : List Int) : List Char :=
  encode .uint8 .little a ++ encode_list .int32 .uint8 .little l

/-- The decimal text of an integer, with a minus sign when it is negative. -/
def int_text (z : Int) : List Char :=
  if z < 0 then '-' :: decimal (-z).toNat else decimal z.toNat

/-- The ASCII line of a record of integers: the decimal tokens with a space between them. -/
def ascii_record : List Int → List Char
  | [] => []
  | [z] => int_text z
  | z :: zs => int_text z ++ ' ' :: ascii_record zs

/-- The ASCII encoding of a table of integers: one record per line. -/
def ascii_body (table : List (List Int)) : List Char :=
  lines_text (table.map ascii_record)

/-- The binary encoding of a record of integers: value `j` as a value of type `j`. -/
def binary_record (o : order) : List scalar_type → List Int → List Char
  | T :: types, z :: zs => encode T o z ++ binary_record o types zs
  | _, _ => []

/-- The binary encoding of a table of integers, record after record. -/
def binary_body (o : order) (types : List scalar_type) (table : List (List Int)) : List Char :=
  (table.map (binary_record o types)).flatten

/-- A record of integers for a sequence of types: as many values as types, each within
the bounds of its integer type. -/
def record_in_range : List scalar_type → List Int → Prop
  | [], [] => True
  | T :: types, z :: zs => in_range T z ∧ record_in_range types zs
  | _, _ => False

instance (types : List scalar_type) (zs : List Int) : Decidable (record_in_range types zs) := by
  induction types generalizing zs with
  | nil => cases zs <;> unfold record_in_range <;> infer_instance
  | cons T types ih =>
    cases zs with
    | nil => unfold record_in_range; infer_instance
    | cons z zs =>
      unfold record_in_range
      exact @instDecidableAnd _ _ _ (ih zs)

/-- The columns of scalar properties with the given names and types as the header leaves
them for `count` records. -/
def scalar_columns (schema : List (List Char × scalar_type)) (count : Nat) : List property :=
  schema.map (fun s => make_scalar_property s.2 s.1 count)

/-- The columns of a table of integers: column `j` holds value `j` of every record, in
record order; `j` counts from `first`. -/
def table_columns (first : Nat) : List (List Char × scalar_type) → List (List Int) → List property
  | [], _ => []
  | s :: schema, table =>
    .scalar s.2 s.1 (table.map (fun row => value.int (row.getD first 0))) ::
      table_columns (first + 1) schema table

/-- The tokens of a record line parsed one per type, in order: token `j` as type `j`, the
empty text where the line has no token left; the first token that does not convert
gives the error. -/
def parse_tokens (from_chars_float : scalar_type → List Char → Option Nat) :
    List scalar_type → List (List Char) → Except failure (List value)
  | [], _ => .ok []
  | T :: types, words =>
    match parse_value from_chars_float T (words.headD []) with
    | .error e => .error e
    | .ok v =>
      match parse_tokens from_chars_float types words.tail with
      | .ok vs => .ok (v :: vs)
      | .error e => .error e

/-- The line behind its first `n` slices of `split_front`. -/
def skip_slices : Nat → List Char → List Char
  | 0, line => line
  | n + 1, line => skip_slices n (detail.split_front_step line).2

/-- A `from_chars_float` that accepts no text, for inputs without floating numbers. -/
def no_float : scalar_type → List Char → Option Nat :=
  fun _ _ => none

/-- The first line of the input that is not empty, when the input is cut at line feeds. -/
def first_non_empty_line (input : List Char) : Option (List Char) :=
  (input.splitOnP (fun c => c = '\n')).find? (fun line => line ≠ [])

/-- The whitespace-delimited tokens of a text: the non-empty pieces between whitespace
characters. -/
def tokens (text : List Char) : List (List Char) :=
  (text.splitOnP detail.isspace).filter (fun t => t ≠ [])

/-- A value that an object of type `T` can hold: an integer within the bounds of an
integer type, a bit pattern of the width of a floating type. -/
def value.has_type (T : scalar_type) : value → Prop
  | .int v => is_floating_point T = false ∧ min_value T ≤ v ∧ v ≤ max_value T
  | .float bits => is_floating_point T = true ∧ bits < 2 ^ (8 * sizeof T)

instance (T : scalar_type) (v : value) : Decidable (v.has_type T) := by
  cases v <;> unfold value.has_type <;> infer_instance

/-- The finite number a count value of type `T` stands for; nothing for an infinity or
a NaN. -/
def count_number (T : scalar_type) : value → Option ℚ
  | .int v => some v
  | .float bits =>
    match float_value T bits with
    | .finite q => some q
    | _ => none

/-- The number of line feeds of a text, which is the number of its complete lines. -/
def line_feeds (text : List Char) : Nat :=
  text.count '\n'

/-- The first `n` lines of a text, each with its line feed; the whole text when it has
fewer than `n` line feeds. -/
def first_lines : Nat → List Char → List Char
  | 0, _ => []
  | _ + 1, [] => []
  | n + 1, c :: cs => if c = '\n' then c :: first_lines n cs else c :: first_lines (n + 1) cs

/-- The message a caught exception is reported with: `what()` of a `std::runtime_error`,
`unexpected end of input` for the end of the input. -/
def failure.message : failure → String
  | .runtime_error what => what
  | .end_of_input => "unexpected end of input"
  | .undefined_behavior what => what
  | .length_error what => what

/-- The part of `ply::load` that reads lines, entered with the line counter: the first
line, the header and, for an ASCII file, the body. The result has the line counter as the
exception handlers of `load` and `process_data` find it. -/
def ply.load_lines (from_chars_float : scalar_type → List Char → Option Nat)
    (is : List Char) (line_number : Nat) : Except failure (ply × List Char) × Nat :=
  match read_line is line_number with
  | (.error e, line_number1) => (.error e, line_number1)
  | (.ok (line, rest), line_number1) =>
    if detail.trim line ≠ "ply".toList then
      (.error (.runtime_error "invalid first line"), line_number1)
    else
      match ply.process_header ⟨[], [], .ascii⟩ rest line_number1 with
      | (.error e, line_number2) => (.error e, line_number2)
      | (.ok (p, rest1), line_number2) =>
        if p.file_type_ = .ascii then
          match ply.load_ascii_elements from_chars_float p.elements_ rest1 line_number2 with
          | (.ok (es, rest2), line_number3) => (.ok ({ p with elements_ := es }, rest2), line_number3)
          | (.error e, line_number3) => (.error e, line_number3)
        else (.ok (p, rest1), line_number2)

/-- The loop of the body of a binary file that `ply::process_data` runs for a file type. -/
def ply.load_binary_body (type : file_type) (es : List element) (is : List Char) :
    Except failure (List element × List Char) :=
  match type with
  | .binary_big_endian => ply.load_binary_elements element.load_big_endian es is
  | _ => ply.load_binary_elements element.load_little_endian es is

/-- The call `R is n` reads whole lines and counts them. When it returns, it has read `k`
lines and the counter is `n + k`; it returns the same on the first `m` lines of the input
for `m` from `k` on, and meets the end of the input in line `m + 1` on fewer. When it
throws with the counter at `n + k`, at most `k - 1` complete lines came before, and on the
first `m` lines for `m` below `k` it meets the end of the input in line `m + 1`. -/
def reads_lines {α : Type} (R : List Char → Nat → Except failure (α × List Char) × Nat)
    (is : List Char) (n : Nat) : Prop :=
  (∀ x rest n1, R is n = (.ok (x, rest), n1) →
    ∃ k, n1 = n + k ∧ line_feeds is = k + line_feeds rest ∧
      (∀ m, k ≤ m → R (first_lines m is) n = (.ok (x, first_lines (m - k) rest), n1)) ∧
      (∀ m, m < k → R (first_lines m is) n = (.error .end_of_input, n + m + 1))) ∧
  (∀ e n1, R is n = (.error e, n1) →
    ∃ k, n1 = n + k ∧ k ≤ line_feeds is + 1 ∧
      (∀ m, m < k → R (first_lines m is) n = (.error .end_of_input, n + m + 1)))

end ply

/-! # main.cpp: from points to the image

A shallow embedding of the namespace `ply2image` of `src/main.cpp`.

* A `double` is a number of exact arithmetic: a rational number, an infinity or NaN. The
  operations give what IEEE-754 gives where the result is exact: no rounding, no overflow,
  and zero has no sign. `std::sqrt` of a number that is no NaN, no infinity and not negative
  is a parameter of the model, `root`. The value of a pixel, the lambda of `to_image`, has
  a second embedding, `ieee.pixel_value`, in which a sum, a product or a quotient of
  magnitude `2 ^ 1024` or more is an infinity, and the terms are added in the grouping of
  libstdc++; what is proved in exact arithmetic is compared with it.
* `std::int64_t` is `Int`, `std::size_t` is `Nat` below `2 ^ 64`.
* `bmp::bitmap` is not part of the sources; it is modelled from its description in the
  specification.
-/

namespace ply2image

/-- The type `double`, in exact arithmetic. -/
abbrev double := ply.floating

namespace double

/-- The sum of two numbers: NaN with a NaN and for infinities of opposite sign. -/
def add : double → double → double
  | .nan, _ => .nan
  | _, .nan => .nan
  | .finite a, .finite b => .finite (a + b)
  | .finite _, .pos_inf => .pos_inf
  | .finite _, .neg_inf => .neg_inf
  | .pos_inf, .neg_inf => .nan
  | .pos_inf, _ => .pos_inf
  | .neg_inf, .pos_inf => .nan
  | .neg_inf, _ => .neg_inf

/-- The negative of a number. -/
def neg : double → double
  | .finite a => .finite (-a)
  | .pos_inf => .neg_inf
  | .neg_inf => .pos_inf
  | .nan => .nan

/-- The difference of two numbers. -/
def sub (a b : double) : double :=
  add a (neg b)

/-- An infinity with the sign of a rational number; NaN for zero. -/
def signed_inf (q : ℚ) : double :=
  if q = 0 then .nan else if 0 < q then .pos_inf else .neg_inf

/-- The product of two numbers: NaN with a NaN and for zero times an infinity. -/
def mul : double → double → double
  | .nan, _ => .nan
  | _, .nan => .nan
  | .finite a, .finite b => .finite (a * b)
  | .finite a, .pos_inf => signed_inf a
  | .finite a, .neg_inf => signed_inf (-a)
  | .pos_inf, .finite b => signed_inf b
  | .neg_inf, .finite b => signed_inf (-b)
  | .pos_inf, .pos_inf => .pos_inf
  | .pos_inf, .neg_inf => .neg_inf
  | .neg_inf, .pos_inf => .neg_inf
  | .neg_inf, .neg_inf => .pos_inf

/-- The quotient of two numbers: NaN with a NaN, for zero by zero and for an infinity by an
infinity; a number that is not zero, divided by zero, is the infinity of its sign. -/
def div : double → double → double
  | .nan, _ => .nan
  | _, .nan => .nan
  | .finite a, .finite b => if b = 0 then signed_inf a else .finite (a / b)
  | .finite _, _ => .finite 0
  | .pos_inf, .finite b => if 0 ≤ b then .pos_inf else .neg_inf
  | .neg_inf, .finite b => if 0 ≤ b then .neg_inf else .pos_inf
  | _, _ => .nan

/-- The comparison `a < b`, false with a NaN. -/
def lt : double → double → Bool
  | .nan, _ => false
  | _, .nan => false
  | .finite a, .finite b => decide (a < b)
  | .finite _, .pos_inf => true
  | .finite _, .neg_inf => false
  | .pos_inf, _ => false
  | .neg_inf, .neg_inf => false
  | .neg_inf, _ => true

/-- The comparison `a == b`, false with a NaN. -/
def eq : double → double → Bool
  | .nan, _ => false
  | _, .nan => false
  | a, b => decide (a = b)

/-- The function `std::floor`. -/
def floor : double → double
  | .finite a => .finite (⌊a⌋ : Int)
  | a => a

/-- The function `std::ceil`. -/
def ceil : double → double
  | .finite a => .finite (⌈a⌉ : Int)
  | a => a

/-- The function `std::sqrt`, with the parameter `root` for the root of a rational number
that is not negative. -/
def sqrt (root : ℚ → ℚ) : double → double
  | .finite a => if a < 0 then .nan else .finite (root a)
  | .pos_inf => .pos_inf
  | _ => .nan

/-- The function `std::isnan`. -/
def isnan : double → Bool
  | .nan => true
  | _ => false

/-- The integer a number is truncated to, toward zero. -/
def truncate (a : ℚ) : Int :=
  if 0 ≤ a then ⌊a⌋ else ⌈a⌉

/-- The conversion `static_cast<std::size_t>` of a `double`: the truncated value; nothing
when `std::size_t` cannot hold it, where the conversion is undefined. -/
def to_size_t : double → Option Nat
  | .finite a => if 0 ≤ truncate a ∧ truncate a < 2 ^ 64 then some (truncate a).toNat else none
  | _ => none

/-- The conversion `static_cast<std::int64_t>` of a `double`: the truncated value; nothing
when `std::int64_t` cannot hold it, where the conversion is undefined. -/
def to_int64 : double → Option Int
  | .finite a =>
    if -(2 : Int) ^ 63 ≤ truncate a ∧ truncate a < 2 ^ 63 then some (truncate a) else none
  | _ => none

/-- The conversion `static_cast<double>` of a `std::size_t`. -/
def of_size_t (n : Nat) : double :=
  .finite n

end double

instance : Add double := ⟨double.add⟩
instance : Sub double := ⟨double.sub⟩
instance : Mul double := ⟨double.mul⟩
instance : Div double := ⟨double.div⟩
instance : Neg double := ⟨double.neg⟩
instance : OfNat double 0 := ⟨.finite 0⟩
instance : OfNat double 1 := ⟨.finite 1⟩

/-- The constant `NaN`. -/
def NaN : double :=
  .nan

/-- What a call can raise: a `std::runtime_error` or a `std::logic_error` with its message;
`undefined_behavior` marks an execution the language gives no meaning to. -/
inductive failure where
  | runtime_error (what : String)
  | logic_error (what : String)
  | undefined_behavior (what : String)
  deriving DecidableEq, Repr

/-- The structure `point`. -/
structure point where
  x : double
  y : double
  v : double
  deriving DecidableEq

/-- The structure `raster_point`. -/
structure raster_point where
  x : double
  y : double
  v : double
  rx : Int
  ry : Int
  deriving DecidableEq

/-- The structure `raw_pixel<point>`. -/
structure raw_pixel where
  weight : double
  value : double
  deriving DecidableEq

/-- The structure `raw_pixel<raster_point>`. -/
structure raster_raw_pixel where
  weight : double
  value : double
  rx : Int
  ry : Int
  deriving DecidableEq

/-- Modelled from the spec: the image container `bmp::bitmap`, which is not part of the
sources: a `w × h` grid of values in row-major order, with indexed read and write and
iteration in row-major order. -/
structure bitmap (α : Type) where
  w : Nat
  h : Nat
  data : List α
  deriving DecidableEq

/-- Modelled from the spec: the constructor `bitmap(w, h, value)` of `bmp::bitmap`, every
value of the grid being `value`; `bitmap(w, h)` has value-initialised entries. -/
def bitmap.create {α : Type} (w h : Nat) (value : α) : bitmap α :=
  ⟨w, h, List.replicate (w * h) value⟩

/-- Modelled from the spec: the indexed read `image(x, y)` of `bmp::bitmap`, the value of
column `x` in row `y`; nothing outside the grid. -/
def bitmap.get? {α : Type} (image : bitmap α) (x y : Nat) : Option α :=
  if x < image.w ∧ y < image.h then image.data[y * image.w + x]? else none

/-- A list with `f` applied to the entry at a position. -/
def modify_at {α : Type} (f : α → α) : Nat → List α → List α
  | _, [] => []
  | 0, a :: as => f a :: as
  | n + 1, a :: as => a :: modify_at f n as

/-- Modelled from the spec: the indexed write of `bmp::bitmap` through the reference
`image(x, y)`: the image with `f` applied to the value of column `x` in row `y`. -/
def bitmap.modify {α : Type} (image : bitmap α) (x y : Nat) (f : α → α) : bitmap α :=
  { image with data := modify_at f (y * image.w + x) image.data }

/-- The statement `vector_image(x, y).push_back(pixel)`. -/
def push_back {α : Type} (vector_image : bitmap (List α)) (x y : Nat) (pixel : α) :
    bitmap (List α) :=
  vector_image.modify x y (fun list => list ++ [pixel])

/-- The sum `a + 1` of `std::size_t`, which wraps at `2 ^ 64`. -/
def succ_size_t (a : Nat) : Nat :=
  (a + 1) % 2 ^ 64

/-- The body of the loop `for(auto const& p: points)` of the dense `to_vector_image`: the
point gives a contribution to each of the four pixels around it that the image has. The
two conversions to `std::size_t` come first and are undefined for a coordinate whose floor
is negative, 2^64 or more, an infinity or NaN. -/
def to_vector_image_point (vector_image : bitmap (List raw_pixel)) (p : point) :
    Except failure (bitmap (List raw_pixel)) :=
  match double.to_size_t (double.floor p.x) with
  | none => .error (.undefined_behavior "static_cast<std::size_t> out of range")
  | some ix =>
    match double.to_size_t (double.floor p.y) with
    | none => .error (.undefined_behavior "static_cast<std::size_t> out of range")
    | some iy =>
      let xr := p.x - double.floor p.x
      let yr := p.y - double.floor p.y
      let image1 :=
        if ix < vector_image.w ∧ iy < vector_image.h then
          push_back vector_image ix iy ⟨(1 - xr) * (1 - yr), p.v⟩
        else vector_image
      let image2 :=
        if succ_size_t ix < image1.w ∧ iy < image1.h then
          push_back image1 (succ_size_t ix) iy ⟨xr * (1 - yr), p.v⟩
        else image1
      let image3 :=
        if ix < image2.w ∧ succ_size_t iy < image2.h then
          push_back image2 ix (succ_size_t iy) ⟨(1 - xr) * yr, p.v⟩
        else image2
      let image4 :=
        if succ_size_t ix < image3.w ∧ succ_size_t iy < image3.h then
          push_back image3 (succ_size_t ix) (succ_size_t iy) ⟨xr * yr, p.v⟩
        else image3
      .ok image4

/-- The loop `for(auto const& p: points)` of the dense `to_vector_image`. -/
def to_vector_image_loop :
    List point → bitmap (List raw_pixel) → Except failure (bitmap (List raw_pixel))
  | [], vector_image => .ok vector_image
  | p :: points, vector_image =>
    match to_vector_image_point vector_image p with
    | .error e => .error e
    | .ok image1 => to_vector_image_loop points image1

/-- The function `to_vector_image(width, height, points)` for points without raster. -/
def to_vector_image (width height : Nat) (points : List point) :
    Except failure (bitmap (List raw_pixel)) :=
  to_vector_image_loop points (bitmap.create width height [])

/-- The call `std::transform_reduce(first, last, 0., std::plus<double>{}, f)`: the sum of
`0.` and the values of `f`. The order in which the terms are added is not specified; in
exact arithmetic it does not matter, and the model adds from the left. The grouping of
libstdc++ and the overflow of `double` are in `ieee.transform_reduce`. -/
def transform_reduce {α : Type} (f : α → double) (data : List α) : double :=
  (data.map f).foldl (fun a b => a + b) 0

/-- The lambda of `to_image` that turns the contributions of a pixel into its value, for a
pixel type with the members `weight` and `value`. -/
def pixel_value {α : Type} (weight value : α → double) (data : List α) :
    Except failure double :=
  match data with
  | [] => .ok NaN
  | [single] => .ok (value single)
  | _ =>
    if data.any (fun v => double.lt (weight v) 0) then .error (.logic_error "negative weight")
    else
      let sum_weight := transform_reduce weight data
      if double.eq sum_weight 0 then .ok NaN
      else .ok (transform_reduce (fun v => value v * weight v) data / sum_weight)

/-- The call `std::ranges::transform(vector_image, image.begin(), f)`: the values of `f` in
row-major order; the first exception of `f` ends it. -/
def transform {α β : Type} (f : α → Except failure β) : List α → Except failure (List β)
  | [] => .ok []
  | a :: as =>
    match f a with
    | .error e => .error e
    | .ok b =>
      match transform f as with
      | .error e => .error e
      | .ok bs => .ok (b :: bs)

/-- The function `to_image<point>(width, height, points)`. -/
def to_image (width height : Nat) (points : List point) : Except failure (bitmap double) :=
  match to_vector_image width height points with
  | .error e => .error e
  | .ok vector_image =>
    match transform (pixel_value raw_pixel.weight raw_pixel.value) vector_image.data with
    | .error e => .error e
    | .ok data => .ok ⟨width, height, data⟩

/-! ## main.cpp: the value of a pixel with the overflow of `double`

The arithmetic of `double` as far as its range goes: an exact result of magnitude `2 ^ 1024`
or more is an infinity, as IEEE-754 has it; rounding is not modelled, a smaller result is
left as it is. -/

namespace ieee

/-- The greatest finite `double`, `2 ^ 1024 - 2 ^ 971`. -/
def max_double : ℚ :=
  2 ^ 1024 - 2 ^ 971

/-- The result of an operation of `double` that has the exact result `a`: the infinity of
its sign for a number of magnitude `2 ^ 1024` or more. -/
def overflow : double → double
  | .finite q =>
    if 2 ^ 1024 ≤ |q| then (if 0 < q then .pos_inf else .neg_inf) else .finite q
  | a => a

/-- The sum of two `double`. -/
def add (a b : double) : double :=
  overflow (a + b)

/-- The product of two `double`. -/
def mul (a b : double) : double :=
  overflow (a * b)

/-- The quotient of two `double`. -/
def div (a b : double) : double :=
  overflow (a / b)

/-- The call `std::transform_reduce(first, last, init, std::plus<double>{}, f)` as libstdc++
computes it for random access iterators: as long as four terms are left, they are added
as `(f0 + f1) + (f2 + f3)` to the sum so far; the terms that remain are added one by one.
The standard leaves the grouping of the terms open. -/
def transform_reduce_from {α : Type} (f : α → double) : double → List α → double
  | init, a :: b :: c :: d :: rest =>
    transform_reduce_from f (add init (add (add (f a) (f b)) (add (f c) (f d)))) rest
  | init, [a, b, c] => add (add (add init (f a)) (f b)) (f c)
  | init, [a, b] => add (add init (f a)) (f b)
  | init, [a] => add init (f a)
  | init, [] => init

/-- The call `std::transform_reduce(first, last, 0., std::plus<double>{}, f)`. -/
def transform_reduce {α : Type} (f : α → double) (data : List α) : double :=
  transform_reduce_from f (.finite 0) data

/-- The lambda of `to_image` that turns the contributions of a pixel into its value. -/
def pixel_value {α : Type} (weight value : α → double) (data : List α) :
    Except failure double :=
  match data with
  | [] => .ok NaN
  | [single] => .ok (value single)
  | _ =>
    if data.any (fun v => double.lt (weight v) 0) then .error (.logic_error "negative weight")
    else
      let sum_weight := transform_reduce weight data
      if double.eq sum_weight 0 then .ok NaN
      else .ok (div (transform_reduce (fun v => mul (value v) (weight v)) data) sum_weight)

/-- The function `to_image<point>(width, height, points)`. The weights of the vector image
are products of numbers between 0 and 1, which do not overflow. -/
def to_image (width height : Nat) (points : List point) : Except failure (bitmap double) :=
  match to_vector_image width height points with
  | .error e => .error e
  | .ok vector_image =>
    match transform (pixel_value raw_pixel.weight raw_pixel.value) vector_image.data with
    | .error e => .error e
    | .ok data => .ok ⟨width, height, data⟩

end ieee

/-! ## main.cpp: the raster mode -/

/-- The enumeration `raster_filter`, which selects `min_value_filter`, `max_value_filter`
or `none_filter` as the template argument `RasterFilter`. -/
inductive raster_filter where
  | min
  | max
  | none
  deriving DecidableEq, Repr

/-- The structure `raster_range`. -/
structure raster_range where
  min_x : Int
  max_x : Int
  min_y : Int
  max_y : Int
  deriving DecidableEq

/-- The least value of `std::int64_t`. -/
def int64_min : Int :=
  -(2 ^ 63)

/-- The greatest value of `std::int64_t`. -/
def int64_max : Int :=
  2 ^ 63 - 1

/-- The result of an operation on `std::int64_t`, which is undefined when the type cannot
hold it. -/
def int64 (v : Int) : Except failure Int :=
  if int64_min ≤ v ∧ v ≤ int64_max then .ok v
  else .error (.undefined_behavior "signed integer overflow")

/-- The conversion `static_cast<std::size_t>` of a `std::int64_t`, modulo `2 ^ 64`. -/
def size_t_of_int64 (v : Int) : Nat :=
  (v % 2 ^ 64).toNat

/-- The conversion `static_cast<std::int64_t>` of a `std::size_t`, modulo `2 ^ 64`. -/
def int64_of_size_t (n : Nat) : Int :=
  if n < 2 ^ 63 then (n : Int) else (n : Int) - 2 ^ 64

/-- The difference `a - 1` of a `std::size_t` `a`, which wraps at 0. -/
def pred_size_t (a : Nat) : Nat :=
  if a = 0 then 2 ^ 64 - 1 else a - 1

/-- The value of `static_cast<std::size_t>(a + 1 - b)` for `std::int64_t` `a` and `b`, as
in `raster_range::w` and `raster_range::h`. -/
def extent (a b : Int) : Except failure Nat :=
  match int64 (a + 1) with
  | .error e => .error e
  | .ok s =>
    match int64 (s - b) with
    | .error e => .error e
    | .ok d => .ok (size_t_of_int64 d)

/-- The value of `static_cast<std::size_t>(a - b)` for `std::int64_t` `a` and `b`, as in
`raster_range::x` and `raster_range::y`. -/
def offset (a b : Int) : Except failure Nat :=
  match int64 (a - b) with
  | .error e => .error e
  | .ok d => .ok (size_t_of_int64 d)

/-- The member `raster_range::w`. -/
def raster_range.w (range : raster_range) : Except failure Nat :=
  extent range.max_x range.min_x

/-- The member `raster_range::h`. -/
def raster_range.h (range : raster_range) : Except failure Nat :=
  extent range.max_y range.min_y

/-- The member `raster_range::x`. -/
def raster_range.x (range : raster_range) (x : Int) : Except failure Nat :=
  offset x range.min_x

/-- The member `raster_range::y`. -/
def raster_range.y (range : raster_range) (y : Int) : Except failure Nat :=
  offset y range.min_y

/-- The function `find_raster_range`. -/
def find_raster_range (points : List raster_point) : raster_range :=
  points.foldl
    (fun range p =>
      ⟨min range.min_x p.rx, max range.max_x p.rx, min range.min_y p.ry, max range.max_y p.ry⟩)
    ⟨int64_max, int64_min, int64_max, int64_min⟩

/-- The class `bmp::point<double>` of point.hpp. -/
structure bmp_point where
  x : double
  y : double
  deriving DecidableEq

/-- The conversion `operator bmp::point<double>()` of `raster_point`. -/
def raster_point.to_point (p : raster_point) : bmp_point :=
  ⟨p.x, p.y⟩

/-- The type `std::array<T, 3>`. -/
structure array3 (α : Type) where
  t0 : α
  t1 : α
  t2 : α
  deriving DecidableEq

/-- The element `t[index]` of a `std::array<T, 3>`, for an index below 3. -/
def array3.get {α : Type} (t : array3 α) : Nat → α
  | 0 => t.t0
  | 1 => t.t1
  | _ => t.t2

/-- The function `sqr`. -/
def sqr (v : double) : double :=
  v * v

/-- The function `distance`. -/
def distance (root : ℚ → ℚ) (a b : bmp_point) : double :=
  double.sqrt root (sqr (a.x - b.x) + sqr (a.y - b.y))

/-- The function `area`, with `s - a` where the formula of Heron has `s - c`, as the
source has it. -/
def area (root : ℚ → ℚ) (t : array3 bmp_point) : double :=
  let a := distance root t.t0 t.t1
  let b := distance root t.t1 t.t2
  let c := distance root t.t2 t.t0
  let s := (a + b + c) / (.finite 2)
  double.sqrt root (s * (s - a) * (s - b) * (s - a))

/-- The lambda `sign` of `is_inside`. -/
def sign (t : array3 bmp_point) : double :=
  (t.t0.x - t.t2.x) * (t.t1.y - t.t2.y) - (t.t1.x - t.t2.x) * (t.t0.y - t.t2.y)

/-- The function `is_inside`. -/
def is_inside (t : array3 raster_point) (p : bmp_point) : Bool :=
  let d1 := sign ⟨p, ⟨t.t0.x, t.t0.y⟩, ⟨t.t1.x, t.t1.y⟩⟩
  let d2 := sign ⟨p, ⟨t.t1.x, t.t1.y⟩, ⟨t.t2.x, t.t2.y⟩⟩
  let d3 := sign ⟨p, ⟨t.t2.x, t.t2.y⟩, ⟨t.t0.x, t.t0.y⟩⟩
  let neg := double.lt d1 0 || double.lt d2 0 || double.lt d3 0
  let pos := double.lt 0 d1 || double.lt 0 d2 || double.lt 0 d3
  !(neg && pos)

/-- The array `areas` of the paint loop for the triangle `t` and the pixel position `p`. -/
def areas (root : ℚ → ℚ) (t : array3 raster_point) (p : bmp_point) : array3 double :=
  ⟨area root ⟨p, t.t1.to_point, t.t2.to_point⟩,
   area root ⟨p, t.t2.to_point, t.t0.to_point⟩,
   area root ⟨p, t.t0.to_point, t.t1.to_point⟩⟩

/-- The value `area_sum` of the paint loop. -/
def area_sum (a : array3 double) : double :=
  a.t0 + a.t1 + a.t2

/-- The array `weight` of the paint loop. -/
def weight (a : array3 double) : array3 double :=
  ⟨a.t0 / area_sum a, a.t1 / area_sum a, a.t2 / area_sum a⟩

/-- The comparison `a < b` of two `std::pair<double, std::size_t>`, which C++20 derives
from `operator<=>`: the first members decide when they are not equal, also when one is
NaN, where nothing is less; the second members decide when the first are equal. -/
def pair_lt (a b : double × Nat) : Bool :=
  if double.lt a.1 b.1 then true
  else if double.lt b.1 a.1 then false
  else if double.eq a.1 b.1 then decide (a.2 < b.2)
  else false

/-- The call `std::max({a, b, c})` on pairs: the leftmost of the largest. -/
def max_pair (a b c : double × Nat) : double × Nat :=
  let m := if pair_lt a b then b else a
  if pair_lt m c then c else m

/-- The value `index` of the paint loop: the index of the largest weight. -/
def max_index (w : array3 double) : Nat :=
  (max_pair (w.t0, 0) (w.t1, 1) (w.t2, 2)).2

/-- The call `std::min({a, b, c})` on `double`: the leftmost of the smallest. -/
def min3 (a b c : double) : double :=
  let m := if double.lt b a then b else a
  if double.lt c m then c else m

/-- The call `std::max({a, b, c})` on `double`: the leftmost of the largest. -/
def max3 (a b c : double) : double :=
  let m := if double.lt a b then b else a
  if double.lt m c then c else m

/-- The call `std::clamp(v, lo, hi)` on `std::int64_t`, which is undefined when `hi` is less
than `lo`. -/
def clamp (v lo hi : Int) : Except failure Int :=
  if hi < lo then .error (.undefined_behavior "std::clamp with hi < lo")
  else if v < lo then .ok lo
  else if hi < v then .ok hi
  else .ok v

/-- A bound of the integer bounding box of a triangle in the target image:
`static_cast<std::size_t>(std::clamp(static_cast<std::int64_t>(v), std::int64_t(0),
static_cast<std::int64_t>(size - 1)))` for the floor or ceiling `v` of a coordinate. -/
def box_bound (v : double) (size : Nat) : Except failure Nat :=
  match double.to_int64 v with
  | .none => .error (.undefined_behavior "static_cast<std::int64_t> out of range")
  | .some z =>
    match clamp z 0 (int64_of_size_t (pred_size_t size)) with
    | .error e => .error e
    | .ok c => .ok (size_t_of_int64 c)

/-- The text `fmt::format` writes for `{:d}` and a `std::int64_t`. -/
def format_d (z : Int) : String :=
  toString z

/-- The loop `for(auto const& p: points)` of the raster `to_vector_image` that fills
`raster_image`: a point goes to the place of its raster coordinates, which must be free.
A place outside the image is undefined. -/
def fill_raster_image (range : raster_range) :
    List raster_point → bitmap (Option raster_point) →
      Except failure (bitmap (Option raster_point))
  | [], raster_image => .ok raster_image
  | p :: points, raster_image =>
    match range.x p.rx with
    | .error e => .error e
    | .ok x =>
      match range.y p.ry with
      | .error e => .error e
      | .ok y =>
        match raster_image.get? x y with
        | .none => .error (.undefined_behavior "raster_image(x, y) out of range")
        | .some (.some _) =>
          .error (.runtime_error
            ("raster point " ++ format_d p.rx ++ "x" ++ format_d p.ry ++ " exists twice"))
        | .some .none =>
          fill_raster_image range points (raster_image.modify x y (fun _ => some p))

/-- The statement `if(auto const p = raster_image(x, y)) region.push_back(*p)`: what it
appends to the region. A place outside the image is undefined. -/
def corner (raster_image : bitmap (Option raster_point)) (x y : Nat) :
    Except failure (List raster_point) :=
  match raster_image.get? x y with
  | .none => .error (.undefined_behavior "raster_image(x, y) out of range")
  | .some .none => .ok []
  | .some (.some p) => .ok [p]

/-- The vector `region` of the block at `(ix, iy)`: the points of its four corners that
are present, in the order `(ix, iy)`, `(ix + 1, iy)`, `(ix, iy + 1)`, `(ix + 1, iy + 1)`. -/
def region (raster_image : bitmap (Option raster_point)) (ix iy : Nat) :
    Except failure (List raster_point) :=
  match corner raster_image ix iy with
  | .error e => .error e
  | .ok c0 =>
    match corner raster_image (succ_size_t ix) iy with
    | .error e => .error e
    | .ok c1 =>
      match corner raster_image ix (succ_size_t iy) with
      | .error e => .error e
      | .ok c2 =>
        match corner raster_image (succ_size_t ix) (succ_size_t iy) with
        | .error e => .error e
        | .ok c3 => .ok (c0 ++ c1 ++ c2 ++ c3)

/-- The vector `triangles` of a region: none for fewer than three points, one for three,
four overlapping ones for four. -/
def triangles : List raster_point → List (array3 raster_point)
  | [r0, r1, r2] => [⟨r0, r1, r2⟩]
  | [r0, r1, r2, r3] => [⟨r0, r1, r2⟩, ⟨r1, r2, r3⟩, ⟨r2, r3, r0⟩, ⟨r3, r0, r1⟩]
  | _ => []

/-- The body of the loop over the pixels `(x, y)` of the bounding box of a triangle: a
pixel that the triangle accepts receives a contribution with the largest of the three
weights, the mix of the three values, and the raster coordinates of the vertex of the
largest weight. -/
def paint_pixel (root : ℚ → ℚ) (t : array3 raster_point)
    (vector_image : bitmap (List raster_raw_pixel)) (x y : Nat) :
    Except failure (bitmap (List raster_raw_pixel)) :=
  let p : bmp_point := ⟨double.of_size_t x, double.of_size_t y⟩
  if !is_inside t p then .ok vector_image
  else
    let w := weight (areas root t p)
    let value := t.t0.v * w.t0 + t.t1.v * w.t1 + t.t2.v * w.t2
    let index := max_index w
    match vector_image.get? x y with
    | .none => .error (.undefined_behavior "vector_image(x, y) out of range")
    | .some _ =>
      .ok (push_back vector_image x y
        ⟨w.get index, value, (t.get index).rx, (t.get index).ry⟩)

/-- The loop `for(x = fx; x <= tx; ++x)` of the paint loop, over the columns `xs`. -/
def paint_row (root : ℚ → ℚ) (t : array3 raster_point) (y : Nat) :
    List Nat → bitmap (List raster_raw_pixel) → Except failure (bitmap (List raster_raw_pixel))
  | [], vector_image => .ok vector_image
  | x :: xs, vector_image =>
    match paint_pixel root t vector_image x y with
    | .error e => .error e
    | .ok image1 => paint_row root t y xs image1

/-- The loop `for(y = fy; y <= ty; ++y)` of the paint loop, over the rows `ys`. -/
def paint_rows (root : ℚ → ℚ) (t : array3 raster_point) (xs : List Nat) :
    List Nat → bitmap (List raster_raw_pixel) → Except failure (bitmap (List raster_raw_pixel))
  | [], vector_image => .ok vector_image
  | y :: ys, vector_image =>
    match paint_row root t y xs vector_image with
    | .error e => .error e
    | .ok image1 => paint_rows root t xs ys image1

/-- The values `from, from + 1, ..., to` of a loop `for(i = from; i <= to; ++i)`. -/
def from_to (i_from i_to : Nat) : List Nat :=
  List.range' i_from (i_to + 1 - i_from)

/-- The body of the loop `for(auto const& t: triangles)`: the bounding box of the triangle
in the target image, which is left when it has no width or no height, and the loop over
its pixels. -/
def paint_triangle (root : ℚ → ℚ) (width height : Nat)
    (vector_image : bitmap (List raster_raw_pixel)) (t : array3 raster_point) :
    Except failure (bitmap (List raster_raw_pixel)) :=
  match box_bound (double.floor (min3 t.t0.x t.t1.x t.t2.x)) width with
  | .error e => .error e
  | .ok fx =>
    match box_bound (double.ceil (max3 t.t0.x t.t1.x t.t2.x)) width with
    | .error e => .error e
    | .ok tx =>
      if tx = fx then .ok vector_image
      else
        match box_bound (double.floor (min3 t.t0.y t.t1.y t.t2.y)) height with
        | .error e => .error e
        | .ok fy =>
          match box_bound (double.ceil (max3 t.t0.y t.t1.y t.t2.y)) height with
          | .error e => .error e
          | .ok ty =>
            if ty = fy then .ok vector_image
            else paint_rows root t (from_to fx tx) (from_to fy ty) vector_image

/-- The loop `for(auto const& t: triangles)`. -/
def paint_triangles (root : ℚ → ℚ) (width height : Nat) :
    List (array3 raster_point) → bitmap (List raster_raw_pixel) →
      Except failure (bitmap (List raster_raw_pixel))
  | [], vector_image => .ok vector_image
  | t :: ts, vector_image =>
    match paint_triangle root width height vector_image t with
    | .error e => .error e
    | .ok image1 => paint_triangles root width height ts image1

/-- The body of the loops over the blocks `(ix, iy)` of the raster image. -/
def paint_block (root : ℚ → ℚ) (width height : Nat)
    (raster_image : bitmap (Option raster_point))
    (vector_image : bitmap (List raster_raw_pixel)) (ix iy : Nat) :
    Except failure (bitmap (List raster_raw_pixel)) :=
  match region raster_image ix iy with
  | .error e => .error e
  | .ok points => paint_triangles root width height (triangles points) vector_image

/-- The loop `for(ix = 0; ix < raster_image.w() - 1; ++ix)`, over the columns `ixs`. -/
def paint_block_row (root : ℚ → ℚ) (width height : Nat)
    (raster_image : bitmap (Option raster_point)) (iy : Nat) :
    List Nat → bitmap (List raster_raw_pixel) → Except failure (bitmap (List raster_raw_pixel))
  | [], vector_image => .ok vector_image
  | ix :: ixs, vector_image =>
    match paint_block root width height raster_image vector_image ix iy with
    | .error e => .error e
    | .ok image1 => paint_block_row root width height raster_image iy ixs image1

/-- The loop `for(iy = 0; iy < raster_image.h() - 1; ++iy)`, over the rows `iys`. -/
def paint_block_rows (root : ℚ → ℚ) (width height : Nat)
    (raster_image : bitmap (Option raster_point)) (ixs : List Nat) :
    List Nat → bitmap (List raster_raw_pixel) → Except failure (bitmap (List raster_raw_pixel))
  | [], vector_image => .ok vector_image
  | iy :: iys, vector_image =>
    match paint_block_row root width height raster_image iy ixs vector_image with
    | .error e => .error e
    | .ok image1 => paint_block_rows root width height raster_image ixs iys image1

/-- The loop of `std::ranges::max_element` (`largest = true`) and of
`std::ranges::min_element` with the comparison of the values: the first of the contributions
with the largest or smallest value, `best` being the best so far. -/
def select_element (largest : Bool) (best : raster_raw_pixel) :
    List raster_raw_pixel → raster_raw_pixel
  | [] => best
  | v :: vs =>
    if largest then
      select_element largest (if double.lt best.value v.value then v else best) vs
    else
      select_element largest (if double.lt v.value best.value then v else best) vs

/-- The predicate of `std::erase_if` in the filter:
`std::abs(ref_rx - v.rx) > 1 || std::abs(ref_ry - v.ry) > 1`. A difference, or its
absolute value, that `std::int64_t` cannot hold is undefined. -/
def out_of_reach (ref_rx ref_ry : Int) (v : raster_raw_pixel) : Except failure Bool :=
  match int64 (ref_rx - v.rx) with
  | .error e => .error e
  | .ok dx =>
    match int64 |dx| with
    | .error e => .error e
    | .ok ax =>
      if ax > 1 then .ok true
      else
        match int64 (ref_ry - v.ry) with
        | .error e => .error e
        | .ok dy =>
          match int64 |dy| with
          | .error e => .error e
          | .ok ay => .ok (decide (ay > 1))

/-- The call `std::erase_if(p, predicate)` of the filter. -/
def erase_out_of_reach (ref_rx ref_ry : Int) :
    List raster_raw_pixel → Except failure (List raster_raw_pixel)
  | [] => .ok []
  | v :: vs =>
    match out_of_reach ref_rx ref_ry v with
    | .error e => .error e
    | .ok erase =>
      match erase_out_of_reach ref_rx ref_ry vs with
      | .error e => .error e
      | .ok rest => .ok (if erase then rest else v :: rest)

/-- The body of the loop `for(auto& p: vector_image)` of the filter, for `min_value_filter`
(`largest = false`) and `max_value_filter` (`largest = true`): an empty pixel is left
alone; otherwise the contributions that are not raster neighbours of the reference are
erased. -/
def filter_pixel (largest : Bool) : List raster_raw_pixel → Except failure (List raster_raw_pixel)
  | [] => .ok []
  | v :: vs =>
    erase_out_of_reach (select_element largest v vs).rx (select_element largest v vs).ry
      (v :: vs)

/-- The part `if constexpr(!std::same_as<RasterFilter, none_filter>)` of the raster
`to_vector_image`. -/
def filter_image (filter : raster_filter) (vector_image : bitmap (List raster_raw_pixel)) :
    Except failure (bitmap (List raster_raw_pixel)) :=
  match filter with
  | .none => .ok vector_image
  | .min =>
    match transform (filter_pixel false) vector_image.data with
    | .error e => .error e
    | .ok data => .ok { vector_image with data := data }
  | .max =>
    match transform (filter_pixel true) vector_image.data with
    | .error e => .error e
    | .ok data => .ok { vector_image with data := data }

/-- The raster `to_vector_image` behind the raster image: the loops over the blocks, then
the filter. -/
def interpolate_raster (root : ℚ → ℚ) (width height : Nat)
    (raster_image : bitmap (Option raster_point)) (filter : raster_filter) :
    Except failure (bitmap (List raster_raw_pixel)) :=
  match paint_block_rows root width height raster_image
      (List.range (pred_size_t raster_image.w)) (List.range (pred_size_t raster_image.h))
      (bitmap.create width height []) with
  | .error e => .error e
  | .ok vector_image => filter_image filter vector_image

/-- The function `to_vector_image(width, height, points, raster_filter)` for points with
raster. The progress display is left out. -/
def to_vector_image_raster (root : ℚ → ℚ) (width height : Nat) (points : List raster_point)
    (filter : raster_filter) : Except failure (bitmap (List raster_raw_pixel)) :=
  match (find_raster_range points).w with
  | .error e => .error e
  | .ok w =>
    if w < 2 then
      .error (.runtime_error "raster interpolation requires at least 2 columns and 2 rows")
    else
      match (find_raster_range points).h with
      | .error e => .error e
      | .ok h =>
        if h < 2 then
          .error (.runtime_error "raster interpolation requires at least 2 columns and 2 rows")
        else
          match fill_raster_image (find_raster_range points) points (bitmap.create w h none) with
          | .error e => .error e
          | .ok raster_image => interpolate_raster root width height raster_image filter

/-- The function `to_image<raster_point>(width, height, points, raster_filter)`. -/
def to_image_raster (root : ℚ → ℚ) (width height : Nat) (points : List raster_point)
    (filter : raster_filter) : Except failure (bitmap double) :=
  match to_vector_image_raster root width height points filter with
  | .error e => .error e
  | .ok vector_image =>
    match transform (pixel_value raster_raw_pixel.weight raster_raw_pixel.value)
        vector_image.data with
    | .error e => .error e
    | .ok data => .ok ⟨width, height, data⟩

/-! ## main.cpp: from the file to the points -/

/-- An exception of the PLY reader as `main` sees it: a `std::runtime_error` with its
message (the failure of a stream is one, too), or the `std::length_error` of `reserve`,
which is a `std::logic_error`. -/
def failure.of_ply : ply.failure → failure
  | .runtime_error what => .runtime_error what
  | .end_of_input => .runtime_error "unexpected end of input"
  | .undefined_behavior what => .undefined_behavior what
  | .length_error what => .logic_error what

/-- The function `raster_convert<T>` for a scalar type `T`, of which the PLY reader has
eight: an integer of at most 32 bits is returned as it is; a `float` or `double` must be
equal to its floor and must not lie beyond `static_cast<T>(limits::min())`, which is
`-2^63`, and `static_cast<T>(limits::max())`, which is `2^63`, the value of type `T`
nearest to `2^63 - 1`. The conversion `static_cast<std::int64_t>` of `2^63` is undefined.
The branch for `std::uint64_t` is dead, and the branch for list types is not reached
because `convert` throws before for a list. -/
def raster_convert (T : ply.scalar_type) : ply.value → Except failure Int
  | .int v => .ok v
  | .float bits =>
    let v := ply.float_value T bits
    if !double.eq v (double.floor v) then
      .error (.runtime_error "raster property contains at least one non-integer value")
    else if double.lt v (.finite (-(2 ^ 63))) || double.lt (.finite (2 ^ 63)) v then
      .error (.runtime_error "raster property value is out of range")
    else
      match double.to_int64 v with
      | none => .error (.undefined_behavior "static_cast<std::int64_t> out of range")
      | some z => .ok z

/-- What `main` takes from the command line for the choice of the mode and for the points,
as `argparse` gives it after `parse_args`: the value of each option, which is its default
when the option was not given, and for the four raster options whether they were given
(`program.is_used`). -/
structure arguments where
  width : Nat
  height : Nat
  x_element : List Char
  y_element : List Char
  v_element : List Char
  x_property : List Char
  y_property : List Char
  v_property : List Char
  x_raster_element : List Char
  y_raster_element : List Char
  x_raster_property : List Char
  y_raster_property : List Char
  x_raster_element_used : Bool
  y_raster_element_used : Bool
  x_raster_property_used : Bool
  y_raster_property_used : Bool
  disable_raster : Bool
  filter : raster_filter
  x_scale : double
  y_scale : double
  v_scale : double
  x_pre_scale : double
  y_pre_scale : double
  v_pre_scale : double
  x_post_scale : double
  y_post_scale : double
  v_post_scale : double

/-- The function `get_raster`, for the value `disabled` of the option `disabled_name`,
and for `is_used` and the value of the option `arg_name`. -/
def get_raster (disabled is_used : Bool) (arg_name disabled_name : String)
    (value : List Char) : Except failure (Option (List Char)) :=
  if disabled then
    if is_used then
      .error (.runtime_error ("You cannot use " ++ arg_name ++ " together with " ++
        disabled_name))
    else .ok none
  else .ok (some value)

/-- The array of the four names `xr_element`, `xr_property`, `yr_element`, `yr_property`
of `main`. -/
structure raster_names where
  xr_element : Option (List Char)
  xr_property : Option (List Char)
  yr_element : Option (List Char)
  yr_property : Option (List Char)
  deriving DecidableEq

/-- The value `explicit_raster` of `main`. -/
def explicit_raster (a : arguments) : Bool :=
  a.x_raster_element_used || a.y_raster_element_used || a.x_raster_property_used ||
    a.y_raster_property_used

/-- The lambda of `main` that settles the four raster names, with whether it prints the
warning that the raster is left out. To take the value of an empty `std::optional` is
undefined. -/
def raster_selection (data : ply.ply)
    (arg_xr_element arg_yr_element arg_xr_property arg_yr_property : Option (List Char))
    (explicit_raster : Bool) : Except failure (raster_names × Bool) :=
  match arg_xr_element with
  | none => .ok (⟨none, none, none, none⟩, false)
  | some xr_element =>
    if explicit_raster then
      .ok (⟨arg_xr_element, arg_xr_property, arg_yr_element, arg_yr_property⟩, false)
    else
      match arg_xr_property with
      | none => .error (.undefined_behavior "*arg_xr_property of an empty optional")
      | some xr_property =>
        if data.contains_property xr_element xr_property then
          match arg_yr_element, arg_yr_property with
          | some yr_element, some yr_property =>
            if data.contains_property yr_element yr_property then
              .ok (⟨arg_xr_element, arg_xr_property, arg_yr_element, arg_yr_property⟩, false)
            else .ok (⟨none, none, none, none⟩, true)
          | _, _ => .error (.undefined_behavior "*arg_yr_element of an empty optional")
        else .ok (⟨none, none, none, none⟩, true)

/-- The four calls of `get_raster` of `main` and the lambda behind them: the raster names
of the run and whether the warning is printed. -/
def selected_raster (data : ply.ply) (a : arguments) : Except failure (raster_names × Bool) :=
  match get_raster a.disable_raster a.x_raster_element_used "--x-raster-element"
      "--disable-raster" a.x_raster_element with
  | .error e => .error e
  | .ok arg_xr_element =>
    match get_raster a.disable_raster a.y_raster_element_used "--y-raster-element"
        "--disable-raster" a.y_raster_element with
    | .error e => .error e
    | .ok arg_yr_element =>
      match get_raster a.disable_raster a.x_raster_property_used "--x-raster-property"
          "--disable-raster" a.x_raster_property with
      | .error e => .error e
      | .ok arg_xr_property =>
        match get_raster a.disable_raster a.y_raster_property_used "--y-raster-property"
            "--disable-raster" a.y_raster_property with
        | .error e => .error e
        | .ok arg_yr_property =>
          raster_selection data arg_xr_element arg_yr_element arg_xr_property arg_yr_property
            (explicit_raster a)

/-- One test of the lambda `count` of `main`: `x_count != data.value_count(element)`, with
the exception of its message when the counts differ. -/
def same_count (data : ply.ply) (x_count : Nat) (element : List Char) (message : String) :
    Except failure Unit :=
  match data.value_count_by_name element with
  | .error e => .error (failure.of_ply e)
  | .ok element_count =>
    if x_count ≠ element_count then .error (.runtime_error message) else .ok ()

/-- A test of the lambda `count` of `main` for a raster element, which is made when the
element is set. -/
def same_raster_count (data : ply.ply) (x_count : Nat) (element : Option (List Char))
    (message : String) : Except failure Unit :=
  match element with
  | none => .ok ()
  | some name => same_count data x_count name message

/-- The lambda `count` of `main`: the value count of the x element, after the tests that the
other elements have the same. -/
def count (data : ply.ply) (x_element y_element v_element : List Char)
    (xr_element yr_element : Option (List Char)) : Except failure Nat :=
  match data.value_count_by_name x_element with
  | .error e => .error (failure.of_ply e)
  | .ok x_count =>
    match same_count data x_count y_element
        "--y-element has different value count then --x-element" with
    | .error e => .error e
    | .ok _ =>
      match same_count data x_count v_element
          "--v-element has different value count then --x-element" with
      | .error e => .error e
      | .ok _ =>
        match same_raster_count data x_count xr_element
            "--x-raster-element has different value count then --x-element" with
        | .error e => .error e
        | .ok _ =>
          match same_raster_count data x_count yr_element
              "--y-raster-element has different value count then --x-element" with
          | .error e => .error e
          | .ok _ => .ok x_count

/-- The lambda `count` of `main` with the test `if(count == 0)` behind it. -/
def checked_count (data : ply.ply) (x_element y_element v_element : List Char)
    (xr_element yr_element : Option (List Char)) : Except failure Nat :=
  match count data x_element y_element v_element xr_element yr_element with
  | .error e => .error e
  | .ok n => if n = 0 then .error (.runtime_error "value count is 0") else .ok n

/-- The conversion `static_cast<double>(v)` of a stored value of the scalar type `T`. -/
def to_double (T : ply.scalar_type) : ply.value → double
  | .int v => .finite v
  | .float bits => ply.float_value T bits

/-- The loop `for(i = 0; i < points.size(); ++i) setter(points[i], list[i])` of the lambda
`convert`; an index past the end of the span is undefined. -/
def set_all {Point : Type} (setter : Point → ply.value → Except failure Point) :
    List Point → List ply.value → Except failure (List Point)
  | [], _ => .ok []
  | _ :: _, [] => .error (.undefined_behavior "list[i] past the end of the span")
  | p :: points, v :: list =>
    match setter p v with
    | .error e => .error e
    | .ok q =>
      match set_all setter points list with
      | .error e => .error e
      | .ok qs => .ok (q :: qs)

/-- The lambda `convert` of `image_convert`, under the `std::visit` of the column
`data.values(element, property)`. -/
def convert {Point : Type} (data : ply.ply)
    (setter : ply.scalar_type → Point → ply.value → Except failure Point)
    (element property : List Char) (points : List Point) : Except failure (List Point) :=
  match data.values_by_name element property with
  | .error e => .error (failure.of_ply e)
  | .ok (.lists _ _) => .error (.runtime_error "list type properties are not supported")
  | .ok (.scalars T list) => set_all (setter T) points list

/-- The value `(static_cast<double>(v) + pre_scale) * scale + post_scale` of the lambdas
`set_x`, `set_y` and `set_v`. -/
def scaled (pre_scale scale post_scale : double) (T : ply.scalar_type) (v : ply.value) :
    double :=
  (to_double T v + pre_scale) * scale + post_scale

/-- The lambda `image_convert` of `main` for `point`. -/
def image_convert (data : ply.ply) (a : arguments) (count : Nat) :
    Except failure (bitmap double) :=
  match convert data
      (fun T (p : point) v => .ok { p with x := scaled a.x_pre_scale a.x_scale a.x_post_scale T v })
      a.x_element a.x_property (List.replicate count ⟨0, 0, 0⟩) with
  | .error e => .error e
  | .ok points_x =>
    match convert data
        (fun T (p : point) v =>
          .ok { p with y := scaled a.y_pre_scale a.y_scale a.y_post_scale T v })
        a.y_element a.y_property points_x with
    | .error e => .error e
    | .ok points_y =>
      match convert data
          (fun T (p : point) v =>
            .ok { p with v := scaled a.v_pre_scale a.v_scale a.v_post_scale T v })
          a.v_element a.v_property points_y with
      | .error e => .error e
      | .ok points => to_image a.width a.height points

/-- The part of the lambda `image_convert` for `raster_point` that sets the raster
coordinates of the points, with `raster_convert`. -/
def convert_raster (data : ply.ply) (xr_element xr_property yr_element yr_property : List Char)
    (points : List raster_point) : Except failure (List raster_point) :=
  match convert data
      (fun T (p : raster_point) v =>
        match raster_convert T v with
        | .error e => .error e
        | .ok rx => .ok { p with rx := rx })
      xr_element xr_property points with
  | .error e => .error e
  | .ok points_rx =>
    convert data
      (fun T (p : raster_point) v =>
        match raster_convert T v with
        | .error e => .error e
        | .ok ry => .ok { p with ry := ry })
      yr_element yr_property points_rx

/-- The lambda `image_convert` of `main` for `raster_point` and a raster filter. -/
def image_convert_raster (root : ℚ → ℚ) (data : ply.ply) (a : arguments)
    (xr_element xr_property yr_element yr_property : List Char) (count : Nat) :
    Except failure (bitmap double) :=
  match convert data
      (fun T (p : raster_point) v =>
        .ok { p with x := scaled a.x_pre_scale a.x_scale a.x_post_scale T v })
      a.x_element a.x_property (List.replicate count ⟨0, 0, 0, 0, 0⟩) with
  | .error e => .error e
  | .ok points_x =>
    match convert data
        (fun T (p : raster_point) v =>
          .ok { p with y := scaled a.y_pre_scale a.y_scale a.y_post_scale T v })
        a.y_element a.y_property points_x with
    | .error e => .error e
    | .ok points_y =>
      match convert data
          (fun T (p : raster_point) v =>
            .ok { p with v := scaled a.v_pre_scale a.v_scale a.v_post_scale T v })
          a.v_element a.v_property points_y with
      | .error e => .error e
      | .ok points_v =>
        match convert_raster data xr_element xr_property yr_element yr_property points_v with
        | .error e => .error e
        | .ok points => to_image_raster root a.width a.height points a.filter

/-- The lambda of `main` that gives `image`: the raster mode when `xr_element` is set, the
dense mode otherwise. -/
def image (root : ℚ → ℚ) (data : ply.ply) (a : arguments) (names : raster_names)
    (count : Nat) : Except failure (bitmap double) :=
  match names.xr_element with
  | none => image_convert data a count
  | some xr_element =>
    match names.xr_property, names.yr_element, names.yr_property with
    | some xr_property, some yr_element, some yr_property =>
      image_convert_raster root data a xr_element xr_property yr_element yr_property count
    | _, _, _ => .error (.undefined_behavior "*xr_property of an empty optional")

/-- The part of `main` from the loaded file to the image: the raster names, the value count
and the image. What `main` prints is left out. -/
def main_image (root : ℚ → ℚ) (data : ply.ply) (a : arguments) :
    Except failure (bitmap double) :=
  match selected_raster data a with
  | .error e => .error e
  | .ok (names, _) =>
    match checked_count data a.x_element a.y_element a.v_element names.xr_element
        names.yr_element with
    | .error e => .error e
    | .ok count => image root data a names count

/-- The arguments of a run with the width and the height only: every other option has the
default that `main` gives to `argparse`, and no raster option is used. -/
def arguments.defaults (width height : Nat) : arguments where
  width := width
  height := height
  x_element := "vertex".toList
  y_element := "vertex".toList
  v_element := "vertex".toList
  x_property := "x".toList
  y_property := "y".toList
  v_property := "z".toList
  x_raster_element := "vertex".toList
  y_raster_element := "vertex".toList
  x_raster_property := "raster_x".toList
  y_raster_property := "raster_y".toList
  x_raster_element_used := false
  y_raster_element_used := false
  x_raster_property_used := false
  y_raster_property_used := false
  disable_raster := false
  filter := .min
  x_scale := 1
  y_scale := 1
  v_scale := 1
  x_pre_scale := 0
  y_pre_scale := 0
  v_pre_scale := 0
  x_post_scale := 0
  y_post_scale := 0
  v_post_scale := 0

/-! ## main.cpp: the PNG image -/

/-- Modelled from the spec: the pixel type `bmp::pixel::masked_g16u`, which is not part of
the sources: a 16 bit value `v` and the mask `m`. -/
structure masked_g16u where
  v : Nat
  m : Bool
  deriving DecidableEq

/-- The call `std::clamp(v, lo, hi)` on `double`: `lo` when `v < lo`, `hi` when `hi < v`,
otherwise `v`. -/
def clamp_double (v lo hi : double) : double :=
  if double.lt v lo then lo else if double.lt hi v then hi else v

/-- The function `std::round`: the nearest integer, halfway cases away from zero. -/
def double.round : double → double
  | .finite a => .finite (if 0 ≤ a then (⌊a + 1 / 2⌋ : Int) else (⌈a - 1 / 2⌉ : Int))
  | a => a

/-- The conversion `static_cast<std::uint16_t>` of a `double`: the truncated value; nothing
when `std::uint16_t` cannot hold it, where the conversion is undefined. -/
def double.to_uint16 : double → Option Nat
  | .finite a =>
    if 0 ≤ double.truncate a ∧ double.truncate a < 2 ^ 16 then some (double.truncate a).toNat
    else none
  | _ => none

/-- The lambda of `main` that turns a pixel of the image into a pixel of the PNG image. -/
def png_pixel (v : double) : Except failure masked_g16u :=
  if double.isnan v then .ok ⟨0, true⟩
  else
    match double.to_uint16 (double.round (clamp_double v 0 (.finite 65535))) with
    | none => .error (.undefined_behavior "static_cast<std::uint16_t> out of range")
    | some value => .ok ⟨value, false⟩

/-! ## image_format_png.hpp -/

namespace png

/-- The constant `max_size` of `writer::write`: the greatest value of `std::int32_t`. -/
def max_size : Nat :=
  2 ^ 31 - 1

/-- The start of `writer::write(image, os)`, up to the call of
`png_create_write_struct`: the test of the dimensions, which asks for the
height on both sides of `||`. The result is `some report` when the function returns
`false` there, `report` being the text given to `error_callable_` when one is set, and
`none` when it goes on to create the PNG structure. -/
def writer.write_start {α : Type} (error_callable : Bool) (image : bitmap α) :
    Option (Option String) :=
  if image.h > max_size ∨ image.h > max_size then
    some (if error_callable then some "dimensions are to large for PNG file format" else none)
  else none

end png

/-! ## subbitmap.hpp and interpolate.hpp

The functions are modelled for the pixel type `double`. A coordinate of the rectangle
carries its type, integral or `double`, by which the templates choose their branch. The
messages of the exceptions are left out. -/

namespace bmp

/-- What a call of `subbitmap` can raise: a `std::logic_error` that is no
`std::out_of_range`, or a `std::out_of_range`; `undefined_behavior` marks an execution the
language gives no meaning to. -/
inductive failure where
  | logic_error
  | out_of_range
  | undefined_behavior
  deriving DecidableEq, Repr

/-- A coordinate with its type, the template parameter `XT` or `YT`: an integral type or
`double`. -/
inductive coordinate where
  | integral (v : Int)
  | floating (v : double)
  deriving DecidableEq

/-- Modelled from the spec: the class `rect<XT, YT, WT, HT>` of rect.hpp, which is not part
of the sources: the top left corner `x`, `y` and the size `w`, `h`, of integral types. -/
structure rect where
  x : coordinate
  y : coordinate
  w : Int
  h : Int
  deriving DecidableEq

/-- Modelled from the spec: the class `rect<std::size_t>` of rect.hpp. -/
structure size_rect where
  x : Nat
  y : Nat
  w : Nat
  h : Nat
  deriving DecidableEq

/-- The sum of two `std::size_t`, which wraps at `2 ^ 64`. -/
def add_size_t (a b : Nat) : Nat :=
  (a + b) % 2 ^ 64

/-- The product of two `std::size_t`, which wraps at `2 ^ 64`. -/
def mul_size_t (a b : Nat) : Nat :=
  (a * b) % 2 ^ 64

/-- The comparison `a <= b` of `double`, false with a NaN. -/
def le (a b : double) : Bool :=
  double.lt a b || double.eq a b

/-- The function `std::lerp(a, b, t)` as libstdc++ computes it (`__lerp`); for numbers it is
`a + t (b - a)` in exact arithmetic. -/
def lerp (a b t : double) : double :=
  if (le a 0 = true ∧ le 0 b = true) ∨ (le 0 a = true ∧ le b 0 = true) then
    t * b + (1 - t) * a
  else if double.eq t 1 = true then b
  else
    let x := a + t * (b - a)
    if double.lt 1 t = double.lt a b then (if double.lt b x = true then x else b)
    else (if double.lt x b = true then x else b)

/-- The function `interpolate` of interpolate.hpp for `double`: `std::lerp(a, b, ratio)`. -/
def interpolate (ratio a b : double) : double :=
  lerp a b ratio

/-- The function `interpolate_2d` of interpolate.hpp. -/
def interpolate_2d (x_ratio y_ratio tl tr bl br : double) : double :=
  interpolate y_ratio (interpolate x_ratio tl tr) (interpolate x_ratio bl br)

/-- Modelled from the spec: the read `ref(x, y)` of `bmp::bitmap`, undefined outside the
grid. -/
def read (ref : bitmap double) (x y : Nat) : Except failure double :=
  match ref.get? x y with
  | some v => .ok v
  | none => .error .undefined_behavior

/-- Modelled from the spec: the write `target(x, y) = v` of `bmp::bitmap`, undefined outside
the grid. -/
def write (target : bitmap double) (x y : Nat) (v : double) : Except failure (bitmap double) :=
  if x < target.w ∧ y < target.h then .ok (target.modify x y (fun _ => v))
  else .error .undefined_behavior

/-- The comparison `rect.x() < 0` of a coordinate. -/
def coordinate.lt_zero : coordinate → Bool
  | .integral v => decide (v < 0)
  | .floating v => double.lt v (.finite 0)

namespace detail

/-- The body of the loop of `copy` with the target start `(0, 0)`: `std::copy` writes
`rect.w` values of `ref`, from the index `(rect.y + y) * ref.w + rect.x` on, over the
values of the target from the index `y * target.w` on. A range that leaves the values of
`ref` or of the target is undefined. -/
def copy_row (ref : bitmap double) (r : size_rect) (target : bitmap double) (y : Nat) :
    Except failure (bitmap double) :=
  let ref_from := add_size_t (mul_size_t (add_size_t r.y y) ref.w) r.x
  let target_from := add_size_t (mul_size_t (add_size_t 0 y) target.w) 0
  if ref_from + r.w ≤ ref.data.length ∧ target_from + r.w ≤ target.data.length then
    .ok { target with
      data := target.data.take target_from ++ (ref.data.drop ref_from).take r.w ++
        target.data.drop (target_from + r.w) }
  else .error .undefined_behavior

/-- The function `copy` with the target start `(0, 0)`. -/
def copy (target ref : bitmap double) (r : size_rect) : Except failure (bitmap double) :=
  (List.range r.h).foldlM (copy_row ref r) target

/-- The body of the inner loop of `interpolate_2d` with the target start `(0, 0)`. -/
def interpolate_2d_pixel (ref : bitmap double) (r : size_rect) (x_ratio y_ratio : double)
    (y : Nat) (target : bitmap double) (x : Nat) : Except failure (bitmap double) :=
  let ax := add_size_t r.x x
  let ay := add_size_t r.y y
  match read ref ax ay with
  | .error e => .error e
  | .ok tl =>
    match read ref (add_size_t ax 1) ay with
    | .error e => .error e
    | .ok tr =>
      match read ref ax (add_size_t ay 1) with
      | .error e => .error e
      | .ok bl =>
        match read ref (add_size_t ax 1) (add_size_t ay 1) with
        | .error e => .error e
        | .ok br =>
          write target (add_size_t 0 x) (add_size_t 0 y)
            (bmp.interpolate_2d x_ratio y_ratio tl tr bl br)

/-- The function `detail::interpolate_2d` with the target start `(0, 0)`. -/
def interpolate_2d (target ref : bitmap double) (r : size_rect) (x_ratio y_ratio : double) :
    Except failure (bitmap double) :=
  (List.range r.h).foldlM
    (fun t y => (List.range r.w).foldlM (interpolate_2d_pixel ref r x_ratio y_ratio y) t) target

/-- The body of the inner loop of `x_interpolate` with the target start `(0, 0)`. -/
def x_interpolate_pixel (ref : bitmap double) (r : size_rect) (xratio : double)
    (y : Nat) (target : bitmap double) (x : Nat) : Except failure (bitmap double) :=
  let ax := add_size_t r.x x
  let ay := add_size_t r.y y
  match read ref ax ay with
  | .error e => .error e
  | .ok a =>
    match read ref (add_size_t ax 1) ay with
    | .error e => .error e
    | .ok b => write target (add_size_t 0 x) (add_size_t 0 y) (bmp.interpolate xratio a b)

/-- The function `x_interpolate` with the target start `(0, 0)`. -/
def x_interpolate (target ref : bitmap double) (r : size_rect) (xratio : double) :
    Except failure (bitmap double) :=
  (List.range r.h).foldlM
    (fun t y => (List.range r.w).foldlM (x_interpolate_pixel ref r xratio y) t) target

/-- The body of the inner loop of `y_interpolate` with the target start `(0, 0)`. -/
def y_interpolate_pixel (ref : bitmap double) (r : size_rect) (y_ratio : double)
    (y : Nat) (target : bitmap double) (x : Nat) : Except failure (bitmap double) :=
  let ax := add_size_t r.x x
  let ay := add_size_t r.y y
  match read ref ax ay with
  | .error e => .error e
  | .ok a =>
    match read ref ax (add_size_t ay 1) with
    | .error e => .error e
    | .ok b => write target (add_size_t 0 x) (add_size_t 0 y) (bmp.interpolate y_ratio a b)

/-- The function `y_interpolate` with the target start `(0, 0)`. -/
def y_interpolate (target ref : bitmap double) (r : size_rect) (y_ratio : double) :
    Except failure (bitmap double) :=
  (List.range r.h).foldlM
    (fun t y => (List.range r.w).foldlM (y_interpolate_pixel ref r y_ratio y) t) target

/-- The function `subbitmap_check_rect`. -/
def subbitmap_check_rect (r : rect) : Except failure Unit :=
  if r.w < 0 ∨ r.h < 0 then .error .logic_error else .ok ()

/-- The function `to_size_t` for a value of an integral type: the conversion
`static_cast<std::size_t>`, which is taken modulo `2 ^ 64`. -/
def size_t_of_integral (v : Int) : Nat :=
  (v % 2 ^ 64).toNat

/-- The function `to_size_t`: for a `double` the conversion of the floor, which is
undefined when `std::size_t` cannot hold it. -/
def to_size_t : coordinate → Except failure Nat
  | .integral v => .ok (size_t_of_integral v)
  | .floating v =>
    match double.to_size_t (double.floor v) with
    | some n => .ok n
    | none => .error .undefined_behavior

/-- The function `is_integral`. -/
def is_integral : coordinate → Bool
  | .integral _ => true
  | .floating v => double.eq v (double.floor v)

/-- The function `detail::subbitmap`: the types of the top left corner choose one of four
branches; each tests the rectangle against the size of the bitmap, in `std::size_t`, and
fills a new bitmap of the size of the rectangle. -/
def subbitmap (org : bitmap double) (top_left_x top_left_y : coordinate) (int_rect : size_rect) :
    Except failure (bitmap double) :=
  match top_left_x, top_left_y with
  | .integral _, .integral _ =>
    if add_size_t int_rect.x int_rect.w > org.w ∨ add_size_t int_rect.y int_rect.h > org.h then
      .error .out_of_range
    else copy (bitmap.create int_rect.w int_rect.h (.finite 0)) org int_rect
  | .integral _, .floating y =>
    if add_size_t int_rect.x int_rect.w > org.w ∨
        add_size_t (add_size_t int_rect.y 1) int_rect.h > org.h then
      .error .out_of_range
    else
      y_interpolate (bitmap.create int_rect.w int_rect.h (.finite 0)) org int_rect
        (1 - (y - double.floor y))
  | .floating x, .integral _ =>
    if add_size_t (add_size_t int_rect.x 1) int_rect.w > org.w ∨
        add_size_t int_rect.y int_rect.h > org.h then
      .error .out_of_range
    else
      x_interpolate (bitmap.create int_rect.w int_rect.h (.finite 0)) org int_rect
        (1 - (x - double.floor x))
  | .floating x, .floating y =>
    if add_size_t (add_size_t int_rect.x 1) int_rect.w > org.w ∨
        add_size_t (add_size_t int_rect.y 1) int_rect.h > org.h then
      .error .out_of_range
    else
      interpolate_2d (bitmap.create int_rect.w int_rect.h (.finite 0)) org int_rect
        (x - double.floor x) (y - double.floor y)

end detail

/-- The function `bmp::subbitmap`: the size is tested first, then the sign of the corner;
the corner and the size are converted to `std::size_t`, and the coordinates that are
whole numbers are passed on as `std::size_t`. -/
def subbitmap (org : bitmap double) (r : rect) : Except failure (bitmap double) :=
  match detail.subbitmap_check_rect r with
  | .error e => .error e
  | .ok _ =>
    if r.x.lt_zero = true ∨ r.y.lt_zero = true then .error .out_of_range
    else
      match detail.to_size_t r.x with
      | .error e => .error e
      | .ok x =>
        match detail.to_size_t r.y with
        | .error e => .error e
        | .ok y =>
          let int_rect : size_rect :=
            ⟨x, y, detail.size_t_of_integral r.w, detail.size_t_of_integral r.h⟩
          if detail.is_integral r.x = true ∧ detail.is_integral r.y = true then
            detail.subbitmap org (.integral x) (.integral y) int_rect
          else if detail.is_integral r.x = true then
            detail.subbitmap org (.integral x) r.y int_rect
          else if detail.is_integral r.y = true then
            detail.subbitmap org r.x (.integral y) int_rect
          else detail.subbitmap org r.x r.y int_rect

end bmp

/-! ## Definitions used to state the properties of main.cpp -/

/-- The values of a `w × h` grid in row-major order, `g x y` being the value of column `x`
in row `y`. -/
def cells {α : Type} (w h : Nat) (g : Nat → Nat → α) : List α :=
  (List.range (w * h)).map (fun k => g (k % w) (k / w))

/-- An image that has as many values as its grid has places. -/
def bitmap.well_formed {α : Type} (image : bitmap α) : Prop :=
  image.data.length = image.w * image.h

/-- The contributions that the dense `to_vector_image` appends for a point to the pixel
`(a, b)` of an image that has this pixel, in the order of the four statements. -/
def contributions (p : point) (a b : Nat) : List raw_pixel :=
  match double.to_size_t (double.floor p.x) with
  | none => []
  | some ix =>
    match double.to_size_t (double.floor p.y) with
    | none => []
    | some iy =>
      (if ix = a ∧ iy = b then
        [⟨(1 - (p.x - double.floor p.x)) * (1 - (p.y - double.floor p.y)), p.v⟩] else []) ++
      ((if succ_size_t ix = a ∧ iy = b then
        [⟨(p.x - double.floor p.x) * (1 - (p.y - double.floor p.y)), p.v⟩] else []) ++
      ((if ix = a ∧ succ_size_t iy = b then
        [⟨(1 - (p.x - double.floor p.x)) * (p.y - double.floor p.y), p.v⟩] else []) ++
      (if succ_size_t ix = a ∧ succ_size_t iy = b then
        [⟨(p.x - double.floor p.x) * (p.y - double.floor p.y), p.v⟩] else [])))

/-- A point whose coordinates the dense `to_vector_image` can convert to `std::size_t`. -/
def convertible (p : point) : Prop :=
  (double.to_size_t (double.floor p.x)).isSome = true ∧
  (double.to_size_t (double.floor p.y)).isSome = true

instance (p : point) : Decidable (convertible p) := by
  unfold convertible; infer_instance

/-- The points of a full grid in row-major order: one point at each `(i, j)` with `i < w`
and `j < h`, with the value `v i j`. -/
def grid_points (w h : Nat) (v : Nat → Nat → ℚ) : List point :=
  cells w h (fun i j => ⟨.finite i, .finite j, .finite (v i j)⟩)

/-- The comparison `a <= b` of `double`, false with a NaN. -/
def double_le (a b : double) : Bool :=
  double.lt a b || double.eq a b

/-- The first contribution of a list with the smallest value (`largest = false`) or the
largest value (`largest = true`): the first whose value every value of the list is at
least, or at most. -/
def first_extreme (largest : Bool) (p : List raster_raw_pixel) : Option raster_raw_pixel :=
  p.find? (fun r => p.all (fun c =>
    if largest then double_le c.value r.value else double_le r.value c.value))

/-- A contribution within one raster step of a reference in each axis. -/
def near (ref c : raster_raw_pixel) : Bool :=
  decide (|c.rx - ref.rx| ≤ 1 ∧ |c.ry - ref.ry| ≤ 1)

/-- The raster cell of a point. -/
def cell (p : raster_point) : Int × Int :=
  (p.rx, p.ry)

/-- The area of a triangle as the formula of Heron gives it, `sqrt(s (s - a) (s - b)
(s - c))` for the sides `a`, `b`, `c` and half their sum `s`. -/
def heron (root : ℚ → ℚ) (t : array3 bmp_point) : double :=
  let a := distance root t.t0 t.t1
  let b := distance root t.t1 t.t2
  let c := distance root t.t2 t.t0
  let s := (a + b + c) / (.finite 2)
  double.sqrt root (s * (s - a) * (s - b) * (s - c))

/-- A bitmap that `bmp::bitmap` can hold: its sides and the number of its values are
below `2 ^ 64`, and it has a value for each place of its grid. -/
def bmp.valid (image : bitmap double) : Prop :=
  image.w < 2 ^ 64 ∧ image.h < 2 ^ 64 ∧ image.w * image.h < 2 ^ 64 ∧
    image.data.length = image.w * image.h

instance (image : bitmap double) : Decidable (bmp.valid image) := by
  unfold bmp.valid
  infer_instance

/-- The two exceptions of the model that stand for an access outside an image: of the
raster image and of the vector image. -/
def index_failure (e : failure) : Prop :=
  e = .undefined_behavior "raster_image(x, y) out of range" ∨
    e = .undefined_behavior "vector_image(x, y) out of range"

/-- A result that is an image of `W × H` values, or an exception that is not an access
outside an image. -/
def keeps_grid {α : Type} (W H : Nat) (r : Except failure (bitmap α)) : Prop :=
  (∃ g, r = .ok ⟨W, H, cells W H g⟩) ∨ (∃ e, r = .error e ∧ ¬ index_failure e)

/-- The number that a `double` holds, 0 for an infinity and NaN. -/
def number : double → ℚ
  | .finite q => q
  | _ => 0

/-- The contributions of a pixel whose sums stay in the range of `double`: the weights are
numbers that are not negative, the values are numbers of magnitude `max_double` at most,
and the sum of the weights and the sum of the magnitudes of `value * weight` are below
`2 ^ 1024`. -/
def no_overflow (cell : List raw_pixel) : Prop :=
  (∀ c ∈ cell, c.weight = .finite (number c.weight) ∧ 0 ≤ number c.weight ∧
    c.value = .finite (number c.value) ∧ |number c.value| ≤ ieee.max_double) ∧
  (cell.map (fun c => number c.weight)).sum < 2 ^ 1024 ∧
  (cell.map (fun c => |number c.value * number c.weight|)).sum < 2 ^ 1024

instance (cell : List raw_pixel) : Decidable (no_overflow cell) := by
  unfold no_overflow
  infer_instance

end ply2image

namespace ply

/-! # Properties -/

open detail

/-! ## Lemmas on lists and text -/

theorem split_front2_eq (line : List Char) :
    split_front2 line = split_front_step line := by
  simp [split_front2, split_front]

theorem split_front3_eq (line : List Char) :
    split_front3 line = ((split_front_step line).1, (split_front_step (split_front_step line).2).1,
      (split_front_step (split_front_step line).2).2) := by
  simp [split_front3, split_front]

theorem takeWhile_append_stop {α} (p : α → Bool) (a b : List α) (ha : ∀ c ∈ a, p c = true)
    (hb : ∀ c, b.head? = some c → p c = false) : (a ++ b).takeWhile p = a := by
  induction a with
  | nil => 
    cases b with
    | nil => rfl
    | cons c b => simp [List.takeWhile, hb c (by simp)]
  | cons x a ih =>
    rw [List.cons_append, List.takeWhile_cons_of_pos (ha x (by simp)),
      ih (fun c hc => ha c (by simp [hc]))]

theorem dropWhile_append_stop {α} (p : α → Bool) (a b : List α) (ha : ∀ c ∈ a, p c = true)
    (hb : ∀ c, b.head? = some c → p c = false) : (a ++ b).dropWhile p = b := by
  induction a with
  | nil => 
    cases b with
    | nil => rfl
    | cons c b => simp [List.dropWhile, hb c (by simp)]
  | cons x a ih =>
    rw [List.cons_append, List.dropWhile_cons_of_pos (ha x (by simp)),
      ih (fun c hc => ha c (by simp [hc]))]

theorem getline_append (line rest : List Char) (h : '\n' ∉ line) :
    getline (line ++ '\n' :: rest) = some (line, rest) := by
  induction line with
  | nil => simp [getline]
  | cons c cs ih =>
    have hc : c ≠ '\n' := fun e => h (by simp [e])
    have hcs : '\n' ∉ cs := fun e => h (by simp [e])
    simp [getline, hc, ih hcs]

theorem getline_some (is line rest : List Char) (h : getline is = some (line, rest)) :
    is = line ++ '\n' :: rest ∧ '\n' ∉ line := by
  induction is generalizing line with
  | nil => simp [getline] at h
  | cons c cs ih =>
    rw [getline] at h
    split at h
    · rename_i hc
      simp at h
      obtain ⟨h1, h2⟩ := h
      subst h1 h2 hc
      simp
    · rename_i hc
      split at h
      · rename_i l r hg
        simp at h
        obtain ⟨h1, h2⟩ := h
        subst h1 h2
        obtain ⟨e1, e2⟩ := ih l hg
        constructor
        · simp [e1]
        · simp [e2, Ne.symm hc]
      · simp at h

theorem find_index_le (l : List (List Char)) (x : List Char) : find_index l x ≤ l.length := by
  induction l with
  | nil => simp [find_index]
  | cons a l ih =>
    simp only [find_index]
    split
    · simp
    · simp; exact ih

theorem find_index_lt_iff (l : List (List Char)) (x : List Char) :
    find_index l x < l.length ↔ x ∈ l := by
  induction l with
  | nil => simp [find_index]
  | cons a l ih =>
    simp only [find_index]
    split
    · rename_i h; simp [h]
    · rename_i h
      simp only [List.length_cons, Nat.add_lt_add_iff_right, List.mem_cons, ih]
      constructor
      · intro h1; exact Or.inr h1
      · rintro (h1 | h1)
        · exact absurd h1.symm h
        · exact h1

theorem head_dropWhile {α} (p : α → Bool) (l : List α) :
    ∀ c, (l.dropWhile p).head? = some c → p c = false := by
  induction l with
  | nil => simp
  | cons x l ih =>
    intro c hc
    by_cases hx : p x = true
    · rw [List.dropWhile_cons_of_pos hx] at hc
      exact ih c hc
    · rw [List.dropWhile_cons_of_neg hx] at hc
      simp at hc
      subst hc
      simpa using hx

theorem file_type_name_index (t : file_type) :
    find_index file_type_strings t.name < file_type_strings.length ∧
      file_type_of_index (find_index file_type_strings t.name) = t := by
  cases t <;> decide

theorem file_type_index_name (type : List Char)
    (h : find_index file_type_strings type < file_type_strings.length) :
    (file_type_of_index (find_index file_type_strings type)).name = type := by
  have hm := (find_index_lt_iff _ _).mp h
  simp only [file_type_strings, List.mem_cons, List.mem_singleton, List.not_mem_nil, or_false] at hm
  rcases hm with h1 | h1 | h1 <;> subst h1 <;> decide

theorem not_space_of_mem_name (t : file_type) : ∀ c ∈ t.name, (!isspace c) = true := by
  cases t <;> decide

theorem name_ne_nil (t : file_type) : t.name ≠ [] := by
  cases t <;> decide

theorem head_not_space_of_name (t : file_type) (r : List Char) :
    ∀ c, (t.name ++ r).head? = some c → isspace c = false := by
  cases t <;> intro c hc <;> simp [file_type.name] at hc <;> subst hc <;> decide

theorem head_space_of_ws (ws r : List Char) (h0 : ws ≠ []) (h : ∀ c ∈ ws, isspace c = true) :
    ∀ c, (ws ++ r).head? = some c → (!isspace c) = false := by
  intro c hc
  cases ws with
  | nil => exact absurd rfl h0
  | cons x ws =>
    simp at hc
    subst hc
    simp [h x (by simp)]

theorem process_format_line_of_form (t : file_type) (ws1 ws2 : List Char)
    (h1 : ws1 ≠ []) (h2 : ws2 ≠ []) (hs1 : ∀ c ∈ ws1, isspace c = true)
    (hs2 : ∀ c ∈ ws2, isspace c = true) :
    ply.process_format_line ("format".toList ++ ws1 ++ t.name ++ ws2 ++ "1.0".toList) = .ok t := by
  have e1 : split_front_step ("format".toList ++ ws1 ++ t.name ++ ws2 ++ "1.0".toList)
      = ("format".toList, t.name ++ ws2 ++ "1.0".toList) := by
    simp only [split_front_step, trim_left, List.append_assoc]
    rw [takeWhile_append_stop _ _ _ (by decide) (head_space_of_ws ws1 _ h1 hs1),
      dropWhile_append_stop _ _ _ (by decide) (head_space_of_ws ws1 _ h1 hs1),
      dropWhile_append_stop _ _ _ hs1 (head_not_space_of_name t _)]
  have e2 : split_front_step (t.name ++ ws2 ++ "1.0".toList) = (t.name, "1.0".toList) := by
    simp only [split_front_step, trim_left, List.append_assoc]
    rw [takeWhile_append_stop _ _ _ (not_space_of_mem_name t) (head_space_of_ws ws2 _ h2 hs2),
      dropWhile_append_stop _ _ _ (not_space_of_mem_name t) (head_space_of_ws ws2 _ h2 hs2),
      dropWhile_append_stop _ _ _ hs2 (by decide)]
  have hi := file_type_name_index t
  simp only [ply.process_format_line, split_front3_eq, e1, e2, ne_eq, not_true_eq_false,
    if_false, ge_iff_le, Nat.not_le.mpr hi.1, hi.2]

theorem process_format_line_ok (line : List Char) (t : file_type)
    (h : ply.process_format_line line = .ok t) :
    ∃ ws1 ws2 : List Char, ws1 ≠ [] ∧ ws2 ≠ [] ∧ (∀ c ∈ ws1, isspace c = true) ∧
      (∀ c ∈ ws2, isspace c = true) ∧
      line = "format".toList ++ ws1 ++ t.name ++ ws2 ++ "1.0".toList := by
  simp only [ply.process_format_line, split_front3_eq, split_front_step, trim_left] at h
  split at h
  · simp at h
  rename_i he
  split at h
  · simp at h
  rename_i hv
  split at h
  · simp at h
  rename_i hi
  simp only [ne_eq, not_not] at he hv
  simp only [ge_iff_le, not_le] at hi
  have ht := file_type_index_name _ hi
  simp only [Except.ok.injEq] at h
  rw [h] at ht
  set d := line.dropWhile (fun c => !isspace c) with hd
  set d1 := (d.dropWhile isspace).dropWhile (fun c => !isspace c) with hd1
  refine ⟨d.takeWhile isspace, d1.takeWhile isspace, ?_, ?_, ?_, ?_, ?_⟩
  · intro h0
    have hdd : d.dropWhile isspace = d := by
      conv_rhs => rw [← List.takeWhile_append_dropWhile isspace d, h0, List.nil_append]
    have : d = [] := by
      cases hdc : d with
      | nil => rfl
      | cons x r =>
        have hx := head_dropWhile (fun c => !isspace c) line x (by rw [← hd, hdc]; rfl)
        simp only [Bool.not_eq_false'] at hx
        rw [hdc] at h0
        simp [List.takeWhile, hx] at h0
    rw [this] at ht
    simp only [List.dropWhile_nil, List.takeWhile_nil] at ht
    exact name_ne_nil t ht
  · intro h0
    have hdd : d1.dropWhile isspace = d1 := by
      conv_rhs => rw [← List.takeWhile_append_dropWhile isspace d1, h0, List.nil_append]
    have : d1 = [] := by
      cases hdc : d1 with
      | nil => rfl
      | cons x r =>
        have hx := head_dropWhile (fun c => !isspace c) (d.dropWhile isspace) x
          (by rw [← hd1, hdc]; rfl)
        simp only [Bool.not_eq_false'] at hx
        rw [hdc] at h0
        simp [List.takeWhile, hx] at h0
    rw [this] at hv
    simp at hv
  · intro c hc
    exact List.mem_takeWhile_imp hc
  · intro c hc
    exact List.mem_takeWhile_imp hc
  · have a1 : line = line.takeWhile (fun c => !isspace c) ++ d :=
      (List.takeWhile_append_dropWhile _ line).symm
    have a2 : d = d.takeWhile isspace ++ d.dropWhile isspace :=
      (List.takeWhile_append_dropWhile _ d).symm
    have a3 : d.dropWhile isspace = (d.dropWhile isspace).takeWhile (fun c => !isspace c) ++ d1 :=
      (List.takeWhile_append_dropWhile _ _).symm
    have a4 : d1 = d1.takeWhile isspace ++ d1.dropWhile isspace :=
      (List.takeWhile_append_dropWhile _ d1).symm
    rw [ht, ← hv]
    simp only [List.append_assoc]
    rw [← a4, ← a3, ← a2, ← he]
    exact a1

theorem split_front3_list (line : List Char) :
    split_front 3 line = [(split_front3 line).1, (split_front3 line).2.1, (split_front3 line).2.2] := by
  simp [split_front3, split_front]

/-- C5. The format line: `ply::process_header` accepts the second line exactly when it is
`format`, whitespace, one of the three file type names, whitespace, `1.0`, and the file
type is set to the one named; with the three slices of `split_front<3>`, a first slice
other than `format` fails with `invalid format line`, then a last slice (the untrimmed
remainder) other than `1.0` fails with `unsupported format version`, then an unknown
file type fails with `invalid format`. -/
theorem C5_format_line (line : List Char) :
    (∀ t : file_type, ply.process_format_line line = .ok t ↔
      ∃ ws1 ws2 : List Char, ws1 ≠ [] ∧ ws2 ≠ [] ∧ (∀ c ∈ ws1, isspace c = true) ∧
        (∀ c ∈ ws2, isspace c = true) ∧
        line = "format".toList ++ ws1 ++ t.name ++ ws2 ++ "1.0".toList) ∧
    (∀ entry type version : List Char, split_front 3 line = [entry, type, version] →
      (entry ≠ "format".toList →
        ply.process_format_line line = .error (.runtime_error "invalid format line")) ∧
      (entry = "format".toList → version ≠ "1.0".toList →
        ply.process_format_line line = .error (.runtime_error "unsupported format version")) ∧
      (entry = "format".toList → version = "1.0".toList → type ∉ file_type_strings →
        ply.process_format_line line = .error (.runtime_error "invalid format"))) ∧
    (∀ (p : ply) (rest : List Char) (n : Nat), '\n' ∉ line →
      ply.process_header p (line ++ '\n' :: rest) n =
        match ply.process_format_line line with
        | .ok t => ply.process_header_loop (rest.length + 1) { p with file_type_ := t } rest (n + 1)
        | .error e => (.error e, n + 1)) := by
  refine ⟨fun t => ⟨process_format_line_ok line t, ?_⟩, ?_, ?_⟩
  · rintro ⟨ws1, ws2, h1, h2, hs1, hs2, rfl⟩
    exact process_format_line_of_form t ws1 ws2 h1 h2 hs1 hs2
  · intro entry type version hsplit
    rw [split_front3_list] at hsplit
    simp only [List.cons.injEq, and_true] at hsplit
    obtain ⟨h1, h2, h3⟩ := hsplit
    subst h1 h2 h3
    refine ⟨?_, ?_, ?_⟩
    · intro he
      simp only [ply.process_format_line]
      rw [if_pos he]
    · intro he hv
      simp only [ply.process_format_line]
      rw [if_neg (not_not.mpr he), if_pos hv]
    · intro he hv ht
      have : ¬ find_index file_type_strings (split_front3 line).2.1 < file_type_strings.length := by
        rw [find_index_lt_iff]; exact ht
      simp only [ply.process_format_line]
      rw [if_neg (not_not.mpr he), if_neg (not_not.mpr hv), if_pos (Nat.not_lt.mp this)]
  · intro p rest n hn
    simp only [ply.process_header, read_line, getline_append line rest hn]
    cases ply.process_format_line line <;> rfl

/-- C5 at concrete lines: the well-formed line is accepted, a version followed by a space or
a carriage return, another version, another first word and an unknown file type are
refused with their messages. -/
theorem C5_format_line_witness :
    ply.process_format_line "format binary_little_endian 1.0".toList = .ok .binary_little_endian ∧
    ply.process_format_line "format ascii 1.0\r".toList
      = .error (.runtime_error "unsupported format version") ∧
    ply.process_format_line "format ascii 1.0 ".toList
      = .error (.runtime_error "unsupported format version") ∧
    ply.process_format_line "format ascii 1.1".toList
      = .error (.runtime_error "unsupported format version") ∧
    ply.process_format_line "formats ascii 1.0".toList
      = .error (.runtime_error "invalid format line") ∧
    ply.process_format_line "format text 1.0".toList = .error (.runtime_error "invalid format") :=
  ⟨((C5_format_line "format binary_little_endian 1.0".toList).1 .binary_little_endian).2
      ⟨[' '], [' '], by decide, by decide, by decide, by decide, by decide⟩,
    ((C5_format_line "format ascii 1.0\r".toList).2.1
      "format".toList "ascii".toList "1.0\r".toList (by decide)).2.1
      (by decide) (by decide),
    ((C5_format_line "format ascii 1.0 ".toList).2.1
      "format".toList "ascii".toList "1.0 ".toList (by decide)).2.1
      (by decide) (by decide),
    ((C5_format_line "format ascii 1.1".toList).2.1
      "format".toList "ascii".toList "1.1".toList (by decide)).2.1
      (by decide) (by decide),
    ((C5_format_line "formats ascii 1.0".toList).2.1
      "formats".toList "ascii".toList "1.0".toList (by decide)).1 (by decide),
    ((C5_format_line "format text 1.0".toList).2.1
      "format".toList "text".toList "1.0".toList (by decide)).2.2
      (by decide) (by decide) (by decide)⟩

theorem getline_none (is : List Char) (h : '\n' ∉ is) : getline is = none := by
  induction is with
  | nil => rfl
  | cons c cs ih =>
    have hc : c ≠ '\n' := fun e => h (by simp [e])
    have hcs : '\n' ∉ cs := fun e => h (by simp [e])
    simp [getline, hc, ih hcs]

/-- C6, as the code has it. The magic check of `ply::load` reads the first line of the input,
empty or not: when the text before the first line feed, trimmed, is `ply`, the load goes
on with the header at line 1; when it is anything else the load fails with
`line 1: invalid first line`; an input without a line feed fails with
`line 1: unexpected end of input`. -/
theorem C6_magic_line (from_chars_float : scalar_type → List Char → Option Nat)
    (line rest : List Char) (hline : '\n' ∉ line) :
    (trim line = "ply".toList →
      ply.load from_chars_float (line ++ '\n' :: rest) =
        match ply.process_header ⟨[], [], .ascii⟩ rest 1 with
        | (.error e, n) => .error (ply.rethrow_with_line e n)
        | (.ok (p, rest1), n) => ply.process_data from_chars_float p rest1 n) ∧
    (trim line ≠ "ply".toList →
      ply.load from_chars_float (line ++ '\n' :: rest) =
        .error (.runtime_error "line 1: invalid first line")) ∧
    ply.load from_chars_float line = .error (.runtime_error "line 1: unexpected end of input") := by
  refine ⟨?_, ?_, ?_⟩
  · intro h
    simp only [ply.load, read_line, getline_append line rest hline, h, ne_eq, not_true_eq_false,
      if_false, Nat.zero_add]
  · intro h
    simp only [ply.load, read_line, getline_append line rest hline, ne_eq, h, not_false_eq_true,
      if_true]
    rfl
  · simp only [ply.load, read_line, getline_none line hline]
    rfl

/-- C6 at a concrete input: a first line `ply` between blanks is accepted and the load goes
on to the header, which here ends the input. -/
theorem C6_magic_line_witness :
    ply.load no_float " ply \nformat ascii 1.0\nend_header\n".toList
      = .ok (⟨[], [], .ascii⟩, []) :=
  ((C6_magic_line no_float " ply ".toList "format ascii 1.0\nend_header\n".toList
    (by decide)).1 (by decide)).trans (by decide)

/-- C6 as stated fails: the first non-empty line of this input is `ply`, and the load fails
with `invalid first line`, because the line it checks is the empty first line. -/
theorem C6_first_non_empty_line_counterexample :
    first_non_empty_line "\nply\nformat ascii 1.0\nend_header\n".toList = some "ply".toList ∧
    trim "ply".toList = "ply".toList ∧
    ply.load no_float "\nply\nformat ascii 1.0\nend_header\n".toList
      = .error (.runtime_error "line 1: invalid first line") := by
  refine ⟨by decide, by decide, by decide⟩

theorem add_property_not_invalid (e : element) (specification : List Char)
    (what : String) (h : e.add_property specification = .error (.runtime_error what)) :
    what = "no list property name defined" ∨ what = "no property name defined" := by
  have hle := fun x => find_index_le type_strings x
  simp only [element.add_property] at h
  split at h
  · rw [if_neg (Nat.not_lt.mpr (hle _)), if_neg (Nat.not_lt.mpr (hle _))] at h
    split at h
    · simp only [Except.error.injEq, failure.runtime_error.injEq] at h
      exact Or.inl h.symm
    · split at h
      · simp at h
      · split at h <;> simp at h
  · rw [if_neg (Nat.not_lt.mpr (hle _))] at h
    split at h
    · simp only [Except.error.injEq, failure.runtime_error.injEq] at h
      exact Or.inr h.symm
    · split at h <;> simp at h

/-- C7, what the code does. The checks of `element::add_property` compare the index with
`>` where the index of an unknown name is the size of the table: an unknown type name is
not refused with `invalid property data type`, `invalid property list count type` or
`invalid property list data type`; the tables of eight entries are indexed at 8. The only
errors `add_property` raises are the two for a missing name. -/
theorem C7_unknown_type_not_rejected :
    element.add_property ⟨"vertex".toList, 1, []⟩ "foo x".toList
      = .error (.undefined_behavior "make_scalar_property[data_index]") ∧
    element.add_property ⟨"vertex".toList, 1, []⟩ "list foo int x".toList
      = .error (.undefined_behavior "make_list_count_loader[count_index]") ∧
    element.add_property ⟨"vertex".toList, 1, []⟩ "list uchar foo x".toList
      = .error (.undefined_behavior "make_list_property[data_index]") ∧
    ∀ (e : element) (specification : List Char),
      e.add_property specification ≠ .error (.runtime_error "invalid property data type") ∧
      e.add_property specification ≠ .error (.runtime_error "invalid property list count type") ∧
      e.add_property specification ≠ .error (.runtime_error "invalid property list data type") := by
  refine ⟨by decide, by decide, by decide, fun e specification => ⟨?_, ?_, ?_⟩⟩ <;>
  · intro h
    rcases add_property_not_invalid e specification _ h with h1 | h1 <;>
      exact absurd h1 (by decide)

theorem lines_text_length (lines : List (List Char)) :
    lines.length ≤ (lines_text lines).length := by
  induction lines with
  | nil => simp [lines_text]
  | cons l ls ih => simp [lines_text]; omega

theorem process_header_loop_comments (cs : List (List Char))
    (hcs : ∀ c ∈ cs, '\n' ∉ c ∧ (split_front2 (trim c)).1 = "comment".toList) :
    ∀ (fuel : Nat) (p : ply) (tail : List Char) (n : Nat),
      ply.process_header_loop (fuel + cs.length) p (lines_text cs ++ tail) n =
        ply.process_header_loop fuel
          { p with comments_ := p.comments_ ++ cs.map (fun c => (split_front2 (trim c)).2) }
          tail (n + cs.length) := by
  induction cs with
  | nil => intro fuel p tail n; simp [lines_text]
  | cons c cs ih =>
    intro fuel p tail n
    obtain ⟨h1, h2⟩ := hcs c (by simp)
    have e : fuel + (c :: cs).length = (fuel + cs.length) + 1 := by simp; omega
    rw [e]
    simp only [lines_text, List.append_assoc, List.cons_append, ply.process_header_loop, read_line,
      getline_append c _ h1, h2]
    rw [if_neg (by decide), if_pos (by decide)]
    rw [ih (fun c hc => hcs c (by simp [hc]))]
    simp only [List.map_cons, List.append_assoc, List.singleton_append, List.length_cons]
    congr 1
    omega

/-- C8. A `property` line before any `element` line: after the `ply` line, a format line
that is accepted and any number of comment lines, a line whose first word is `property`
makes `ply::load` fail with `property without previous element`, reported with the number
of that line, whatever the property specification and whatever follows. -/
theorem C8_property_without_element (from_chars_float : scalar_type → List Char → Option Nat)
    (magic format : List Char) (t : file_type) (cs : List (List Char)) (line rest : List Char)
    (hmagic : '\n' ∉ magic ∧ trim magic = "ply".toList)
    (hformat : '\n' ∉ format ∧ ply.process_format_line format = .ok t)
    (hcs : ∀ c ∈ cs, '\n' ∉ c ∧ (split_front2 (trim c)).1 = "comment".toList)
    (hline : '\n' ∉ line ∧ (split_front2 (trim line)).1 = "property".toList) :
    ply.load from_chars_float
        (magic ++ '\n' :: (format ++ '\n' :: (lines_text cs ++ (line ++ '\n' :: rest)))) =
      .error (.runtime_error
        ("line " ++ format_d (cs.length + 3) ++ ": property without previous element")) := by
  have hlen : cs.length + 1 ≤ (lines_text cs ++ (line ++ '\n' :: rest)).length := by
    have := lines_text_length cs
    simp only [List.length_append, List.length_cons]
    omega
  obtain ⟨k, hk⟩ : ∃ k, (lines_text cs ++ (line ++ '\n' :: rest)).length + 1
      = (k + 1) + cs.length := ⟨(lines_text cs ++ (line ++ '\n' :: rest)).length - cs.length, by omega⟩
  simp only [ply.load, read_line, getline_append magic _ hmagic.1, hmagic.2, ne_eq,
    not_true_eq_false, if_false, ply.process_header, getline_append format _ hformat.1, hformat.2]
  rw [hk, process_header_loop_comments cs hcs]
  simp only [ply.process_header_loop, read_line, getline_append line _ hline.1, hline.2]
  rw [if_neg (by decide), if_neg (by decide), if_neg (by decide), if_pos (by decide)]
  simp only [ply.add_property, List.getLast?_nil, ply.rethrow_with_line]
  have e : 0 + 1 + 1 + cs.length + 1 = cs.length + 3 := by omega
  rw [e, String.append_assoc]
  rfl

/-- C8 at a concrete input: the property line is line 4, after one comment. -/
theorem C8_property_without_element_witness :
    ply.load no_float
        "ply\nformat ascii 1.0\ncomment made by hand\nproperty float x\nelement vertex 1\n".toList =
      .error (.runtime_error "line 4: property without previous element") :=
  C8_property_without_element no_float "ply".toList "format ascii 1.0".toList .ascii
    ["comment made by hand".toList] "property float x".toList "element vertex 1\n".toList
    (by decide) (by decide) (by decide) (by decide)

theorem float_value_two_pow_64 :
    float_value .float64 4895412794951729152 = .finite ((2 : ℚ) ^ 64) := by
  norm_num [float_value, ieee_value]

theorem convert_value_int (T : scalar_type) (z : Int) (h : (value.int z).has_type T) :
    list_count_loader.convert_value T (.int z) =
      if z < 0 then .error (.runtime_error "list property length is negative")
      else .ok z.toNat := by
  simp only [value.has_type] at h
  simp only [list_count_loader.convert_value]
  by_cases hs : is_signed T = true
  · simp [hs]
  · have h0 : 0 ≤ z := by
      have := h.2.1
      simpa [min_value, hs] using this
    simp [hs, not_lt.mpr h0]

theorem convert_value_float (T : scalar_type) (bits : Nat) (c : ℚ)
    (h : float_value T bits = .finite c) (hlt : c < 2 ^ 64) :
    list_count_loader.convert_value T (.float bits) =
      if c ≠ (⌊c⌋ : ℚ) then .error (.runtime_error "list property length is not integer")
      else if c < 0 then .error (.runtime_error "list property length is negative")
      else .ok ⌊c⌋.toNat := by
  simp only [list_count_loader.convert_value, h]
  have : ⌊c⌋ < 2 ^ 64 := by
    have h1 : (⌊c⌋ : ℚ) ≤ c := Int.floor_le c
    have h2 : (⌊c⌋ : ℚ) < 2 ^ 64 := lt_of_le_of_lt h1 hlt
    exact_mod_cast h2
  rw [if_pos this]

/-- C9, as the code has it. For a count value of type `T` that stands for the finite number
`c`, with `c` below 2^64 (every value of an integer count type is):
`list_count_loader<T>::convert_value` raises `list property length is not integer` exactly
when `T` is a floating type and `c` is not an integer, raises
`list property length is negative` exactly when `c` is a negative integer, and otherwise
returns `c` as the list length. -/
theorem C9_convert_value (T : scalar_type) (v : value) (c : ℚ)
    (hv : v.has_type T) (hc : count_number T v = some c) (hlt : c < 2 ^ 64) :
    (list_count_loader.convert_value T v =
        .error (.runtime_error "list property length is not integer") ↔
      is_floating_point T = true ∧ c ≠ (⌊c⌋ : ℚ)) ∧
    (list_count_loader.convert_value T v =
        .error (.runtime_error "list property length is negative") ↔
      c < 0 ∧ c = (⌊c⌋ : ℚ)) ∧
    (∀ n : Nat, list_count_loader.convert_value T v = .ok n ↔ 0 ≤ c ∧ c = (n : ℚ)) ∧
    ((∃ what, list_count_loader.convert_value T v = .error (.runtime_error what)) ↔
      c < 0 ∨ (is_floating_point T = true ∧ c ≠ (⌊c⌋ : ℚ))) ∧
    ((∃ n : Nat, list_count_loader.convert_value T v = .ok n) ↔
      ¬ (c < 0 ∨ (is_floating_point T = true ∧ c ≠ (⌊c⌋ : ℚ)))) := by
  have key : list_count_loader.convert_value T v =
      if c ≠ (⌊c⌋ : ℚ) then .error (.runtime_error "list property length is not integer")
      else if c < 0 then .error (.runtime_error "list property length is negative")
      else .ok ⌊c⌋.toNat := by
    cases v with
    | int z =>
      simp only [count_number, Option.some.injEq] at hc
      subst hc
      rw [convert_value_int T z hv]
      simp
    | float bits =>
      simp only [count_number] at hc
      split at hc
      · rename_i q hq
        simp only [Option.some.injEq] at hc
        subst hc
        exact convert_value_float T bits q hq hlt
      · simp at hc
  have hfl : c ≠ (⌊c⌋ : ℚ) → is_floating_point T = true := by
    intro hne
    cases v with
    | int z =>
      simp only [count_number, Option.some.injEq] at hc
      subst hc
      simp at hne
    | float bits => exact hv.1
  have hnat : ∀ n : Nat, c = (⌊c⌋ : ℚ) → ¬ c < 0 → (⌊c⌋.toNat = n ↔ c = (n : ℚ)) := by
    intro n h1 h2
    have h0 : 0 ≤ ⌊c⌋ := Int.floor_nonneg.mpr (not_lt.mp h2)
    constructor
    · intro h
      rw [h1, ← h]
      exact_mod_cast (Int.toNat_of_nonneg h0).symm
    · intro h
      rw [h]
      simp
  rw [key]
  by_cases h1 : c = (⌊c⌋ : ℚ)
  · by_cases h2 : c < 0
    · rw [if_neg (not_not.mpr h1), if_pos h2]
      refine ⟨⟨fun h => absurd h (by decide), fun h => absurd h1 h.2⟩,
        ⟨fun _ => ⟨h2, h1⟩, fun _ => rfl⟩,
        fun n => ⟨fun h => absurd h (by simp), fun h => absurd h2 (not_lt.mpr h.1)⟩,
        ⟨fun _ => Or.inl h2, fun _ => ⟨_, rfl⟩⟩,
        ⟨fun h => ?_, fun h => absurd (Or.inl h2) h⟩⟩
      obtain ⟨n, hn⟩ := h
      exact absurd hn (by simp)
    · rw [if_neg (not_not.mpr h1), if_neg h2]
      refine ⟨⟨fun h => absurd h (by simp), fun h => absurd h1 h.2⟩,
        ⟨fun h => absurd h (by simp), fun h => absurd h.1 h2⟩,
        fun n => ?_,
        ⟨fun h => ?_, fun h => ?_⟩,
        ⟨fun _ => ?_, fun _ => ⟨_, rfl⟩⟩⟩
      · rw [Except.ok.injEq, hnat n h1 h2]
        exact ⟨fun h => ⟨not_lt.mp h2, h⟩, fun h => h.2⟩
      · obtain ⟨w, hw⟩ := h
        exact absurd hw (by simp)
      · rcases h with h | h
        · exact absurd h h2
        · exact absurd h1 h.2
      · rintro (h | h)
        · exact h2 h
        · exact h.2 h1
  · have hf := hfl h1
    rw [if_pos h1]
    refine ⟨⟨fun _ => ⟨hf, h1⟩, fun _ => rfl⟩,
      ⟨fun h => absurd h (by decide), fun h => absurd h.2 h1⟩,
      fun n => ⟨fun h => absurd h (by simp), fun h => ?_⟩,
      ⟨fun _ => Or.inr ⟨hf, h1⟩, fun _ => ⟨_, rfl⟩⟩,
      ⟨fun h => ?_, fun h => absurd (Or.inr ⟨hf, h1⟩) h⟩⟩
    · exfalso
      apply h1
      rw [h.2]
      simp
    · obtain ⟨n, hn⟩ := h
      exact absurd hn (by simp)

/-- C9 at concrete values: the `char` value -1 is refused as negative, the `uchar` value 3
gives the length 3. -/
theorem C9_convert_value_witness :
    list_count_loader.convert_value .int8 (.int (-1))
      = .error (.runtime_error "list property length is negative") ∧
    list_count_loader.convert_value .uint8 (.int 3) = .ok 3 :=
  ⟨((C9_convert_value .int8 (.int (-1)) (-1) (by decide) (by simp [count_number])
      (by norm_num)).2.1).2 (by norm_num),
   ((C9_convert_value .uint8 (.int 3) 3 (by decide) (by simp [count_number])
      (by norm_num)).2.2.1 3).2 (by norm_num)⟩

/-- C9 as stated fails: the `double` with bit pattern `0x43F0000000000000` is the finite
number 2^64, which is neither negative nor a fraction, and `convert_value` does not return
it: the conversion to `std::size_t` is outside the range of the type. -/
theorem C9_large_count_counterexample :
    (value.float 4895412794951729152).has_type .float64 ∧
    count_number .float64 (.float 4895412794951729152) = some ((2 : ℚ) ^ 64) ∧
    ¬ ((2 : ℚ) ^ 64 < 0) ∧ (2 : ℚ) ^ 64 = (⌊(2 : ℚ) ^ 64⌋ : ℚ) ∧
    list_count_loader.convert_value .float64 (.float 4895412794951729152)
      = .error (.undefined_behavior "static_cast<std::size_t> out of range") := by
  have hf : (2 : ℚ) ^ 64 = (⌊(2 : ℚ) ^ 64⌋ : ℚ) := by
    have : ((2 : ℚ) ^ 64) = (((2 : Int) ^ 64 : Int) : ℚ) := by norm_num
    rw [this, Int.floor_intCast]
  refine ⟨by decide, ?_, by norm_num, hf, ?_⟩
  · simp only [count_number, float_value_two_pow_64]
  · have hfloor : ⌊(2 : ℚ) ^ 64⌋ = (2 : Int) ^ 64 := by
      have : ((2 : ℚ) ^ 64) = (((2 : Int) ^ 64 : Int) : ℚ) := by norm_num
      rw [this, Int.floor_intCast]
    simp only [list_count_loader.convert_value, float_value_two_pow_64, ne_eq, ← hf,
      not_true_eq_false, if_false, hfloor]
    norm_num

/-! ## Lemmas on trimming and splitting -/

theorem dropWhile_eq_self {α} (p : α → Bool) (l : List α)
    (h : ∀ c, l.head? = some c → p c = false) : l.dropWhile p = l := by
  cases l with
  | nil => rfl
  | cons x l => rw [List.dropWhile_cons_of_neg]; simp [h x rfl]

theorem dropWhile_append_eq {α} [DecidableEq α] (p : α → Bool) (x y : List α) :
    (x ++ y).dropWhile p = if x.dropWhile p = [] then y.dropWhile p else x.dropWhile p ++ y := by
  induction x with
  | nil => simp
  | cons a x ih =>
    by_cases ha : p a = true
    · simp only [List.cons_append, List.dropWhile_cons_of_pos ha, ih]
    · simp only [List.cons_append, List.dropWhile_cons_of_neg ha]
      simp

theorem trim_right_append (a b : List Char) :
    trim_right (a ++ b) = if trim_right b = [] then trim_right a else a ++ trim_right b := by
  simp only [trim_right, List.reverse_append, dropWhile_append_eq, List.reverse_eq_nil_iff]
  split <;> simp

theorem trim_right_word (w : List Char) (h : ∀ c ∈ w, isspace c = false) : trim_right w = w := by
  simp only [trim_right]
  rw [dropWhile_eq_self, List.reverse_reverse]
  intro c hc
  apply h c
  have : c ∈ w.reverse := by
    cases hr : w.reverse with
    | nil => rw [hr] at hc; simp at hc
    | cons x r => rw [hr] at hc; simp at hc; simp [hc]
  simpa using this

theorem trim_right_spaces (ws : List Char) (h : ∀ c ∈ ws, isspace c = true) :
    trim_right ws = [] := by
  simp only [trim_right, List.reverse_eq_nil_iff, List.dropWhile_eq_nil_iff]
  intro c hc
  exact h c (by simpa using hc)

theorem trim_right_end_word (a w : List Char) (h0 : w ≠ [])
    (h : ∀ c ∈ w, isspace c = false) : trim_right (a ++ w) = a ++ w := by
  rw [trim_right_append, trim_right_word w h, if_neg h0]

theorem trim_left_start_word (w b : List Char) (h0 : w ≠ [])
    (h : ∀ c ∈ w, isspace c = false) : trim_left (w ++ b) = w ++ b := by
  cases w with
  | nil => exact absurd rfl h0
  | cons x w =>
    simp only [trim_left, List.cons_append]
    rw [List.dropWhile_cons_of_neg]
    simp [h x (by simp)]

theorem not_space_of_false (w : List Char) (h : ∀ c ∈ w, isspace c = false) :
    ∀ c ∈ w, (!isspace c) = true := by
  intro c hc; simp [h c hc]

theorem split_front_step_word (w t : List Char) (h : ∀ c ∈ w, isspace c = false) :
    split_front_step (w ++ ' ' :: t) = (w, trim_left t) := by
  simp only [split_front_step, trim_left]
  rw [takeWhile_append_stop _ _ _ (not_space_of_false w h) (by simp; decide),
    dropWhile_append_stop _ _ _ (not_space_of_false w h) (by simp; decide)]
  rw [List.dropWhile_cons_of_pos (by decide)]

theorem split_front_step_single (w : List Char) (h : ∀ c ∈ w, isspace c = false) :
    split_front_step w = (w, []) := by
  have := takeWhile_append_stop (fun c => !isspace c) w [] (not_space_of_false w h) (by simp)
  have h2 := dropWhile_append_stop (fun c => !isspace c) w [] (not_space_of_false w h) (by simp)
  simp only [List.append_nil] at this h2
  simp [split_front_step, trim_left, this, h2]

/-- A line that is a word, a space and a text splits, once trimmed, into the word and the
trimmed text. -/
theorem split_front2_trim_word (w t : List Char) (h0 : w ≠ [])
    (h : ∀ c ∈ w, isspace c = false) :
    split_front2 (trim (w ++ ' ' :: t)) = (w, trim t) := by
  rw [split_front2_eq]
  by_cases ht : trim_right t = []
  · have h1 : trim_right (' ' :: t) = [] := by
      have := trim_right_append [' '] t
      simp only [List.singleton_append] at this
      rw [this, if_pos ht]
      decide
    have h2 : trim (w ++ ' ' :: t) = w := by
      simp only [trim]
      rw [trim_right_append, if_pos h1, trim_right_word w h]
      have := trim_left_start_word w [] h0 h
      simpa using this
    rw [h2, split_front_step_single w h]
    simp [trim, ht, trim_left]
  · have h1 : trim_right (' ' :: t) = ' ' :: trim_right t := by
      have := trim_right_append [' '] t
      simp only [List.singleton_append] at this
      rw [this, if_neg ht]
    have h2 : trim (w ++ ' ' :: t) = w ++ ' ' :: trim_right t := by
      simp only [trim]
      rw [trim_right_append, h1, if_neg (by simp)]
      exact trim_left_start_word w _ h0 h
    rw [h2, split_front_step_word w _ h]
    rfl

theorem trim_word_sep_word (a w : List Char) (ha0 : a ≠ []) (ha : ∀ c ∈ a, isspace c = false)
    (m : List Char) (hw0 : w ≠ []) (hw : ∀ c ∈ w, isspace c = false) :
    trim (a ++ m ++ w) = a ++ m ++ w := by
  simp only [trim]
  rw [trim_right_end_word _ w hw0 hw, List.append_assoc, trim_left_start_word a _ ha0 ha]

theorem split_back2_eq (line : List Char) : split_back2 line = 
    ((split_back_step line).2, (split_back_step line).1) := by
  simp [split_back2, split_back]

theorem split_back_step_word (a w : List Char) (ha : ∀ c ∈ a, isspace c = false)
    (hw : ∀ c ∈ w, isspace c = false) :
    split_back_step (a ++ ' ' :: w) = (w, a) := by
  have hr : ∀ c ∈ w.reverse, (!isspace c) = true := by
    intro c hc; simp [hw c (by simpa using hc)]
  simp only [split_back_step, List.reverse_append, List.reverse_cons, List.append_assoc,
    List.singleton_append]
  rw [takeWhile_append_stop _ _ _ hr (by simp; decide),
    dropWhile_append_stop _ _ _ hr (by simp; decide)]
  simp only [List.reverse_reverse, List.reverse_cons, Prod.mk.injEq, true_and]
  rw [trim_right_append, if_pos (by decide), trim_right_word a ha]

/-! ## Lemmas on decimal numbers -/

theorem digits_value_append (l : List Nat) (d : Nat) :
    digits_value (l ++ [d]) = digits_value l * 10 + d := by
  simp [digits_value, List.foldl_append]

theorem decimal_digits_spec : ∀ (fuel n : Nat), n < fuel →
    decimal_digits fuel n ≠ [] ∧ (∀ d ∈ decimal_digits fuel n, d < 10) ∧
      digits_value (decimal_digits fuel n) = n := by
  intro fuel
  induction fuel with
  | zero => intro n h; omega
  | succ fuel ih =>
    intro n h
    simp only [decimal_digits]
    split
    · rename_i hn
      refine ⟨by simp, ?_, by simp [digits_value]⟩
      intro d hd
      simp at hd
      omega
    · rename_i hn
      obtain ⟨_, h2, h3⟩ := ih (n / 10) (by omega)
      refine ⟨by simp, ?_, ?_⟩
      · intro d hd
        simp only [List.mem_append, List.mem_singleton] at hd
        rcases hd with hd | hd
        · exact h2 d hd
        · omega
      · rw [digits_value_append, h3]
        omega

theorem digit_value_digit_char (d : Nat) (h : d < 10) : digit_value (digit_char d) = some d := by
  interval_cases d <;> rfl

theorem isspace_digit_char (d : Nat) (h : d < 10) : isspace (digit_char d) = false := by
  interval_cases d <;> rfl

theorem digit_char_ne_newline (d : Nat) (h : d < 10) : digit_char d ≠ '\n' := by
  interval_cases d <;> decide

theorem digit_run_map (l : List Nat) (h : ∀ d ∈ l, d < 10) :
    digit_run (l.map digit_char) = l := by
  induction l with
  | nil => rfl
  | cons d l ih =>
    simp only [List.map_cons, digit_run, digit_value_digit_char d (h d (by simp))]
    rw [ih (fun x hx => h x (by simp [hx]))]

theorem decimal_ne_nil (n : Nat) : decimal n ≠ [] := by
  have := (decimal_digits_spec (n + 1) n (by omega)).1
  simpa [decimal] using this

theorem decimal_not_space (n : Nat) : ∀ c ∈ decimal n, isspace c = false := by
  intro c hc
  simp only [decimal, List.mem_map] at hc
  obtain ⟨d, hd, rfl⟩ := hc
  exact isspace_digit_char d ((decimal_digits_spec (n + 1) n (by omega)).2.1 d hd)

theorem from_chars_decimal (n : Nat) (hi : Int) (h : (n : Int) ≤ hi) :
    from_chars false 0 hi (decimal n) = some (n : Int) := by
  obtain ⟨h1, h2, h3⟩ := decimal_digits_spec (n + 1) n (by omega)
  simp only [from_chars, Bool.false_and, Bool.false_eq_true, if_false, decimal,
    digit_run_map _ h2, h3, h1]
  simp [h]

theorem parse_size_t_decimal (n : Nat) (h : n < 2 ^ 64) : parse_size_t (decimal n) = .ok n := by
  have : from_chars false 0 (2 ^ 64 - 1) (decimal n) = some (n : Int) :=
    from_chars_decimal n _ (by omega)
  simp only [parse_size_t, this, Int.toNat_ofNat]

/-! ## The header loop on declared lines -/

theorem as_string_ne_nil (T : scalar_type) : as_string T ≠ [] := by
  cases T <;> decide

theorem as_string_not_space (T : scalar_type) : ∀ c ∈ as_string T, isspace c = false := by
  cases T <;> decide

theorem as_string_ne_list (T : scalar_type) : as_string T ≠ "list".toList := by
  cases T <;> decide

theorem find_index_as_string (T : scalar_type) :
    find_index type_strings (as_string T) = index_of T := by
  cases T <;> decide

theorem scalar_type_at_index_of (T : scalar_type) : scalar_type_at (index_of T) = some T := by
  cases T <;> rfl

theorem index_of_le (T : scalar_type) : ¬ index_of T > type_strings.length := by
  cases T <;> decide

theorem add_property_scalar (e : element) (T : scalar_type) (name : List Char)
    (h : is_name name) :
    e.add_property (as_string T ++ ' ' :: name) =
      .ok { e with properties_ := e.properties_ ++ [make_scalar_property T name e.count_] } := by
  have hs : split_front2 (as_string T ++ ' ' :: name) = (as_string T, name) := by
    rw [split_front2_eq, split_front_step_word _ _ (as_string_not_space T)]
    have := trim_left_start_word name [] h.1 h.2
    simp only [List.append_nil] at this
    rw [this]
  simp only [element.add_property, hs, if_neg (as_string_ne_list T), find_index_as_string,
    if_neg (index_of_le T), if_neg h.1, scalar_type_at_index_of]

theorem add_property_list (e : element) (C T : scalar_type) (name : List Char)
    (h : is_name name) :
    e.add_property ("list ".toList ++ as_string C ++ ' ' :: (as_string T ++ ' ' :: name)) =
      .ok { e with properties_ := e.properties_ ++ [make_list_property T name e.count_ C] } := by
  have h0 : split_front2 ("list ".toList ++ as_string C ++ ' ' :: (as_string T ++ ' ' :: name))
      = ("list".toList, as_string C ++ ' ' :: (as_string T ++ ' ' :: name)) := by
    have e1 : "list ".toList ++ as_string C ++ ' ' :: (as_string T ++ ' ' :: name)
        = "list".toList ++ ' ' :: (as_string C ++ ' ' :: (as_string T ++ ' ' :: name)) := by
      simp
    rw [e1, split_front2_eq, split_front_step_word _ _ (by decide),
      trim_left_start_word _ _ (as_string_ne_nil C) (as_string_not_space C)]
  have h1 : split_front2 (as_string C ++ ' ' :: (as_string T ++ ' ' :: name))
      = (as_string C, as_string T ++ ' ' :: name) := by
    rw [split_front2_eq, split_front_step_word _ _ (as_string_not_space C),
      trim_left_start_word _ _ (as_string_ne_nil T) (as_string_not_space T)]
  have h2 : split_front2 (as_string T ++ ' ' :: name) = (as_string T, name) := by
    rw [split_front2_eq, split_front_step_word _ _ (as_string_not_space T)]
    have := trim_left_start_word name [] h.1 h.2
    simp only [List.append_nil] at this
    rw [this]
  simp only [element.add_property, h0, h1, h2, if_true, find_index_as_string,
    if_neg (index_of_le _), if_neg h.1, scalar_type_at_index_of]

theorem add_element_decl (p : ply) (name : List Char) (count : Nat)
    (h : is_name name) (hc : count < 2 ^ 64) :
    p.add_element (name ++ ' ' :: decimal count) =
      .ok { p with elements_ := p.elements_ ++ [⟨name, count, []⟩] } := by
  have hs : split_back2 (name ++ ' ' :: decimal count) = (name, decimal count) := by
    rw [split_back2_eq, split_back_step_word _ _ h.2 (decimal_not_space count)]
  simp only [ply.add_element, hs, parse_size_t_decimal count hc]

theorem add_property_back (p : ply) (es : List element) (back back1 : element)
    (spec : List Char) (hp : p.elements_ = es ++ [back])
    (h : back.add_property spec = .ok back1) :
    p.add_property spec = .ok { p with elements_ := es ++ [back1] } := by
  simp only [ply.add_property, hp, List.getLast?_append, List.getLast?_singleton,
    Option.or, h, List.dropLast_concat]

theorem no_newline_of_not_space (w : List Char) (h : ∀ c ∈ w, isspace c = false) : '\n' ∉ w := by
  intro hc
  have := h _ hc
  exact absurd this (by decide)

theorem header_line_no_newline (l : header_line) (h : l.well_formed) : '\n' ∉ l.text := by
  cases l with
  | comment text =>
    simp only [header_line.text, List.mem_append, not_or]
    exact ⟨by decide, h⟩
  | element name count =>
    simp only [header_line.text, List.mem_append, List.mem_cons, not_or]
    exact ⟨⟨by decide, no_newline_of_not_space _ h.1.2⟩, by decide,
      no_newline_of_not_space _ (decimal_not_space count)⟩
  | property T name =>
    simp only [header_line.text, List.mem_append, List.mem_cons, not_or]
    exact ⟨⟨by decide, no_newline_of_not_space _ (as_string_not_space T)⟩, by decide,
      no_newline_of_not_space _ h.2⟩
  | property_list C T name =>
    simp only [header_line.text, List.mem_append, List.mem_cons, not_or]
    exact ⟨⟨by decide, no_newline_of_not_space _ (as_string_not_space C)⟩, by decide,
      no_newline_of_not_space _ (as_string_not_space T), by decide,
      no_newline_of_not_space _ h.2⟩

theorem split_comment (text : List Char) :
    split_front2 (trim (header_line.comment text).text) = ("comment".toList, trim text) :=
  split_front2_trim_word "comment".toList text (by decide) (by decide)

theorem split_element (name : List Char) (count : Nat) (h : is_name name) :
    split_front2 (trim (header_line.element name count).text)
      = ("element".toList, name ++ ' ' :: decimal count) := by
  have := split_front2_trim_word "element".toList (name ++ ' ' :: decimal count)
    (by decide) (by decide)
  have e : (header_line.element name count).text
      = "element".toList ++ ' ' :: (name ++ ' ' :: decimal count) := by
    simp [header_line.text]
  rw [e, this]
  have t := trim_word_sep_word name (decimal count) h.1 h.2 [' '] (decimal_ne_nil count)
    (decimal_not_space count)
  simp only [List.append_assoc, List.singleton_append] at t
  rw [t]

theorem split_property (T : scalar_type) (name : List Char) (h : is_name name) :
    split_front2 (trim (header_line.property T name).text)
      = ("property".toList, as_string T ++ ' ' :: name) := by
  have := split_front2_trim_word "property".toList (as_string T ++ ' ' :: name)
    (by decide) (by decide)
  have e : (header_line.property T name).text
      = "property".toList ++ ' ' :: (as_string T ++ ' ' :: name) := by
    simp [header_line.text]
  rw [e, this]
  have t := trim_word_sep_word (as_string T) name (as_string_ne_nil T) (as_string_not_space T)
    [' '] h.1 h.2
  simp only [List.append_assoc, List.singleton_append] at t
  rw [t]

theorem split_property_list (C T : scalar_type) (name : List Char) (h : is_name name) :
    split_front2 (trim (header_line.property_list C T name).text)
      = ("property".toList,
          "list ".toList ++ as_string C ++ ' ' :: (as_string T ++ ' ' :: name)) := by
  have := split_front2_trim_word "property".toList
    ("list ".toList ++ as_string C ++ ' ' :: (as_string T ++ ' ' :: name)) (by decide) (by decide)
  have e : (header_line.property_list C T name).text
      = "property".toList ++ ' ' ::
          ("list ".toList ++ as_string C ++ ' ' :: (as_string T ++ ' ' :: name)) := by
    simp [header_line.text]
  rw [e, this]
  have t := trim_word_sep_word "list".toList name (by decide) (by decide)
    (' ' :: (as_string C ++ ' ' :: (as_string T ++ [' ']))) h.1 h.2
  have e2 : "list".toList ++ ' ' :: (as_string C ++ ' ' :: (as_string T ++ [' '])) ++ name
      = "list ".toList ++ as_string C ++ ' ' :: (as_string T ++ ' ' :: name) := by
    simp
  rw [e2] at t
  rw [t]

/-- One round of the header loop on a declared line, an element being open (`back`). -/
theorem header_loop_step_open (l : header_line) (h : l.well_formed) (fuel : Nat) (p : ply)
    (es : List element) (back : element) (hp : p.elements_ = es ++ [back])
    (tail : List Char) (n : Nat) :
    ply.process_header_loop (fuel + 1) p (l.text ++ '\n' :: tail) n =
      ply.process_header_loop fuel
        (match l with
          | .comment text => { p with comments_ := p.comments_ ++ [trim text] }
          | .element name count => { p with elements_ := es ++ [back] ++ [⟨name, count, []⟩] }
          | .property T name => { p with elements_ := es ++ [{ back with properties_ :=
              back.properties_ ++ [make_scalar_property T name back.count_] }] }
          | .property_list C T name => { p with elements_ := es ++ [{ back with properties_ :=
              back.properties_ ++ [make_list_property T name back.count_ C] }] })
        tail (n + 1) := by
  simp only [ply.process_header_loop, read_line, getline_append _ _ (header_line_no_newline l h)]
  cases l with
  | comment text =>
    simp only [split_comment]
    rw [if_neg (by decide), if_pos (by decide)]
  | element name count =>
    simp only [split_element name count h.1]
    rw [if_neg (by decide), if_neg (by decide), if_pos (by decide),
      add_element_decl p name count h.1 h.2, hp]
  | property T name =>
    simp only [split_property T name h]
    rw [if_neg (by decide), if_neg (by decide), if_neg (by decide), if_pos (by decide),
      add_property_back p es back _ _ hp (add_property_scalar back T name h)]
  | property_list C T name =>
    simp only [split_property_list C T name h]
    rw [if_neg (by decide), if_neg (by decide), if_neg (by decide), if_pos (by decide),
      add_property_back p es back _ _ hp (add_property_list back C T name h)]

/-- The header loop on declared lines, an element being open: the comments are added
trimmed, the open element gets the columns declared up to the next element line, the
further elements follow. -/
theorem header_loop_open (lines : List header_line) (h : ∀ l ∈ lines, l.well_formed) :
    ∀ (fuel : Nat) (p : ply) (es : List element) (back : element),
      p.elements_ = es ++ [back] → ∀ (tail : List Char) (n : Nat),
      ply.process_header_loop (fuel + lines.length) p
          (lines_text (lines.map header_line.text) ++ tail) n =
        ply.process_header_loop fuel
          { p with
            comments_ := p.comments_ ++ (declared_comments lines).map trim
            elements_ := es ++ [{ back with properties_ :=
                back.properties_ ++ declared_columns back.count_ lines }] ++
              header_elements lines }
          tail (n + lines.length) := by
  induction lines with
  | nil =>
    intro fuel p es back hp tail n
    simp [lines_text, declared_comments, declared_columns, header_elements, ← hp]
  | cons l lines ih =>
    intro fuel p es back hp tail n
    have hl := h l (by simp)
    have hls : ∀ l ∈ lines, l.well_formed := fun x hx => h x (by simp [hx])
    have e : fuel + (l :: lines).length = (fuel + lines.length) + 1 := by simp; omega
    have en : n + (l :: lines).length = n + 1 + lines.length := by simp; omega
    rw [e, en]
    simp only [List.map_cons, lines_text, List.append_assoc, List.cons_append]
    rw [header_loop_step_open l hl _ p es back hp]
    cases l with
    | comment text =>
      simp only []
      rw [ih hls fuel { p with comments_ := p.comments_ ++ [trim text] } es back hp]
      simp [declared_comments, declared_columns, header_elements]
    | element name count =>
      simp only []
      rw [ih hls fuel { p with elements_ := es ++ [back] ++ [⟨name, count, []⟩] }
        (es ++ [back]) ⟨name, count, []⟩ rfl]
      simp [declared_comments, declared_columns, header_elements]
    | property T name =>
      simp only []
      rw [ih hls fuel { p with elements_ := es ++ [{ back with properties_ :=
        back.properties_ ++ [make_scalar_property T name back.count_] }] } es _ rfl]
      simp [declared_comments, declared_columns, header_elements]
    | property_list C T name =>
      simp only []
      rw [ih hls fuel { p with elements_ := es ++ [{ back with properties_ :=
        back.properties_ ++ [make_list_property T name back.count_ C] }] } es _ rfl]
      simp [declared_comments, declared_columns, header_elements]

theorem header_loop_step_comment (text : List Char) (h : '\n' ∉ text) (fuel : Nat) (p : ply)
    (tail : List Char) (n : Nat) :
    ply.process_header_loop (fuel + 1) p ((header_line.comment text).text ++ '\n' :: tail) n =
      ply.process_header_loop fuel { p with comments_ := p.comments_ ++ [trim text] }
        tail (n + 1) := by
  simp only [ply.process_header_loop, read_line,
    getline_append _ _ (header_line_no_newline (.comment text) h), split_comment]
  rw [if_neg (by decide), if_pos (by decide)]

theorem header_loop_step_element (name : List Char) (count : Nat)
    (h : (header_line.element name count).well_formed) (fuel : Nat) (p : ply)
    (tail : List Char) (n : Nat) :
    ply.process_header_loop (fuel + 1) p
        ((header_line.element name count).text ++ '\n' :: tail) n =
      ply.process_header_loop fuel { p with elements_ := p.elements_ ++ [⟨name, count, []⟩] }
        tail (n + 1) := by
  simp only [ply.process_header_loop, read_line,
    getline_append _ _ (header_line_no_newline (.element name count) h), split_element name count h.1]
  rw [if_neg (by decide), if_neg (by decide), if_pos (by decide),
    add_element_decl p name count h.1 h.2]

/-- The header loop on declared lines, no element being open. -/
theorem header_loop_closed (lines : List header_line) (h : ∀ l ∈ lines, l.well_formed)
    (hf : properties_follow_element false lines = true) :
    ∀ (fuel : Nat) (p : ply), p.elements_ = [] → ∀ (tail : List Char) (n : Nat),
      ply.process_header_loop (fuel + lines.length) p
          (lines_text (lines.map header_line.text) ++ tail) n =
        ply.process_header_loop fuel
          { p with
            comments_ := p.comments_ ++ (declared_comments lines).map trim
            elements_ := header_elements lines }
          tail (n + lines.length) := by
  induction lines with
  | nil =>
    intro fuel p hp tail n
    simp [lines_text, declared_comments, header_elements, ← hp]
  | cons l lines ih =>
    intro fuel p hp tail n
    have hl := h l (by simp)
    have hls : ∀ l ∈ lines, l.well_formed := fun x hx => h x (by simp [hx])
    have e : fuel + (l :: lines).length = (fuel + lines.length) + 1 := by simp; omega
    have en : n + (l :: lines).length = n + 1 + lines.length := by simp; omega
    rw [e, en]
    simp only [List.map_cons, lines_text, List.append_assoc, List.cons_append]
    cases l with
    | comment text =>
      rw [header_loop_step_comment text hl,
        ih hls (by simpa [properties_follow_element] using hf) fuel
          { p with comments_ := p.comments_ ++ [trim text] } hp]
      simp [declared_comments, header_elements]
    | element name count =>
      rw [header_loop_step_element name count hl,
        header_loop_open lines hls fuel
          { p with elements_ := p.elements_ ++ [⟨name, count, []⟩] } [] ⟨name, count, []⟩
          (by simp [hp])]
      simp [declared_comments, header_elements]
    | property T name => simp [properties_follow_element] at hf
    | property_list C T name => simp [properties_follow_element] at hf

theorem header_loop_end (fuel : Nat) (p : ply) (tail : List Char) (n : Nat) :
    ply.process_header_loop (fuel + 1) p ("end_header\n".toList ++ tail) n
      = (.ok (p, tail), n + 1) := by
  have e : "end_header\n".toList ++ tail = "end_header".toList ++ '\n' :: tail := by simp
  simp only [e, ply.process_header_loop, read_line, getline_append _ _ (by decide :
    '\n' ∉ "end_header".toList)]
  rw [if_neg (by decide), if_neg (by decide), if_neg (by decide), if_neg (by decide)]

/-- The header of a file, read by `process_header` behind the `ply` line: the format line
sets the file type, the declared lines leave their comments, trimmed, and their elements,
and the stream stands behind `end_header`. -/
theorem process_header_declared (type : file_type) (lines : List header_line)
    (h : ∀ l ∈ lines, l.well_formed) (hf : properties_follow_element false lines = true)
    (body : List Char) (p : ply) (hp : p.elements_ = []) (n : Nat) :
    ply.process_header p ("format ".toList ++ type.name ++ " 1.0\n".toList ++
        (lines_text (lines.map header_line.text) ++ "end_header\n".toList) ++ body) n =
      (.ok (⟨p.comments_ ++ (declared_comments lines).map trim, header_elements lines, type⟩,
        body), n + lines.length + 2) := by
  have e : "format ".toList ++ type.name ++ " 1.0\n".toList ++
        (lines_text (lines.map header_line.text) ++ "end_header\n".toList) ++ body
      = ("format".toList ++ [' '] ++ type.name ++ [' '] ++ "1.0".toList) ++ '\n' ::
        (lines_text (lines.map header_line.text) ++ ("end_header\n".toList ++ body)) := by
    simp
  have hn : '\n' ∉ "format".toList ++ [' '] ++ type.name ++ [' '] ++ "1.0".toList := by
    cases type <;> decide
  have hlen := lines_text_length (lines.map header_line.text)
  obtain ⟨k, hk⟩ : ∃ k, (lines_text (lines.map header_line.text) ++
      ("end_header\n".toList ++ body)).length + 1 = (k + 1) + lines.length := by
    refine ⟨(lines_text (lines.map header_line.text) ++
      ("end_header\n".toList ++ body)).length - lines.length, ?_⟩
    simp only [List.length_append, List.length_map] at hlen ⊢
    omega
  rw [e]
  simp only [ply.process_header, read_line, getline_append _ _ hn,
    process_format_line_of_form type [' '] [' '] (by simp) (by simp) (by decide) (by decide)]
  rw [hk, header_loop_closed lines h hf (k + 1) { p with file_type_ := type } hp,
    header_loop_end]
  simp only [Prod.mk.injEq, Except.ok.injEq, ply.mk.injEq, and_true, true_and]
  omega

/-! ## Loading keeps what the header declared -/

theorem load_with_declaration
    (load : scalar_type → List Char → Except failure (value × List Char))
    (load_count : scalar_type → List Char → Except failure (Nat × List Char))
    (i : Nat) (is : List Char) (q q1 : property) (rest : List Char)
    (h : q.load_with load load_count i is = .ok (q1, rest)) :
    q1.name = q.name ∧ q1.type_name = q.type_name := by
  cases q with
  | scalar T name values =>
    simp only [property.load_with] at h
    split at h
    · simp only [Except.ok.injEq, Prod.mk.injEq] at h
      rw [← h.1]
      exact ⟨rfl, rfl⟩
    · simp at h
  | list T name values loader =>
    simp only [property.load_with] at h
    split at h
    · split at h
      · split at h
        · simp only [Except.ok.injEq, Prod.mk.injEq] at h
          rw [← h.1]
          exact ⟨rfl, rfl⟩
        · simp at h
      · simp at h
    · simp at h

theorem for_properties_declaration
    (load : Nat → List Char → property → Except failure (property × List Char))
    (hload : ∀ i is q q1 rest, load i is q = .ok (q1, rest) →
      q1.name = q.name ∧ q1.type_name = q.type_name) (i : Nat) :
    ∀ (ps : List property) (is : List Char) (ps1 : List property) (rest : List Char),
      for_properties load i ps is = .ok (ps1, rest) →
      ps1.map (fun q => (q.name, q.type_name)) = ps.map (fun q => (q.name, q.type_name)) := by
  intro ps
  induction ps with
  | nil =>
    intro is ps1 rest h
    simp only [for_properties, Except.ok.injEq, Prod.mk.injEq] at h
    rw [← h.1]
  | cons q ps ih =>
    intro is ps1 rest h
    simp only [for_properties] at h
    split at h
    · rename_i q1 r1 hq
      split at h
      · rename_i ps2 r2 hps
        simp only [Except.ok.injEq, Prod.mk.injEq] at h
        rw [← h.1]
        obtain ⟨h1, h2⟩ := hload _ _ _ _ _ hq
        simp only [List.map_cons, h1, h2, ih _ _ _ hps]
      · simp at h
    · simp at h

theorem load_binary_rows_declaration
    (load : Nat → List Char → property → Except failure (property × List Char))
    (hload : ∀ i is q q1 rest, load i is q = .ok (q1, rest) →
      q1.name = q.name ∧ q1.type_name = q.type_name) :
    ∀ (rows i : Nat) (ps : List property) (is : List Char) (ps1 : List property)
      (rest : List Char), element.load_binary_rows load rows i ps is = .ok (ps1, rest) →
      ps1.map (fun q => (q.name, q.type_name)) = ps.map (fun q => (q.name, q.type_name)) := by
  intro rows
  induction rows with
  | zero =>
    intro i ps is ps1 rest h
    simp only [element.load_binary_rows, Except.ok.injEq, Prod.mk.injEq] at h
    rw [← h.1]
  | succ rows ih =>
    intro i ps is ps1 rest h
    simp only [element.load_binary_rows] at h
    split at h
    · rename_i ps2 r2 hps
      rw [ih _ _ _ _ _ h, for_properties_declaration load hload _ _ _ _ _ hps]
    · simp at h

theorem load_ascii_rows_declaration (fp : scalar_type → List Char → Option Nat) :
    ∀ (rows i : Nat) (ps : List property) (is : List Char) (n : Nat) (ps1 : List property)
      (rest : List Char) (n1 : Nat),
      element.load_ascii_rows fp rows i ps is n = (.ok (ps1, rest), n1) →
      ps1.map (fun q => (q.name, q.type_name)) = ps.map (fun q => (q.name, q.type_name)) := by
  intro rows
  induction rows with
  | zero =>
    intro i ps is n ps1 rest n1 h
    simp only [element.load_ascii_rows, Prod.mk.injEq, Except.ok.injEq] at h
    rw [← h.1.1]
  | succ rows ih =>
    intro i ps is n ps1 rest n1 h
    simp only [element.load_ascii_rows] at h
    split at h
    · simp at h
    · rename_i line r2 n2 hl
      split at h
      · simp at h
      · rename_i ps2 hrec
        rw [ih _ _ _ _ _ _ _ h]
        simp only [element.load_ascii_record] at hrec
        split at hrec
        · simp at hrec
        · rename_i ps3 tl hfp
          split at hrec
          · simp at hrec
          · simp only [Except.ok.injEq] at hrec
            rw [← hrec]
            exact for_properties_declaration _
              (fun i is q q1 rest hq => load_with_declaration _ _ i is q q1 rest hq) _ _ _ _ _ hfp

theorem element_load_binary_declaration
    (load : Nat → List Char → property → Except failure (property × List Char))
    (hload : ∀ i is q q1 rest, load i is q = .ok (q1, rest) →
      q1.name = q.name ∧ q1.type_name = q.type_name)
    (e e1 : element) (is rest : List Char)
    (h : (match element.load_binary_rows load e.count_ 0 e.properties_ is with
      | .ok (properties, rest) => .ok ({ e with properties_ := properties }, rest)
      | .error err => .error err) = (Except.ok (e1, rest) : Except failure (element × List Char))) :
    e1.declaration = e.declaration := by
  split at h
  · rename_i ps r hps
    simp only [Except.ok.injEq, Prod.mk.injEq] at h
    rw [← h.1]
    simp only [element.declaration, element.name, element.value_count,
      load_binary_rows_declaration load hload _ _ _ _ _ _ hps]
  · simp at h

theorem load_big_endian_declaration (e e1 : element) (is rest : List Char)
    (h : e.load_big_endian is = .ok (e1, rest)) : e1.declaration = e.declaration :=
  element_load_binary_declaration property.load_big_endian
    (fun i is q q1 rest hq => load_with_declaration _ _ i is q q1 rest hq) e e1 is rest h

theorem load_little_endian_declaration (e e1 : element) (is rest : List Char)
    (h : e.load_little_endian is = .ok (e1, rest)) : e1.declaration = e.declaration :=
  element_load_binary_declaration property.load_little_endian
    (fun i is q q1 rest hq => load_with_declaration _ _ i is q q1 rest hq) e e1 is rest h

theorem load_ascii_declaration (fp : scalar_type → List Char → Option Nat)
    (e e1 : element) (is rest : List Char) (n n1 : Nat)
    (h : e.load_ascii fp is n = (.ok (e1, rest), n1)) : e1.declaration = e.declaration := by
  simp only [element.load_ascii] at h
  split at h
  · rename_i ps r n2 hps
    simp only [Prod.mk.injEq, Except.ok.injEq] at h
    rw [← h.1.1]
    simp only [element.declaration, element.name, element.value_count,
      load_ascii_rows_declaration fp _ _ _ _ _ _ _ _ hps]
  · simp at h

theorem load_binary_elements_declaration
    (load : element → List Char → Except failure (element × List Char))
    (hload : ∀ e e1 is rest, load e is = .ok (e1, rest) → e1.declaration = e.declaration) :
    ∀ (es : List element) (is : List Char) (es1 : List element) (rest : List Char),
      ply.load_binary_elements load es is = .ok (es1, rest) →
      es1.map element.declaration = es.map element.declaration := by
  intro es
  induction es with
  | nil =>
    intro is es1 rest h
    simp only [ply.load_binary_elements, Except.ok.injEq, Prod.mk.injEq] at h
    rw [← h.1]
  | cons e es ih =>
    intro is es1 rest h
    simp only [ply.load_binary_elements] at h
    split at h
    · simp at h
    · rename_i e1 r1 he
      split at h
      · rename_i es2 r2 hes
        simp only [Except.ok.injEq, Prod.mk.injEq] at h
        rw [← h.1]
        simp only [List.map_cons, hload _ _ _ _ he, ih _ _ _ hes]
      · simp at h

theorem load_ascii_elements_declaration (fp : scalar_type → List Char → Option Nat) :
    ∀ (es : List element) (is : List Char) (n : Nat) (es1 : List element) (rest : List Char)
      (n1 : Nat), ply.load_ascii_elements fp es is n = (.ok (es1, rest), n1) →
      es1.map element.declaration = es.map element.declaration := by
  intro es
  induction es with
  | nil =>
    intro is n es1 rest n1 h
    simp only [ply.load_ascii_elements, Prod.mk.injEq, Except.ok.injEq] at h
    rw [← h.1.1]
  | cons e es ih =>
    intro is n es1 rest n1 h
    simp only [ply.load_ascii_elements] at h
    split at h
    · simp at h
    · rename_i e1 r1 n2 he
      split at h
      · rename_i es2 r2 n3 hes
        simp only [Prod.mk.injEq, Except.ok.injEq] at h
        rw [← h.1.1]
        simp only [List.map_cons, load_ascii_declaration fp _ _ _ _ _ _ he, ih _ _ _ _ _ hes]
      · simp at h

/-- Loading the data changes neither the file type, nor the comments, nor what the
accessors tell of the elements. -/
theorem process_data_declaration (fp : scalar_type → List Char → Option Nat)
    (p p1 : ply) (is rest : List Char) (n : Nat)
    (h : ply.process_data fp p is n = .ok (p1, rest)) :
    p1.file_type_ = p.file_type_ ∧ p1.comments_ = p.comments_ ∧
      p1.elements_.map element.declaration = p.elements_.map element.declaration := by
  simp only [ply.process_data] at h
  split at h
  · split at h
    · rename_i es r n1 hes
      simp only [Except.ok.injEq, Prod.mk.injEq] at h
      rw [← h.1]
      exact ⟨rfl, rfl, load_ascii_elements_declaration fp _ _ _ _ _ _ hes⟩
    · simp at h
  · split at h
    · rename_i es r hes
      simp only [Except.ok.injEq, Prod.mk.injEq] at h
      rw [← h.1]
      exact ⟨rfl, rfl, load_binary_elements_declaration _ load_big_endian_declaration _ _ _ _ hes⟩
    · simp at h
  · split at h
    · rename_i es r hes
      simp only [Except.ok.injEq, Prod.mk.injEq] at h
      rw [← h.1]
      exact ⟨rfl, rfl,
        load_binary_elements_declaration _ load_little_endian_declaration _ _ _ _ hes⟩
    · simp at h

theorem declared_columns_declaration (count : Nat) (lines : List header_line) :
    (declared_columns count lines).map (fun q => (q.name, q.type_name))
      = declared_properties lines := by
  induction lines with
  | nil => rfl
  | cons l lines ih =>
    cases l with
    | comment text => simpa only [declared_columns, declared_properties] using ih
    | element name count => rfl
    | property T name =>
      simp only [declared_columns, declared_properties, List.map_cons, ih]
      rfl
    | property_list C T name =>
      simp only [declared_columns, declared_properties, List.map_cons, ih]
      rfl

theorem header_elements_declaration (lines : List header_line) :
    (header_elements lines).map element.declaration = declared_elements lines := by
  induction lines with
  | nil => rfl
  | cons l lines ih =>
    cases l <;>
      simp [header_elements, declared_elements, ih, element.declaration, element.name,
        element.value_count, declared_columns_declaration]

/-- The accessors of a file whose elements have the declarations `ds`. -/
theorem accessors_of_declaration (p : ply)
    (ds : List (List Char × Nat × List (List Char × List Char)))
    (h : p.elements_.map element.declaration = ds) :
    p.element_names = ds.map (fun d => d.1) ∧
    (∀ i, p.value_count i = ds[i]?.map (fun d => d.2.1)) ∧
    (∀ i, p.property_names i = ds[i]?.map (fun d => d.2.2.map (fun q => q.1))) ∧
    (∀ i j, p.property_type_name i j =
      (ds[i]?.bind (fun d => d.2.2[j]?)).map (fun q => q.2)) := by
  subst h
  refine ⟨?_, ?_, ?_, ?_⟩
  · simp [ply.element_names, element.declaration]
  · intro i
    simp [ply.value_count, element.declaration, List.getElem?_map]
    cases p.elements_[i]? <;> rfl
  · intro i
    simp only [ply.property_names, List.getElem?_map]
    cases p.elements_[i]? with
    | none => rfl
    | some e => simp [element.declaration, element.property_names]
  · intro i j
    simp only [ply.property_type_name, List.getElem?_map]
    cases p.elements_[i]? with
    | none => rfl
    | some e =>
      simp only [element.property_type_name, Option.map_some', Option.some_bind,
        element.declaration, List.getElem?_map, Option.map_map]
      cases e.properties_[j]? <;> rfl

theorem load_header_text (fp : scalar_type → List Char → Option Nat) (type : file_type)
    (lines : List header_line) (body : List Char)
    (hwf : ∀ l ∈ lines, l.well_formed) (hfollow : properties_follow_element false lines = true) :
    ply.load fp (header_text type lines ++ body) =
      ply.process_data fp ⟨(declared_comments lines).map trim, header_elements lines, type⟩
        body (lines.length + 3) := by
  have e : header_text type lines ++ body = "ply".toList ++ '\n' ::
      ("format ".toList ++ type.name ++ " 1.0\n".toList ++
        (lines_text (lines.map header_line.text) ++ "end_header\n".toList) ++ body) := by
    simp [header_text]
  rw [e]
  simp only [ply.load, read_line, getline_append "ply".toList _ (by decide)]
  rw [if_neg (by decide)]
  simp only [process_header_declared type lines hwf hfollow body ⟨[], [], .ascii⟩ rfl,
    List.nil_append]
  congr 1
  omega

theorem load_ascii_elements_empty (fp : scalar_type → List Char → Option Nat) :
    ∀ (es : List element) (is : List Char) (n : Nat), (∀ e ∈ es, e.count_ = 0) →
      ply.load_ascii_elements fp es is n = (.ok (es, is), n) := by
  intro es
  induction es with
  | nil => intro is n _; rfl
  | cons e es ih =>
    intro is n h
    have h0 : e.count_ = 0 := h e (by simp)
    have he : e.load_ascii fp is n = (.ok (e, is), n) := by
      obtain ⟨name, count, ps⟩ := e
      simp only at h0
      subst h0
      rfl
    simp only [ply.load_ascii_elements, he, ih is n (fun x hx => h x (by simp [hx]))]

theorem load_binary_elements_empty
    (load : element → List Char → Except failure (element × List Char))
    (hload : ∀ e is, e.count_ = 0 → load e is = .ok (e, is)) :
    ∀ (es : List element) (is : List Char), (∀ e ∈ es, e.count_ = 0) →
      ply.load_binary_elements load es is = .ok (es, is) := by
  intro es
  induction es with
  | nil => intro is _; rfl
  | cons e es ih =>
    intro is h
    simp only [ply.load_binary_elements, hload e is (h e (by simp)),
      ih is (fun x hx => h x (by simp [hx]))]

theorem process_data_empty (fp : scalar_type → List Char → Option Nat) (p : ply)
    (is : List Char) (n : Nat) (h : ∀ e ∈ p.elements_, e.count_ = 0) :
    ply.process_data fp p is n = .ok (p, is) := by
  simp only [ply.process_data]
  split
  · rw [load_ascii_elements_empty fp _ _ _ h]
  · rw [load_binary_elements_empty _ (fun e is h0 => by
      obtain ⟨name, count, ps⟩ := e
      simp only at h0
      subst h0
      rfl) _ _ h]
  · rw [load_binary_elements_empty _ (fun e is h0 => by
      obtain ⟨name, count, ps⟩ := e
      simp only at h0
      subst h0
      rfl) _ _ h]

/-- C1, as the code has it. Header round trip: for a header of `ply`, the format line of any
of the three file types, declared lines (comments without line feed, elements with a name
and a count below 2^64, scalar and list properties with a name, every property behind some
element) and `end_header`, followed by any body: `ply::load` reads the header into the
declared elements, columns not yet loaded, and goes on with the data; a load that
succeeds answers `element_names`, `value_count`, `property_names` and
`property_type_name` with the declared names, counts and type names in declaration order,
and its comments are the declared comment texts without the whitespace around them, in
file order; when no element has records the load succeeds and leaves the body unread. -/
theorem C1_header_round_trip (from_chars_float : scalar_type → List Char → Option Nat)
    (type : file_type) (lines : List header_line) (body : List Char)
    (hwf : ∀ l ∈ lines, l.well_formed) (hfollow : properties_follow_element false lines = true) :
    ply.load from_chars_float (header_text type lines ++ body) =
        ply.process_data from_chars_float
          ⟨(declared_comments lines).map trim, header_elements lines, type⟩
          body (lines.length + 3) ∧
    (header_elements lines).map element.declaration = declared_elements lines ∧
    (∀ (p : ply) (rest : List Char),
      ply.load from_chars_float (header_text type lines ++ body) = .ok (p, rest) →
      p.file_type_ = type ∧
      p.comment_list = (declared_comments lines).map trim ∧
      p.element_names = (declared_elements lines).map (fun d => d.1) ∧
      (∀ i, p.value_count i = (declared_elements lines)[i]?.map (fun d => d.2.1)) ∧
      (∀ i, p.property_names i =
        (declared_elements lines)[i]?.map (fun d => d.2.2.map (fun q => q.1))) ∧
      (∀ i j, p.property_type_name i j =
        ((declared_elements lines)[i]?.bind (fun d => d.2.2[j]?)).map (fun q => q.2))) ∧
    ((∀ d ∈ declared_elements lines, d.2.1 = 0) →
      ply.load from_chars_float (header_text type lines ++ body) =
        .ok (⟨(declared_comments lines).map trim, header_elements lines, type⟩, body)) := by
  have hload := load_header_text from_chars_float type lines body hwf hfollow
  have hdecl := header_elements_declaration lines
  refine ⟨hload, hdecl, ?_, ?_⟩
  · intro p rest h
    rw [hload] at h
    obtain ⟨h1, h2, h3⟩ := process_data_declaration _ _ _ _ _ _ h
    simp only at h1 h2 h3
    rw [hdecl] at h3
    exact ⟨h1, h2, accessors_of_declaration p _ h3⟩
  · intro h0
    rw [hload]
    apply process_data_empty
    intro e he
    have : e.declaration ∈ (header_elements lines).map element.declaration :=
      List.mem_map_of_mem _ he
    rw [hdecl] at this
    exact h0 _ this

/-- C1 at a concrete file: an ASCII file with a comment, an element of two records with a
scalar and a list property, and an empty element; the load succeeds and the accessors
answer with the declaration. -/
theorem C1_header_round_trip_witness :
    ∃ p : ply,
      ply.load no_float
        (header_text .ascii
          [.comment "made by hand".toList, .element "vertex".toList 2,
            .property .int32 "x".toList, .property_list .uint8 .int16 "n".toList,
            .element "face".toList 0] ++ "7 2 1 2\n-7 0\n".toList) = .ok (p, []) ∧
      p.comment_list = ["made by hand".toList] ∧
      p.element_names = ["vertex".toList, "face".toList] ∧
      p.value_count 0 = some 2 ∧
      p.property_names 0 = some ["x".toList, "n".toList] ∧
      p.property_type_name 0 0 = some "int".toList ∧
      p.property_type_name 0 1 = some "list of short".toList := by
  have h := C1_header_round_trip no_float .ascii
    [.comment "made by hand".toList, .element "vertex".toList 2,
      .property .int32 "x".toList, .property_list .uint8 .int16 "n".toList,
      .element "face".toList 0] "7 2 1 2\n-7 0\n".toList (by decide) (by decide)
  refine ⟨⟨["made by hand".toList],
    [⟨"vertex".toList, 2,
      [.scalar .int32 "x".toList [.int 7, .int (-7)],
       .list .int16 "n".toList [[.int 1, .int 2], []] .uint8]⟩,
     ⟨"face".toList, 0, []⟩], .ascii⟩, ?_, ?_⟩
  · rw [h.1]
    decide
  · decide

/-- C1 as stated fails for a comment with blanks around its text: the line is `comment`, a
space and the text ` a `, and the comment of the loaded file is `a`. -/
theorem C1_comment_counterexample :
    (∀ l ∈ [header_line.comment " a ".toList], l.well_formed) ∧
    header_text .ascii [.comment " a ".toList]
      = "ply\nformat ascii 1.0\ncomment  a \nend_header\n".toList ∧
    declared_comments [.comment " a ".toList] = [" a ".toList] ∧
    ply.load no_float (header_text .ascii [.comment " a ".toList])
      = .ok (⟨["a".toList], [], .ascii⟩, []) ∧
    (⟨["a".toList], [], .ascii⟩ : ply).comment_list ≠ declared_comments [.comment " a ".toList] := by
  refine ⟨by decide, by decide, by decide, by decide, by decide⟩

/-! ## Lemmas on tokens -/

theorem splitOnP_takeWhile {α} (p : α → Bool) (l : List α) :
    l.splitOnP p = l.takeWhile (fun c => !p c) ::
      (match l.dropWhile (fun c => !p c) with
        | [] => []
        | _ :: r => r.splitOnP p) := by
  induction l with
  | nil => simp
  | cons x xs ih =>
    rw [List.splitOnP_cons]
    by_cases hx : p x = true
    · simp [hx]
    · simp only [hx, Bool.false_eq_true, if_false]
      rw [ih]
      simp [hx]

theorem tokens_nil : tokens [] = [] := by
  simp [tokens]

theorem tokens_cons_space (c : Char) (l : List Char) (h : isspace c = true) :
    tokens (c :: l) = tokens l := by
  simp [tokens, List.splitOnP_cons, h]

theorem tokens_cons_not_space (c : Char) (l : List Char) (h : isspace c = false) :
    tokens (c :: l) = (c :: l.takeWhile (fun c => !isspace c)) ::
      tokens (l.dropWhile (fun c => !isspace c)) := by
  simp only [tokens]
  rw [List.splitOnP_cons, splitOnP_takeWhile isspace l]
  simp only [h, Bool.false_eq_true, if_false, List.modifyHead_cons]
  rw [List.filter_cons_of_pos (by simp)]
  congr 1
  cases hd : l.dropWhile (fun c => !isspace c) with
  | nil => simp
  | cons s r =>
    have hs := head_dropWhile (fun c => !isspace c) l s (by rw [hd]; rfl)
    simp only [Bool.not_eq_false'] at hs
    simp only [List.splitOnP_cons, hs, if_true]
    rw [List.filter_cons_of_neg (by simp)]

theorem tokens_trim_left (l : List Char) : tokens (trim_left l) = tokens l := by
  induction l with
  | nil => rfl
  | cons c l ih =>
    by_cases hc : isspace c = true
    · simp only [trim_left, List.dropWhile_cons_of_pos hc, tokens_cons_space c l hc]
      exact ih
    · simp only [trim_left, List.dropWhile_cons_of_neg hc]

theorem tokens_spaces (ws : List Char) (h : ∀ c ∈ ws, isspace c = true) : tokens ws = [] := by
  induction ws with
  | nil => exact tokens_nil
  | cons c ws ih =>
    rw [tokens_cons_space c ws (h c (by simp))]
    exact ih (fun x hx => h x (by simp [hx]))

theorem takeWhile_append_spaces (l ws : List Char) (h : ∀ c ∈ ws, isspace c = true) :
    (l ++ ws).takeWhile (fun c => !isspace c) = l.takeWhile (fun c => !isspace c) := by
  induction l with
  | nil =>
    cases ws with
    | nil => rfl
    | cons w ws => simp [List.takeWhile, h w (by simp)]
  | cons x l ih =>
    by_cases hx : isspace x = true
    · simp [List.takeWhile, hx]
    · simp only [Bool.not_eq_true] at hx
      rw [List.cons_append, List.takeWhile_cons_of_pos (by simp [hx]),
        List.takeWhile_cons_of_pos (by simp [hx]), ih]

theorem dropWhile_append_spaces (l ws : List Char) (h : ∀ c ∈ ws, isspace c = true) :
    (l ++ ws).dropWhile (fun c => !isspace c) = l.dropWhile (fun c => !isspace c) ++ ws := by
  induction l with
  | nil =>
    cases ws with
    | nil => rfl
    | cons w ws => simp [List.dropWhile, h w (by simp)]
  | cons x l ih =>
    by_cases hx : isspace x = true
    · simp [List.dropWhile, hx]
    · simp only [Bool.not_eq_true] at hx
      rw [List.cons_append, List.dropWhile_cons_of_pos (by simp [hx]),
        List.dropWhile_cons_of_pos (by simp [hx]), ih]

theorem tokens_append_spaces (ws : List Char) (h : ∀ c ∈ ws, isspace c = true) :
    ∀ (k : Nat) (l : List Char), l.length ≤ k → tokens (l ++ ws) = tokens l := by
  intro k
  induction k with
  | zero =>
    intro l hl
    have : l = [] := List.length_eq_zero.mp (by omega)
    subst this
    simp [tokens_spaces ws h, tokens_nil]
  | succ k ih =>
    intro l hl
    cases l with
    | nil => simp [tokens_spaces ws h, tokens_nil]
    | cons c l =>
      by_cases hc : isspace c = true
      · rw [List.cons_append, tokens_cons_space _ _ hc, tokens_cons_space _ _ hc]
        exact ih l (by simp at hl; omega)
      · simp only [Bool.not_eq_true] at hc
        rw [List.cons_append, tokens_cons_not_space _ _ hc, tokens_cons_not_space _ _ hc,
          takeWhile_append_spaces l ws h, dropWhile_append_spaces l ws h]
        rw [ih _ (by
          have := (List.dropWhile_suffix (fun c => !isspace c) (l := l)).length_le
          simp at hl; omega)]

theorem tokens_trim_right (l : List Char) : tokens (trim_right l) = tokens l := by
  have e : l = trim_right l ++ (l.reverse.takeWhile isspace).reverse := by
    simp only [trim_right]
    rw [← List.reverse_append, List.takeWhile_append_dropWhile, List.reverse_reverse]
  have h : ∀ c ∈ (l.reverse.takeWhile isspace).reverse, isspace c = true := by
    intro c hc
    simp only [List.mem_reverse] at hc
    exact List.mem_takeWhile_imp hc
  conv_rhs => rw [e]
  exact (tokens_append_spaces _ h _ _ (le_refl _)).symm

theorem tokens_trim (l : List Char) : tokens (trim l) = tokens l := by
  rw [trim, tokens_trim_left, tokens_trim_right]

/-- A text that does not start with whitespace. -/
theorem split_front_step_tokens (t : List Char)
    (ht : ∀ c, t.head? = some c → isspace c = false) :
    (split_front_step t).1 = (tokens t).headD [] ∧
      tokens (split_front_step t).2 = (tokens t).tail ∧
      (∀ c, (split_front_step t).2.head? = some c → isspace c = false) := by
  refine ⟨?_, ?_, ?_⟩
  · cases t with
    | nil => simp [split_front_step, tokens_nil]
    | cons c l =>
      have hc := ht c rfl
      rw [tokens_cons_not_space c l hc]
      simp [split_front_step, List.takeWhile, hc]
  · cases t with
    | nil => simp [split_front_step, tokens_nil, trim_left]
    | cons c l =>
      have hc := ht c rfl
      rw [tokens_cons_not_space c l hc]
      simp only [split_front_step, tokens_trim_left, List.tail_cons]
      rw [List.dropWhile_cons_of_pos (by simp [hc])]
  · intro c hc
    simp only [split_front_step, trim_left] at hc
    have := head_dropWhile isspace _ c hc
    exact this

theorem trim_head (line : List Char) : ∀ c, (trim line).head? = some c → isspace c = false := by
  intro c hc
  exact head_dropWhile isspace _ c hc

theorem skip_slices_tokens : ∀ (n : Nat) (t : List Char),
    (∀ c, t.head? = some c → isspace c = false) →
    tokens (skip_slices n t) = (tokens t).drop n ∧
      (∀ c, (skip_slices n t).head? = some c → isspace c = false) := by
  intro n
  induction n with
  | zero => intro t ht; exact ⟨by simp [skip_slices], ht⟩
  | succ n ih =>
    intro t ht
    obtain ⟨_, h2, h3⟩ := split_front_step_tokens t ht
    obtain ⟨h4, h5⟩ := ih _ h3
    refine ⟨?_, h5⟩
    simp only [skip_slices, h4, h2]
    simp

theorem ne_nil_iff_tokens (t : List Char) (ht : ∀ c, t.head? = some c → isspace c = false) :
    t ≠ [] ↔ tokens t ≠ [] := by
  cases t with
  | nil => simp [tokens_nil]
  | cons c l =>
    rw [tokens_cons_not_space c l (ht c rfl)]
    simp

theorem load_ascii_scalar (fp : scalar_type → List Char → Option Nat) (i : Nat)
    (q : property) (hq : q.is_scalar = true) (t : List Char) :
    q.load_ascii fp i t =
      match parse_value fp q.value_type (split_front_step t).1 with
      | .ok v => .ok (q.store i (.scalar v), (split_front_step t).2)
      | .error e => .error e := by
  cases q with
  | list T name values loader => simp [property.is_scalar] at hq
  | scalar T name values =>
    simp only [property.load_ascii, property.load_with, ply.load_ascii, split_front2_eq,
      property.value_type, property.store]
    cases parse_value fp T (split_front_step t).1 <;> rfl

/-- The properties of a record, all scalar, on a line that does not start with whitespace:
the tokens are parsed in order and stored, the line goes on behind them. -/
theorem for_properties_scalar (fp : scalar_type → List Char → Option Nat) (i : Nat) :
    ∀ (props : List property), (∀ q ∈ props, q.is_scalar = true) → ∀ (t : List Char),
      (∀ c, t.head? = some c → isspace c = false) →
      for_properties (property.load_ascii fp) i props t =
        match parse_tokens fp (props.map property.value_type) (tokens t) with
        | .error e => .error e
        | .ok vs => .ok (List.zipWith (fun q v => q.store i (.scalar v)) props vs,
            skip_slices props.length t) := by
  intro props
  induction props with
  | nil => intro _ t _; rfl
  | cons q props ih =>
    intro hs t ht
    obtain ⟨h1, h2, h3⟩ := split_front_step_tokens t ht
    simp only [for_properties, load_ascii_scalar fp i q (hs q (by simp)), List.map_cons,
      parse_tokens, ← h1]
    cases hp : parse_value fp q.value_type (split_front_step t).1 with
    | error e => rfl
    | ok v =>
      simp only [ih (fun x hx => hs x (by simp [hx])) _ h3, h2]
      cases parse_tokens fp (props.map property.value_type) (tokens t).tail with
      | error e => rfl
      | ok vs => rfl

theorem parse_value_error (fp : scalar_type → List Char → Option Nat) (T : scalar_type)
    (text : List Char) (e : failure) (h : parse_value fp T text = .error e) :
    e = can_not_convert text (as_string T) := by
  simp only [parse_value] at h
  split at h
  · split at h
    · simp at h
    · simp only [Except.error.injEq] at h
      exact h.symm
  · split at h
    · simp at h
    · simp only [Except.error.injEq] at h
      exact h.symm

theorem parse_value_nil (fp : scalar_type → List Char → Option Nat)
    (hfp : ∀ T, fp T [] = none) (T : scalar_type) :
    parse_value fp T [] = .error (can_not_convert [] (as_string T)) := by
  simp only [parse_value, hfp]
  split
  · rfl
  · simp [from_chars, digit_run]

theorem can_not_convert_ne (text type_string : List Char) :
    can_not_convert text type_string ≠
      .runtime_error "data line contains more values than specified" := by
  intro h
  simp only [can_not_convert, failure.runtime_error.injEq] at h
  have h2 := congrArg String.data h
  simp at h2

theorem parse_tokens_error (fp : scalar_type → List Char → Option Nat) :
    ∀ (types : List scalar_type) (words : List (List Char)) (e : failure),
      parse_tokens fp types words = .error e →
      ∃ j T, types[j]? = some T ∧ e = can_not_convert (words.getD j []) (as_string T) := by
  intro types
  induction types with
  | nil => intro words e h; simp [parse_tokens] at h
  | cons T types ih =>
    intro words e h
    simp only [parse_tokens] at h
    split at h
    · rename_i e1 he
      simp only [Except.error.injEq] at h
      subst h
      refine ⟨0, T, by simp, ?_⟩
      rw [parse_value_error fp T _ _ he]
      cases words <;> rfl
    · split at h
      · simp at h
      · rename_i e2 he
        simp only [Except.error.injEq] at h
        subst h
        obtain ⟨j, T1, h1, h2⟩ := ih _ _ he
        refine ⟨j + 1, T1, by simpa using h1, ?_⟩
        rw [h2]
        cases words <;> simp

theorem parse_tokens_ok_length (fp : scalar_type → List Char → Option Nat)
    (hfp : ∀ T, fp T [] = none) :
    ∀ (types : List scalar_type) (words : List (List Char)) (vs : List value),
      parse_tokens fp types words = .ok vs → types.length ≤ words.length := by
  intro types
  induction types with
  | nil => intro words vs _; simp
  | cons T types ih =>
    intro words vs h
    simp only [parse_tokens] at h
    cases words with
    | nil =>
      simp only [List.headD_nil, parse_value_nil fp hfp T] at h
      simp at h
    | cons w words =>
      split at h
      · simp at h
      · split at h
        · rename_i vs1 hvs
          have := ih _ _ hvs
          simp only [List.tail_cons] at this
          simp only [List.length_cons]
          omega
        · simp at h

/-- The body of the loop of `element::load_ascii` for properties that are all scalar: the
tokens of the line are parsed one per property, and then no token may be left. -/
theorem load_ascii_record_scalar (fp : scalar_type → List Char → Option Nat) (i : Nat)
    (props : List property) (hs : ∀ q ∈ props, q.is_scalar = true) (l : List Char) :
    element.load_ascii_record fp i props l =
      (match parse_tokens fp (props.map property.value_type) (tokens l) with
        | .error e => .error e
        | .ok vs =>
          if props.length < (tokens l).length then
            .error (.runtime_error "data line contains more values than specified")
          else .ok (List.zipWith (fun q v => q.store i (.scalar v)) props vs)) := by
  simp only [element.load_ascii_record,
    for_properties_scalar fp i props hs (trim l) (trim_head l), tokens_trim]
  cases parse_tokens fp (props.map property.value_type) (tokens l) with
  | error e => rfl
  | ok vs =>
    obtain ⟨h1, h2⟩ := skip_slices_tokens props.length (trim l) (trim_head l)
    have h3 := ne_nil_iff_tokens _ h2
    rw [h1, tokens_trim] at h3
    have h4 : skip_slices props.length (trim l) ≠ [] ↔ props.length < (tokens l).length := by
      rw [h3]
      simp
    simp only [h4]

/-- C3. ASCII record decoding for an element whose properties are all scalar: the body of
the loop of `element::load_ascii` gives token `j` of the line (the empty text when the
line has fewer tokens) to property `j`, the first token that does not convert giving the
conversion error of `parse_value`; when all convert, it raises
`data line contains more values than specified` exactly when the line has more tokens than
the element has properties, and otherwise stores value `j` at record `i` of column `j`.
The outcome depends on the tokens of the line only, not on the whitespace around and
between them; a line with fewer tokens than properties raises a conversion error. -/
theorem C3_ascii_record (from_chars_float : scalar_type → List Char → Option Nat) (i : Nat)
    (props : List property) (line : List Char) (hs : ∀ q ∈ props, q.is_scalar = true) :
    element.load_ascii_record from_chars_float i props line =
      (match parse_tokens from_chars_float (props.map property.value_type) (tokens line) with
        | .error e => .error e
        | .ok vs =>
          if props.length < (tokens line).length then
            .error (.runtime_error "data line contains more values than specified")
          else .ok (List.zipWith (fun q v => q.store i (.scalar v)) props vs)) ∧
    (element.load_ascii_record from_chars_float i props line =
        .error (.runtime_error "data line contains more values than specified") ↔
      (∃ vs, parse_tokens from_chars_float (props.map property.value_type) (tokens line)
          = .ok vs) ∧ props.length < (tokens line).length) ∧
    ((∀ T, from_chars_float T [] = none) → (tokens line).length < props.length →
      ∃ j T, (props.map property.value_type)[j]? = some T ∧
        element.load_ascii_record from_chars_float i props line =
          .error (can_not_convert ((tokens line).getD j []) (as_string T))) ∧
    (∀ line2 : List Char, tokens line2 = tokens line →
      element.load_ascii_record from_chars_float i props line2 =
        element.load_ascii_record from_chars_float i props line) := by
  have key := load_ascii_record_scalar from_chars_float i props hs
  refine ⟨key line, ?_, ?_, ?_⟩
  · rw [key line]
    constructor
    · intro h
      cases hp : parse_tokens from_chars_float (props.map property.value_type) (tokens line) with
      | error e =>
        rw [hp] at h
        simp only [Except.error.injEq] at h
        obtain ⟨j, T, _, h2⟩ := parse_tokens_error _ _ _ _ hp
        rw [h2] at h
        exact absurd h (can_not_convert_ne _ _)
      | ok vs =>
        rw [hp] at h
        refine ⟨⟨vs, rfl⟩, ?_⟩
        by_contra hlt
        simp [hlt] at h
    · rintro ⟨⟨vs, hvs⟩, hlt⟩
      rw [hvs]
      simp [hlt]
  · intro hfp hlt
    rw [key line]
    cases hp : parse_tokens from_chars_float (props.map property.value_type) (tokens line) with
    | error e =>
      obtain ⟨j, T, h1, h2⟩ := parse_tokens_error _ _ _ _ hp
      exact ⟨j, T, h1, by rw [h2]⟩
    | ok vs =>
      have := parse_tokens_ok_length _ hfp _ _ _ hp
      simp only [List.length_map] at this
      omega
  · intro line2 h2
    rw [key line2, key line, h2]

/-- C3 at concrete lines, for an element with an `int` and a `uchar` property: blanks
around and between the tokens are accepted and the values are stored at record 1; a third
token is refused; a single token is not enough. -/
theorem C3_ascii_record_witness :
    element.load_ascii_record no_float 1
        [.scalar .int32 "x".toList [.int 0, .int 0], .scalar .uint8 "c".toList [.int 0, .int 0]]
        "  -5 \t 200\r".toList =
      .ok [.scalar .int32 "x".toList [.int 0, .int (-5)],
        .scalar .uint8 "c".toList [.int 0, .int 200]] ∧
    element.load_ascii_record no_float 1
        [.scalar .int32 "x".toList [.int 0, .int 0], .scalar .uint8 "c".toList [.int 0, .int 0]]
        "-5 200 7".toList =
      .error (.runtime_error "data line contains more values than specified") ∧
    element.load_ascii_record no_float 1
        [.scalar .int32 "x".toList [.int 0, .int 0], .scalar .uint8 "c".toList [.int 0, .int 0]]
        "-5".toList =
      .error (.runtime_error "Can not convert \"\" to uchar") :=
  ⟨((C3_ascii_record no_float 1 _ "  -5 \t 200\r".toList (by decide)).1).trans (by decide),
   ((C3_ascii_record no_float 1 _ "-5 200 7".toList (by decide)).2.1).2
     ⟨⟨[.int (-5), .int 200], by decide⟩, by decide⟩,
   ((C3_ascii_record no_float 1 _ "-5".toList (by decide)).1).trans (by decide)⟩

/-! ## Loading is reading, then storing -/

theorem read_values_length (load : List Char → Except failure (value × List Char)) :
    ∀ (n : Nat) (is : List Char) (vs : List value) (rest : List Char),
      read_values load n is = .ok (vs, rest) → vs.length = n := by
  intro n
  induction n with
  | zero =>
    intro is vs rest h
    simp only [read_values, Except.ok.injEq, Prod.mk.injEq] at h
    rw [← h.1]; rfl
  | succ n ih =>
    intro is vs rest h
    simp only [read_values] at h
    split at h
    · split at h
      · rename_i vs1 r2 hvs
        simp only [Except.ok.injEq, Prod.mk.injEq] at h
        rw [← h.1, List.length_cons, ih _ _ _ hvs]
      · simp at h
    · simp at h

theorem push_back_loop_eq (load : List Char → Except failure (value × List Char)) :
    ∀ (n : Nat) (row : List value) (is : List Char),
      push_back_loop load n row is =
        match read_values load n is with
        | .ok (vs, rest) => .ok (row ++ vs, rest)
        | .error e => .error e := by
  intro n
  induction n with
  | zero => intro row is; simp [push_back_loop, read_values]
  | succ n ih =>
    intro row is
    simp only [push_back_loop, read_values]
    cases load is with
    | error e => rfl
    | ok vr =>
      obtain ⟨v, r⟩ := vr
      simp only [ih]
      cases read_values load n r with
      | error e => rfl
      | ok vr2 => simp

theorem load_with_eq (load : scalar_type → List Char → Except failure (value × List Char))
    (load_count : scalar_type → List Char → Except failure (Nat × List Char))
    (i : Nat) (is : List Char) (q : property) :
    q.load_with load load_count i is =
      match read_entry load load_count is q with
      | .ok (en, rest) => .ok (q.store i en, rest)
      | .error e => .error e := by
  cases q with
  | scalar T name values =>
    simp only [property.load_with, read_entry]
    cases load T is with
    | error e => rfl
    | ok vr => rfl
  | list T name values loader =>
    simp only [property.load_with, read_entry, read_count, push_back_loop_eq]
    cases load_count loader is with
    | error e => rfl
    | ok cr =>
      obtain ⟨c, r⟩ := cr
      simp only
      cases reserve T c with
      | error e => rfl
      | ok u =>
        simp only
        cases read_values (load T) c r with
        | error e => rfl
        | ok vr => rfl

theorem for_properties_eq (load : scalar_type → List Char → Except failure (value × List Char))
    (load_count : scalar_type → List Char → Except failure (Nat × List Char))
    (f : Nat → List Char → property → Except failure (property × List Char))
    (hf : ∀ i is q, f i is q = q.load_with load load_count i is) (i : Nat) :
    ∀ (qs : List property) (is : List Char),
      for_properties f i qs is =
        match read_record load load_count qs is with
        | .ok (record, rest) => .ok (store_record i record qs, rest)
        | .error e => .error e := by
  intro qs
  induction qs with
  | nil => intro is; rfl
  | cons q qs ih =>
    intro is
    simp only [for_properties, read_record, hf, load_with_eq]
    cases read_entry load load_count is q with
    | error e => rfl
    | ok er =>
      obtain ⟨en, r⟩ := er
      simp only [ih]
      cases read_record load load_count qs r with
      | error e => rfl
      | ok rr => rfl

theorem read_entry_store (load : scalar_type → List Char → Except failure (value × List Char))
    (load_count : scalar_type → List Char → Except failure (Nat × List Char))
    (is : List Char) (i : Nat) (en : entry) (q : property) :
    read_entry load load_count is (q.store i en) = read_entry load load_count is q := by
  cases q <;> cases en <;> rfl

theorem read_record_store (load : scalar_type → List Char → Except failure (value × List Char))
    (load_count : scalar_type → List Char → Except failure (Nat × List Char)) (i : Nat) :
    ∀ (qs : List property) (record : List entry), record.length = qs.length →
      ∀ is, read_record load load_count (store_record i record qs) is =
        read_record load load_count qs is := by
  intro qs
  induction qs with
  | nil => intro record h is; cases record <;> rfl
  | cons q qs ih =>
    intro record h is
    cases record with
    | nil => simp at h
    | cons en record =>
      simp only [store_record, List.zipWith_cons_cons, read_record, read_entry_store]
      cases read_entry load load_count is q with
      | error e => rfl
      | ok er =>
        obtain ⟨en1, r⟩ := er
        have := ih record (by simpa using h) r
        simp only [store_record] at this
        simp only [this]

theorem read_record_length (load : scalar_type → List Char → Except failure (value × List Char))
    (load_count : scalar_type → List Char → Except failure (Nat × List Char)) :
    ∀ (qs : List property) (is : List Char) (record : List entry) (rest : List Char),
      read_record load load_count qs is = .ok (record, rest) → record.length = qs.length := by
  intro qs
  induction qs with
  | nil =>
    intro is record rest h
    simp only [read_record, Except.ok.injEq, Prod.mk.injEq] at h
    rw [← h.1]
    rfl
  | cons q qs ih =>
    intro is record rest h
    simp only [read_record] at h
    split at h
    · split at h
      · rename_i ens r2 hens
        simp only [Except.ok.injEq, Prod.mk.injEq] at h
        rw [← h.1, List.length_cons, List.length_cons, ih _ _ _ hens]
      · simp at h
    · simp at h

theorem read_table_congr (load : scalar_type → List Char → Except failure (value × List Char))
    (load_count : scalar_type → List Char → Except failure (Nat × List Char))
    (qs qs1 : List property)
    (h : ∀ is, read_record load load_count qs1 is = read_record load load_count qs is) :
    ∀ (rows : Nat) (is : List Char),
      read_table load load_count qs1 rows is = read_table load load_count qs rows is := by
  intro rows
  induction rows with
  | zero => intro is; rfl
  | succ rows ih =>
    intro is
    simp only [read_table, h, ih]

theorem load_binary_rows_eq
    (load : scalar_type → List Char → Except failure (value × List Char))
    (load_count : scalar_type → List Char → Except failure (Nat × List Char))
    (f : Nat → List Char → property → Except failure (property × List Char))
    (hf : ∀ i is q, f i is q = q.load_with load load_count i is) :
    ∀ (rows i : Nat) (qs : List property) (is : List Char),
      element.load_binary_rows f rows i qs is =
        match read_table load load_count qs rows is with
        | .ok (table, rest) => .ok (store_table i table qs, rest)
        | .error e => .error e := by
  intro rows
  induction rows with
  | zero => intro i qs is; rfl
  | succ rows ih =>
    intro i qs is
    simp only [element.load_binary_rows, read_table, for_properties_eq load load_count f hf]
    cases hr : read_record load load_count qs is with
    | error e => rfl
    | ok rr =>
      obtain ⟨record, r⟩ := rr
      simp only [ih]
      rw [read_table_congr load load_count qs (store_record i record qs)
        (read_record_store load load_count i qs record (read_record_length _ _ _ _ _ _ hr))]
      cases read_table load load_count qs rows r with
      | error e => rfl
      | ok tr => rfl

theorem store_record_length (i : Nat) (record : List entry) (qs : List property)
    (h : record.length = qs.length) : (store_record i record qs).length = qs.length := by
  simp [store_record, h]

theorem store_table_getElem : ∀ (table : List (List entry)) (i : Nat) (qs : List property)
    (j : Nat), (∀ record ∈ table, record.length = qs.length) →
    (store_table i table qs)[j]? = (qs[j]?).map (store_column i (column_entries j table)) := by
  intro table
  induction table with
  | nil =>
    intro i qs j _
    simp only [store_table, column_entries, List.filterMap_nil]
    cases qs[j]? <;> rfl
  | cons record table ih =>
    intro i qs j h
    have hr : record.length = qs.length := h record (by simp)
    simp only [store_table]
    rw [ih (i + 1) (store_record i record qs) j (fun r hr1 => by
      rw [store_record_length i record qs hr]; exact h r (by simp [hr1]))]
    simp only [store_record, List.getElem?_zipWith, column_entries, List.filterMap_cons]
    by_cases hj : j < qs.length
    · have h1 : j < record.length := by omega
      simp only [List.getElem?_eq_getElem hj, List.getElem?_eq_getElem h1, Option.map_some',
        store_column]
    · have h1 : ¬ j < record.length := by omega
      simp only [List.getElem?_eq_none (Nat.not_lt.mp hj), List.getElem?_eq_none (Nat.not_lt.mp h1),
        Option.map_none']

theorem store_column_scalar (T : scalar_type) (name : List Char) (z : value) :
    ∀ (vs done : List value),
      store_column done.length (vs.map entry.scalar)
          (.scalar T name (done ++ List.replicate vs.length z)) =
        .scalar T name (done ++ vs) := by
  intro vs
  induction vs with
  | nil => intro done; simp [store_column]
  | cons v vs ih =>
    intro done
    simp only [List.map_cons, store_column, property.store, List.length_cons,
      List.replicate_succ]
    have e : (done ++ z :: List.replicate vs.length z).set done.length v
        = (done ++ [v]) ++ List.replicate vs.length z := by
      rw [List.set_append_right _ _ (le_refl _)]
      simp
    rw [e]
    have := ih (done ++ [v])
    simp only [List.length_append, List.length_singleton, List.append_assoc,
      List.singleton_append] at this
    simp only [List.append_assoc, List.singleton_append]
    exact this

theorem store_column_list (T : scalar_type) (name : List Char) (loader : scalar_type) :
    ∀ (ens : List entry) (done : List (List value)),
      (∀ en ∈ ens, ∃ c row, en = entry.list c row) →
      store_column done.length ens
          (.list T name (done ++ List.replicate ens.length []) loader) =
        .list T name (done ++ ens.map entry.values) loader := by
  intro ens
  induction ens with
  | nil => intro done _; simp [store_column]
  | cons en ens ih =>
    intro done h
    obtain ⟨c, row, rfl⟩ := h en (by simp)
    simp only [List.map_cons, store_column, property.store, List.length_cons,
      List.replicate_succ, entry.values]
    have e0 : (done ++ [] :: List.replicate ens.length []).getD done.length [] = [] := by
      rw [List.getD_eq_getElem?_getD, List.getElem?_append_right (le_refl _)]
      simp
    have e : (done ++ [] :: List.replicate ens.length []).set done.length
        ((done ++ [] :: List.replicate ens.length []).getD done.length [] ++ row)
        = (done ++ [row]) ++ List.replicate ens.length [] := by
      rw [e0, List.set_append_right _ _ (le_refl _)]
      simp
    rw [e]
    have := ih (done ++ [row]) (fun x hx => h x (by simp [hx]))
    simp only [List.length_append, List.length_singleton, List.append_assoc,
      List.singleton_append] at this
    simp only [List.append_assoc, List.singleton_append]
    exact this

theorem reserve_ok (T : scalar_type) (count : Nat) (h : count ≤ vector_max_size T) :
    reserve T count = .ok () := by
  unfold reserve
  rw [if_neg (by omega)]

theorem reserve_cases (T : scalar_type) (count : Nat) :
    (count ≤ vector_max_size T ∧ reserve T count = .ok ()) ∨
      (vector_max_size T < count ∧ reserve T count = .error (.length_error "vector::reserve")) := by
  unfold reserve
  by_cases h : vector_max_size T < count
  · rw [if_pos h]
    exact Or.inr ⟨h, rfl⟩
  · rw [if_neg h]
    exact Or.inl ⟨by omega, rfl⟩

/-- A count that is read is a count that the loader returns and that `reserve` accepts. -/
theorem read_count_ok (load_count : scalar_type → List Char → Except failure (Nat × List Char))
    (T loader : scalar_type) (is : List Char) (count : Nat) (rest : List Char)
    (h : read_count load_count T loader is = .ok (count, rest)) :
    load_count loader is = .ok (count, rest) ∧ count ≤ vector_max_size T := by
  unfold read_count at h
  split at h
  · rename_i c r hc
    rcases reserve_cases T c with ⟨h1, h2⟩ | ⟨h1, h2⟩
    · rw [h2] at h
      simp only [Except.ok.injEq, Prod.mk.injEq] at h
      rw [← h.1, ← h.2]
      exact ⟨hc, h1⟩
    · rw [h2] at h
      simp at h
  · simp at h

theorem read_count_eq (load_count : scalar_type → List Char → Except failure (Nat × List Char))
    (T loader : scalar_type) (is : List Char) (count : Nat) (rest : List Char)
    (h1 : load_count loader is = .ok (count, rest)) (h2 : count ≤ vector_max_size T) :
    read_count load_count T loader is = .ok (count, rest) := by
  unfold read_count
  rw [h1]
  simp only [reserve_ok T count h2]

theorem read_entry_list_count
    (load : scalar_type → List Char → Except failure (value × List Char))
    (load_count : scalar_type → List Char → Except failure (Nat × List Char))
    (is : List Char) (T : scalar_type) (name : List Char) (values : List (List value))
    (loader : scalar_type) (en : entry) (rest : List Char)
    (h : read_entry load load_count is (.list T name values loader) = .ok (en, rest)) :
    ∃ count rest1 row, read_count load_count T loader is = .ok (count, rest1) ∧
      read_values (load T) count rest1 = .ok (row, rest) ∧ en = .list count row ∧
      row.length = count := by
  simp only [read_entry] at h
  split at h
  · rename_i count r1 hc
    split at h
    · rename_i row r2 hr
      simp only [Except.ok.injEq, Prod.mk.injEq] at h
      exact ⟨count, r1, row, hc, by rw [hr, h.2], h.1.symm, read_values_length _ _ _ _ _ hr⟩
    · simp at h
  · simp at h

theorem read_entry_list (load : scalar_type → List Char → Except failure (value × List Char))
    (load_count : scalar_type → List Char → Except failure (Nat × List Char))
    (is : List Char) (T : scalar_type) (name : List Char) (values : List (List value))
    (loader : scalar_type) (en : entry) (rest : List Char)
    (h : read_entry load load_count is (.list T name values loader) = .ok (en, rest)) :
    ∃ count rest1 row, load_count loader is = .ok (count, rest1) ∧
      read_values (load T) count rest1 = .ok (row, rest) ∧ en = .list count row ∧
      row.length = count := by
  obtain ⟨count, rest1, row, h1, h2, h3, h4⟩ := read_entry_list_count _ _ _ _ _ _ _ _ _ h
  exact ⟨count, rest1, row, (read_count_ok _ _ _ _ _ _ h1).1, h2, h3, h4⟩

theorem read_entry_scalar (load : scalar_type → List Char → Except failure (value × List Char))
    (load_count : scalar_type → List Char → Except failure (Nat × List Char))
    (is : List Char) (T : scalar_type) (name : List Char) (values : List value)
    (en : entry) (rest : List Char)
    (h : read_entry load load_count is (.scalar T name values) = .ok (en, rest)) :
    ∃ v, load T is = .ok (v, rest) ∧ en = .scalar v := by
  simp only [read_entry] at h
  split at h
  · rename_i v r hv
    simp only [Except.ok.injEq, Prod.mk.injEq] at h
    exact ⟨v, by rw [hv, h.2], h.1.symm⟩
  · simp at h

/-- The entries of a record that was read: entry `j` is the one read for property `j`,
where the entries before it end. -/
theorem read_record_get (load : scalar_type → List Char → Except failure (value × List Char))
    (load_count : scalar_type → List Char → Except failure (Nat × List Char)) :
    ∀ (qs : List property) (is : List Char) (record : List entry) (rest : List Char),
      read_record load load_count qs is = .ok (record, rest) →
      ∀ (j : Nat) (q : property), qs[j]? = some q →
        ∃ en is1 rest1, record[j]? = some en ∧
          read_record load load_count (qs.take j) is = .ok (record.take j, is1) ∧
          read_entry load load_count is1 q = .ok (en, rest1) := by
  intro qs
  induction qs with
  | nil => intro is record rest _ j q hq; simp at hq
  | cons q0 qs ih =>
    intro is record rest h j q hq
    simp only [read_record] at h
    split at h
    · rename_i en0 r0 hen
      split at h
      · rename_i ens r2 hens
        simp only [Except.ok.injEq, Prod.mk.injEq] at h
        obtain ⟨h1, _⟩ := h
        subst h1
        cases j with
        | zero =>
          simp only [List.getElem?_cons_zero, Option.some.injEq] at hq
          subst hq
          exact ⟨en0, is, r0, by simp, rfl, hen⟩
        | succ j =>
          simp only [List.getElem?_cons_succ] at hq
          obtain ⟨en, is1, rest1, h1, h2, h3⟩ := ih _ _ _ hens j q hq
          refine ⟨en, is1, rest1, by simpa using h1, ?_, h3⟩
          simp only [List.take_succ_cons, read_record, hen, h2]
      · simp at h
    · simp at h

/-- The records of a table that was read: there are `rows` of them, and record `k` is the
one read where the records before it end. -/
theorem read_table_get (load : scalar_type → List Char → Except failure (value × List Char))
    (load_count : scalar_type → List Char → Except failure (Nat × List Char))
    (qs : List property) :
    ∀ (rows : Nat) (is : List Char) (table : List (List entry)) (rest : List Char),
      read_table load load_count qs rows is = .ok (table, rest) →
      table.length = rows ∧
      ∀ k, k < rows → ∃ record is1 rest1, table[k]? = some record ∧
        read_table load load_count qs k is = .ok (table.take k, is1) ∧
        read_record load load_count qs is1 = .ok (record, rest1) := by
  intro rows
  induction rows with
  | zero =>
    intro is table rest h
    simp only [read_table, Except.ok.injEq, Prod.mk.injEq] at h
    rw [← h.1]
    exact ⟨rfl, fun k hk => absurd hk (by omega)⟩
  | succ rows ih =>
    intro is table rest h
    simp only [read_table] at h
    split at h
    · rename_i record0 r0 hrec
      split at h
      · rename_i tbl r2 htbl
        simp only [Except.ok.injEq, Prod.mk.injEq] at h
        obtain ⟨h1, _⟩ := h
        subst h1
        obtain ⟨hl, hk⟩ := ih _ _ _ htbl
        refine ⟨by simp [hl], ?_⟩
        intro k hklt
        cases k with
        | zero => exact ⟨record0, is, r0, by simp, rfl, hrec⟩
        | succ k =>
          obtain ⟨record, is1, rest1, h1, h2, h3⟩ := hk k (by omega)
          refine ⟨record, is1, rest1, by simpa using h1, ?_, h3⟩
          simp only [List.take_succ_cons, read_table, hrec, h2]
      · simp at h
    · simp at h

theorem load_ascii_record_eq (fp : scalar_type → List Char → Option Nat) (i : Nat)
    (qs : List property) (line : List Char) :
    element.load_ascii_record fp i qs line =
      match read_record (load_ascii fp) (list_count_loader.load_ascii fp) qs (trim line) with
      | .error e => .error e
      | .ok (record, left) =>
        if left ≠ [] then
          .error (.runtime_error "data line contains more values than specified")
        else .ok (store_record i record qs) := by
  simp only [element.load_ascii_record,
    for_properties_eq (load_ascii fp) (list_count_loader.load_ascii fp)
      (property.load_ascii fp) (fun i is q => rfl)]
  cases read_record (load_ascii fp) (list_count_loader.load_ascii fp) qs (trim line) with
  | error e => rfl
  | ok rr => rfl

theorem read_lines_congr (fp : scalar_type → List Char → Option Nat) (qs qs1 : List property)
    (h : ∀ is, read_record (load_ascii fp) (list_count_loader.load_ascii fp) qs1 is =
      read_record (load_ascii fp) (list_count_loader.load_ascii fp) qs is) :
    ∀ (rows : Nat) (is : List Char), read_lines fp qs1 rows is = read_lines fp qs rows is := by
  intro rows
  induction rows with
  | zero => intro is; rfl
  | succ rows ih =>
    intro is
    simp only [read_lines, h, ih]

theorem load_ascii_rows_eq (fp : scalar_type → List Char → Option Nat) :
    ∀ (rows i : Nat) (qs : List property) (is : List Char) (n : Nat),
      (element.load_ascii_rows fp rows i qs is n).1 =
        match read_lines fp qs rows is with
        | .ok (table, rest) => .ok (store_table i table qs, rest)
        | .error e => .error e := by
  intro rows
  induction rows with
  | zero => intro i qs is n; rfl
  | succ rows ih =>
    intro i qs is n
    simp only [element.load_ascii_rows, read_line, read_lines]
    cases getline is with
    | none => rfl
    | some lr =>
      obtain ⟨line, r⟩ := lr
      simp only [load_ascii_record_eq]
      cases hr : read_record (load_ascii fp) (list_count_loader.load_ascii fp) qs (trim line) with
      | error e => rfl
      | ok rl =>
        obtain ⟨record, left⟩ := rl
        simp only
        by_cases hl : left = []
        · simp only [hl, ne_eq, not_true_eq_false, if_false, ih]
          rw [read_lines_congr fp qs (store_record i record qs)
            (read_record_store _ _ i qs record (read_record_length _ _ _ _ _ _ hr))]
          cases read_lines fp qs rows r with
          | error e => rfl
          | ok tr => rfl
        · simp only [ne_eq, hl, not_false_eq_true, if_true]

/-- Every record of the table is a record read for the properties somewhere in the input. -/
theorem read_table_records (load : scalar_type → List Char → Except failure (value × List Char))
    (load_count : scalar_type → List Char → Except failure (Nat × List Char))
    (qs : List property) :
    ∀ (rows : Nat) (is : List Char) (table : List (List entry)) (rest : List Char),
      read_table load load_count qs rows is = .ok (table, rest) →
      table.length = rows ∧ ∀ record ∈ table, ∃ is1 rest1,
        read_record load load_count qs is1 = .ok (record, rest1) := by
  intro rows is table rest h
  obtain ⟨h1, h2⟩ := read_table_get load load_count qs rows is table rest h
  refine ⟨h1, ?_⟩
  intro record hrec
  obtain ⟨k, hk, hkr⟩ := List.getElem_of_mem hrec
  obtain ⟨record1, is1, rest1, e1, _, e3⟩ := h2 k (by omega)
  rw [List.getElem?_eq_getElem hk, hkr] at e1
  simp only [Option.some.injEq] at e1
  subst e1
  exact ⟨is1, rest1, e3⟩

theorem read_lines_records (fp : scalar_type → List Char → Option Nat) (qs : List property) :
    ∀ (rows : Nat) (is : List Char) (table : List (List entry)) (rest : List Char),
      read_lines fp qs rows is = .ok (table, rest) →
      table.length = rows ∧ ∀ record ∈ table, ∃ is1 rest1,
        read_record (load_ascii fp) (list_count_loader.load_ascii fp) qs is1
          = .ok (record, rest1) := by
  intro rows
  induction rows with
  | zero =>
    intro is table rest h
    simp only [read_lines, Except.ok.injEq, Prod.mk.injEq] at h
    rw [← h.1]
    exact ⟨rfl, fun r hr => absurd hr (by simp)⟩
  | succ rows ih =>
    intro is table rest h
    simp only [read_lines] at h
    split at h
    · simp at h
    · rename_i line r hg
      split at h
      · simp at h
      · rename_i record left hrec
        split at h
        · simp at h
        · split at h
          · rename_i tbl r2 htbl
            simp only [Except.ok.injEq, Prod.mk.injEq] at h
            obtain ⟨h1, _⟩ := h
            subst h1
            obtain ⟨hl, hr⟩ := ih _ _ _ htbl
            refine ⟨by simp [hl], ?_⟩
            intro rec hmem
            simp only [List.mem_cons] at hmem
            rcases hmem with h0 | h0
            · subst h0
              exact ⟨_, _, hrec⟩
            · exact hr rec h0
          · simp at h

theorem column_entries_get (j : Nat) : ∀ (table : List (List entry)),
    (∀ record ∈ table, j < record.length) →
    (column_entries j table).length = table.length ∧
      ∀ k : Nat, (column_entries j table)[k]? =
        table[k]?.bind (fun (record : List entry) => record[j]?) := by
  intro table
  induction table with
  | nil => intro _; exact ⟨rfl, fun k => by simp [column_entries]⟩
  | cons record table ih =>
    intro h
    have hj : j < record.length := h record (by simp)
    obtain ⟨h1, h2⟩ := ih (fun r hr => h r (by simp [hr]))
    have e : column_entries j (record :: table) = record[j] :: column_entries j table := by
      simp only [column_entries, List.filterMap_cons, List.getElem?_eq_getElem hj]
    rw [e]
    refine ⟨by simp [h1], ?_⟩
    intro k
    cases k with
    | zero => simp [List.getElem?_eq_getElem hj]
    | succ k => simpa using h2 k

theorem store_is_scalar (i : Nat) (en : entry) (q : property) :
    (q.store i en).is_scalar = q.is_scalar := by
  cases q <;> cases en <;> rfl

theorem store_column_is_scalar : ∀ (ens : List entry) (i : Nat) (q : property),
    (store_column i ens q).is_scalar = q.is_scalar := by
  intro ens
  induction ens with
  | nil => intro i q; rfl
  | cons en ens ih =>
    intro i q
    simp only [store_column, ih, store_is_scalar]

/-- A table read for properties as the header leaves them, once stored, has its rows in
the list properties. -/
theorem rows_as_read_of_table
    (load : scalar_type → List Char → Except failure (value × List Char))
    (load_count : scalar_type → List Char → Except failure (Nat × List Char))
    (count : Nat) (qs : List property) (table : List (List entry))
    (hfresh : ∀ q ∈ qs, q.is_fresh count) (hlen : table.length = count)
    (hrec : ∀ record ∈ table, ∃ is1 rest1,
      read_record load load_count qs is1 = .ok (record, rest1)) :
    rows_as_read count (store_table 0 table qs) table := by
  have hrl : ∀ record ∈ table, record.length = qs.length := by
    intro record hr
    obtain ⟨is1, rest1, h⟩ := hrec record hr
    exact read_record_length _ _ _ _ _ _ h
  refine ⟨hlen, ?_⟩
  intro j T name values loader hj
  rw [store_table_getElem table 0 qs j hrl] at hj
  cases hq : qs[j]? with
  | none => rw [hq] at hj; simp at hj
  | some q =>
    rw [hq] at hj
    simp only [Option.map_some', Option.some.injEq] at hj
    have hjlt : j < qs.length := by
      by_contra hn
      rw [List.getElem?_eq_none (Nat.not_lt.mp hn)] at hq
      simp at hq
    have hcol := column_entries_get j table (fun r hr => by rw [hrl r hr]; exact hjlt)
    have hqmem : q ∈ qs := List.getElem?_mem hq
    have hkind : (store_column 0 (column_entries j table) q).is_scalar = false := by
      rw [hj]; rfl
    rw [store_column_is_scalar] at hkind
    cases q with
    | scalar T1 name1 values1 => simp [property.is_scalar] at hkind
    | list T1 name1 values1 loader1 =>
      have hf := hfresh _ hqmem
      simp only [property.is_fresh] at hf
      have hlist : ∀ en ∈ column_entries j table, ∃ c row, en = entry.list c row ∧
          row.length = c := by
        intro en hen
        simp only [column_entries, List.mem_filterMap] at hen
        obtain ⟨record, hr, hrj⟩ := hen
        obtain ⟨is1, rest1, hread⟩ := hrec record hr
        obtain ⟨en1, is2, rest2, h1, _, h3⟩ := read_record_get _ _ _ _ _ _ hread j _ hq
        rw [hrj] at h1
        simp only [Option.some.injEq] at h1
        subst h1
        obtain ⟨c, _, row, _, _, h6, h7⟩ := read_entry_list _ _ _ _ _ _ _ _ _ h3
        exact ⟨c, row, h6, h7⟩
      have hsc := store_column_list T1 name1 loader1 (column_entries j table) []
        (fun en hen => by
          obtain ⟨c, row, h1, _⟩ := hlist en hen
          exact ⟨c, row, h1⟩)
      simp only [List.length_nil, List.nil_append, hcol.1, hlen] at hsc
      rw [hf, hsc] at hj
      simp only [property.list.injEq] at hj
      obtain ⟨_, _, hv, _⟩ := hj
      subst hv
      refine ⟨by simp [hcol.1, hlen], ?_⟩
      intro k hk
      have hk2 : k < (column_entries j table).length := by rw [hcol.1, hlen]; exact hk
      obtain ⟨c, row, h1, h2⟩ := hlist _ (List.getElem_mem hk2)
      refine ⟨c, row, ?_, ?_, h2⟩
      · rw [← hcol.2 k, List.getElem?_eq_getElem hk2, h1]
      · rw [List.getElem?_map, List.getElem?_eq_getElem hk2, h1]
        rfl

theorem list_load_with (load : scalar_type → List Char → Except failure (value × List Char))
    (load_count : scalar_type → List Char → Except failure (Nat × List Char))
    (T loader : scalar_type) (name : List Char) (values : List (List value)) (i : Nat)
    (is : List Char) :
    (property.list T name values loader).load_with load load_count i is =
      match load_count loader is with
      | .error e => .error e
      | .ok (count, rest) =>
        match reserve T count with
        | .error e => .error e
        | .ok _ =>
          match read_values (load T) count rest with
          | .error e => .error e
          | .ok (row, rest2) =>
            .ok (.list T name (values.set i (values.getD i [] ++ row)) loader, rest2) := by
  simp only [property.load_with, push_back_loop_eq]
  cases load_count loader is with
  | error e => rfl
  | ok cr =>
    obtain ⟨c, r⟩ := cr
    simp only
    cases reserve T c with
    | error e => rfl
    | ok u =>
      simp only
      cases read_values (load T) c r with
      | error e => rfl
      | ok vr => rfl

theorem element_load_binary_rows_as_read
    (load : scalar_type → List Char → Except failure (value × List Char))
    (load_count : scalar_type → List Char → Except failure (Nat × List Char))
    (f : Nat → List Char → property → Except failure (property × List Char))
    (hf : ∀ i is q, f i is q = q.load_with load load_count i is)
    (e : element) (hfresh : ∀ q ∈ e.properties_, q.is_fresh e.count_)
    (is : List Char) (e1 : element) (rest : List Char)
    (h : (match element.load_binary_rows f e.count_ 0 e.properties_ is with
      | .ok (properties, rest) => .ok ({ e with properties_ := properties }, rest)
      | .error err => .error err) = (Except.ok (e1, rest) : Except failure (element × List Char))) :
    ∃ table, read_table load load_count e.properties_ e.count_ is = .ok (table, rest) ∧
      e1 = { e with properties_ := store_table 0 table e.properties_ } ∧
      rows_as_read e.count_ e1.properties_ table := by
  rw [load_binary_rows_eq load load_count f hf] at h
  cases ht : read_table load load_count e.properties_ e.count_ is with
  | error err => rw [ht] at h; simp at h
  | ok tr =>
    obtain ⟨table, r⟩ := tr
    rw [ht] at h
    simp only [Except.ok.injEq, Prod.mk.injEq] at h
    obtain ⟨h1, h2⟩ := h
    subst h1 h2
    obtain ⟨hl, hr⟩ := read_table_records load load_count _ _ _ _ _ ht
    exact ⟨table, rfl, rfl, rows_as_read_of_table load load_count _ _ _ hfresh hl hr⟩

theorem element_load_ascii_rows_as_read (fp : scalar_type → List Char → Option Nat)
    (e : element) (hfresh : ∀ q ∈ e.properties_, q.is_fresh e.count_)
    (is : List Char) (n : Nat) (e1 : element) (rest : List Char) (n1 : Nat)
    (h : e.load_ascii fp is n = (.ok (e1, rest), n1)) :
    ∃ table, read_lines fp e.properties_ e.count_ is = .ok (table, rest) ∧
      e1 = { e with properties_ := store_table 0 table e.properties_ } ∧
      rows_as_read e.count_ e1.properties_ table := by
  have h1 := load_ascii_rows_eq fp e.count_ 0 e.properties_ is n
  simp only [element.load_ascii] at h
  cases hrows : element.load_ascii_rows fp e.count_ 0 e.properties_ is n with
  | mk res n2 =>
    rw [hrows] at h h1
    simp only at h1
    cases res with
    | error err => simp at h
    | ok pr =>
      obtain ⟨ps, r⟩ := pr
      simp only [Prod.mk.injEq, Except.ok.injEq] at h
      obtain ⟨⟨h2, h3⟩, _⟩ := h
      subst h2 h3
      cases ht : read_lines fp e.properties_ e.count_ is with
      | error err => rw [ht] at h1; simp at h1
      | ok tr =>
        obtain ⟨table, r2⟩ := tr
        rw [ht] at h1
        simp only [Except.ok.injEq, Prod.mk.injEq] at h1
        obtain ⟨h4, h5⟩ := h1
        subst h4 h5
        obtain ⟨hl, hr⟩ := read_lines_records fp _ _ _ _ _ ht
        exact ⟨table, rfl, rfl,
          rows_as_read_of_table (load_ascii fp) (list_count_loader.load_ascii fp) _ _ _
            hfresh hl hr⟩

/-- C4. List-count fidelity. A list property loads a row, in ASCII, big-endian and
little-endian alike, by reading the count with its count loader, reserving the memory
for `count` entries, which fails for a count above the greatest size of a vector, and
then pushing the next `count` values of the input, in order, to the row; so the row gets
exactly `count` entries. For an element as the header leaves it (every row empty) whose load succeeds, in
any of the three encodings, the input holds a table of entries, read in record order and
property order, and row `k` of every list property is the row read for record `k`, with
as many entries as the count read for it. -/
theorem C4_list_count_fidelity (from_chars_float : scalar_type → List Char → Option Nat) :
    (∀ (T loader : scalar_type) (name : List Char) (values : List (List value)) (i : Nat)
        (is : List Char),
      (property.list T name values loader).load_ascii from_chars_float i is =
        (match list_count_loader.load_ascii from_chars_float loader is with
          | .error e => .error e
          | .ok (count, rest) =>
            match reserve T count with
            | .error e => .error e
            | .ok _ =>
              match read_values (load_ascii from_chars_float T) count rest with
              | .error e => .error e
              | .ok (row, rest2) =>
                .ok (.list T name (values.set i (values.getD i [] ++ row)) loader, rest2)) ∧
      (property.list T name values loader).load_big_endian i is =
        (match list_count_loader.load_big_endian loader is with
          | .error e => .error e
          | .ok (count, rest) =>
            match reserve T count with
            | .error e => .error e
            | .ok _ =>
              match read_values (load_big_endian T) count rest with
              | .error e => .error e
              | .ok (row, rest2) =>
                .ok (.list T name (values.set i (values.getD i [] ++ row)) loader, rest2)) ∧
      (property.list T name values loader).load_little_endian i is =
        (match list_count_loader.load_little_endian loader is with
          | .error e => .error e
          | .ok (count, rest) =>
            match reserve T count with
            | .error e => .error e
            | .ok _ =>
              match read_values (load_little_endian T) count rest with
              | .error e => .error e
              | .ok (row, rest2) =>
                .ok (.list T name (values.set i (values.getD i [] ++ row)) loader, rest2))) ∧
    (∀ (load : List Char → Except failure (value × List Char)) (n : Nat) (is : List Char)
        (vs : List value) (rest : List Char),
      read_values load n is = .ok (vs, rest) → vs.length = n) ∧
    (∀ e : element, (∀ q ∈ e.properties_, q.is_fresh e.count_) →
      (∀ (is : List Char) (n : Nat) (e1 : element) (rest : List Char) (n1 : Nat),
        e.load_ascii from_chars_float is n = (.ok (e1, rest), n1) →
        ∃ table, read_lines from_chars_float e.properties_ e.count_ is = .ok (table, rest) ∧
          rows_as_read e.count_ e1.properties_ table) ∧
      (∀ (is : List Char) (e1 : element) (rest : List Char),
        e.load_big_endian is = .ok (e1, rest) →
        ∃ table, read_table load_big_endian list_count_loader.load_big_endian
            e.properties_ e.count_ is = .ok (table, rest) ∧
          rows_as_read e.count_ e1.properties_ table) ∧
      (∀ (is : List Char) (e1 : element) (rest : List Char),
        e.load_little_endian is = .ok (e1, rest) →
        ∃ table, read_table load_little_endian list_count_loader.load_little_endian
            e.properties_ e.count_ is = .ok (table, rest) ∧
          rows_as_read e.count_ e1.properties_ table)) := by
  refine ⟨fun T loader name values i is => ⟨?_, ?_, ?_⟩,
    fun load n is vs rest h => read_values_length load n is vs rest h,
    fun e hfresh => ⟨?_, ?_, ?_⟩⟩
  · exact list_load_with _ _ T loader name values i is
  · exact list_load_with _ _ T loader name values i is
  · exact list_load_with _ _ T loader name values i is
  · intro is n e1 rest n1 h
    obtain ⟨table, h1, _, h3⟩ := element_load_ascii_rows_as_read _ e hfresh is n e1 rest n1 h
    exact ⟨table, h1, h3⟩
  · intro is e1 rest h
    obtain ⟨table, h1, _, h3⟩ := element_load_binary_rows_as_read load_big_endian
      list_count_loader.load_big_endian property.load_big_endian (fun _ _ _ => rfl)
      e hfresh is e1 rest h
    exact ⟨table, h1, h3⟩
  · intro is e1 rest h
    obtain ⟨table, h1, _, h3⟩ := element_load_binary_rows_as_read load_little_endian
      list_count_loader.load_little_endian property.load_little_endian (fun _ _ _ => rfl)
      e hfresh is e1 rest h
    exact ⟨table, h1, h3⟩

/-- C4 at a concrete element: two records of a `list uchar short` property, loaded from the
ASCII lines `2 10 -20` and `0`; the rows have the 2 and 0 entries of their counts. -/
theorem C4_list_count_fidelity_witness :
    ∃ table,
      read_lines no_float [make_list_property .int16 "l".toList 2 .uint8] 2
          "2 10 -20\n0\nrest".toList = .ok (table, "rest".toList) ∧
      rows_as_read 2 [.list .int16 "l".toList [[.int 10, .int (-20)], []] .uint8] table :=
  ((C4_list_count_fidelity no_float).2.2
    ⟨"e".toList, 2, [make_list_property .int16 "l".toList 2 .uint8]⟩ (by decide)).1
    "2 10 -20\n0\nrest".toList 0
    ⟨"e".toList, 2, [.list .int16 "l".toList [[.int 10, .int (-20)], []] .uint8]⟩
    "rest".toList 2 (by decide)

/-! ## Binary values -/

theorem byte_ofNat (n : Nat) (h : n < 256) : byte (Char.ofNat n) = n := by
  have hv : n.isValidChar := Or.inl (by omega)
  have : (Char.ofNat n).toNat = n := by
    simp only [Char.ofNat, hv, dif_pos, Char.ofNatAux, Char.toNat]
    simp [UInt32.toNat]
  simp only [byte, this]
  omega

theorem le_bytes_length : ∀ (w u : Nat), (le_bytes w u).length = w := by
  intro w
  induction w with
  | zero => intro u; rfl
  | succ w ih => intro u; simp [le_bytes, ih]

theorem le_bytes_lt : ∀ (w u : Nat), ∀ b ∈ le_bytes w u, b < 256 := by
  intro w
  induction w with
  | zero => intro u b hb; simp [le_bytes] at hb
  | succ w ih =>
    intro u b hb
    simp only [le_bytes, List.mem_cons] at hb
    rcases hb with h | h
    · omega
    · exact ih _ b h

theorem le_bytes_value : ∀ (w u : Nat),
    (le_bytes w u).foldr (fun b acc => b + 256 * acc) 0 = u % 256 ^ w := by
  intro w
  induction w with
  | zero => intro u; simp [le_bytes, Nat.mod_one]
  | succ w ih =>
    intro u
    simp only [le_bytes, List.foldr_cons, ih]
    rw [pow_succ, Nat.mul_comm (256 ^ w) 256, Nat.mod_mul]

theorem map_byte_ofNat (l : List Nat) (h : ∀ b ∈ l, b < 256) :
    (l.map Char.ofNat).map byte = l := by
  induction l with
  | nil => rfl
  | cons b l ih =>
    simp only [List.map_cons, byte_ofNat b (h b (by simp)), ih (fun x hx => h x (by simp [hx]))]

theorem foldl_reverse_bytes (l : List Nat) :
    l.reverse.foldl (fun acc b => acc * 256 + b) 0 = l.foldr (fun b acc => b + 256 * acc) 0 := by
  rw [List.foldl_reverse]
  congr 1
  funext b acc
  omega

theorem encode_value_lt (T : scalar_type) (z : Int) :
    (z % 2 ^ (8 * sizeof T)).toNat < 256 ^ sizeof T := by
  have h1 : (0 : Int) < 2 ^ (8 * sizeof T) := by positivity
  have h2 := Int.emod_lt_of_pos z h1
  have h3 := Int.emod_nonneg z (ne_of_gt h1)
  have h4 : (256 : Nat) ^ sizeof T = 2 ^ (8 * sizeof T) := by
    rw [show (256 : Nat) = 2 ^ 8 by norm_num, ← pow_mul]
  rw [h4]
  have : (((z % 2 ^ (8 * sizeof T)).toNat : Nat) : Int) < ((2 ^ (8 * sizeof T) : Nat) : Int) := by
    rw [Int.toNat_of_nonneg h3]
    push_cast
    exact h2
  exact_mod_cast this

/-- The unsigned number of the bytes of `encode`, most significant byte first. -/
theorem unsigned_encode_big (T : scalar_type) (z : Int) :
    ((encode T .big z).map byte).foldl (fun acc b => acc * 256 + b) 0
      = (z % 2 ^ (8 * sizeof T)).toNat := by
  have hval := le_bytes_value (sizeof T) (z % 2 ^ (8 * sizeof T)).toNat
  rw [Nat.mod_eq_of_lt (encode_value_lt T z)] at hval
  simp only [encode, List.map_reverse, map_byte_ofNat _ (le_bytes_lt _ _), foldl_reverse_bytes,
    hval]

/-- The unsigned number of the bytes of `encode`, least significant byte first. -/
theorem unsigned_encode_little (T : scalar_type) (z : Int) :
    ((encode T .little z).map byte).foldr (fun b acc => b + 256 * acc) 0
      = (z % 2 ^ (8 * sizeof T)).toNat := by
  have hval := le_bytes_value (sizeof T) (z % 2 ^ (8 * sizeof T)).toNat
  rw [Nat.mod_eq_of_lt (encode_value_lt T z)] at hval
  simp only [encode, map_byte_ofNat _ (le_bytes_lt _ _), hval]

theorem encode_length (T : scalar_type) (o : order) (z : Int) :
    (encode T o z).length = sizeof T := by
  cases o <;> simp [encode, le_bytes_length]

/-- An integer within the bounds of its type is read back from its bytes. -/
theorem endian_load_encode (T : scalar_type) (o : order) (z : Int)
    (hT : is_integer T = true) (hz : min_value T ≤ z ∧ z ≤ max_value T) :
    endian_load T o (encode T o z) = .int z := by
  have hf : is_floating_point T = false := by simpa [is_integer] using hT
  have h1 : (0 : Int) < 2 ^ (8 * sizeof T) := by positivity
  have h3 := Int.emod_nonneg z (ne_of_gt h1)
  have hcast : (((z % 2 ^ (8 * sizeof T)).toNat : Nat) : Int) = z % 2 ^ (8 * sizeof T) :=
    Int.toNat_of_nonneg h3
  have key : (if is_signed T = true ∧ 2 ^ (8 * sizeof T - 1) ≤ (z % 2 ^ (8 * sizeof T)).toNat
      then value.int (((z % 2 ^ (8 * sizeof T)).toNat : Int) - 2 ^ (8 * sizeof T))
      else value.int ((z % 2 ^ (8 * sizeof T)).toNat : Int)) = .int z := by
    cases T <;> simp only [is_floating_point] at hf <;>
      simp only [min_value, max_value, is_signed, sizeof, if_true, true_and, false_and, if_false,
        Bool.false_eq_true] at hz hcast ⊢ <;>
      norm_num at hz hcast ⊢ <;>
      first
        | (split_ifs with hc <;> simp only [value.int.injEq] <;> omega)
        | omega
  cases o with
  | big =>
    simp only [endian_load, hf, Bool.false_eq_true, if_false, unsigned_encode_big]
    exact key
  | little =>
    simp only [endian_load, hf, Bool.false_eq_true, if_false, unsigned_encode_little]
    exact key

/-! ## What a binary load reads -/

theorem reads_load_binary (T : scalar_type) (o : order) (is : List Char) (v : value)
    (rest : List Char) (h : load_binary T o is = .ok (v, rest)) :
    reads (load_binary T o) is v rest (sizeof T) := by
  have h0 := h
  simp only [load_binary] at h
  split at h
  · simp at h
  · rename_i hlen
    simp only [Except.ok.injEq, Prod.mk.injEq] at h
    obtain ⟨hv, hr⟩ := h
    have hle : sizeof T ≤ is.length := Nat.not_lt.mp hlen
    refine ⟨h0, hle, hr.symm, ?_, ?_⟩
    · intro tail
      have hl : (is.take (sizeof T)).length = sizeof T := by simp [hle]
      simp only [load_binary, List.length_append, hl]
      rw [if_neg (by omega), List.take_left' hl, List.drop_left' hl, hv]
    · intro m hm
      simp only [load_binary, List.length_take]
      rw [if_pos (by omega)]

/-- A read followed by a read: the characters read add up. -/
theorem reads_bind {α β γ : Type} (R1 : List Char → Except failure (α × List Char))
    (R2 : α → List Char → Except failure (β × List Char)) (g : α → β → γ)
    (R : List Char → Except failure (γ × List Char))
    (herr1 : ∀ s e, R1 s = .error e → R s = .error e)
    (herr2 : ∀ s x r e, R1 s = .ok (x, r) → R2 x r = .error e → R s = .error e)
    (hok : ∀ s x r y r2, R1 s = .ok (x, r) → R2 x r = .ok (y, r2) → R s = .ok (g x y, r2))
    (is : List Char) (x : α) (r : List Char) (k1 : Nat) (h1 : reads R1 is x r k1)
    (y : β) (r2 : List Char) (k2 : Nat) (h2 : reads (R2 x) r y r2 k2) :
    reads R is (g x y) r2 (k1 + k2) := by
  obtain ⟨a1, a2, a3, a4, a5⟩ := h1
  obtain ⟨b1, b2, b3, b4, b5⟩ := h2
  have hrl : r.length = is.length - k1 := by rw [a3]; simp
  refine ⟨hok _ _ _ _ _ a1 b1, ?_, ?_, ?_, ?_⟩
  · omega
  · rw [b3, a3, List.drop_drop]
  · intro tail
    have e : is.take (k1 + k2) ++ tail = is.take k1 ++ (r.take k2 ++ tail) := by
      rw [a3, List.take_add, List.append_assoc]
    rw [e]
    exact hok _ _ _ _ _ (a4 _) (b4 tail)
  · intro m hm
    by_cases hmk : m < k1
    · exact herr1 _ _ (a5 m hmk)
    · have e : is.take m = is.take k1 ++ r.take (m - k1) := by
        have : m = k1 + (m - k1) := by omega
        conv_lhs => rw [this, List.take_add]
        rw [a3]
      rw [e]
      exact herr2 _ _ _ _ (a4 _) (b5 (m - k1) (by omega))

/-- A read followed by a conversion that reads nothing. -/
theorem reads_then {α β : Type} (R1 : List Char → Except failure (α × List Char))
    (f : α → Except failure β) (R : List Char → Except failure (β × List Char))
    (herr1 : ∀ s e, R1 s = .error e → R s = .error e)
    (hok : ∀ s x r y, R1 s = .ok (x, r) → f x = .ok y → R s = .ok (y, r))
    (is : List Char) (x : α) (r : List Char) (k : Nat) (h1 : reads R1 is x r k)
    (y : β) (hf : f x = .ok y) :
    reads R is y r k := by
  obtain ⟨a1, a2, a3, a4, a5⟩ := h1
  exact ⟨hok _ _ _ _ a1 hf, a2, a3, fun tail => hok _ _ _ _ (a4 tail) hf,
    fun m hm => herr1 _ _ (a5 m hm)⟩

theorem reads_nothing {α : Type} (R : List Char → Except failure (α × List Char)) (x : α)
    (hR : ∀ s, R s = .ok (x, s)) (is : List Char) : reads R is x is 0 := by
  refine ⟨hR is, by omega, by simp, fun tail => by simp [hR], fun m hm => absurd hm (by omega)⟩

theorem reads_count_loader (T : scalar_type) (o : order)
    (lc : List Char → Except failure (Nat × List Char))
    (herr : ∀ s e, load_binary T o s = .error e → lc s = .error e)
    (herr2 : ∀ s v r e, load_binary T o s = .ok (v, r) →
      list_count_loader.convert_value T v = .error e → lc s = .error e)
    (hok : ∀ s v r c, load_binary T o s = .ok (v, r) →
      list_count_loader.convert_value T v = .ok c → lc s = .ok (c, r))
    (is : List Char) (c : Nat) (rest : List Char) (h : lc is = .ok (c, rest)) :
    reads lc is c rest (sizeof T) := by
  cases hl : load_binary T o is with
  | error e => rw [herr _ _ hl] at h; simp at h
  | ok vr =>
    obtain ⟨v, r⟩ := vr
    cases hcv : list_count_loader.convert_value T v with
    | error e => rw [herr2 _ _ _ _ hl hcv] at h; simp at h
    | ok c1 =>
      rw [hok _ _ _ _ hl hcv] at h
      simp only [Except.ok.injEq, Prod.mk.injEq] at h
      obtain ⟨h1, h2⟩ := h
      subst h1 h2
      exact reads_then (load_binary T o) (list_count_loader.convert_value T) lc herr
        (fun s x r1 y h1 h2 => hok _ _ _ _ h1 h2)
        is v r (sizeof T) (reads_load_binary T o is v r hl) c1 hcv

theorem reads_read_values (load : List Char → Except failure (value × List Char)) (size : Nat)
    (hload : ∀ is v rest, load is = .ok (v, rest) → reads load is v rest size) :
    ∀ (n : Nat) (is : List Char) (vs : List value) (rest : List Char),
      read_values load n is = .ok (vs, rest) →
      reads (read_values load n) is vs rest (n * size) := by
  intro n
  induction n with
  | zero =>
    intro is vs rest h
    simp only [read_values, Except.ok.injEq, Prod.mk.injEq] at h
    obtain ⟨h1, h2⟩ := h
    subst h1 h2
    rw [Nat.zero_mul]
    exact reads_nothing _ [] (fun s => rfl) is
  | succ n ih =>
    intro is vs rest h
    simp only [read_values] at h
    cases hl : load is with
    | error e => rw [hl] at h; simp at h
    | ok vr =>
      obtain ⟨v, r⟩ := vr
      rw [hl] at h
      simp only at h
      cases hv : read_values load n r with
      | error e => rw [hv] at h; simp at h
      | ok vr2 =>
        obtain ⟨vs1, r2⟩ := vr2
        rw [hv] at h
        simp only [Except.ok.injEq, Prod.mk.injEq] at h
        obtain ⟨h1, h2⟩ := h
        subst h1 h2
        have := reads_bind load (fun _ => read_values load n) List.cons
          (read_values load (n + 1))
          (fun s e h1 => by simp only [read_values, h1])
          (fun s x r e h1 h2 => by simp only [read_values, h1, h2])
          (fun s x r y r2 h1 h2 => by simp only [read_values, h1, h2])
          is v r size (hload _ _ _ hl) vs1 r2 (n * size) (ih _ _ _ hv)
        have e : size + n * size = (n + 1) * size := by ring
        rw [e] at this
        exact this

theorem reads_read_entry (load : scalar_type → List Char → Except failure (value × List Char))
    (load_count : scalar_type → List Char → Except failure (Nat × List Char))
    (hload : ∀ T is v rest, load T is = .ok (v, rest) → reads (load T) is v rest (sizeof T))
    (hlc : ∀ T is c rest, load_count T is = .ok (c, rest) →
      reads (load_count T) is c rest (sizeof T))
    (q : property) (is : List Char) (en : entry) (rest : List Char)
    (h : read_entry load load_count is q = .ok (en, rest)) :
    reads (fun s => read_entry load load_count s q) is en rest (entry_size q en) := by
  cases q with
  | scalar T name values =>
    obtain ⟨v, h1, h2⟩ := read_entry_scalar _ _ _ _ _ _ _ _ h
    subst h2
    exact reads_then (load T) (fun v => .ok (entry.scalar v))
      (fun s => read_entry load load_count s (.scalar T name values))
      (fun s e h1 => by simp only [read_entry, h1])
      (fun s x r y h1 h2 => by
        simp only [Except.ok.injEq] at h2
        simp only [read_entry, h1, h2])
      is v rest (sizeof T) (hload _ _ _ _ h1) _ rfl
  | list T name values loader =>
    obtain ⟨c, r1, row, h1, h2, h3, h4⟩ := read_entry_list_count _ _ _ _ _ _ _ _ _ h
    subst h3
    obtain ⟨h5, h6⟩ := read_count_ok _ _ _ _ _ _ h1
    have hc : reads (read_count load_count T loader) is c r1 (sizeof loader) :=
      reads_then (load_count loader) (fun c => (reserve T c).map (fun _ => c))
        (read_count load_count T loader)
        (fun s e h1 => by simp only [read_count, h1])
        (fun s x r y h1 h2 => by
          rcases reserve_cases T x with ⟨_, h3⟩ | ⟨_, h3⟩
          · simp only [h3, Except.map, Except.ok.injEq] at h2
            subst h2
            simp only [read_count, h1, h3]
          · simp [h3, Except.map] at h2)
        is c r1 (sizeof loader) (hlc _ _ _ _ h5) c (by simp only [reserve_ok T c h6, Except.map])
    have := reads_bind (read_count load_count T loader) (fun c => read_values (load T) c)
      entry.list
      (fun s => read_entry load load_count s (.list T name values loader))
      (fun s e h1 => by simp only [read_entry, h1])
      (fun s x r e h1 h2 => by simp only [read_entry, h1, h2])
      (fun s x r y r2 h1 h2 => by simp only [read_entry, h1, h2])
      is c r1 (sizeof loader) hc row rest (c * sizeof T)
      (reads_read_values (load T) (sizeof T) (hload T) c r1 row rest h2)
    simp only [entry_size, entry.values, h4]
    exact this

theorem reads_read_record (load : scalar_type → List Char → Except failure (value × List Char))
    (load_count : scalar_type → List Char → Except failure (Nat × List Char))
    (hload : ∀ T is v rest, load T is = .ok (v, rest) → reads (load T) is v rest (sizeof T))
    (hlc : ∀ T is c rest, load_count T is = .ok (c, rest) →
      reads (load_count T) is c rest (sizeof T)) :
    ∀ (qs : List property) (is : List Char) (record : List entry) (rest : List Char),
      read_record load load_count qs is = .ok (record, rest) →
      reads (read_record load load_count qs) is record rest (record_size qs record) := by
  intro qs
  induction qs with
  | nil =>
    intro is record rest h
    simp only [read_record, Except.ok.injEq, Prod.mk.injEq] at h
    obtain ⟨h1, h2⟩ := h
    subst h1 h2
    exact reads_nothing _ [] (fun s => rfl) is
  | cons q qs ih =>
    intro is record rest h
    simp only [read_record] at h
    cases he : read_entry load load_count is q with
    | error e => rw [he] at h; simp at h
    | ok er =>
      obtain ⟨en, r⟩ := er
      rw [he] at h
      simp only at h
      cases hr : read_record load load_count qs r with
      | error e => rw [hr] at h; simp at h
      | ok rr =>
        obtain ⟨ens, r2⟩ := rr
        rw [hr] at h
        simp only [Except.ok.injEq, Prod.mk.injEq] at h
        obtain ⟨h1, h2⟩ := h
        subst h1 h2
        exact reads_bind (fun s => read_entry load load_count s q)
          (fun _ => read_record load load_count qs) List.cons
          (read_record load load_count (q :: qs))
          (fun s e h1 => by simp only [read_record, h1])
          (fun s x r e h1 h2 => by simp only [read_record, h1, h2])
          (fun s x r y r2 h1 h2 => by simp only [read_record, h1, h2])
          is en r (entry_size q en) (reads_read_entry load load_count hload hlc q is en r he)
          ens r2 (record_size qs ens) (ih _ _ _ hr)

theorem reads_read_table (load : scalar_type → List Char → Except failure (value × List Char))
    (load_count : scalar_type → List Char → Except failure (Nat × List Char))
    (hload : ∀ T is v rest, load T is = .ok (v, rest) → reads (load T) is v rest (sizeof T))
    (hlc : ∀ T is c rest, load_count T is = .ok (c, rest) →
      reads (load_count T) is c rest (sizeof T)) (qs : List property) :
    ∀ (rows : Nat) (is : List Char) (table : List (List entry)) (rest : List Char),
      read_table load load_count qs rows is = .ok (table, rest) →
      reads (read_table load load_count qs rows) is table rest (table_size qs table) := by
  intro rows
  induction rows with
  | zero =>
    intro is table rest h
    simp only [read_table, Except.ok.injEq, Prod.mk.injEq] at h
    obtain ⟨h1, h2⟩ := h
    subst h1 h2
    exact reads_nothing _ [] (fun s => rfl) is
  | succ rows ih =>
    intro is table rest h
    simp only [read_table] at h
    cases he : read_record load load_count qs is with
    | error e => rw [he] at h; simp at h
    | ok er =>
      obtain ⟨record, r⟩ := er
      rw [he] at h
      simp only at h
      cases hr : read_table load load_count qs rows r with
      | error e => rw [hr] at h; simp at h
      | ok rr =>
        obtain ⟨tbl, r2⟩ := rr
        rw [hr] at h
        simp only [Except.ok.injEq, Prod.mk.injEq] at h
        obtain ⟨h1, h2⟩ := h
        subst h1 h2
        have := reads_bind (read_record load load_count qs)
          (fun _ => read_table load load_count qs rows) List.cons
          (read_table load load_count qs (rows + 1))
          (fun s e h1 => by simp only [read_table, h1])
          (fun s x r e h1 h2 => by simp only [read_table, h1, h2])
          (fun s x r y r2 h1 h2 => by simp only [read_table, h1, h2])
          is record r (record_size qs record)
          (reads_read_record load load_count hload hlc qs is record r he)
          tbl r2 (table_size qs tbl) (ih _ _ _ hr)
        simpa [table_size] using this

theorem reads_load_big_endian (T : scalar_type) (is : List Char) (v : value) (rest : List Char)
    (h : load_big_endian T is = .ok (v, rest)) : reads (load_big_endian T) is v rest (sizeof T) :=
  reads_load_binary T .big is v rest h

theorem reads_load_little_endian (T : scalar_type) (is : List Char) (v : value)
    (rest : List Char) (h : load_little_endian T is = .ok (v, rest)) :
    reads (load_little_endian T) is v rest (sizeof T) :=
  reads_load_binary T .little is v rest h

theorem reads_count_big_endian (T : scalar_type) (is : List Char) (c : Nat) (rest : List Char)
    (h : list_count_loader.load_big_endian T is = .ok (c, rest)) :
    reads (list_count_loader.load_big_endian T) is c rest (sizeof T) :=
  reads_count_loader T .big (list_count_loader.load_big_endian T)
    (fun s e h1 => by
      simp only [list_count_loader.load_big_endian, load_big_endian, h1])
    (fun s v r e h1 h2 => by
      simp only [list_count_loader.load_big_endian, load_big_endian, h1, h2])
    (fun s v r c h1 h2 => by
      simp only [list_count_loader.load_big_endian, load_big_endian, h1, h2])
    is c rest h

theorem reads_count_little_endian (T : scalar_type) (is : List Char) (c : Nat)
    (rest : List Char) (h : list_count_loader.load_little_endian T is = .ok (c, rest)) :
    reads (list_count_loader.load_little_endian T) is c rest (sizeof T) :=
  reads_count_loader T .little (list_count_loader.load_little_endian T)
    (fun s e h1 => by
      simp only [list_count_loader.load_little_endian, load_little_endian, h1])
    (fun s v r e h1 h2 => by
      simp only [list_count_loader.load_little_endian, load_little_endian, h1, h2])
    (fun s v r c h1 h2 => by
      simp only [list_count_loader.load_little_endian, load_little_endian, h1, h2])
    is c rest h

/-- What the load of an element reads from a binary body: the table of its entries, whose
size is the number of characters read. -/
theorem reads_element_load
    (load : scalar_type → List Char → Except failure (value × List Char))
    (load_count : scalar_type → List Char → Except failure (Nat × List Char))
    (hload : ∀ T is v rest, load T is = .ok (v, rest) → reads (load T) is v rest (sizeof T))
    (hlc : ∀ T is c rest, load_count T is = .ok (c, rest) →
      reads (load_count T) is c rest (sizeof T))
    (f : Nat → List Char → property → Except failure (property × List Char))
    (hf : ∀ i is q, f i is q = q.load_with load load_count i is)
    (e : element) (R : List Char → Except failure (element × List Char))
    (herr : ∀ s err, element.load_binary_rows f e.count_ 0 e.properties_ s = .error err →
      R s = .error err)
    (hok : ∀ s ps r, element.load_binary_rows f e.count_ 0 e.properties_ s = .ok (ps, r) →
      R s = .ok ({ e with properties_ := ps }, r))
    (is : List Char) (e1 : element) (rest : List Char) (h : R is = .ok (e1, rest)) :
    ∃ table, read_table load load_count e.properties_ e.count_ is = .ok (table, rest) ∧
      e1 = { e with properties_ := store_table 0 table e.properties_ } ∧
      reads R is e1 rest (table_size e.properties_ table) := by
  have hrows := load_binary_rows_eq load load_count f hf e.count_ 0 e.properties_
  cases ht : read_table load load_count e.properties_ e.count_ is with
  | error err =>
    have := hrows is
    rw [ht] at this
    rw [herr _ _ this] at h
    simp at h
  | ok tr =>
    obtain ⟨table, r⟩ := tr
    have h1 := hrows is
    rw [ht] at h1
    rw [hok _ _ _ h1] at h
    simp only [Except.ok.injEq, Prod.mk.injEq] at h
    obtain ⟨h2, h3⟩ := h
    subst h2 h3
    refine ⟨table, rfl, rfl, ?_⟩
    exact reads_then (read_table load load_count e.properties_ e.count_)
      (fun t => .ok { e with properties_ := store_table 0 t e.properties_ }) R
      (fun s err h4 => by
        have := hrows s
        rw [h4] at this
        exact herr _ _ this)
      (fun s x r1 y h4 h5 => by
        have := hrows s
        rw [h4] at this
        simp only [Except.ok.injEq] at h5
        rw [hok _ _ _ this, h5])
      is table r (table_size e.properties_ table)
      (reads_read_table load load_count hload hlc _ _ _ _ _ ht) _ rfl

theorem reads_element_big_endian (e : element) (is : List Char) (e1 : element)
    (rest : List Char) (h : e.load_big_endian is = .ok (e1, rest)) :
    ∃ table, read_table load_big_endian list_count_loader.load_big_endian
        e.properties_ e.count_ is = .ok (table, rest) ∧
      e1 = { e with properties_ := store_table 0 table e.properties_ } ∧
      reads e.load_big_endian is e1 rest (table_size e.properties_ table) :=
  reads_element_load load_big_endian list_count_loader.load_big_endian
    reads_load_big_endian reads_count_big_endian property.load_big_endian (fun _ _ _ => rfl)
    e e.load_big_endian
    (fun s err h1 => by simp only [element.load_big_endian, h1])
    (fun s ps r h1 => by simp only [element.load_big_endian, h1])
    is e1 rest h

theorem reads_element_little_endian (e : element) (is : List Char) (e1 : element)
    (rest : List Char) (h : e.load_little_endian is = .ok (e1, rest)) :
    ∃ table, read_table load_little_endian list_count_loader.load_little_endian
        e.properties_ e.count_ is = .ok (table, rest) ∧
      e1 = { e with properties_ := store_table 0 table e.properties_ } ∧
      reads e.load_little_endian is e1 rest (table_size e.properties_ table) :=
  reads_element_load load_little_endian list_count_loader.load_little_endian
    reads_load_little_endian reads_count_little_endian property.load_little_endian
    (fun _ _ _ => rfl) e e.load_little_endian
    (fun s err h1 => by simp only [element.load_little_endian, h1])
    (fun s ps r h1 => by simp only [element.load_little_endian, h1])
    is e1 rest h

theorem reads_load_binary_elements
    (load : element → List Char → Except failure (element × List Char))
    (hload : ∀ e is e1 rest, load e is = .ok (e1, rest) → ∃ k, reads (load e) is e1 rest k) :
    ∀ (es : List element) (is : List Char) (es1 : List element) (rest : List Char),
      ply.load_binary_elements load es is = .ok (es1, rest) →
      ∃ k, reads (ply.load_binary_elements load es) is es1 rest k := by
  intro es
  induction es with
  | nil =>
    intro is es1 rest h
    simp only [ply.load_binary_elements, Except.ok.injEq, Prod.mk.injEq] at h
    obtain ⟨h1, h2⟩ := h
    subst h1 h2
    exact ⟨0, reads_nothing _ [] (fun s => rfl) is⟩
  | cons e es ih =>
    intro is es1 rest h
    simp only [ply.load_binary_elements] at h
    cases he : load e is with
    | error err => rw [he] at h; simp at h
    | ok er =>
      obtain ⟨e1, r⟩ := er
      rw [he] at h
      simp only at h
      cases hes : ply.load_binary_elements load es r with
      | error err => rw [hes] at h; simp at h
      | ok rr =>
        obtain ⟨es2, r2⟩ := rr
        rw [hes] at h
        simp only [Except.ok.injEq, Prod.mk.injEq] at h
        obtain ⟨h1, h2⟩ := h
        subst h1 h2
        obtain ⟨k1, hk1⟩ := hload _ _ _ _ he
        obtain ⟨k2, hk2⟩ := ih _ _ _ hes
        exact ⟨k1 + k2, reads_bind (load e) (fun _ => ply.load_binary_elements load es) List.cons
          (ply.load_binary_elements load (e :: es))
          (fun s err h1 => by simp only [ply.load_binary_elements, h1])
          (fun s x r err h1 h2 => by simp only [ply.load_binary_elements, h1, h2])
          (fun s x r y r2 h1 h2 => by simp only [ply.load_binary_elements, h1, h2])
          is e1 r k1 hk1 es2 r2 k2 hk2⟩

/-- The data of a binary file: `process_data` reads a front part of the body and no more;
when the body stops inside that part the load fails with
`binary file part: unexpected end of input`. -/
theorem process_data_binary_reads (fp : scalar_type → List Char → Option Nat) (p : ply)
    (hp : p.file_type_ ≠ .ascii) (is : List Char) (n : Nat) (p1 : ply) (rest : List Char)
    (h : ply.process_data fp p is n = .ok (p1, rest)) :
    ∃ k, k ≤ is.length ∧ rest = is.drop k ∧
      (∀ tail, ply.process_data fp p (is.take k ++ tail) n = .ok (p1, tail)) ∧
      (∀ m, m < k → ply.process_data fp p (is.take m) n =
        .error (.runtime_error "binary file part: unexpected end of input")) := by
  cases hft : p.file_type_ with
  | ascii => exact absurd hft hp
  | binary_big_endian =>
    simp only [ply.process_data, hft] at h ⊢
    cases hes : ply.load_binary_elements element.load_big_endian p.elements_ is with
    | error err => rw [hes] at h; simp at h
    | ok rr =>
      obtain ⟨es, r⟩ := rr
      rw [hes] at h
      simp only [Except.ok.injEq, Prod.mk.injEq] at h
      obtain ⟨h1, h2⟩ := h
      subst h1 h2
      obtain ⟨k, _, a2, a3, a4, a5⟩ := reads_load_binary_elements element.load_big_endian
        (fun e is e1 rest he => by
          obtain ⟨table, _, _, hr⟩ := reads_element_big_endian e is e1 rest he
          exact ⟨_, hr⟩) _ _ _ _ hes
      refine ⟨k, a2, a3, fun tail => by rw [a4 tail], fun m hm => by rw [a5 m hm]; rfl⟩
  | binary_little_endian =>
    simp only [ply.process_data, hft] at h ⊢
    cases hes : ply.load_binary_elements element.load_little_endian p.elements_ is with
    | error err => rw [hes] at h; simp at h
    | ok rr =>
      obtain ⟨es, r⟩ := rr
      rw [hes] at h
      simp only [Except.ok.injEq, Prod.mk.injEq] at h
      obtain ⟨h1, h2⟩ := h
      subst h1 h2
      obtain ⟨k, _, a2, a3, a4, a5⟩ := reads_load_binary_elements element.load_little_endian
        (fun e is e1 rest he => by
          obtain ⟨table, _, _, hr⟩ := reads_element_little_endian e is e1 rest he
          exact ⟨_, hr⟩) _ _ _ _ hes
      refine ⟨k, a2, a3, fun tail => by rw [a4 tail], fun m hm => by rw [a5 m hm]; rfl⟩

/-! ## Reading back what was encoded -/

theorem load_binary_encode (T : scalar_type) (o : order) (z : Int) (h : in_range T z)
    (tail : List Char) : load_binary T o (encode T o z ++ tail) = .ok (.int z, tail) := by
  have hl := encode_length T o z
  simp only [load_binary, List.length_append, hl]
  rw [if_neg (by omega), List.take_left' hl, List.drop_left' hl, endian_load_encode T o z h.1 h.2]

theorem load_little_endian_eq (T : scalar_type) : load_little_endian T = load_binary T .little :=
  rfl

theorem load_big_endian_eq (T : scalar_type) : load_big_endian T = load_binary T .big :=
  rfl

theorem convert_value_nat (T : scalar_type) (c : Nat) :
    list_count_loader.convert_value T (.int c) = .ok c := by
  simp only [list_count_loader.convert_value]
  split
  · rw [if_neg (by omega)]; simp
  · simp

theorem read_values_encode (T : scalar_type) (o : order) :
    ∀ (zs : List Int), (∀ z ∈ zs, in_range T z) → ∀ tail,
      read_values (load_binary T o) zs.length (encode_values T o zs ++ tail)
        = .ok (zs.map value.int, tail) := by
  intro zs
  induction zs with
  | nil => intro _ tail; simp [read_values, encode_values]
  | cons z zs ih =>
    intro h tail
    have e : encode_values T o (z :: zs) ++ tail
        = encode T o z ++ (encode_values T o zs ++ tail) := by
      simp [encode_values]
    simp only [List.length_cons, read_values, e, load_binary_encode T o z (h z (by simp)),
      ih (fun x hx => h x (by simp [hx])) tail, List.map_cons]

theorem encode_values_length (T : scalar_type) (o : order) (zs : List Int) :
    (encode_values T o zs).length = zs.length * sizeof T := by
  induction zs with
  | nil => simp [encode_values]
  | cons z zs ih =>
    have e : encode_values T o (z :: zs) = encode T o z ++ encode_values T o zs := by
      simp [encode_values]
    rw [e, List.length_append, ih, encode_length, List.length_cons]
    ring

theorem s3_record_length (a : Int) (l : List Int) : (s3_record a l).length = 2 + 4 * l.length := by
  simp only [s3_record, encode_list, List.length_append, encode_length, encode_values_length,
    sizeof]
  ring

/-- One record of the S3 layout, read from its bytes. -/
theorem read_record_s3 (na nl : List Char) (va : List value) (vl : List (List value))
    (a : Int) (l : List Int) (ha : in_range .uint8 a)
    (hl : in_range .uint8 l.length ∧ ∀ z ∈ l, in_range .int32 z) (tail : List Char) :
    read_record load_little_endian list_count_loader.load_little_endian
        [.scalar .uint8 na va, .list .int32 nl vl .uint8] (s3_record a l ++ tail) =
      .ok ([.scalar (.int a), .list l.length (l.map value.int)], tail) := by
  have e : s3_record a l ++ tail = encode .uint8 .little a ++
      (encode .uint8 .little (l.length : Int) ++ (encode_values .int32 .little l ++ tail)) := by
    simp [s3_record, encode_list]
  have hres : reserve .int32 l.length = .ok () := by
    apply reserve_ok
    have h := hl.1.2.2
    simp only [max_value, is_signed, sizeof, vector_max_size] at h ⊢
    norm_num at h ⊢
    omega
  simp only [e, read_record, read_entry, read_count, load_little_endian_eq,
    list_count_loader.load_little_endian,
    load_binary_encode _ _ _ ha, load_binary_encode _ _ _ hl.1, convert_value_nat, hres,
    read_values_encode .int32 .little l hl.2]

/-- The S3 layout: three records of a `uchar` property and a `list uchar int` property,
loaded from their little-endian bytes. -/
theorem load_s3 (ne na nl : List Char) (a0 a1 a2 : Int) (l0 l1 l2 : List Int)
    (tail : List Char)
    (h0 : in_range .uint8 a0 ∧ in_range .uint8 l0.length ∧ ∀ z ∈ l0, in_range .int32 z)
    (h1 : in_range .uint8 a1 ∧ in_range .uint8 l1.length ∧ ∀ z ∈ l1, in_range .int32 z)
    (h2 : in_range .uint8 a2 ∧ in_range .uint8 l2.length ∧ ∀ z ∈ l2, in_range .int32 z) :
    element.load_little_endian
        ⟨ne, 3, [make_scalar_property .uint8 na 3, make_list_property .int32 nl 3 .uint8]⟩
        (s3_record a0 l0 ++ (s3_record a1 l1 ++ (s3_record a2 l2 ++ tail))) =
      .ok (⟨ne, 3, [.scalar .uint8 na [.int a0, .int a1, .int a2],
          .list .int32 nl [l0.map value.int, l1.map value.int, l2.map value.int] .uint8]⟩,
        tail) := by
  have hrows := load_binary_rows_eq load_little_endian list_count_loader.load_little_endian
    property.load_little_endian (fun _ _ _ => rfl) 3 0
    [make_scalar_property .uint8 na 3, make_list_property .int32 nl 3 .uint8]
    (s3_record a0 l0 ++ (s3_record a1 l1 ++ (s3_record a2 l2 ++ tail)))
  have htable : read_table load_little_endian list_count_loader.load_little_endian
      [make_scalar_property .uint8 na 3, make_list_property .int32 nl 3 .uint8] 3
      (s3_record a0 l0 ++ (s3_record a1 l1 ++ (s3_record a2 l2 ++ tail))) =
      .ok ([[.scalar (.int a0), .list l0.length (l0.map value.int)],
        [.scalar (.int a1), .list l1.length (l1.map value.int)],
        [.scalar (.int a2), .list l2.length (l2.map value.int)]], tail) := by
    simp only [read_table, make_scalar_property, make_list_property,
      read_record_s3 _ _ _ _ _ _ h0.1 h0.2, read_record_s3 _ _ _ _ _ _ h1.1 h1.2,
      read_record_s3 _ _ _ _ _ _ h2.1 h2.2]
  rw [htable] at hrows
  simp only [element.load_little_endian, hrows]
  simp [store_table, store_record, property.store, make_scalar_property, make_list_property,
    List.replicate, zero, is_floating_point]

/-- C10. Binary body consumption. An element that loads from a binary body, big-endian or
little-endian, reads the table of its entries in record order and property order and
stores it; the characters it reads are the first `table_size` of the body, `sizeof(T)`
for every scalar value and `sizeof(countT) + n * sizeof(T)` for every list row of length
`n`; what follows them is left unread and has no influence, and a body that stops inside
them makes the load meet the end of the input. `process_data` of a binary file reads a
front part of the body in the same way and reports a body that stops inside it as
`binary file part: unexpected end of input`. For the S3 layout the three records are read
from `3 * 2 + 4 * (n0 + n1 + n2)` bytes and the columns hold the decoded values. A count
of a list row above the greatest size of a vector makes `reserve` throw
`std::length_error` when the count has been read, whatever follows it. -/
theorem C10_binary_consumption (from_chars_float : scalar_type → List Char → Option Nat) :
    (∀ (e : element) (is : List Char) (e1 : element) (rest : List Char),
      e.load_big_endian is = .ok (e1, rest) →
      ∃ table, read_table load_big_endian list_count_loader.load_big_endian
          e.properties_ e.count_ is = .ok (table, rest) ∧
        e1 = { e with properties_ := store_table 0 table e.properties_ } ∧
        reads e.load_big_endian is e1 rest (table_size e.properties_ table)) ∧
    (∀ (e : element) (is : List Char) (e1 : element) (rest : List Char),
      e.load_little_endian is = .ok (e1, rest) →
      ∃ table, read_table load_little_endian list_count_loader.load_little_endian
          e.properties_ e.count_ is = .ok (table, rest) ∧
        e1 = { e with properties_ := store_table 0 table e.properties_ } ∧
        reads e.load_little_endian is e1 rest (table_size e.properties_ table)) ∧
    (∀ (p : ply) (is : List Char) (n : Nat) (p1 : ply) (rest : List Char),
      p.file_type_ ≠ .ascii → ply.process_data from_chars_float p is n = .ok (p1, rest) →
      ∃ k, k ≤ is.length ∧ rest = is.drop k ∧
        (∀ tail, ply.process_data from_chars_float p (is.take k ++ tail) n = .ok (p1, tail)) ∧
        (∀ m, m < k → ply.process_data from_chars_float p (is.take m) n =
          .error (.runtime_error "binary file part: unexpected end of input"))) ∧
    (∀ (ne na nl : List Char) (a0 a1 a2 : Int) (l0 l1 l2 : List Int) (tail : List Char),
      (in_range .uint8 a0 ∧ in_range .uint8 l0.length ∧ ∀ z ∈ l0, in_range .int32 z) →
      (in_range .uint8 a1 ∧ in_range .uint8 l1.length ∧ ∀ z ∈ l1, in_range .int32 z) →
      (in_range .uint8 a2 ∧ in_range .uint8 l2.length ∧ ∀ z ∈ l2, in_range .int32 z) →
      element.load_little_endian
          ⟨ne, 3, [make_scalar_property .uint8 na 3, make_list_property .int32 nl 3 .uint8]⟩
          (s3_record a0 l0 ++ (s3_record a1 l1 ++ (s3_record a2 l2 ++ tail))) =
        .ok (⟨ne, 3, [.scalar .uint8 na [.int a0, .int a1, .int a2],
            .list .int32 nl [l0.map value.int, l1.map value.int, l2.map value.int] .uint8]⟩,
          tail) ∧
      (s3_record a0 l0 ++ (s3_record a1 l1 ++ s3_record a2 l2)).length =
        3 * 2 + 4 * (l0.length + l1.length + l2.length)) ∧
    (∀ (T loader : scalar_type) (name : List Char) (values : List (List value)) (i : Nat)
        (is rest : List Char) (count : Nat), vector_max_size T < count →
      (list_count_loader.load_big_endian loader is = .ok (count, rest) →
        (property.list T name values loader).load_big_endian i is =
          .error (.length_error "vector::reserve")) ∧
      (list_count_loader.load_little_endian loader is = .ok (count, rest) →
        (property.list T name values loader).load_little_endian i is =
          .error (.length_error "vector::reserve"))) := by
  refine ⟨reads_element_big_endian, reads_element_little_endian,
    fun p is n p1 rest hp h => process_data_binary_reads from_chars_float p hp is n p1 rest h,
    fun ne na nl a0 a1 a2 l0 l1 l2 tail h0 h1 h2 =>
      ⟨load_s3 ne na nl a0 a1 a2 l0 l1 l2 tail h0 h1 h2, ?_⟩, ?_⟩
  · simp only [List.length_append, s3_record_length]
    ring
  · intro T loader name values i is rest count hc
    constructor
    · intro h
      simp only [property.load_big_endian, property.load_with, h, reserve, if_pos hc]
    · intro h
      simp only [property.load_little_endian, property.load_with, h, reserve, if_pos hc]

/-- C10 at a concrete S3 body: the values 1, 2, 3 and the rows of 0, 1 and 2 values are read
from 3 * 2 + 4 * 3 bytes and `rest` is left. -/
theorem C10_binary_consumption_witness :
    element.load_little_endian
        ⟨"vertex".toList, 3,
          [make_scalar_property .uint8 "a".toList 3, make_list_property .int32 "l".toList 3 .uint8]⟩
        (s3_record 1 [] ++ (s3_record 2 [-1] ++ (s3_record 3 [1, 2] ++ "rest".toList))) =
      .ok (⟨"vertex".toList, 3, [.scalar .uint8 "a".toList [.int 1, .int 2, .int 3],
          .list .int32 "l".toList [[], [.int (-1)], [.int 1, .int 2]] .uint8]⟩,
        "rest".toList) ∧
    (s3_record 1 [] ++ (s3_record 2 [-1] ++ s3_record 3 [1, 2])).length = 3 * 2 + 4 * (0 + 1 + 2) :=
  (C10_binary_consumption no_float).2.2.2.1 "vertex".toList "a".toList "l".toList 1 2 3
    [] [-1] [1, 2] "rest".toList (by decide) (by decide) (by decide)

/-- C10 as stated fails for a count above the greatest size of a vector: the body of the
8 bytes of the `double` 4e18, the count of a row of a `list double double` property, ends
before the values of the row, and the load fails with the `std::length_error` of
`reserve`, which `process_data` does not catch, and not with
`binary file part: unexpected end of input`. -/
theorem C10_large_count_counterexample :
    ply.load no_float
        ("ply\nformat binary_little_endian 1.0\nelement e 1\nproperty list double double l\nend_header\n".toList ++
          "\x00\xc8Ngm\xc1\xcbC".toList) =
      .error (.length_error "vector::reserve") ∧
    element.load_little_endian ⟨"e".toList, 1, [make_list_property .float64 "l".toList 1 .float64]⟩
        "\x00\xc8Ngm\xc1\xcbC".toList = .error (.length_error "vector::reserve") ∧
    list_count_loader.load_little_endian .float64 "\x00\xc8Ngm\xc1\xcbC".toList =
      .ok (4000000000000000000, []) ∧
    vector_max_size .float64 < 4000000000000000000 := by
  refine ⟨?_, ?_, ?_, ?_⟩ <;> decide!

/-! ## The ASCII and binary encodings of a table of integers -/

example : record_in_range [.int8, .uint16] [-3, 700] := by decide

theorem tokens_word (w rest : List Char) (h0 : w ≠ []) (h : ∀ c ∈ w, isspace c = false)
    (hrest : ∀ c, rest.head? = some c → isspace c = true) :
    tokens (w ++ rest) = w :: tokens rest := by
  cases w with
  | nil => exact absurd rfl h0
  | cons c w =>
    have hw : ∀ x ∈ w, (!isspace x) = true := fun x hx => by simp [h x (by simp [hx])]
    have hr : ∀ x, rest.head? = some x → (!isspace x) = false := fun x hx => by
      simp [hrest x hx]
    rw [List.cons_append, tokens_cons_not_space c _ (h c (by simp)),
      takeWhile_append_stop _ w rest hw hr, dropWhile_append_stop _ w rest hw hr]

theorem decimal_head (n : Nat) : (decimal n).head? ≠ some '-' := by
  intro h
  have hmem : '-' ∈ decimal n := by
    cases hd : decimal n with
    | nil => rw [hd] at h; simp at h
    | cons c cs => rw [hd] at h; simp at h; simp [h]
  simp only [decimal, List.mem_map] at hmem
  obtain ⟨d, hd, he⟩ := hmem
  have := digit_value_digit_char d ((decimal_digits_spec (n + 1) n (by omega)).2.1 d hd)
  rw [he] at this
  have h2 : digit_value '-' = none := by decide
  rw [h2] at this
  exact absurd this (by simp)

theorem int_text_ne_nil (z : Int) : int_text z ≠ [] := by
  simp only [int_text]
  split
  · simp
  · exact decimal_ne_nil _

theorem int_text_not_space (z : Int) : ∀ c ∈ int_text z, isspace c = false := by
  intro c hc
  simp only [int_text] at hc
  split at hc
  · simp only [List.mem_cons] at hc
    rcases hc with h | h
    · subst h; decide
    · exact decimal_not_space _ c h
  · exact decimal_not_space _ c hc

theorem from_chars_int_text (T : scalar_type) (z : Int) (h : in_range T z) :
    from_chars (is_signed T) (min_value T) (max_value T) (int_text z) = some z := by
  obtain ⟨hT, hlo, hhi⟩ := h
  by_cases hz : z < 0
  · have hs : is_signed T = true := by
      by_contra hn
      simp only [min_value, hn, Bool.false_eq_true, if_false] at hlo
      omega
    obtain ⟨h1, h2, h3⟩ := decimal_digits_spec ((-z).toNat + 1) (-z).toNat (by omega)
    have hv : -(((-z).toNat : Nat) : Int) = z := by omega
    simp only [from_chars, int_text, hz, if_true, hs, List.head?_cons, decide_True,
      Bool.and_self, List.drop_succ_cons, List.drop_zero, decimal, digit_run_map _ h2, h3, h1,
      if_false, hv, hlo, hhi, and_self]
  · have hv : ((z.toNat : Nat) : Int) = z := by omega
    obtain ⟨h1, h2, h3⟩ := decimal_digits_spec (z.toNat + 1) z.toNat (by omega)
    have hneg : (is_signed T && decide ((decimal z.toNat).head? = some '-')) = false := by
      simp [decimal_head]
    simp only [from_chars, int_text, hz, if_false, hneg, Bool.false_eq_true]
    simp only [decimal, digit_run_map _ h2, h3, h1, if_false, hv, hlo, hhi, and_self, if_true]

theorem parse_value_int_text (fp : scalar_type → List Char → Option Nat) (T : scalar_type)
    (z : Int) (h : in_range T z) : parse_value fp T (int_text z) = .ok (.int z) := by
  have hf : is_floating_point T = false := by simpa [is_integer] using h.1
  simp only [parse_value, hf, Bool.false_eq_true, if_false, from_chars_int_text T z h]

theorem tokens_ascii_record : ∀ (row : List Int), tokens (ascii_record row) = row.map int_text := by
  intro row
  induction row with
  | nil => simp [ascii_record, tokens_nil]
  | cons z zs ih =>
    cases zs with
    | nil =>
      have := tokens_word (int_text z) [] (int_text_ne_nil z) (int_text_not_space z) (by simp)
      simpa [ascii_record, tokens_nil] using this
    | cons z2 zs =>
      have := tokens_word (int_text z) (' ' :: ascii_record (z2 :: zs)) (int_text_ne_nil z)
        (int_text_not_space z) (by simp; decide)
      rw [ascii_record, this, tokens_cons_space _ _ (by decide), ih]
      · simp
      · simp

theorem ascii_record_no_newline : ∀ (row : List Int), '\n' ∉ ascii_record row := by
  intro row
  induction row with
  | nil => simp [ascii_record]
  | cons z zs ih =>
    have hz := no_newline_of_not_space _ (int_text_not_space z)
    cases zs with
    | nil => simpa [ascii_record] using hz
    | cons z2 zs =>
      rw [ascii_record]
      · simp only [List.mem_append, List.mem_cons, not_or]
        exact ⟨hz, by decide, ih⟩
      · simp

theorem parse_tokens_int_text (fp : scalar_type → List Char → Option Nat) :
    ∀ (types : List scalar_type) (row : List Int), record_in_range types row →
      parse_tokens fp types (row.map int_text) = .ok (row.map value.int) := by
  intro types
  induction types with
  | nil =>
    intro row h
    cases row with
    | nil => rfl
    | cons z zs => simp [record_in_range] at h
  | cons T types ih =>
    intro row h
    cases row with
    | nil => simp [record_in_range] at h
    | cons z zs =>
      simp only [record_in_range] at h
      simp only [parse_tokens, List.map_cons, List.headD_cons, List.tail_cons,
        parse_value_int_text fp T z h.1, ih zs h.2]

theorem record_in_range_length : ∀ (types : List scalar_type) (row : List Int),
    record_in_range types row → row.length = types.length := by
  intro types
  induction types with
  | nil =>
    intro row h
    cases row with
    | nil => rfl
    | cons z zs => simp [record_in_range] at h
  | cons T types ih =>
    intro row h
    cases row with
    | nil => simp [record_in_range] at h
    | cons z zs =>
      simp only [record_in_range] at h
      simp [ih zs h.2]

theorem zipWith_store_scalar (i : Nat) : ∀ (props : List property) (vs : List value),
    List.zipWith (fun q v => q.store i (.scalar v)) props vs =
      store_record i (vs.map entry.scalar) props := by
  intro props
  induction props with
  | nil => intro vs; cases vs <;> rfl
  | cons q props ih =>
    intro vs
    cases vs with
    | nil => rfl
    | cons v vs =>
      simp only [List.zipWith_cons_cons, List.map_cons, store_record, ih]

theorem store_value_type (i : Nat) (en : entry) (q : property) :
    (q.store i en).value_type = q.value_type := by
  cases q <;> cases en <;> rfl

theorem store_record_scalar (i : Nat) : ∀ (record : List entry) (props : List property),
    record.length = props.length → (∀ q ∈ props, q.is_scalar = true) →
    (∀ q ∈ store_record i record props, q.is_scalar = true) ∧
      (store_record i record props).map property.value_type = props.map property.value_type := by
  intro record
  induction record with
  | nil =>
    intro props h _
    cases props with
    | nil => simp [store_record]
    | cons q props => simp at h
  | cons en record ih =>
    intro props h hs
    cases props with
    | nil => simp at h
    | cons q props =>
      obtain ⟨h1, h2⟩ := ih props (by simpa using h) (fun x hx => hs x (by simp [hx]))
      simp only [store_record, List.zipWith_cons_cons, List.mem_cons, List.map_cons,
        store_value_type] at h1 h2 ⊢
      refine ⟨?_, by rw [h2]⟩
      intro x hx
      rcases hx with hx | hx
      · rw [hx, store_is_scalar]; exact hs q (by simp)
      · exact h1 x hx

/-- The loop of `element::load_ascii` on the ASCII encoding of a table of integers. -/
theorem load_ascii_rows_table (fp : scalar_type → List Char → Option Nat)
    (types : List scalar_type) (rest : List Char) :
    ∀ (table : List (List Int)) (i : Nat) (props : List property) (n : Nat),
      (∀ q ∈ props, q.is_scalar = true) → props.map property.value_type = types →
      (∀ row ∈ table, record_in_range types row) →
      element.load_ascii_rows fp table.length i props (ascii_body table ++ rest) n =
        (.ok (store_table i
          (table.map (fun row => row.map (fun z => entry.scalar (.int z)))) props, rest),
          n + table.length) := by
  intro table
  induction table with
  | nil => intro i props n _ _ _; rfl
  | cons row table ih =>
    intro i props n hs ht hr
    have hrow := hr row (by simp)
    have hlen := record_in_range_length types row hrow
    have hpl : props.length = types.length := by rw [← ht]; simp
    have hrec : element.load_ascii_record fp i props (ascii_record row) =
        .ok (store_record i (row.map (fun z => entry.scalar (.int z))) props) := by
      rw [load_ascii_record_scalar fp i props hs, tokens_ascii_record, ht,
        parse_tokens_int_text fp types row hrow]
      simp only [List.length_map]
      rw [if_neg (by omega), zipWith_store_scalar, List.map_map]
      rfl
    obtain ⟨hs1, ht1⟩ := store_record_scalar i (row.map (fun z => entry.scalar (.int z))) props
      (by simp; omega) hs
    have e : ascii_body (row :: table) ++ rest
        = ascii_record row ++ '\n' :: (ascii_body table ++ rest) := by
      simp [ascii_body, lines_text]
    simp only [List.length_cons, element.load_ascii_rows, read_line, e,
      getline_append _ _ (ascii_record_no_newline row), hrec]
    rw [ih (i + 1) _ (n + 1) hs1 (by rw [ht1, ht]) (fun r hr1 => hr r (by simp [hr1]))]
    simp only [List.map_cons, store_table, Prod.mk.injEq, true_and]
    omega

theorem read_record_binary (load : scalar_type → List Char → Except failure (value × List Char))
    (load_count : scalar_type → List Char → Except failure (Nat × List Char)) (o : order)
    (hload : ∀ T z tail, in_range T z → load T (encode T o z ++ tail) = .ok (.int z, tail)) :
    ∀ (props : List property) (row : List Int) (tail : List Char),
      (∀ q ∈ props, q.is_scalar = true) →
      record_in_range (props.map property.value_type) row →
      read_record load load_count props (binary_record o (props.map property.value_type) row
          ++ tail) = .ok (row.map (fun z => entry.scalar (.int z)), tail) := by
  intro props
  induction props with
  | nil =>
    intro row tail _ h
    cases row with
    | nil => rfl
    | cons z zs => simp [record_in_range] at h
  | cons q props ih =>
    intro row tail hs h
    cases row with
    | nil => simp [record_in_range] at h
    | cons z zs =>
      simp only [List.map_cons, record_in_range] at h
      have hq := hs q (by simp)
      cases q with
      | list T name values loader => simp [property.is_scalar] at hq
      | scalar T name values =>
        simp only [property.value_type] at h
        simp only [List.map_cons, property.value_type, binary_record, List.append_assoc,
          read_record, read_entry, hload T z _ h.1,
          ih zs tail (fun x hx => hs x (by simp [hx])) h.2]

theorem read_table_binary (load : scalar_type → List Char → Except failure (value × List Char))
    (load_count : scalar_type → List Char → Except failure (Nat × List Char)) (o : order)
    (hload : ∀ T z tail, in_range T z → load T (encode T o z ++ tail) = .ok (.int z, tail))
    (props : List property) (hs : ∀ q ∈ props, q.is_scalar = true) (tail : List Char) :
    ∀ (table : List (List Int)),
      (∀ row ∈ table, record_in_range (props.map property.value_type) row) →
      read_table load load_count props table.length
          (binary_body o (props.map property.value_type) table ++ tail) =
        .ok (table.map (fun row => row.map (fun z => entry.scalar (.int z))), tail) := by
  intro table
  induction table with
  | nil => intro _; rfl
  | cons row table ih =>
    intro hr
    have e : binary_body o (props.map property.value_type) (row :: table) ++ tail
        = binary_record o (props.map property.value_type) row ++
          (binary_body o (props.map property.value_type) table ++ tail) := by
      simp [binary_body]
    simp only [List.length_cons, read_table, e,
      read_record_binary load load_count o hload props row _ hs (hr row (by simp)),
      ih (fun r hr1 => hr r (by simp [hr1])), List.map_cons]

theorem table_columns_get : ∀ (schema : List (List Char × scalar_type)) (first : Nat)
    (table : List (List Int)) (j : Nat),
    (table_columns first schema table)[j]? = (schema[j]?).map (fun s =>
      property.scalar s.2 s.1 (table.map (fun row => value.int (row.getD (first + j) 0)))) := by
  intro schema
  induction schema with
  | nil => intro first table j; simp [table_columns]
  | cons s schema ih =>
    intro first table j
    cases j with
    | zero => simp [table_columns]
    | succ j =>
      simp only [table_columns, List.getElem?_cons_succ, ih]
      have : first + 1 + j = first + (j + 1) := by omega
      rw [this]

theorem column_entries_table (j : Nat) : ∀ (table : List (List Int)),
    (∀ row ∈ table, j < row.length) →
    column_entries j (table.map (fun row => row.map (fun z => entry.scalar (.int z)))) =
      (table.map (fun row => value.int (row.getD j 0))).map entry.scalar := by
  intro table
  induction table with
  | nil => intro _; rfl
  | cons row table ih =>
    intro h
    have hj := h row (by simp)
    have := ih (fun r hr => h r (by simp [hr]))
    simp only [column_entries] at this
    simp only [column_entries, List.map_cons, List.filterMap_cons, List.getElem?_map,
      List.getElem?_eq_getElem hj, Option.map_some', this, List.getD_eq_getElem?_getD,
      Option.getD_some]

/-- The table stored in the columns the header leaves: column `j` holds value `j` of every
record. -/
theorem store_table_columns (schema : List (List Char × scalar_type)) (table : List (List Int))
    (h : ∀ row ∈ table, row.length = schema.length) :
    store_table 0 (table.map (fun row => row.map (fun z => entry.scalar (.int z))))
        (scalar_columns schema table.length) = table_columns 0 schema table := by
  apply List.ext_getElem?
  intro j
  rw [store_table_getElem _ _ _ _ (fun record hr => by
    simp only [List.mem_map] at hr
    obtain ⟨row, hrow, rfl⟩ := hr
    simp [scalar_columns, h row hrow]), table_columns_get]
  simp only [scalar_columns, List.getElem?_map, Nat.zero_add]
  cases hs : schema[j]? with
  | none => rfl
  | some s =>
    have hj : j < schema.length := by
      by_contra hn
      rw [List.getElem?_eq_none (Nat.not_lt.mp hn)] at hs
      simp at hs
    simp only [Option.map_some', Option.some.injEq, make_scalar_property]
    rw [column_entries_table j table (fun row hr => by rw [h row hr]; exact hj)]
    have := store_column_scalar s.2 s.1 (zero s.2)
      (table.map (fun row => value.int (row.getD j 0))) []
    simpa using this

/-- The value of `load_big_endian` on bytes is that of `load_little_endian` on the bytes in
reverse order. -/
theorem load_big_endian_reverse (T : scalar_type) (bs tail : List Char)
    (h : bs.length = sizeof T) :
    load_big_endian T (bs ++ tail) = load_little_endian T (bs.reverse ++ tail) := by
  have hr : bs.reverse.length = sizeof T := by simp [h]
  simp only [load_big_endian, load_little_endian, load_binary, List.length_append,
    List.length_reverse, h]
  rw [if_neg (by omega), if_neg (by omega), List.take_left' h, List.drop_left' h,
    List.take_left' hr, List.drop_left' hr]
  simp only [endian_load, List.map_reverse, List.foldr_reverse]
  have e : ∀ l : List Nat, List.foldl (fun acc b => acc * 256 + b) 0 l
      = List.foldl (fun x y => y + 256 * x) 0 l := by
    intro l
    congr 1
    funext x y
    omega
  rw [e]

theorem scalar_columns_scalar (schema : List (List Char × scalar_type)) (count : Nat) :
    (∀ q ∈ scalar_columns schema count, q.is_scalar = true) ∧
      (scalar_columns schema count).map property.value_type = schema.map (fun s => s.2) := by
  constructor
  · intro q hq
    simp only [scalar_columns, List.mem_map] at hq
    obtain ⟨s, _, rfl⟩ := hq
    rfl
  · simp only [scalar_columns, List.map_map]
    rfl

theorem element_load_binary_table
    (load : scalar_type → List Char → Except failure (value × List Char))
    (load_count : scalar_type → List Char → Except failure (Nat × List Char)) (o : order)
    (hload : ∀ T z tail, in_range T z → load T (encode T o z ++ tail) = .ok (.int z, tail))
    (f : Nat → List Char → property → Except failure (property × List Char))
    (hf : ∀ i is q, f i is q = q.load_with load load_count i is)
    (schema : List (List Char × scalar_type)) (table : List (List Int)) (rest : List Char)
    (h : ∀ row ∈ table, record_in_range (schema.map (fun s => s.2)) row) :
    element.load_binary_rows f table.length 0 (scalar_columns schema table.length)
        (binary_body o (schema.map (fun s => s.2)) table ++ rest) =
      .ok (table_columns 0 schema table, rest) := by
  obtain ⟨hs, ht⟩ := scalar_columns_scalar schema table.length
  have hrt := read_table_binary load load_count o hload (scalar_columns schema table.length) hs
    rest table (by rw [ht]; exact h)
  rw [ht] at hrt
  rw [load_binary_rows_eq load load_count f hf, hrt]
  simp only
  rw [store_table_columns schema table (fun row hr => by
    have := record_in_range_length _ _ (h row hr)
    simpa using this)]

/-- C2. Endianness equivalence. For every schema of scalar properties of integer types and
every table of integers within the bounds of their types, the load of the element from
the ASCII encoding of the table (decimal tokens, one record a line), from its big-endian
encoding and from its little-endian encoding succeeds, leaves what follows the encoding
unread and yields the same columns, column `j` holding value `j` of every record in
record order. `load_big_endian` of a value from its bytes is `load_little_endian` of it
from the bytes in reverse order, for every scalar type. -/
theorem C2_endianness_equivalence (from_chars_float : scalar_type → List Char → Option Nat)
    (name : List Char) (schema : List (List Char × scalar_type)) (table : List (List Int))
    (rest : List Char) (n : Nat)
    (h : ∀ row ∈ table, record_in_range (schema.map (fun s => s.2)) row) :
    element.load_ascii from_chars_float
        ⟨name, table.length, scalar_columns schema table.length⟩ (ascii_body table ++ rest) n =
      (.ok (⟨name, table.length, table_columns 0 schema table⟩, rest), n + table.length) ∧
    element.load_big_endian ⟨name, table.length, scalar_columns schema table.length⟩
        (binary_body .big (schema.map (fun s => s.2)) table ++ rest) =
      .ok (⟨name, table.length, table_columns 0 schema table⟩, rest) ∧
    element.load_little_endian ⟨name, table.length, scalar_columns schema table.length⟩
        (binary_body .little (schema.map (fun s => s.2)) table ++ rest) =
      .ok (⟨name, table.length, table_columns 0 schema table⟩, rest) ∧
    (∀ (T : scalar_type) (bs tail : List Char), bs.length = sizeof T →
      load_big_endian T (bs ++ tail) = load_little_endian T (bs.reverse ++ tail)) := by
  obtain ⟨hs, ht⟩ := scalar_columns_scalar schema table.length
  refine ⟨?_, ?_, ?_, load_big_endian_reverse⟩
  · simp only [element.load_ascii]
    rw [load_ascii_rows_table from_chars_float (schema.map (fun s => s.2)) rest table 0
      (scalar_columns schema table.length) n hs ht h]
    simp only
    rw [store_table_columns schema table (fun row hr => by
      have := record_in_range_length _ _ (h row hr)
      simpa using this)]
  · simp only [element.load_big_endian]
    rw [element_load_binary_table load_big_endian list_count_loader.load_big_endian .big
      (fun T z tail hz => load_binary_encode T .big z hz tail) property.load_big_endian
      (fun _ _ _ => rfl) schema table rest h]
  · simp only [element.load_little_endian]
    rw [element_load_binary_table load_little_endian list_count_loader.load_little_endian .little
      (fun T z tail hz => load_binary_encode T .little z hz tail) property.load_little_endian
      (fun _ _ _ => rfl) schema table rest h]

/-- C2 at a concrete table: two records of a `short` and a `uchar` property; the ASCII text
and the two binary encodings load to the same columns. -/
theorem C2_endianness_equivalence_witness :
    element.load_ascii no_float
        ⟨"vertex".toList, 2,
          [make_scalar_property .int16 "x".toList 2, make_scalar_property .uint8 "c".toList 2]⟩
        "-2 200\n258 7\nrest".toList 0 =
      (.ok (⟨"vertex".toList, 2, [.scalar .int16 "x".toList [.int (-2), .int 258],
        .scalar .uint8 "c".toList [.int 200, .int 7]]⟩, "rest".toList), 2) ∧
    element.load_big_endian
        ⟨"vertex".toList, 2,
          [make_scalar_property .int16 "x".toList 2, make_scalar_property .uint8 "c".toList 2]⟩
        "\xff\xfe\xc8\x01\x02\x07rest".toList =
      .ok (⟨"vertex".toList, 2, [.scalar .int16 "x".toList [.int (-2), .int 258],
        .scalar .uint8 "c".toList [.int 200, .int 7]]⟩, "rest".toList) ∧
    element.load_little_endian
        ⟨"vertex".toList, 2,
          [make_scalar_property .int16 "x".toList 2, make_scalar_property .uint8 "c".toList 2]⟩
        "\xfe\xff\xc8\x02\x01\x07rest".toList =
      .ok (⟨"vertex".toList, 2, [.scalar .int16 "x".toList [.int (-2), .int 258],
        .scalar .uint8 "c".toList [.int 200, .int 7]]⟩, "rest".toList) := by
  have h := C2_endianness_equivalence no_float "vertex".toList
    [("x".toList, .int16), ("c".toList, .uint8)] [[-2, 200], [258, 7]] "rest".toList 0
    (by decide)
  have e1 : ascii_body [[-2, 200], [258, 7]] = "-2 200\n258 7\n".toList := by decide
  have e2 : binary_body .big [.int16, .uint8] [[-2, 200], [258, 7]]
      = "\xff\xfe\xc8\x01\x02\x07".toList := by decide
  have e3 : binary_body .little [.int16, .uint8] [[-2, 200], [258, 7]]
      = "\xfe\xff\xc8\x02\x01\x07".toList := by decide
  refine ⟨?_, ?_, ?_⟩
  · have := h.1
    simp only [List.map, e1] at this
    exact this
  · have := h.2.1
    simp only [List.map, e2] at this
    exact this
  · have := h.2.2.1
    simp only [List.map, e3] at this
    exact this

/-! ## Lookup by name -/

/-- The first position with a name: `findIdx` gives `i` below the length exactly when entry
`i` has the name and no entry before it has. -/
theorem findIdx_name_iff {α : Type} (xs : List α) (f : α → List Char) (name : List Char)
    (i : Nat) :
    (xs.findIdx (fun x => f x = name) = i ∧ i < xs.length) ↔
      (xs[i]?.map f = some name ∧ ∀ j, j < i → xs[j]?.map f ≠ some name) := by
  constructor
  · rintro ⟨h, hi⟩
    refine ⟨?_, ?_⟩
    · have := @List.findIdx_getElem _ (fun x => decide (f x = name)) xs (by rw [h]; exact hi)
      simp only [h] at this
      rw [List.getElem?_eq_getElem hi]
      simpa using this
    · intro j hj
      have hj2 : j < xs.findIdx (fun x => decide (f x = name)) := by rw [h]; exact hj
      have := List.not_of_lt_findIdx hj2
      rw [List.getElem?_eq_getElem (by omega)]
      simpa using this
  · rintro ⟨h, hlt⟩
    have hi : i < xs.length := by
      by_contra hc
      rw [List.getElem?_eq_none (by omega)] at h
      simp at h
    refine ⟨?_, hi⟩
    rw [List.findIdx_eq hi]
    refine ⟨?_, ?_⟩
    · rw [List.getElem?_eq_getElem hi] at h
      simpa using h
    · intro j hj
      have := hlt j hj
      rw [List.getElem?_eq_getElem (by omega)] at this
      simpa using this

/-- No position has the name exactly when `findIdx` gives the length. -/
theorem findIdx_name_none {α : Type} (xs : List α) (f : α → List Char) (name : List Char) :
    xs.findIdx (fun x => f x = name) = xs.length ↔ ∀ (i : Nat), xs[i]?.map f ≠ some name := by
  rw [List.findIdx_eq_length]
  constructor
  · intro h i hi
    rcases hx : xs[i]? with _ | x
    · simp [hx] at hi
    · have hm := List.getElem?_mem hx
      have := h x hm
      simp [hx] at hi
      simp [hi] at this
  · intro h x hx
    obtain ⟨i, hi, rfl⟩ := List.getElem_of_mem hx
    have := h i
    rw [List.getElem?_eq_getElem hi] at this
    simpa using this

theorem element_index_ok_iff (p : ply) (name : List Char) (i : Nat) :
    p.element_index name = .ok i ↔
      (p.element_name i = some name ∧ ∀ j, j < i → p.element_name j ≠ some name) := by
  unfold ply.element_name
  rw [← findIdx_name_iff p.elements_ element.name name i]
  unfold ply.element_index ply.find_element
  have hle := @List.findIdx_le_length element (fun e => decide (e.name = name)) p.elements_
  split_ifs with h
  · simp only [reduceCtorEq, false_iff, not_and, not_lt]
    intro h2; omega
  · simp only [Except.ok.injEq]
    constructor
    · intro h2; exact ⟨h2, by omega⟩
    · intro h2; exact h2.1

theorem element_index_error_iff (p : ply) (name : List Char) :
    p.element_index name =
        .error (.runtime_error (String.mk ("PLY contains no element ".toList ++ quoted name))) ↔
      ∀ i, p.element_name i ≠ some name := by
  unfold ply.element_name
  rw [← findIdx_name_none p.elements_ element.name name]
  unfold ply.element_index ply.find_element
  split_ifs with h
  · simp [h]
  · simp [h]

theorem property_index_ok_iff (e : element) (name : List Char) (j : Nat) :
    e.property_index name = .ok j ↔
      (e.property_name j = some name ∧ ∀ k, k < j → e.property_name k ≠ some name) := by
  unfold element.property_name
  rw [← findIdx_name_iff e.properties_ property.name name j]
  unfold element.property_index element.find_property
  have hle := @List.findIdx_le_length property (fun q => decide (q.name = name)) e.properties_
  split_ifs with h
  · simp only [reduceCtorEq, false_iff, not_and, not_lt]
    intro h2; omega
  · simp only [Except.ok.injEq]
    constructor
    · intro h2; exact ⟨h2, by omega⟩
    · intro h2; exact h2.1

theorem property_index_error_iff (e : element) (name : List Char) :
    e.property_index name =
        .error (.runtime_error (String.mk ("PLY element ".toList ++ quoted e.name_ ++
          " contains no property ".toList ++ quoted name))) ↔
      ∀ j, e.property_name j ≠ some name := by
  unfold element.property_name
  rw [← findIdx_name_none e.properties_ property.name name]
  unfold element.property_index element.find_property
  split_ifs with h
  · simp [h]
  · simp [h]

/-- C12. First match wins in the lookup by name. `element_index(name)` returns `i` exactly
when element `i` has the name and no element before it has, and it throws, with the message
`PLY contains no element "<name>"`, exactly when no element has the name.
`property_index(e, name)` returns `j` exactly when property `j` of element `e` has the name
and no property before it has, and it throws, with the message
`PLY element "<element>" contains no property "<name>"`, exactly when the element has no
property of that name. The lookup of a property by the name of its element goes to the
first element of that name. -/
theorem C12_first_match_wins (p : ply) (name property_name : List Char) :
    (∀ i, p.element_index name = .ok i ↔
      (p.element_name i = some name ∧ ∀ j, j < i → p.element_name j ≠ some name)) ∧
    ((∃ err, p.element_index name = .error err) ↔ ∀ i, p.element_name i ≠ some name) ∧
    (∀ err, p.element_index name = .error err →
      err = .runtime_error (String.mk ("PLY contains no element ".toList ++ quoted name))) ∧
    (∀ (ei : Nat) (e : element), p.elements_[ei]? = some e →
      (∀ j, p.property_index ei property_name = .ok j ↔
        (p.property_name ei j = some property_name ∧
          ∀ k, k < j → p.property_name ei k ≠ some property_name)) ∧
      ((∃ err, p.property_index ei property_name = .error err) ↔
        ∀ j, p.property_name ei j ≠ some property_name) ∧
      (∀ err, p.property_index ei property_name = .error err →
        err = .runtime_error (String.mk ("PLY element ".toList ++ quoted e.name_ ++
          " contains no property ".toList ++ quoted property_name)))) ∧
    (∀ i, p.element_index name = .ok i →
      p.property_index_by_name name property_name = p.property_index i property_name) := by
  have herr : ∀ err, p.element_index name = .error err →
      err = .runtime_error (String.mk ("PLY contains no element ".toList ++ quoted name)) := by
    intro err h
    unfold ply.element_index at h
    split_ifs at h
    exact (Except.error.inj h).symm
  have perr : ∀ (e : element) err, e.property_index property_name = .error err →
      err = .runtime_error (String.mk ("PLY element ".toList ++ quoted e.name_ ++
          " contains no property ".toList ++ quoted property_name)) := by
    intro e err h
    unfold element.property_index at h
    split_ifs at h
    exact (Except.error.inj h).symm
  refine ⟨element_index_ok_iff p name, ?_, herr, ?_, ?_⟩
  · rw [← element_index_error_iff]
    constructor
    · rintro ⟨err, h⟩
      rw [h, herr err h]
    · intro h
      exact ⟨_, h⟩
  · intro ei e he
    have e1 : p.property_index ei property_name = e.property_index property_name := by
      simp only [ply.property_index, he]
    have e2 : ∀ j, p.property_name ei j = e.property_name j := by
      intro j
      simp only [ply.property_name, he]
    simp only [e1, e2]
    refine ⟨property_index_ok_iff e property_name, ?_, perr e⟩
    rw [← property_index_error_iff]
    constructor
    · rintro ⟨err, h⟩
      rw [h, perr e err h]
    · intro h
      exact ⟨_, h⟩
  · intro i h
    simp only [ply.property_index_by_name, h]

/-! ## The typed accessor -/

/-- C13, as the code has it. The typed accessor `values<T>` never returns a view. With a
type other than the stored one it throws the type mismatch, as the claim says; with the
stored type it reaches the end of `element::values<T>`, which has no `return` statement, so
the call is undefined where the claim has it return the loaded values. For an `int` column
`x` of an element `vertex` with the values 1 and 2: the untyped accessor gives the two
values, the typed accessor as `float` throws, and the typed accessor as `int` is undefined. -/
theorem C13_typed_accessor_returns_nothing :
    (∀ (p : ply) (T : valid_value) (element_index property_index : Nat) (view : value_variant),
      p.values_as T element_index property_index ≠ .ok view) ∧
    (∀ (e : element) (T : valid_value) (index : Nat) (q : property),
      e.properties_[index]? = some q → q.stored_type ≠ T →
      e.values_as T index = .error (.runtime_error (String.mk ("PLY element ".toList ++
        quoted e.name_ ++ " property ".toList ++ quoted q.name ++ " accessed as ".toList ++
        T.as_string ++ " but its type is ".toList ++ q.type_name)))) ∧
    (∀ (e : element) (T : valid_value) (index : Nat) (q : property),
      e.properties_[index]? = some q → q.stored_type = T →
      e.values_as T index = .error (.undefined_behavior "no return statement")) ∧
    ply.values ⟨[], [⟨"vertex".toList, 2, [.scalar .int32 "x".toList [.int 1, .int 2]]⟩], .ascii⟩
        0 0 = some (.scalars .int32 [.int 1, .int 2]) ∧
    ply.values_as ⟨[], [⟨"vertex".toList, 2, [.scalar .int32 "x".toList [.int 1, .int 2]]⟩], .ascii⟩
        (.scalar .float32) 0 0 = .error (.runtime_error
          "PLY element \"vertex\" property \"x\" accessed as float but its type is int") ∧
    ply.values_as ⟨[], [⟨"vertex".toList, 2, [.scalar .int32 "x".toList [.int 1, .int 2]]⟩], .ascii⟩
        (.scalar .int32) 0 0 = .error (.undefined_behavior "no return statement") := by
  refine ⟨?_, ?_, ?_, by decide, by decide, by decide⟩
  · intro p T ei pi view h
    unfold ply.values_as at h
    split at h
    · exact absurd h (by simp)
    · unfold element.values_as at h
      split at h
      · exact absurd h (by simp)
      · split_ifs at h
  · intro e T index q hq hT
    simp only [element.values_as, hq]
    rw [if_pos hT]
  · intro e T index q hq hT
    simp only [element.values_as, hq]
    rw [if_neg (by simpa using hT)]

/-! ## Lines read and the line counter -/

theorem first_lines_zero (is : List Char) : first_lines 0 is = [] := by
  cases is <;> rfl

theorem first_lines_append (m : Nat) (line rest : List Char) (h : '\n' ∉ line) :
    first_lines (m + 1) (line ++ '\n' :: rest) = line ++ '\n' :: first_lines m rest := by
  induction line with
  | nil => simp [first_lines]
  | cons c cs ih =>
    have hc : c ≠ '\n' := fun e => h (by simp [e])
    have hcs : '\n' ∉ cs := fun e => h (by simp [e])
    simp [first_lines, hc, ih hcs]

theorem first_lines_no_feed (m : Nat) (is : List Char) (h : '\n' ∉ is) :
    '\n' ∉ first_lines m is := by
  induction is generalizing m with
  | nil => cases m <;> simp [first_lines]
  | cons c cs ih =>
    have hc : c ≠ '\n' := fun e => h (by simp [e])
    have hcs : '\n' ∉ cs := fun e => h (by simp [e])
    cases m with
    | zero => simp [first_lines]
    | succ m =>
      simp only [first_lines, if_neg hc, List.mem_cons, not_or]
      exact ⟨fun e => hc e.symm, ih (m + 1) hcs⟩

theorem getline_eq_none (is : List Char) (h : getline is = none) : '\n' ∉ is := by
  induction is with
  | nil => simp
  | cons c cs ih =>
    rw [getline] at h
    split at h
    · simp at h
    · rename_i hc
      split at h
      · simp at h
      · rename_i h2
        simp only [List.mem_cons, not_or]
        exact ⟨fun e => hc e.symm, ih h2⟩

theorem line_feeds_append (line rest : List Char) (h : '\n' ∉ line) :
    line_feeds (line ++ '\n' :: rest) = 1 + line_feeds rest := by
  simp only [line_feeds, List.count_append, List.count_cons_self]
  rw [List.count_eq_zero.mpr h]
  omega

theorem first_lines_length (m : Nat) (is : List Char) : (first_lines m is).length ≤ is.length := by
  induction is generalizing m with
  | nil => cases m <;> simp [first_lines]
  | cons c cs ih =>
    cases m with
    | zero => simp [first_lines]
    | succ m =>
      simp only [first_lines]
      split
      · simp only [List.length_cons]; have := ih m; omega
      · simp only [List.length_cons]; have := ih (m + 1); omega

theorem getline_length (is line rest : List Char) (h : getline is = some (line, rest)) :
    rest.length < is.length := by
  obtain ⟨h1, _⟩ := getline_some is line rest h
  rw [h1]
  simp
  omega

theorem read_line_first_lines (is line rest : List Char) (n m : Nat)
    (h : getline is = some (line, rest)) :
    read_line (first_lines (m + 1) is) n = (.ok (line, first_lines m rest), n + 1) := by
  obtain ⟨h1, h2⟩ := getline_some is line rest h
  rw [h1, first_lines_append m line rest h2]
  simp only [read_line, getline_append _ _ h2]

theorem read_line_nil (n : Nat) : read_line [] n = (.error .end_of_input, n + 1) := rfl

theorem reads_lines_read_line (is : List Char) (n : Nat) : reads_lines read_line is n := by
  constructor
  · intro x rest n1 h
    unfold read_line at h
    rcases hg : getline is with _ | ⟨line, rest0⟩
    · simp [hg] at h
    · simp only [hg, Prod.mk.injEq, Except.ok.injEq] at h
      obtain ⟨⟨rfl, rfl⟩, rfl⟩ := h
      obtain ⟨h1, h2⟩ := getline_some is line rest0 hg
      refine ⟨1, rfl, ?_, ?_, ?_⟩
      · rw [h1, line_feeds_append _ _ h2]
      · intro m hm
        obtain ⟨m, rfl⟩ : ∃ j, m = j + 1 := ⟨m - 1, by omega⟩
        rw [read_line_first_lines is line rest0 n m hg]
        simp
      · intro m hm
        have : m = 0 := by omega
        subst this
        rw [first_lines_zero]
        rfl
  · intro e n1 h
    unfold read_line at h
    rcases hg : getline is with _ | ⟨line, rest0⟩
    · simp only [hg, Prod.mk.injEq, Except.error.injEq] at h
      obtain ⟨rfl, rfl⟩ := h
      refine ⟨1, rfl, by omega, ?_⟩
      intro m hm
      have : m = 0 := by omega
      subst this
      rw [first_lines_zero]
      rfl
    · simp [hg] at h

/-- A call that reads lines, then a second one that goes on behind it. -/
theorem reads_lines_bind {α β : Type}
    (R1 : List Char → Nat → Except failure (α × List Char) × Nat)
    (R2 : α → List Char → Nat → Except failure (β × List Char) × Nat)
    (R : List Char → Nat → Except failure (β × List Char) × Nat)
    (herr : ∀ is n e n1, R1 is n = (.error e, n1) → R is n = (.error e, n1))
    (hok : ∀ is n x rest n1, R1 is n = (.ok (x, rest), n1) → R is n = R2 x rest n1)
    (is : List Char) (n : Nat) (h1 : reads_lines R1 is n)
    (h2 : ∀ x rest n1, R1 is n = (.ok (x, rest), n1) → reads_lines (R2 x) rest n1) :
    reads_lines R is n := by
  rcases hr : R1 is n with ⟨r, n1⟩
  rcases r with e | ⟨x, rest⟩
  · have hR := herr is n e n1 hr
    obtain ⟨k, hk1, hk2, hk3⟩ := h1.2 e n1 hr
    constructor
    · intro y rest2 n2 h
      rw [hR] at h
      simp at h
    · intro e2 n2 h
      rw [hR] at h
      simp only [Prod.mk.injEq, Except.error.injEq] at h
      obtain ⟨rfl, rfl⟩ := h
      refine ⟨k, hk1, hk2, ?_⟩
      intro m hm
      exact herr _ _ _ _ (hk3 m hm)
  · have hR := hok is n x rest n1 hr
    obtain ⟨k, hk1, hk2, hk3, hk4⟩ := h1.1 x rest n1 hr
    have h2 := h2 x rest n1 hr
    constructor
    · intro y rest2 n2 h
      rw [hR] at h
      obtain ⟨j, hj1, hj2, hj3, hj4⟩ := h2.1 y rest2 n2 h
      refine ⟨k + j, by omega, by omega, ?_, ?_⟩
      · intro m hm
        rw [hok _ _ _ _ _ (hk3 m (by omega)), hj3 (m - k) (by omega)]
        have : m - k - j = m - (k + j) := by omega
        rw [this]
      · intro m hm
        by_cases hmk : m < k
        · exact herr _ _ _ _ (hk4 m hmk)
        · rw [hok _ _ _ _ _ (hk3 m (by omega)), hj4 (m - k) (by omega)]
          have : n1 + (m - k) + 1 = n + m + 1 := by omega
          rw [this]
    · intro e2 n2 h
      rw [hR] at h
      obtain ⟨j, hj1, hj2, hj3⟩ := h2.2 e2 n2 h
      refine ⟨k + j, by omega, by omega, ?_⟩
      intro m hm
      by_cases hmk : m < k
      · exact herr _ _ _ _ (hk4 m hmk)
      · rw [hok _ _ _ _ _ (hk3 m (by omega)), hj3 (m - k) (by omega)]
        have : n1 + (m - k) + 1 = n + m + 1 := by omega
        rw [this]

/-- A call that returns without reading. -/
theorem reads_lines_pure {α : Type} (x : α) (is : List Char) (n : Nat) :
    reads_lines (fun rest n1 => (.ok (x, rest), n1)) is n := by
  constructor
  · intro y rest n1 h
    simp only [Prod.mk.injEq, Except.ok.injEq] at h
    obtain ⟨⟨rfl, rfl⟩, rfl⟩ := h
    exact ⟨0, rfl, by omega, fun m _ => rfl, fun m hm => absurd hm (by omega)⟩
  · intro e n1 h
    simp at h

/-- A call that throws without reading. -/
theorem reads_lines_throw {α : Type} (e : failure) (is : List Char) (n : Nat) :
    reads_lines (fun (_ : List Char) n1 =>
      ((.error e : Except failure (α × List Char)), n1)) is n := by
  constructor
  · intro y rest n1 h
    simp at h
  · intro e2 n1 h
    simp only [Prod.mk.injEq, Except.error.injEq] at h
    obtain ⟨rfl, rfl⟩ := h
    exact ⟨0, rfl, by omega, fun m hm => absurd hm (by omega)⟩

theorem read_line_ok_length (is line rest : List Char) (n n1 : Nat)
    (h : read_line is n = (.ok (line, rest), n1)) : rest.length < is.length := by
  unfold read_line at h
  rcases hg : getline is with _ | ⟨line0, rest0⟩
  · simp [hg] at h
  · simp only [hg, Prod.mk.injEq, Except.ok.injEq] at h
    obtain ⟨⟨rfl, rfl⟩, rfl⟩ := h
    exact getline_length is line0 rest0 hg

/-- The header loop does not depend on its fuel once the fuel is more than the length of
the input. -/
theorem header_loop_fuel (fuel1 : Nat) :
    ∀ (fuel2 : Nat) (p : ply) (is : List Char) (n : Nat),
      is.length < fuel1 → is.length < fuel2 →
      ply.process_header_loop fuel1 p is n = ply.process_header_loop fuel2 p is n := by
  induction fuel1 with
  | zero => intro fuel2 p is n h; omega
  | succ f1 ih =>
    intro fuel2 p is n h1 h2
    obtain ⟨f2, rfl⟩ : ∃ j, fuel2 = j + 1 := ⟨fuel2 - 1, by omega⟩
    rcases hr : read_line is n with ⟨r, n1⟩
    rcases r with e | ⟨line, rest⟩
    · simp only [ply.process_header_loop, hr]
    · have hl := read_line_ok_length is line rest n n1 hr
      have e1 : ∀ q, ply.process_header_loop f1 q rest n1 = ply.process_header_loop f2 q rest n1 :=
        fun q => ih f2 q rest n1 (by omega) (by omega)
      simp only [ply.process_header_loop, hr, e1]

theorem reads_lines_header_loop (L : Nat) :
    ∀ (p : ply) (is : List Char) (n : Nat), is.length ≤ L →
      reads_lines (fun is n => ply.process_header_loop (is.length + 1) p is n) is n := by
  induction L with
  | zero =>
    intro p is n h
    have : is = [] := List.length_eq_zero.mp (by omega)
    subst this
    constructor
    · intro x rest n1 h
      simp [ply.process_header_loop, read_line, getline] at h
    · intro e n1 h
      simp only [List.length_nil, ply.process_header_loop, read_line, getline, Prod.mk.injEq,
        Except.error.injEq] at h
      obtain ⟨rfl, rfl⟩ := h
      refine ⟨1, rfl, by omega, ?_⟩
      intro m hm
      have : m = 0 := by omega
      subst this
      rfl
  | succ L ih =>
    intro p is n h
    refine reads_lines_bind read_line
      (fun line rest n1 =>
        if find_index header_entry_strings (split_front2 (trim line)).1 ≥
            header_entry_strings.length then
          (.error (.runtime_error "invalid format"), n1)
        else if find_index header_entry_strings (split_front2 (trim line)).1 =
            find_index header_entry_strings "comment".toList then
          ply.process_header_loop (rest.length + 1)
            { p with comments_ := p.comments_ ++ [(split_front2 (trim line)).2] } rest n1
        else if find_index header_entry_strings (split_front2 (trim line)).1 =
            find_index header_entry_strings "element".toList then
          (Except.rec (motive := fun _ => Except failure (ply × List Char) × Nat)
            (fun e => (.error e, n1))
            (fun p1 => ply.process_header_loop (rest.length + 1) p1 rest n1)
            (p.add_element (split_front2 (trim line)).2))
        else if find_index header_entry_strings (split_front2 (trim line)).1 =
            find_index header_entry_strings "property".toList then
          (Except.rec (motive := fun _ => Except failure (ply × List Char) × Nat)
            (fun e => (.error e, n1))
            (fun p1 => ply.process_header_loop (rest.length + 1) p1 rest n1)
            (p.add_property (split_front2 (trim line)).2))
        else (.ok (p, rest), n1))
      _ ?_ ?_ is n (reads_lines_read_line is n) ?_
    · intro is n e n1 hr
      simp only [ply.process_header_loop, hr]
    · intro is n line rest n1 hr
      have hl := read_line_ok_length is line rest n n1 hr
      have e1 : ∀ q, ply.process_header_loop is.length q rest n1 =
          ply.process_header_loop (rest.length + 1) q rest n1 :=
        fun q => header_loop_fuel _ _ q rest n1 (by omega) (by omega)
      rw [ply.process_header_loop]
      simp only [hr, List.length_cons, Nat.add_sub_cancel, e1]
      by_cases c1 : find_index header_entry_strings (split_front2 (trim line)).1 ≥
          header_entry_strings.length
      · rw [if_pos c1, if_pos c1]
      rw [if_neg c1, if_neg c1]
      by_cases c2 : find_index header_entry_strings (split_front2 (trim line)).1 =
          find_index header_entry_strings "comment".toList
      · rw [if_pos c2, if_pos c2]
      rw [if_neg c2, if_neg c2]
      by_cases c3 : find_index header_entry_strings (split_front2 (trim line)).1 =
          find_index header_entry_strings "element".toList
      · rw [if_pos c3, if_pos c3]
        generalize p.add_element (split_front2 (trim line)).2 = r
        cases r <;> rfl
      rw [if_neg c3, if_neg c3]
      by_cases c4 : find_index header_entry_strings (split_front2 (trim line)).1 =
          find_index header_entry_strings "property".toList
      · rw [if_pos c4, if_pos c4]
        generalize p.add_property (split_front2 (trim line)).2 = r
        cases r <;> rfl
      rw [if_neg c4, if_neg c4]
    · intro line rest n1 hr
      have hl := read_line_ok_length is line rest n n1 hr
      have hL : rest.length ≤ L := by omega
      beta_reduce
      split_ifs
      · exact reads_lines_throw _ rest n1
      · exact ih _ rest n1 hL
      · generalize p.add_element (split_front2 (trim line)).2 = r
        cases r with
        | error e => exact reads_lines_throw e rest n1
        | ok p1 => exact ih p1 rest n1 hL
      · generalize p.add_property (split_front2 (trim line)).2 = r
        cases r with
        | error e => exact reads_lines_throw e rest n1
        | ok p1 => exact ih p1 rest n1 hL
      · exact reads_lines_pure p rest n1

theorem reads_lines_process_header (p : ply) (is : List Char) (n : Nat) :
    reads_lines (ply.process_header p) is n := by
  refine reads_lines_bind read_line
    (fun line rest n1 =>
      (Except.rec (motive := fun _ => Except failure (ply × List Char) × Nat)
        (fun e => (.error e, n1))
        (fun type => ply.process_header_loop (rest.length + 1)
          { p with file_type_ := type } rest n1)
        (ply.process_format_line line)))
    _ ?_ ?_ is n (reads_lines_read_line is n) ?_
  · intro is n e n1 hr
    simp only [ply.process_header, hr]
  · intro is n line rest n1 hr
    simp only [ply.process_header, hr]
    generalize ply.process_format_line line = r
    cases r <;> rfl
  · intro line rest n1 hr
    beta_reduce
    generalize ply.process_format_line line = r
    cases r with
    | error e => exact reads_lines_throw e rest n1
    | ok type => exact reads_lines_header_loop rest.length _ rest n1 (le_refl _)

theorem reads_lines_load_ascii_rows (fc : scalar_type → List Char → Option Nat) (rows : Nat) :
    ∀ (i : Nat) (properties : List property) (is : List Char) (n : Nat),
      reads_lines (element.load_ascii_rows fc rows i properties) is n := by
  induction rows with
  | zero =>
    intro i properties is n
    exact reads_lines_pure properties is n
  | succ rows ih =>
    intro i properties is n
    refine reads_lines_bind read_line
      (fun line rest n1 =>
        (Except.rec (motive := fun _ => Except failure (List property × List Char) × Nat)
          (fun e => (.error e, n1))
          (fun properties1 => element.load_ascii_rows fc rows (i + 1) properties1 rest n1)
          (element.load_ascii_record fc i properties line)))
      _ ?_ ?_ is n (reads_lines_read_line is n) ?_
    · intro is n e n1 hr
      simp only [element.load_ascii_rows, hr]
    · intro is n line rest n1 hr
      rw [element.load_ascii_rows]
      simp only [hr]
      generalize element.load_ascii_record fc i properties line = r
      cases r <;> rfl
    · intro line rest n1 hr
      beta_reduce
      generalize element.load_ascii_record fc i properties line = r
      cases r with
      | error e => exact reads_lines_throw e rest n1
      | ok properties1 => exact ih (i + 1) properties1 rest n1

theorem reads_lines_element_load_ascii (fc : scalar_type → List Char → Option Nat)
    (e : element) (is : List Char) (n : Nat) : reads_lines (e.load_ascii fc) is n := by
  refine reads_lines_bind (element.load_ascii_rows fc e.count_ 0 e.properties_)
    (fun properties rest n1 => (.ok ({ e with properties_ := properties }, rest), n1))
    _ ?_ ?_ is n (reads_lines_load_ascii_rows fc _ _ _ is n) ?_
  · intro is n err n1 hr
    simp only [element.load_ascii, hr]
  · intro is n x rest n1 hr
    simp only [element.load_ascii, hr]
  · intro x rest n1 _
    exact reads_lines_pure _ rest n1

theorem reads_lines_load_ascii_elements (fc : scalar_type → List Char → Option Nat)
    (es : List element) :
    ∀ (is : List Char) (n : Nat), reads_lines (ply.load_ascii_elements fc es) is n := by
  induction es with
  | nil =>
    intro is n
    exact reads_lines_pure [] is n
  | cons e es ih =>
    intro is n
    refine reads_lines_bind (e.load_ascii fc)
      (fun e1 rest n1 =>
        match ply.load_ascii_elements fc es rest n1 with
        | (.ok (es1, rest2), n2) => (.ok (e1 :: es1, rest2), n2)
        | (.error err, n2) => (.error err, n2))
      _ ?_ ?_ is n (reads_lines_element_load_ascii fc e is n) ?_
    · intro is n err n1 hr
      simp only [ply.load_ascii_elements, hr]
    · intro is n x rest n1 hr
      simp only [ply.load_ascii_elements, hr]
    · intro e1 rest n1 _
      refine reads_lines_bind (ply.load_ascii_elements fc es)
        (fun es1 rest2 n2 => (.ok (e1 :: es1, rest2), n2))
        _ ?_ ?_ rest n1 (ih rest n1) ?_
      · intro is n err n2 hr
        simp only [hr]
      · intro is n x rest2 n2 hr
        simp only [hr]
      · intro x rest2 n2 _
        exact reads_lines_pure _ rest2 n2

theorem reads_lines_load_lines (fc : scalar_type → List Char → Option Nat)
    (is : List Char) (n : Nat) : reads_lines (ply.load_lines fc) is n := by
  refine reads_lines_bind read_line
    (fun line rest n1 =>
      if trim line ≠ "ply".toList then
        (.error (.runtime_error "invalid first line"), n1)
      else
        match ply.process_header ⟨[], [], .ascii⟩ rest n1 with
        | (.error e, n2) => (.error e, n2)
        | (.ok (p, rest1), n2) =>
          if p.file_type_ = .ascii then
            match ply.load_ascii_elements fc p.elements_ rest1 n2 with
            | (.ok (es, rest2), n3) => (.ok ({ p with elements_ := es }, rest2), n3)
            | (.error e, n3) => (.error e, n3)
          else (.ok (p, rest1), n2))
    _ ?_ ?_ is n (reads_lines_read_line is n) ?_
  · intro is n e n1 hr
    simp only [ply.load_lines, hr]
  · intro is n line rest n1 hr
    simp only [ply.load_lines, hr]
  · intro line rest n1 _
    beta_reduce
    split_ifs with c
    · exact reads_lines_throw _ rest n1
    · refine reads_lines_bind (ply.process_header ⟨[], [], .ascii⟩)
        (fun p rest1 n2 =>
          if p.file_type_ = .ascii then
            match ply.load_ascii_elements fc p.elements_ rest1 n2 with
            | (.ok (es, rest2), n3) => (.ok ({ p with elements_ := es }, rest2), n3)
            | (.error e, n3) => (.error e, n3)
          else (.ok (p, rest1), n2))
        _ ?_ ?_ rest n1 (reads_lines_process_header _ rest n1) ?_
      · intro is n e n2 hr
        simp only [hr]
      · intro is n p rest1 n2 hr
        simp only [hr]
      · intro p rest1 n2 _
        beta_reduce
        split_ifs with c2
        · refine reads_lines_bind (ply.load_ascii_elements fc p.elements_)
            (fun es rest2 n3 => (.ok ({ p with elements_ := es }, rest2), n3))
            _ ?_ ?_ rest1 n2 (reads_lines_load_ascii_elements fc _ rest1 n2) ?_
          · intro is n e n3 hr
            simp only [hr]
          · intro is n es rest2 n3 hr
            simp only [hr]
          · intro es rest2 n3 _
            exact reads_lines_pure _ rest2 n3
        · exact reads_lines_pure p rest1 n2

theorem load_of_lines_error (fc : scalar_type → List Char → Option Nat) (is : List Char)
    (e : failure) (N : Nat) (h : ply.load_lines fc is 0 = (.error e, N)) :
    ply.load fc is = .error (ply.rethrow_with_line e N) ∧ 1 ≤ N := by
  unfold ply.load_lines at h
  unfold ply.load
  rcases hr : read_line is 0 with ⟨r, n1⟩
  have hn1 : n1 = 1 := by
    unfold read_line at hr
    split at hr <;> simp only [Prod.mk.injEq] at hr <;> omega
  subst hn1
  rcases r with e1 | ⟨line, rest⟩
  · simp only [hr, Prod.mk.injEq, Except.error.injEq] at h ⊢
    obtain ⟨rfl, rfl⟩ := h
    exact ⟨rfl, le_refl _⟩
  · simp only [hr] at h ⊢
    by_cases c : trim line ≠ "ply".toList
    · rw [if_pos c] at h ⊢
      simp only [Prod.mk.injEq, Except.error.injEq] at h
      obtain ⟨rfl, rfl⟩ := h
      exact ⟨rfl, le_refl _⟩
    · rw [if_neg c] at h ⊢
      rcases hp : ply.process_header ⟨[], [], .ascii⟩ rest 1 with ⟨r2, n2⟩
      have hn2 : 1 ≤ n2 := by
        have := reads_lines_process_header ⟨[], [], .ascii⟩ rest 1
        rcases r2 with e2 | ⟨p, rest1⟩
        · obtain ⟨k, hk, _⟩ := this.2 _ _ hp
          omega
        · obtain ⟨k, hk, _⟩ := this.1 _ _ _ hp
          omega
      rcases r2 with e2 | ⟨p, rest1⟩
      · simp only [hp, Prod.mk.injEq, Except.error.injEq] at h ⊢
        obtain ⟨rfl, rfl⟩ := h
        exact ⟨rfl, hn2⟩
      · simp only [hp] at h ⊢
        by_cases c2 : p.file_type_ = .ascii
        · rw [if_pos c2] at h
          rcases ha : ply.load_ascii_elements fc p.elements_ rest1 n2 with ⟨r3, n3⟩
          have hn3 : n2 ≤ n3 := by
            have := reads_lines_load_ascii_elements fc p.elements_ rest1 n2
            rcases r3 with e3 | ⟨es, rest2⟩
            · obtain ⟨k, hk, _⟩ := this.2 _ _ ha
              omega
            · obtain ⟨k, hk, _⟩ := this.1 _ _ _ ha
              omega
          rcases r3 with e3 | ⟨es, rest2⟩
          · simp only [ha, Prod.mk.injEq, Except.error.injEq] at h
            obtain ⟨rfl, rfl⟩ := h
            simp only [ply.process_data, c2, ha]
            exact ⟨trivial, by omega⟩
          · simp [ha] at h
        · rw [if_neg c2] at h
          simp at h

theorem load_of_lines_ok (fc : scalar_type → List Char → Option Nat) (is : List Char)
    (p : ply) (rest : List Char) (n : Nat) (h : ply.load_lines fc is 0 = (.ok (p, rest), n)) :
    (p.file_type_ = .ascii → ply.load fc is = .ok (p, rest)) ∧
    (p.file_type_ ≠ .ascii → ∀ e, ply.load_binary_body p.file_type_ p.elements_ rest = .error e →
      ply.load fc is = .error (ply.rethrow_while_binary_read e)) ∧
    (p.file_type_ ≠ .ascii → ∀ es rest2,
      ply.load_binary_body p.file_type_ p.elements_ rest = .ok (es, rest2) →
      ply.load fc is = .ok ({ p with elements_ := es }, rest2)) := by
  unfold ply.load_lines at h
  unfold ply.load
  rcases hr : read_line is 0 with ⟨r, n1⟩
  rcases r with e1 | ⟨line, rest0⟩
  · simp [hr] at h
  · simp only [hr] at h ⊢
    by_cases c : trim line ≠ "ply".toList
    · rw [if_pos c] at h
      simp at h
    · rw [if_neg c] at h ⊢
      rcases hp : ply.process_header ⟨[], [], .ascii⟩ rest0 n1 with ⟨r2, n2⟩
      rcases r2 with e2 | ⟨p0, rest1⟩
      · simp [hp] at h
      · simp only [hp] at h ⊢
        by_cases c2 : p0.file_type_ = .ascii
        · rw [if_pos c2] at h
          rcases ha : ply.load_ascii_elements fc p0.elements_ rest1 n2 with ⟨r3, n3⟩
          rcases r3 with e3 | ⟨es, rest2⟩
          · simp [ha] at h
          · simp only [ha, Prod.mk.injEq, Except.ok.injEq] at h
            obtain ⟨⟨rfl, rfl⟩, rfl⟩ := h
            refine ⟨?_, ?_, ?_⟩
            · intro _
              simp only [ply.process_data, c2, ha]
            · intro hc; exact absurd c2 hc
            · intro hc; exact absurd c2 hc
        · rw [if_neg c2] at h
          simp only [Prod.mk.injEq, Except.ok.injEq] at h
          obtain ⟨⟨rfl, rfl⟩, rfl⟩ := h
          refine ⟨fun hc => absurd hc c2, ?_, ?_⟩
          · intro _ e he
            unfold ply.load_binary_body at he
            unfold ply.process_data
            cases ht : p0.file_type_ with
            | ascii => exact absurd ht c2
            | binary_big_endian =>
              simp only [ht] at he ⊢
              simp only [he]
            | binary_little_endian =>
              simp only [ht] at he ⊢
              simp only [he]
          · intro _ es rest2 he
            unfold ply.load_binary_body at he
            unfold ply.process_data
            cases ht : p0.file_type_ with
            | ascii => exact absurd ht c2
            | binary_big_endian =>
              simp only [ht] at he ⊢
              simp only [he]
            | binary_little_endian =>
              simp only [ht] at he ⊢
              simp only [he]

theorem mem_takeWhile_true {α} (p : α → Bool) (l : List α) :
    ∀ c ∈ l.takeWhile p, p c = true := by
  induction l with
  | nil => simp
  | cons x l ih =>
    intro c hc
    by_cases hx : p x = true
    · rw [List.takeWhile_cons_of_pos hx] at hc
      rcases List.mem_cons.mp hc with rfl | h
      · exact hx
      · exact ih c h
    · rw [List.takeWhile_cons_of_neg hx] at hc
      simp at hc

theorem getLast?_reverse_dropWhile {α} (p : α → Bool) (l : List α) :
    ∀ c, ((l.reverse.dropWhile p).reverse).getLast? = some c → p c = false := by
  intro c hc
  rw [List.getLast?_reverse] at hc
  exact head_dropWhile p _ c hc

theorem trim_left_split (s : List Char) :
    ∃ l, s = l ++ trim_left s ∧ (∀ c ∈ l, isspace c = true) ∧
      ∀ c, (trim_left s).head? = some c → isspace c = false :=
  ⟨s.takeWhile isspace, (List.takeWhile_append_dropWhile isspace s).symm,
    mem_takeWhile_true isspace s, head_dropWhile isspace s⟩

theorem trim_right_split (s : List Char) :
    ∃ r, s = trim_right s ++ r ∧ (∀ c ∈ r, isspace c = true) ∧
      ∀ c, (trim_right s).getLast? = some c → isspace c = false := by
  refine ⟨(s.reverse.takeWhile isspace).reverse, ?_, ?_, getLast?_reverse_dropWhile isspace s⟩
  · unfold trim_right
    rw [← List.reverse_append, List.takeWhile_append_dropWhile, List.reverse_reverse]
  · intro c hc
    exact mem_takeWhile_true isspace _ c (List.mem_reverse.mp hc)

theorem getLast?_append_of_ne_nil {α} (a b : List α) (hb : b ≠ []) :
    (a ++ b).getLast? = b.getLast? := by
  rw [List.getLast?_eq_getLast _ hb,
    List.getLast?_eq_getLast _ (List.append_ne_nil_of_right_ne_nil a hb),
    List.getLast_append_of_ne_nil]

/-- C29. The functions `trim_left`, `trim_right` and `trim`, for every text: whitespace is
exactly space, form feed, line feed, carriage return, tab and vertical tab; `trim_left`
takes away a prefix of whitespace and leaves a text that is empty or begins with another
character; `trim_right` takes away a suffix of whitespace and leaves a text that is empty
or ends with another character; `trim` takes away both, so that the text is
`l ++ trim s ++ r` with `l` and `r` whitespace and `trim s` empty or beginning and ending
with a character that is no whitespace. -/
theorem C29_trim :
    (∀ c : Char, isspace c = true ↔ c ∈ [' ', '\x0c', '\n', '\r', '\t', '\x0b']) ∧
    (∀ s : List Char, ∃ l, s = l ++ trim_left s ∧ (∀ c ∈ l, isspace c = true) ∧
      ∀ c, (trim_left s).head? = some c → isspace c = false) ∧
    (∀ s : List Char, ∃ r, s = trim_right s ++ r ∧ (∀ c ∈ r, isspace c = true) ∧
      ∀ c, (trim_right s).getLast? = some c → isspace c = false) ∧
    (∀ s : List Char, ∃ l r, s = l ++ trim s ++ r ∧ (∀ c ∈ l, isspace c = true) ∧
      (∀ c ∈ r, isspace c = true) ∧
      (∀ c, (trim s).head? = some c → isspace c = false) ∧
      (∀ c, (trim s).getLast? = some c → isspace c = false)) := by
  refine ⟨?_, trim_left_split, trim_right_split, ?_⟩
  · intro c
    simp [isspace, or_assoc]
  · intro s
    obtain ⟨r, hr, hr1, hr2⟩ := trim_right_split s
    obtain ⟨l, hl, hl1, hl2⟩ := trim_left_split (trim_right s)
    refine ⟨l, r, ?_, hl1, hr1, hl2, ?_⟩
    · unfold trim
      rw [← hl]
      exact hr
    · intro c hc
      have hne : trim s ≠ [] := by
        intro h
        rw [h] at hc
        simp at hc
      apply hr2 c
      rw [hl]
      exact (getLast?_append_of_ne_nil l _ hne).trans hc

theorem split_front_step_split (s : List Char) :
    ∃ ws, s = (split_front_step s).1 ++ ws ++ (split_front_step s).2 ∧
      (∀ c ∈ (split_front_step s).1, isspace c = false) ∧
      (∀ c ∈ ws, isspace c = true) ∧
      (∀ c, (split_front_step s).2.head? = some c → isspace c = false) ∧
      (ws = [] → (split_front_step s).2 = []) := by
  refine ⟨(s.dropWhile (fun c => !isspace c)).takeWhile isspace, ?_, ?_, ?_, ?_, ?_⟩
  · unfold split_front_step trim_left
    simp only
    rw [List.append_assoc, List.takeWhile_append_dropWhile, List.takeWhile_append_dropWhile]
  · intro c hc
    have := mem_takeWhile_true (fun c => !isspace c) s c hc
    simpa using this
  · exact mem_takeWhile_true isspace _
  · exact head_dropWhile isspace _
  · intro h
    unfold split_front_step trim_left
    simp only
    rcases hd : s.dropWhile (fun c => !isspace c) with _ | ⟨x, rest⟩
    · rfl
    · have hx := head_dropWhile (fun c => !isspace c) s x (by rw [hd]; rfl)
      simp only [Bool.not_eq_false'] at hx
      rw [hd, List.takeWhile_cons_of_pos hx] at h
      exact absurd h (by simp)

theorem split_front_length (n : Nat) : ∀ s : List Char, (split_front n s).length = n := by
  induction n using Nat.strong_induction_on with
  | _ n ih =>
    intro s
    match n with
    | 0 => rfl
    | 1 => rfl
    | n + 2 =>
      rw [split_front, List.length_cons, ih (n + 1) (by omega)]

/-- C30. The function `split_front<N>`, for every text `s`: `split_front<1>(s)` is `[s]`;
`split_front<2>(s)` is `[a, b]` with `s = a ++ ws ++ b`, where `a` has no whitespace, `ws`
is whitespace and is empty only when nothing follows `a`, so that `a` is the longest prefix
without whitespace, and `b` is empty or begins with a character that is no whitespace, so
that `b` is the rest without its leading whitespace; `split_front<N + 2>(s)` is the first
slice `a` followed by `split_front<N + 1>(b)`; and `split_front<N>` gives `N` slices. -/
theorem C30_split_front :
    (∀ s : List Char, split_front 1 s = [s]) ∧
    (∀ s : List Char, ∃ a ws b, s = a ++ ws ++ b ∧ (∀ c ∈ a, isspace c = false) ∧
      (∀ c ∈ ws, isspace c = true) ∧ (∀ c, b.head? = some c → isspace c = false) ∧
      (ws = [] → b = []) ∧ split_front 2 s = [a, b]) ∧
    (∀ (n : Nat) (s : List Char), ∃ a b, split_front 2 s = [a, b] ∧
      split_front (n + 2) s = a :: split_front (n + 1) b) ∧
    (∀ (n : Nat) (s : List Char), (split_front n s).length = n) := by
  refine ⟨fun s => rfl, ?_, ?_, fun n s => split_front_length n s⟩
  · intro s
    obtain ⟨ws, h1, h2, h3, h4, h5⟩ := split_front_step_split s
    exact ⟨_, ws, _, h1, h2, h3, h4, h5, rfl⟩
  · intro n s
    exact ⟨_, _, rfl, rfl⟩

/-! ## Splitting from the back is splitting the reversed text from the front -/

theorem split_back_step_mirror (s : List Char) :
    split_back_step s =
      ((split_front_step s.reverse).1.reverse, (split_front_step s.reverse).2.reverse) := by
  unfold split_back_step split_front_step trim_right trim_left
  simp only [List.reverse_reverse]

/-- C31. The function `split_back<N>` mirrors `split_front<N>`: for every `N` and every
text `s`, `split_back<N>(s)` is `split_front<N>` of the reversed text with every slice
reversed and the slices in the opposite order. -/
theorem C31_split_back_mirror (n : Nat) (s : List Char) :
    split_back n s = ((split_front n s.reverse).map List.reverse).reverse := by
  induction n using Nat.strong_induction_on generalizing s with
  | _ n ih =>
    match n with
    | 0 => rfl
    | 1 => simp [split_back, split_front]
    | n + 2 =>
      rw [split_back, split_front, ih (n + 1) (by omega), split_back_step_mirror]
      simp only [List.reverse_reverse, List.map_cons, List.reverse_cons]

/-! ## The integers that `parse_value` accepts -/

/-- The digits that `std::from_chars` reads at the front of a text: of a run of digits that
a character other than a digit or the end follows, all. -/
theorem digit_run_digits (ds rest : List Char) (hds : ∀ c ∈ ds, '0' ≤ c ∧ c ≤ '9')
    (hrest : ∀ c, rest.head? = some c → ¬ ('0' ≤ c ∧ c ≤ '9')) :
    digit_run (ds ++ rest) = ds.map (fun c => c.toNat - '0'.toNat) := by
  induction ds with
  | nil =>
    cases rest with
    | nil => rfl
    | cons c rest =>
      have := hrest c rfl
      simp only [List.nil_append, digit_run, digit_value, if_neg this, List.map_nil]
  | cons d ds ih =>
    have hd := hds d (List.mem_cons_self _ _)
    simp only [List.cons_append, digit_run, digit_value, if_pos hd, List.map_cons]
    exact congrArg _ (ih (fun c hc => hds c (List.mem_cons_of_mem _ hc)))

/-- Every text is a run of digits and a rest that does not begin with a digit. -/
theorem digit_run_split (text : List Char) :
    ∃ ds rest, text = ds ++ rest ∧ (∀ c ∈ ds, '0' ≤ c ∧ c ≤ '9') ∧
      (∀ c, rest.head? = some c → ¬ ('0' ≤ c ∧ c ≤ '9')) := by
  induction text with
  | nil => exact ⟨[], [], rfl, by simp, by simp⟩
  | cons c text ih =>
    by_cases hc : '0' ≤ c ∧ c ≤ '9'
    · obtain ⟨ds, rest, e, h1, h2⟩ := ih
      refine ⟨c :: ds, rest, by rw [e]; rfl, ?_, h2⟩
      intro x hx
      rcases List.mem_cons.mp hx with rfl | hx
      · exact hc
      · exact h1 x hx
    · refine ⟨[], c :: text, rfl, by simp, ?_⟩
      intro x hx
      simp only [List.head?_cons, Option.some.injEq] at hx
      rw [← hx]
      exact hc

/-- The function `std::from_chars` accepts exactly the texts of an optional minus sign, for
a signed type, and a run of digits, with a rest that does not begin with a digit, when the
number of the run is within the bounds. -/
theorem from_chars_iff (signed : Bool) (lo hi : Int) (text : List Char) (v : Int) :
    from_chars signed lo hi text = some v ↔
      ∃ (negative : Bool) (ds rest : List Char),
        text = (if negative then ['-'] else []) ++ ds ++ rest ∧
        (negative = true → signed = true) ∧ ds ≠ [] ∧
        (∀ c ∈ ds, '0' ≤ c ∧ c ≤ '9') ∧
        (∀ c, rest.head? = some c → ¬ ('0' ≤ c ∧ c ≤ '9')) ∧
        v = (if negative then -(digits_value (ds.map (fun c => c.toNat - '0'.toNat)) : Int)
          else (digits_value (ds.map (fun c => c.toNat - '0'.toNat)) : Int)) ∧
        lo ≤ v ∧ v ≤ hi := by
  constructor
  · intro h
    unfold from_chars at h
    simp only at h
    by_cases hn : (signed && text.head? = some '-') = true
    · simp only [hn, if_true] at h
      simp only [Bool.and_eq_true, decide_eq_true_eq] at hn
      obtain ⟨ds, rest, e, h1, h2⟩ := digit_run_split (text.drop 1)
      have et : text = '-' :: (ds ++ rest) := by
        rcases text with _ | ⟨c, text⟩
        · simp at hn
        · simp only [List.head?_cons, Option.some.injEq] at hn
          simp only [List.drop_succ_cons, List.drop_zero] at e
          rw [hn.2, e]
      rw [e, digit_run_digits ds rest h1 h2] at h
      split at h
      · exact absurd h (by simp)
      · rename_i hne
        split at h
        · rename_i hb
          simp only [Option.some.injEq] at h
          refine ⟨true, ds, rest, by simp [et], fun _ => hn.1, ?_, h1, h2, by simp [← h],
            by rw [← h]; exact hb.1, by rw [← h]; exact hb.2⟩
          intro hd
          apply hne
          rw [hd]
          rfl
        · exact absurd h (by simp)
    · simp only [hn, Bool.false_eq_true, if_false] at h
      obtain ⟨ds, rest, e, h1, h2⟩ := digit_run_split text
      rw [e, digit_run_digits ds rest h1 h2] at h
      split at h
      · exact absurd h (by simp)
      · rename_i hne
        split at h
        · rename_i hb
          simp only [Option.some.injEq] at h
          refine ⟨false, ds, rest, by simp [e], by simp, ?_, h1, h2, by simp [← h],
            by rw [← h]; exact hb.1, by rw [← h]; exact hb.2⟩
          intro hd
          apply hne
          rw [hd]
          rfl
        · exact absurd h (by simp)
  · rintro ⟨negative, ds, rest, e, hs, hne, h1, h2, hv, hlo, hhi⟩
    have hmap : ds.map (fun c => c.toNat - '0'.toNat) ≠ [] := by
      intro h
      exact hne (List.map_eq_nil_iff.mp h)
    cases negative with
    | true =>
      have hsg := hs rfl
      simp only [if_true, List.singleton_append, List.cons_append, List.nil_append] at e hv
      unfold from_chars
      simp only [e, hsg, List.head?_cons, Bool.true_and, decide_True, if_true,
        List.drop_succ_cons, List.drop_zero, digit_run_digits ds rest h1 h2, if_neg hmap]
      rw [← hv, if_pos ⟨hlo, hhi⟩]
    | false =>
      simp only [Bool.false_eq_true, if_false, List.nil_append] at e hv
      have hhead : text.head? ≠ some '-' := by
        rcases ds with _ | ⟨d, ds⟩
        · exact absurd rfl hne
        · rw [e]
          simp only [List.cons_append, List.head?_cons, ne_eq, Option.some.injEq]
          intro hd
          have := h1 d (List.mem_cons_self _ _)
          rw [hd] at this
          exact absurd this (by decide)
      unfold from_chars
      simp only [hhead, decide_False, Bool.and_false, Bool.false_eq_true, if_false]
      rw [e, digit_run_digits ds rest h1 h2, if_neg hmap, ← hv, if_pos ⟨hlo, hhi⟩]

/-- C37. The function `parse_value` for an integer type `T` and for `std::size_t`: a token
is accepted exactly when it is an optional `-`, for a signed type only, a run of one or
more decimal digits, and a rest that does not begin with a digit, and the number of the
run, negated behind `-`, is within the bounds of the type; this number is returned,
whatever the rest is; every other token gives the exception `Can not convert`. So `12abc`
is 12 and `1.5` is 1, and the empty token, `+1`, ` 1` and, for an unsigned type, `-1` are
rejected. -/
theorem C37_parse_integer :
    (∀ (from_chars_float : scalar_type → List Char → Option Nat) (T : scalar_type)
      (text : List Char) (v : Int), is_floating_point T = false →
      (parse_value from_chars_float T text = .ok (.int v) ↔
        ∃ (negative : Bool) (ds rest : List Char),
          text = (if negative then ['-'] else []) ++ ds ++ rest ∧
          (negative = true → is_signed T = true) ∧ ds ≠ [] ∧
          (∀ c ∈ ds, '0' ≤ c ∧ c ≤ '9') ∧
          (∀ c, rest.head? = some c → ¬ ('0' ≤ c ∧ c ≤ '9')) ∧
          v = (if negative then -(digits_value (ds.map (fun c => c.toNat - '0'.toNat)) : Int)
            else (digits_value (ds.map (fun c => c.toNat - '0'.toNat)) : Int)) ∧
          min_value T ≤ v ∧ v ≤ max_value T)) ∧
    (∀ (from_chars_float : scalar_type → List Char → Option Nat) (T : scalar_type)
      (text : List Char), is_floating_point T = false →
      (∃ v, parse_value from_chars_float T text = .ok (.int v)) ∨
        parse_value from_chars_float T text = .error (can_not_convert text (as_string T))) ∧
    (∀ (text : List Char) (n : Nat),
      (parse_size_t text = .ok n ↔
        ∃ (ds rest : List Char), text = ds ++ rest ∧ ds ≠ [] ∧
          (∀ c ∈ ds, '0' ≤ c ∧ c ≤ '9') ∧
          (∀ c, rest.head? = some c → ¬ ('0' ≤ c ∧ c ≤ '9')) ∧
          n = digits_value (ds.map (fun c => c.toNat - '0'.toNat)) ∧ n < 2 ^ 64)) ∧
    (∀ from_chars_float : scalar_type → List Char → Option Nat,
      parse_value from_chars_float .int32 "12abc".toList = .ok (.int 12) ∧
      parse_value from_chars_float .int32 "1.5".toList = .ok (.int 1) ∧
      parse_value from_chars_float .int32 "-7".toList = .ok (.int (-7)) ∧
      parse_value from_chars_float .int32 "".toList =
        .error (can_not_convert "".toList (as_string .int32)) ∧
      parse_value from_chars_float .int32 "+1".toList =
        .error (can_not_convert "+1".toList (as_string .int32)) ∧
      parse_value from_chars_float .int32 " 1".toList =
        .error (can_not_convert " 1".toList (as_string .int32)) ∧
      parse_value from_chars_float .uint8 "-1".toList =
        .error (can_not_convert "-1".toList (as_string .uint8)) ∧
      parse_value from_chars_float .uint8 "256".toList =
        .error (can_not_convert "256".toList (as_string .uint8))) := by
  refine ⟨?_, ?_, ?_, ?_⟩
  · intro fc T text v hT
    rw [← from_chars_iff]
    unfold parse_value
    rw [hT]
    simp only [Bool.false_eq_true, if_false]
    rcases from_chars (is_signed T) (min_value T) (max_value T) text with _ | z
    · simp
    · simp
  · intro fc T text hT
    unfold parse_value
    rw [hT]
    simp only [Bool.false_eq_true, if_false]
    rcases from_chars (is_signed T) (min_value T) (max_value T) text with _ | z
    · right
      rfl
    · left
      exact ⟨z, rfl⟩
  · intro text n
    unfold parse_size_t
    constructor
    · intro h
      split at h
      · rename_i z hz
        simp only [Except.ok.injEq] at h
        obtain ⟨negative, ds, rest, e, hs, hne, h1, h2, hv, hlo, hhi⟩ :=
          (from_chars_iff false 0 (2 ^ 64 - 1) text z).mp hz
        cases negative with
        | true => exact absurd (hs rfl) (by simp)
        | false =>
          simp only [Bool.false_eq_true, if_false, List.nil_append] at e hv
          refine ⟨ds, rest, e, hne, h1, h2, ?_, ?_⟩
          · rw [← h, hv]
            simp
          · rw [← h]
            omega
      · exact absurd h (by simp)
    · rintro ⟨ds, rest, e, hne, h1, h2, hn, hlt⟩
      have : from_chars false 0 (2 ^ 64 - 1) text = some (n : Int) :=
        (from_chars_iff false 0 (2 ^ 64 - 1) text n).mpr
          ⟨false, ds, rest, by simp [e], by simp, hne, h1, h2, by simp [hn], by omega,
            by omega⟩
      rw [this]
      simp
  · intro fc
    refine ⟨rfl, rfl, rfl, rfl, rfl, rfl, rfl, rfl⟩

end ply

/-! # Properties of main.cpp -/

namespace ply2image

/-! ## Grids -/

theorem modify_at_length {α : Type} (f : α → α) (n : Nat) (l : List α) :
    (modify_at f n l).length = l.length := by
  induction l generalizing n with
  | nil => simp [modify_at]
  | cons a as ih => cases n <;> simp [modify_at, ih]

theorem modify_at_getElem? {α : Type} (f : α → α) (n : Nat) (l : List α) (m : Nat) :
    (modify_at f n l)[m]? = if m = n then l[m]?.map f else l[m]? := by
  induction l generalizing n m with
  | nil => simp [modify_at]
  | cons a as ih =>
    cases n with
    | zero =>
      cases m with
      | zero => simp [modify_at]
      | succ m => simp [modify_at]
    | succ n =>
      cases m with
      | zero => simp [modify_at]
      | succ m => simp [modify_at, ih]

theorem cells_length {α : Type} (w h : Nat) (g : Nat → Nat → α) : (cells w h g).length = w * h := by
  simp [cells]

theorem cells_getElem? {α : Type} (w h : Nat) (g : Nat → Nat → α) (k : Nat) :
    (cells w h g)[k]? = if k < w * h then some (g (k % w) (k / w)) else none := by
  unfold cells
  rw [List.getElem?_map]
  by_cases hk : k < w * h
  · rw [if_pos hk, List.getElem?_range hk]
    rfl
  · rw [if_neg hk, List.getElem?_eq_none (by simpa using hk)]
    rfl

/-- Two grids with the same values on the places of the grid are equal. -/
theorem cells_congr {α : Type} (w h : Nat) (g1 g2 : Nat → Nat → α)
    (hg : ∀ a b, a < w → b < h → g1 a b = g2 a b) : cells w h g1 = cells w h g2 := by
  unfold cells
  apply List.map_congr_left
  intro k hk
  have hk2 : k < w * h := List.mem_range.mp hk
  have hw : 0 < w := by
    rcases Nat.eq_zero_or_pos w with h0 | h0
    · subst h0; simp at hk2
    · exact h0
  apply hg
  · exact Nat.mod_lt _ hw
  · exact Nat.div_lt_of_lt_mul hk2

theorem index_eq_iff (w x y k : Nat) (hx : x < w) :
    k = y * w + x ↔ (k % w = x ∧ k / w = y) := by
  constructor
  · rintro rfl
    constructor
    · rw [Nat.mul_comm, Nat.mul_add_mod, Nat.mod_eq_of_lt hx]
    · rw [Nat.mul_comm, Nat.mul_add_div (by omega), Nat.div_eq_of_lt hx]
      omega
  · rintro ⟨h1, h2⟩
    have := Nat.div_add_mod k w
    rw [h1, h2, Nat.mul_comm] at this
    omega

/-- The indexed read of a grid. -/
theorem get?_cells {α : Type} (w h : Nat) (g : Nat → Nat → α) (x y : Nat) :
    (bitmap.mk w h (cells w h g)).get? x y = if x < w ∧ y < h then some (g x y) else none := by
  unfold bitmap.get?
  by_cases c : x < w ∧ y < h
  · simp only [if_pos c, cells_getElem?]
    have hk : y * w + x < w * h := by
      have : (y + 1) * w ≤ h * w := Nat.mul_le_mul_right w (by omega)
      rw [Nat.mul_comm w h]
      rw [Nat.add_mul] at this
      omega
    rw [if_pos hk]
    obtain ⟨h1, h2⟩ := (index_eq_iff w x y _ c.1).mp rfl
    rw [h1, h2]
  · simp only [if_neg c]

/-- The indexed write on a grid. -/
theorem modify_cells {α : Type} (w h : Nat) (g : Nat → Nat → α) (x y : Nat) (f : α → α)
    (hx : x < w) :
    (bitmap.mk w h (cells w h g)).modify x y f =
      ⟨w, h, cells w h (fun a b => if a = x ∧ b = y then f (g a b) else g a b)⟩ := by
  unfold bitmap.modify
  simp only [bitmap.mk.injEq, true_and]
  apply List.ext_getElem?
  intro k
  rw [modify_at_getElem?, cells_getElem?, cells_getElem?]
  by_cases hk : k < w * h
  · simp only [if_pos hk, Option.map_some']
    by_cases hi : k = y * w + x
    · rw [if_pos hi, if_pos ((index_eq_iff w x y k hx).mp hi)]
    · rw [if_neg hi, if_neg (fun c => hi ((index_eq_iff w x y k hx).mpr c))]
  · simp only [if_neg hk, Option.map_none', ite_self]

/-- The grid of an image that has as many values as places. -/
theorem well_formed_cells {α : Type} [Inhabited α] (image : bitmap α) (h : image.well_formed) :
    image = ⟨image.w, image.h, cells image.w image.h (fun a b => image.data.getD (b * image.w + a) default)⟩ := by
  obtain ⟨w, ht, data⟩ := image
  unfold bitmap.well_formed at h
  simp only at h
  simp only [bitmap.mk.injEq, true_and]
  apply List.ext_getElem?
  intro k
  rw [cells_getElem?]
  by_cases hk : k < w * ht
  · rw [if_pos hk, List.getElem?_eq_getElem (by omega)]
    have hw : 0 < w := by
      rcases Nat.eq_zero_or_pos w with h0 | h0
      · subst h0; simp at hk
      · exact h0
    have e : k / w * w + k % w = k := by
      rw [Nat.mul_comm]; exact Nat.div_add_mod k w
    rw [e, List.getD_eq_getElem?_getD, List.getElem?_eq_getElem (by omega)]
    rfl
  · rw [if_neg hk, List.getElem?_eq_none (by omega)]

/-! ## The dense vector image as a grid -/

theorem create_cells {α : Type} (w h : Nat) (value : α) :
    bitmap.create w h value = ⟨w, h, cells w h (fun _ _ => value)⟩ := by
  unfold bitmap.create cells
  simp only [bitmap.mk.injEq, true_and]
  apply List.ext_getElem?
  intro k
  by_cases hk : k < w * h
  · simp [List.getElem?_replicate, hk, List.getElem?_range hk]
  · rw [List.getElem?_eq_none (by simpa using hk), List.getElem?_eq_none (by simpa using hk)]

/-- A guarded `push_back` on a grid. -/
theorem push_back_cells {α : Type} (w h : Nat) (g : Nat → Nat → List α) (x y : Nat) (c : α) :
    (if x < w ∧ y < h then push_back ⟨w, h, cells w h g⟩ x y c else ⟨w, h, cells w h g⟩) =
      ⟨w, h, cells w h (fun a b => g a b ++ (if x = a ∧ y = b then [c] else []))⟩ := by
  by_cases cnd : x < w ∧ y < h
  · rw [if_pos cnd, push_back, modify_cells w h g x y _ cnd.1]
    simp only [bitmap.mk.injEq, true_and]
    apply cells_congr
    intro a b _ _
    by_cases e : a = x ∧ b = y
    · rw [if_pos e, if_pos ⟨e.1.symm, e.2.symm⟩]
    · rw [if_neg e, if_neg (fun c => e ⟨c.1.symm, c.2.symm⟩), List.append_nil]
  · rw [if_neg cnd]
    simp only [bitmap.mk.injEq, true_and]
    apply cells_congr
    intro a b ha hb
    rw [if_neg (fun c => cnd ⟨by omega, by omega⟩), List.append_nil]

theorem to_vector_image_point_cells (w h : Nat) (g : Nat → Nat → List raw_pixel) (p : point) :
    to_vector_image_point ⟨w, h, cells w h g⟩ p =
      if convertible p then .ok ⟨w, h, cells w h (fun a b => g a b ++ contributions p a b)⟩
      else .error (.undefined_behavior "static_cast<std::size_t> out of range") := by
  rcases hx : double.to_size_t (double.floor p.x) with _ | ix
  · simp [to_vector_image_point, convertible, hx]
  · rcases hy : double.to_size_t (double.floor p.y) with _ | iy
    · simp [to_vector_image_point, convertible, hx, hy]
    · simp only [to_vector_image_point, convertible, contributions, hx, hy, Option.isSome_some,
        and_self, if_true, push_back_cells, List.append_assoc]

theorem to_vector_image_loop_cells (points : List point) :
    ∀ (w h : Nat) (g : Nat → Nat → List raw_pixel),
      to_vector_image_loop points ⟨w, h, cells w h g⟩ =
        if ∀ p ∈ points, convertible p then
          .ok ⟨w, h, cells w h (fun a b => g a b ++ points.flatMap (fun p => contributions p a b))⟩
        else .error (.undefined_behavior "static_cast<std::size_t> out of range") := by
  induction points with
  | nil =>
    intro w h g
    simp [to_vector_image_loop]
  | cons p points ih =>
    intro w h g
    rw [to_vector_image_loop, to_vector_image_point_cells]
    by_cases c : convertible p
    · simp only [if_pos c, ih]
      by_cases c2 : ∀ q ∈ points, convertible q
      · rw [if_pos c2, if_pos (by simpa [c] using c2)]
        simp only [List.flatMap_cons, List.append_assoc]
      · rw [if_neg c2, if_neg (by simpa [c] using c2)]
    · simp only [if_neg c]
      rw [if_neg (by simp [c])]

/-- The dense vector image in closed form: pixel `(a, b)` holds the contributions of the
points to it, in the order of the points. -/
theorem to_vector_image_cells (w h : Nat) (points : List point) :
    to_vector_image w h points =
      if ∀ p ∈ points, convertible p then
        .ok ⟨w, h, cells w h (fun a b => points.flatMap (fun p => contributions p a b))⟩
      else .error (.undefined_behavior "static_cast<std::size_t> out of range") := by
  rw [to_vector_image, create_cells, to_vector_image_loop_cells]
  simp only [List.nil_append]

theorem transform_map_ok {α β γ : Type} (f : α → Except failure β) (g : γ → α) (r : γ → β)
    (l : List γ) (h : ∀ k ∈ l, f (g k) = .ok (r k)) :
    transform f (l.map g) = .ok (l.map r) := by
  induction l with
  | nil => rfl
  | cons k l ih =>
    simp only [List.map_cons, transform, h k (by simp), ih (fun j hj => h j (by simp [hj]))]

theorem transform_map_congr {α β γ : Type} (f : α → Except failure β) (g1 g2 : γ → α)
    (l : List γ) (h : ∀ k ∈ l, f (g1 k) = f (g2 k)) :
    transform f (l.map g1) = transform f (l.map g2) := by
  induction l with
  | nil => rfl
  | cons k l ih =>
    simp only [List.map_cons, transform, h k (by simp), ih (fun j hj => h j (by simp [hj]))]

/-! ## Arithmetic of `double` -/

theorem finite_add (a b : ℚ) : (.finite a : double) + .finite b = .finite (a + b) := rfl

theorem finite_sub (a b : ℚ) : (.finite a : double) - .finite b = .finite (a - b) := by
  show double.sub (.finite a) (.finite b) = _
  simp only [double.sub, double.neg, double.add, sub_eq_add_neg]

theorem finite_mul (a b : ℚ) : (.finite a : double) * .finite b = .finite (a * b) := rfl

theorem finite_div (a b : ℚ) (h : b ≠ 0) : (.finite a : double) / .finite b = .finite (a / b) := by
  show double.div _ _ = _
  simp only [double.div, if_neg h]

theorem double_zero : (0 : double) = .finite 0 := rfl

theorem double_one : (1 : double) = .finite 1 := rfl

theorem double_add_zero (a : double) : a + .finite 0 = a := by
  show double.add a (.finite 0) = a
  cases a <;> simp [double.add]

theorem double_add_comm (a b : double) : a + b = b + a := by
  show double.add a b = double.add b a
  cases a <;> cases b <;> simp only [double.add, add_comm]

theorem double_add_assoc (a b c : double) : a + b + c = a + (b + c) := by
  show double.add (double.add a b) c = double.add a (double.add b c)
  cases a <;> cases b <;> cases c <;> simp only [double.add, add_assoc]

theorem double_add_right_comm (a b c : double) : a + b + c = a + c + b := by
  rw [double_add_assoc, double_add_comm b c, ← double_add_assoc]

theorem transform_reduce_perm {α : Type} (f : α → double) (l1 l2 : List α) (h : l1.Perm l2) :
    transform_reduce f l1 = transform_reduce f l2 := by
  unfold transform_reduce
  exact (h.map f).foldl_eq' (fun x _ y _ z => double_add_right_comm z x y) 0

theorem foldl_add_start (l : List double) (a b : double) :
    l.foldl (fun x y => x + y) (a + b) = a + l.foldl (fun x y => x + y) b := by
  induction l generalizing b with
  | nil => rfl
  | cons c l ih =>
    simp only [List.foldl_cons]
    rw [double_add_assoc, ih]

theorem transform_reduce_cons {α : Type} (f : α → double) (a : α) (l : List α) :
    transform_reduce f (a :: l) = f a + transform_reduce f l := by
  unfold transform_reduce
  simp only [List.map_cons, List.foldl_cons]
  rw [double_add_comm 0 (f a), foldl_add_start]

theorem transform_reduce_nil {α : Type} (f : α → double) :
    transform_reduce f ([] : List α) = .finite 0 := rfl

theorem transform_reduce_append {α : Type} (f : α → double) (l1 l2 : List α) :
    transform_reduce f (l1 ++ l2) = transform_reduce f l1 + transform_reduce f l2 := by
  induction l1 with
  | nil =>
    rw [List.nil_append, transform_reduce_nil, double_add_comm, double_add_zero]
  | cons a l ih =>
    rw [List.cons_append, transform_reduce_cons, transform_reduce_cons, ih, double_add_assoc]

/-- The value of a pixel does not depend on the order of its contributions. -/
theorem pixel_value_perm {α : Type} (weight value : α → double) (l1 l2 : List α)
    (h : l1.Perm l2) : pixel_value weight value l1 = pixel_value weight value l2 := by
  have hlen := h.length_eq
  match l1, l2, h, hlen with
  | [], [], _, _ => rfl
  | [a], [b], h, _ =>
    have : a = b := by simpa using h
    rw [this]
  | a :: a2 :: as, b :: b2 :: bs, h, _ =>
    simp only [pixel_value]
    have e1 : (a :: a2 :: as).any (fun v => double.lt (weight v) 0) =
        (b :: b2 :: bs).any (fun v => double.lt (weight v) 0) := by
      rw [Bool.eq_iff_iff]
      simp only [List.any_eq_true]
      constructor
      · rintro ⟨x, hx, hx2⟩
        exact ⟨x, h.mem_iff.mp hx, hx2⟩
      · rintro ⟨x, hx, hx2⟩
        exact ⟨x, h.mem_iff.mpr hx, hx2⟩
    rw [e1, transform_reduce_perm weight _ _ h,
      transform_reduce_perm (fun v => value v * weight v) _ _ h]
  | [], _ :: _, _, hl => simp at hl
  | _ :: _, [], _, hl => simp at hl
  | [_], _ :: _ :: _, _, hl => simp at hl
  | _ :: _ :: _, [_], _, hl => simp at hl

/-! ## The value of a pixel -/

theorem transform_reduce_finite {α : Type} (f : α → double) (q : α → ℚ) (l : List α)
    (h : ∀ c ∈ l, f c = .finite (q c)) :
    transform_reduce f l = .finite (l.map q).sum := by
  induction l with
  | nil => rfl
  | cons a l ih =>
    rw [transform_reduce_cons, h a (by simp), ih (fun c hc => h c (by simp [hc])), finite_add,
      List.map_cons, List.sum_cons]

theorem double_eq_finite_zero (a : ℚ) : double.eq (.finite a) 0 = decide (a = 0) := by
  show double.eq (.finite a) (.finite 0) = _
  simp [double.eq]

theorem double_lt_finite_zero (a : ℚ) : double.lt (.finite a) 0 = decide (a < 0) := rfl

/-- The value of a pixel with two or more contributions whose weights are not negative. -/
theorem pixel_value_many {α : Type} (weight value : α → double) (data : List α)
    (hlen : 2 ≤ data.length) (hw : ∀ c ∈ data, double.lt (weight c) 0 = false) :
    pixel_value weight value data =
      .ok (if double.eq (transform_reduce weight data) 0 = true then NaN
        else transform_reduce (fun c => value c * weight c) data / transform_reduce weight data) := by
  match data, hlen, hw with
  | a :: b :: l, _, hw =>
    simp only [pixel_value]
    have : (a :: b :: l).any (fun v => double.lt (weight v) 0) = false := by
      rw [List.any_eq_false]
      intro x hx
      simp [hw x hx]
    rw [this]
    simp only [Bool.false_eq_true, if_false]
    split <;> rfl

/-- The value of a pixel with two or more contributions that have finite values and
finite weights that are not negative: the weighted mean, NaN when the weights sum to 0. -/
theorem pixel_value_finite (cs : List (ℚ × ℚ)) (hlen : 2 ≤ cs.length)
    (hw : ∀ c ∈ cs, 0 ≤ c.1) :
    pixel_value raw_pixel.weight raw_pixel.value
        (cs.map (fun c => (⟨.finite c.1, .finite c.2⟩ : raw_pixel))) =
      .ok (if (cs.map Prod.fst).sum = 0 then NaN
        else .finite ((cs.map (fun c => c.2 * c.1)).sum / (cs.map Prod.fst).sum)) := by
  rw [pixel_value_many _ _ _ (by simpa using hlen)]
  · have e1 : transform_reduce raw_pixel.weight
        (cs.map (fun c => (⟨.finite c.1, .finite c.2⟩ : raw_pixel))) =
        .finite (cs.map Prod.fst).sum := by
      rw [transform_reduce_finite raw_pixel.weight (fun c => match c.weight with
        | .finite a => a
        | _ => 0)]
      · simp only [List.map_map]
        rfl
      · intro c hc
        simp only [List.mem_map] at hc
        obtain ⟨d, _, rfl⟩ := hc
        rfl
    have e2 : transform_reduce (fun c : raw_pixel => c.value * c.weight)
        (cs.map (fun c => (⟨.finite c.1, .finite c.2⟩ : raw_pixel))) =
        .finite (cs.map (fun c => c.2 * c.1)).sum := by
      rw [transform_reduce_finite _ (fun c => match c.value * c.weight with
        | .finite a => a
        | _ => 0)]
      · simp only [List.map_map]
        rfl
      · intro c hc
        simp only [List.mem_map] at hc
        obtain ⟨d, _, rfl⟩ := hc
        rfl
    rw [e1, e2, double_eq_finite_zero]
    by_cases h0 : (cs.map Prod.fst).sum = 0
    · simp only [h0, decide_True, if_true]
    · simp only [h0, decide_False, Bool.false_eq_true, if_false]
      rw [finite_div _ _ h0]
  · intro c hc
    simp only [List.mem_map] at hc
    obtain ⟨d, hd, rfl⟩ := hc
    rw [double_lt_finite_zero]
    simpa using hw d hd

/-! ## Points of the dense mode -/

theorem truncate_intCast (z : Int) : double.truncate (z : ℚ) = z := by
  unfold double.truncate
  split <;> simp

theorem to_size_t_floor (x : ℚ) (h0 : 0 ≤ x) (h1 : ⌊x⌋ < 2 ^ 64) :
    double.to_size_t (double.floor (.finite x)) = some ⌊x⌋.toNat := by
  simp only [double.floor, double.to_size_t, truncate_intCast]
  rw [if_pos ⟨Int.floor_nonneg.mpr h0, h1⟩]

theorem to_size_t_natCast (i : Nat) (h : i < 2 ^ 64) :
    double.to_size_t (double.floor (.finite (i : ℚ))) = some i := by
  rw [to_size_t_floor _ (by positivity) (by rw [Int.floor_natCast]; exact_mod_cast h)]
  simp

theorem floor_natCast (i : Nat) : double.floor (.finite (i : ℚ)) = .finite (i : ℚ) := by
  simp [double.floor]

theorem to_size_t_finite_natCast (i : Nat) (h : i < 2 ^ 64) :
    double.to_size_t (.finite (i : ℚ)) = some i := by
  rw [← floor_natCast, to_size_t_natCast i h]

theorem succ_size_t_lt (i : Nat) (h : i + 1 < 2 ^ 64) : succ_size_t i = i + 1 := by
  unfold succ_size_t
  exact Nat.mod_eq_of_lt h

/-- The contributions of a point at integer coordinates: the weight 1 for its own pixel,
the weight 0 for the three pixels to its right and below it. -/
theorem contributions_integer (i j : Nat) (v : double) (hi : i + 1 < 2 ^ 64)
    (hj : j + 1 < 2 ^ 64) (a b : Nat) :
    contributions ⟨.finite i, .finite j, v⟩ a b =
      if a = i ∧ b = j then [⟨.finite 1, v⟩]
      else if (a = i + 1 ∧ b = j) ∨ (a = i ∧ b = j + 1) ∨ (a = i + 1 ∧ b = j + 1) then
        [⟨.finite 0, v⟩]
      else [] := by
  simp only [contributions, floor_natCast, to_size_t_finite_natCast i (by omega),
    to_size_t_finite_natCast j (by omega), succ_size_t_lt i hi, succ_size_t_lt j hj, finite_sub, double_one, finite_mul,
    sub_self, sub_zero, mul_one, mul_zero, zero_mul]
  by_cases c1 : i = a ∧ j = b
  · obtain ⟨rfl, rfl⟩ := c1
    simp
  · by_cases c2 : i + 1 = a ∧ j = b
    · obtain ⟨rfl, rfl⟩ := c2
      simp
    · by_cases c3 : i = a ∧ j + 1 = b
      · obtain ⟨rfl, rfl⟩ := c3
        simp
      · by_cases c4 : i + 1 = a ∧ j + 1 = b
        · obtain ⟨rfl, rfl⟩ := c4
          simp
        · rw [if_neg c1, if_neg c2, if_neg c3, if_neg c4,
            if_neg (fun c => c1 ⟨c.1.symm, c.2.symm⟩)]
          rw [if_neg]
          · rfl
          · rintro (c | c | c)
            · exact c2 ⟨c.1.symm, c.2.symm⟩
            · exact c3 ⟨c.1.symm, c.2.symm⟩
            · exact c4 ⟨c.1.symm, c.2.symm⟩

theorem convertible_integer (i j : Nat) (v : double) (hi : i < 2 ^ 64) (hj : j < 2 ^ 64) :
    convertible ⟨.finite i, .finite j, v⟩ := by
  simp [convertible, to_size_t_natCast i hi, to_size_t_natCast j hj]

/-- C19, as the code has it. For a point at integer coordinates `(i, j)` inside the image,
the dense `to_vector_image` appends to pixel `(i, j)` a contribution with weight 1 and the
value of the point, and to each of the pixels `(i + 1, j)`, `(i, j + 1)` and
`(i + 1, j + 1)` that the image has a contribution with weight 0 and the value of the
point; the list of no other pixel changes. -/
theorem C19_bilinear_at_integer (image : bitmap (List raw_pixel)) (hwf : image.well_formed)
    (i j : Nat) (v : double) (hi : i < image.w) (hj : j < image.h)
    (hw : image.w < 2 ^ 64) (hh : image.h < 2 ^ 64) :
    ∃ image1, to_vector_image_point image ⟨.finite i, .finite j, v⟩ = .ok image1 ∧
      image1.w = image.w ∧ image1.h = image.h ∧
      ∀ a b, image1.get? a b = (image.get? a b).map (fun list => list ++
        (if a = i ∧ b = j then [⟨.finite 1, v⟩]
        else if (a = i + 1 ∧ b = j) ∨ (a = i ∧ b = j + 1) ∨ (a = i + 1 ∧ b = j + 1) then
          [⟨.finite 0, v⟩]
        else [])) := by
  rw [well_formed_cells image hwf, to_vector_image_point_cells,
    if_pos (convertible_integer i j v (by omega) (by omega))]
  refine ⟨_, rfl, rfl, rfl, ?_⟩
  intro a b
  rw [get?_cells, get?_cells]
  by_cases c : a < image.w ∧ b < image.h
  · rw [if_pos c, if_pos c, Option.map_some', contributions_integer i j v (by omega) (by omega)]
  · rw [if_neg c, if_neg c, Option.map_none']

/-- C19 at a concrete input: the point `(1, 0, 5)` and the empty image of width 3 and
height 1. -/
theorem C19_bilinear_at_integer_witness :
    ∃ image1, to_vector_image_point (bitmap.create 3 1 []) ⟨.finite (1 : Nat), .finite (0 : Nat),
        .finite 5⟩ = .ok image1 ∧
      image1.w = (bitmap.create 3 1 ([] : List raw_pixel)).w ∧
      image1.h = (bitmap.create 3 1 ([] : List raw_pixel)).h ∧
      ∀ a b, image1.get? a b = ((bitmap.create 3 1 ([] : List raw_pixel)).get? a b).map
        (fun list => list ++
          (if a = 1 ∧ b = 0 then [⟨.finite 1, .finite 5⟩]
          else if (a = 1 + 1 ∧ b = 0) ∨ (a = 1 ∧ b = 0 + 1) ∨ (a = 1 + 1 ∧ b = 0 + 1) then
            [⟨.finite 0, .finite 5⟩]
          else [])) :=
  C19_bilinear_at_integer (bitmap.create 3 1 []) (by simp [bitmap.well_formed, bitmap.create])
    1 0 (.finite 5) (by decide) (by decide) (by decide) (by decide)

/-- C19 as stated fails: for the point `(0, 0, 5)` and the empty image of width 2 and
height 1, the list of pixel `(1, 0)` changes too: it receives a contribution with weight 0
and the value 5. -/
theorem C19_neighbour_counterexample :
    (bitmap.create 2 1 ([] : List raw_pixel)).get? 1 0 = some [] ∧
    to_vector_image_point (bitmap.create 2 1 []) ⟨.finite 0, .finite 0, .finite 5⟩ =
      .ok ⟨2, 1, [[⟨.finite 1, .finite 5⟩], [⟨.finite 0, .finite 5⟩]]⟩ ∧
    (bitmap.mk 2 1 [[(⟨.finite 1, .finite 5⟩ : raw_pixel)], [⟨.finite 0, .finite 5⟩]]).get? 1 0 =
      some [⟨.finite 0, .finite 5⟩] := by
  refine ⟨?_, ?_, ?_⟩ <;> decide!

/-! ## The contributions of one point -/

theorem modify_at_flatten {α : Type} (c : α) (n : Nat) (l : List (List α)) (h : n < l.length) :
    (modify_at (fun list => list ++ [c]) n l).flatten.Perm (l.flatten ++ [c]) := by
  induction l generalizing n with
  | nil => simp at h
  | cons a as ih =>
    cases n with
    | zero =>
      simp only [modify_at, List.flatten_cons, List.append_assoc]
      exact List.Perm.append_left a List.perm_append_comm
    | succ n =>
      simp only [modify_at, List.flatten_cons, List.append_assoc]
      exact List.Perm.append_left a (ih n (by simpa using h))

theorem index_lt (w h x y : Nat) (hx : x < w) (hy : y < h) : y * w + x < w * h := by
  have : (y + 1) * w ≤ h * w := Nat.mul_le_mul_right w (by omega)
  rw [Nat.mul_comm w h]
  rw [Nat.add_mul] at this
  omega

/-- A guarded `push_back` adds its contribution to those of the image when the image has the pixel. -/
theorem guarded_push_flatten {α : Type} (image : bitmap (List α)) (hwf : image.well_formed)
    (x y : Nat) (c : α) :
    (if x < image.w ∧ y < image.h then push_back image x y c else image).well_formed ∧
    (if x < image.w ∧ y < image.h then push_back image x y c else image).w = image.w ∧
    (if x < image.w ∧ y < image.h then push_back image x y c else image).h = image.h ∧
    (if x < image.w ∧ y < image.h then push_back image x y c else image).data.flatten.Perm
      (image.data.flatten ++ (if x < image.w ∧ y < image.h then [c] else [])) := by
  by_cases cnd : x < image.w ∧ y < image.h
  · simp only [if_pos cnd, push_back, bitmap.modify, bitmap.well_formed, modify_at_length]
    refine ⟨hwf, trivial, trivial, ?_⟩
    apply modify_at_flatten
    rw [hwf]
    exact index_lt _ _ _ _ cnd.1 cnd.2
  · simp only [if_neg cnd, List.append_nil]
    exact ⟨hwf, trivial, trivial, List.Perm.refl _⟩

theorem fract_eq_zero_of_le (x : ℚ) (w : Nat) (h1 : x ≤ (w : ℚ) - 1) (h2 : ¬ ⌊x⌋.toNat + 1 < w)
    (h0 : 0 ≤ x) : x - ⌊x⌋ = 0 := by
  have hf : (0 : Int) ≤ ⌊x⌋ := Int.floor_nonneg.mpr h0
  have e : ((⌊x⌋.toNat : Int) : ℚ) = (⌊x⌋ : ℚ) := by
    rw [Int.toNat_of_nonneg hf]
  have h3 : (w : ℚ) ≤ (⌊x⌋ : ℚ) + 1 := by
    have : w ≤ ⌊x⌋.toNat + 1 := by omega
    have : (w : ℚ) ≤ ((⌊x⌋.toNat + 1 : Nat) : ℚ) := by exact_mod_cast this
    push_cast at this
    rw [← e]
    exact_mod_cast this
  have h4 : (⌊x⌋ : ℚ) ≤ x := Int.floor_le x
  linarith

theorem flatten_create_nil {α : Type} (w h : Nat) :
    (bitmap.create w h ([] : List α)).data.flatten = [] := by
  simp only [bitmap.create]
  generalize w * h = n
  induction n with
  | zero => rfl
  | succ n ih => simp [List.replicate_succ]

theorem transform_reduce_guarded (cnd : Prop) [Decidable cnd] (q : ℚ) (v : double) :
    transform_reduce raw_pixel.weight (if cnd then [(⟨.finite q, v⟩ : raw_pixel)] else []) =
      .finite (if cnd then q else 0) := by
  by_cases c : cnd
  · rw [if_pos c, if_pos c, transform_reduce_cons, transform_reduce_nil, double_add_zero]
  · rw [if_neg c, if_neg c, transform_reduce_nil]

theorem floor_toNat_lt (x : ℚ) (w : Nat) (h0 : 0 ≤ x) (h1 : x ≤ (w : ℚ) - 1) :
    ⌊x⌋.toNat < w := by
  have hf : (0 : Int) ≤ ⌊x⌋ := Int.floor_nonneg.mpr h0
  have h4 : (⌊x⌋ : ℚ) ≤ x := Int.floor_le x
  have h5 : (⌊x⌋ : ℚ) < (w : ℚ) := by linarith
  have h6 : ⌊x⌋ < (w : Int) := by exact_mod_cast h5
  omega

/-- The dense vector image of a single point with finite coordinates that the conversion
to `std::size_t` accepts: the contributions of all pixels together are the four guarded
ones, up to their order. -/
theorem to_vector_image_single (w h : Nat) (x y : ℚ) (v : double) (ix iy : Nat)
    (hx : double.to_size_t (double.floor (.finite x)) = some ix)
    (hy : double.to_size_t (double.floor (.finite y)) = some iy) :
    ∃ image, to_vector_image w h [⟨.finite x, .finite y, v⟩] = .ok image ∧
      image.data.flatten.Perm
        ((if ix < w ∧ iy < h then
            [(⟨.finite ((1 - (x - ⌊x⌋)) * (1 - (y - ⌊y⌋))), v⟩ : raw_pixel)] else []) ++
          (if succ_size_t ix < w ∧ iy < h then
            [(⟨.finite ((x - ⌊x⌋) * (1 - (y - ⌊y⌋))), v⟩ : raw_pixel)] else []) ++
          (if ix < w ∧ succ_size_t iy < h then
            [(⟨.finite ((1 - (x - ⌊x⌋)) * (y - ⌊y⌋)), v⟩ : raw_pixel)] else []) ++
          (if succ_size_t ix < w ∧ succ_size_t iy < h then
            [(⟨.finite ((x - ⌊x⌋) * (y - ⌊y⌋)), v⟩ : raw_pixel)] else [])) := by
  have wf0 : (bitmap.create w h ([] : List raw_pixel)).well_formed := by
    simp [bitmap.well_formed, bitmap.create]
  have e0 : (bitmap.create w h ([] : List raw_pixel)).w = w := rfl
  have e1 : (bitmap.create w h ([] : List raw_pixel)).h = h := rfl
  have f0 := @flatten_create_nil raw_pixel w h
  have hI : to_vector_image w h [⟨.finite x, .finite y, v⟩] =
      to_vector_image w h [⟨.finite x, .finite y, v⟩] := rfl
  conv at hI =>
    rhs
    simp only [to_vector_image, to_vector_image_loop, to_vector_image_point, hx, hy]
    simp only [double.floor, finite_sub, double_one, finite_mul]
  generalize bitmap.create w h ([] : List raw_pixel) = I0 at wf0 e0 e1 f0 hI
  obtain ⟨wf1, w1, h1, p1⟩ := guarded_push_flatten I0 wf0 ix iy
    (⟨.finite ((1 - (x - ⌊x⌋)) * (1 - (y - ⌊y⌋))), v⟩ : raw_pixel)
  generalize (if ix < I0.w ∧ iy < I0.h then push_back I0 ix iy
    (⟨.finite ((1 - (x - ⌊x⌋)) * (1 - (y - ⌊y⌋))), v⟩ : raw_pixel) else I0) = I1
    at wf1 w1 h1 p1 hI
  obtain ⟨wf2, w2, h2, p2⟩ := guarded_push_flatten I1 wf1 (succ_size_t ix) iy
    (⟨.finite ((x - ⌊x⌋) * (1 - (y - ⌊y⌋))), v⟩ : raw_pixel)
  generalize (if succ_size_t ix < I1.w ∧ iy < I1.h then push_back I1 (succ_size_t ix) iy
    (⟨.finite ((x - ⌊x⌋) * (1 - (y - ⌊y⌋))), v⟩ : raw_pixel) else I1) = I2
    at wf2 w2 h2 p2 hI
  obtain ⟨wf3, w3, h3, p3⟩ := guarded_push_flatten I2 wf2 ix (succ_size_t iy)
    (⟨.finite ((1 - (x - ⌊x⌋)) * (y - ⌊y⌋)), v⟩ : raw_pixel)
  generalize (if ix < I2.w ∧ succ_size_t iy < I2.h then push_back I2 ix (succ_size_t iy)
    (⟨.finite ((1 - (x - ⌊x⌋)) * (y - ⌊y⌋)), v⟩ : raw_pixel) else I2) = I3
    at wf3 w3 h3 p3 hI
  obtain ⟨_, _, _, p4⟩ := guarded_push_flatten I3 wf3 (succ_size_t ix) (succ_size_t iy)
    (⟨.finite ((x - ⌊x⌋) * (y - ⌊y⌋)), v⟩ : raw_pixel)
  generalize (if succ_size_t ix < I3.w ∧ succ_size_t iy < I3.h then
    push_back I3 (succ_size_t ix) (succ_size_t iy)
    (⟨.finite ((x - ⌊x⌋) * (y - ⌊y⌋)), v⟩ : raw_pixel) else I3) = I4 at p4 hI
  refine ⟨I4, hI, ?_⟩
  rw [w3, w2, w1, h3, h2, h1, e0, e1] at p4
  rw [w2, w1, h2, h1, e0, e1] at p3
  rw [w1, h1, e0, e1] at p2
  rw [e0, e1, f0, List.nil_append] at p1
  refine p4.trans (List.Perm.append_right _ ?_)
  refine p3.trans (List.Perm.append_right _ ?_)
  exact p2.trans (List.Perm.append_right _ p1)

/-- C18, as the code has it. For a single point with `0 ≤ x ≤ width - 1` and
`0 ≤ y ≤ height - 1`, the contributions that the dense `to_vector_image` appends, at most
four, have weights that sum to exactly 1 in exact arithmetic. -/
theorem C18_dense_partition_of_unity (w h : Nat) (x y : ℚ) (v : double)
    (hx0 : 0 ≤ x) (hx1 : x ≤ (w : ℚ) - 1) (hy0 : 0 ≤ y) (hy1 : y ≤ (h : ℚ) - 1)
    (hw : w < 2 ^ 64) (hh : h < 2 ^ 64) :
    ∃ image, to_vector_image w h [⟨.finite x, .finite y, v⟩] = .ok image ∧
      image.data.flatten.length ≤ 4 ∧
      transform_reduce raw_pixel.weight image.data.flatten = .finite 1 := by
  have hix := floor_toNat_lt x w hx0 hx1
  have hiy := floor_toNat_lt y h hy0 hy1
  have hfx : ⌊x⌋ < 2 ^ 64 := by
    have := Int.floor_nonneg.mpr hx0
    omega
  have hfy : ⌊y⌋ < 2 ^ 64 := by
    have := Int.floor_nonneg.mpr hy0
    omega
  obtain ⟨image, himg, hperm⟩ := to_vector_image_single w h x y v _ _
    (to_size_t_floor x hx0 hfx) (to_size_t_floor y hy0 hfy)
  refine ⟨image, himg, ?_, ?_⟩
  · rw [hperm.length_eq]
    simp only [List.length_append]
    have l1 : ∀ (c : Prop) [Decidable c] (a : raw_pixel), (if c then [a] else []).length ≤ 1 := by
      intro c _ a
      split <;> simp
    have a1 := l1 (⌊x⌋.toNat < w ∧ ⌊y⌋.toNat < h)
      ⟨.finite ((1 - (x - ⌊x⌋)) * (1 - (y - ⌊y⌋))), v⟩
    have a2 := l1 (succ_size_t ⌊x⌋.toNat < w ∧ ⌊y⌋.toNat < h)
      ⟨.finite ((x - ⌊x⌋) * (1 - (y - ⌊y⌋))), v⟩
    have a3 := l1 (⌊x⌋.toNat < w ∧ succ_size_t ⌊y⌋.toNat < h)
      ⟨.finite ((1 - (x - ⌊x⌋)) * (y - ⌊y⌋)), v⟩
    have a4 := l1 (succ_size_t ⌊x⌋.toNat < w ∧ succ_size_t ⌊y⌋.toNat < h)
      ⟨.finite ((x - ⌊x⌋) * (y - ⌊y⌋)), v⟩
    omega
  · rw [transform_reduce_perm _ _ _ hperm, transform_reduce_append, transform_reduce_append,
      transform_reduce_append, transform_reduce_guarded, transform_reduce_guarded,
      transform_reduce_guarded, transform_reduce_guarded, finite_add, finite_add, finite_add,
      succ_size_t_lt _ (by omega), succ_size_t_lt _ (by omega)]
    congr 1
    rw [if_pos ⟨hix, hiy⟩]
    by_cases cx : ⌊x⌋.toNat + 1 < w
    · by_cases cy : ⌊y⌋.toNat + 1 < h
      · rw [if_pos ⟨cx, hiy⟩, if_pos ⟨hix, cy⟩, if_pos ⟨cx, cy⟩]
        ring
      · have fy := fract_eq_zero_of_le y h hy1 cy hy0
        rw [if_pos ⟨cx, hiy⟩, if_neg (fun c => cy c.2), if_neg (fun c => cy c.2), fy]
        ring
    · have fx := fract_eq_zero_of_le x w hx1 cx hx0
      by_cases cy : ⌊y⌋.toNat + 1 < h
      · rw [if_neg (fun c => cx c.1), if_pos ⟨hix, cy⟩, if_neg (fun c => cx c.1), fx]
        ring
      · have fy := fract_eq_zero_of_le y h hy1 cy hy0
        rw [if_neg (fun c => cx c.1), if_neg (fun c => cy c.2), if_neg (fun c => cx c.1), fx, fy]
        ring

/-- C18 at a concrete input: the point `(1/2, 1/2)` in an image of width 2 and height 2. -/
theorem C18_dense_partition_of_unity_witness :
    ∃ image, to_vector_image 2 2 [⟨.finite (1 / 2), .finite (1 / 2), .finite 10⟩] = .ok image ∧
      image.data.flatten.length ≤ 4 ∧
      transform_reduce raw_pixel.weight image.data.flatten = .finite 1 :=
  C18_dense_partition_of_unity 2 2 (1 / 2) (1 / 2) (.finite 10) (by norm_num) (by norm_num)
    (by norm_num) (by norm_num) (by norm_num) (by norm_num)

/-- C18 as stated fails: the point `(1/2, 1/2)` is inside an image of width 1 and height 1,
`0 ≤ 1/2 < 1`, and the dense `to_vector_image` appends a single contribution for it, with
the weight 1/4. -/
theorem C18_border_counterexample :
    ((0 : ℚ) ≤ 1 / 2 ∧ (1 / 2 : ℚ) < ((1 : Nat) : ℚ)) ∧
    to_vector_image 1 1 [⟨.finite (1 / 2), .finite (1 / 2), .finite 10⟩] =
      .ok ⟨1, 1, [[⟨.finite (1 / 4), .finite 10⟩]]⟩ ∧
    transform_reduce raw_pixel.weight [(⟨.finite (1 / 4), .finite 10⟩ : raw_pixel)] =
      .finite (1 / 4) ∧
    (.finite (1 / 4) : double) ≠ .finite 1 := by
  refine ⟨by norm_num, ?_, ?_, ?_⟩ <;> decide!

/-! ## The full grid -/

theorem transform_reduce_zero {α : Type} (f : α → double) (l : List α)
    (h : ∀ c ∈ l, f c = .finite 0) : transform_reduce f l = .finite 0 := by
  rw [transform_reduce_finite f (fun _ => 0) l h]
  simp

/-- The value of a pixel with one contribution of weight 1 and a finite value, all others
having the weight 0 and finite values. -/
theorem pixel_value_unit (L1 L2 : List raw_pixel) (V : ℚ)
    (h : ∀ c ∈ L1 ++ L2, c.weight = .finite 0 ∧ ∃ u, c.value = .finite u) :
    pixel_value raw_pixel.weight raw_pixel.value (L1 ++ ⟨.finite 1, .finite V⟩ :: L2) =
      .ok (.finite V) := by
  by_cases hl : L1 = [] ∧ L2 = []
  · obtain ⟨rfl, rfl⟩ := hl
    rfl
  · have hlen : 2 ≤ (L1 ++ (⟨.finite 1, .finite V⟩ : raw_pixel) :: L2).length := by
      simp only [List.length_append, List.length_cons]
      rcases L1 with _ | ⟨a, L1⟩
      · rcases L2 with _ | ⟨b, L2⟩
        · simp at hl
        · simp
      · simp only [List.length_cons]; omega
    have h1 : ∀ c ∈ L1, c.weight = .finite 0 ∧ ∃ u, c.value = .finite u :=
      fun c hc => h c (List.mem_append_left _ hc)
    have h2 : ∀ c ∈ L2, c.weight = .finite 0 ∧ ∃ u, c.value = .finite u :=
      fun c hc => h c (List.mem_append_right _ hc)
    have hvw : ∀ L : List raw_pixel, (∀ c ∈ L, c.weight = .finite 0 ∧ ∃ u, c.value = .finite u) →
        transform_reduce (fun c : raw_pixel => c.value * c.weight) L = .finite 0 := by
      intro L hL
      apply transform_reduce_zero
      intro c hc
      obtain ⟨e1, u, e2⟩ := hL c hc
      simp only [e1, e2, finite_mul, mul_zero]
    rw [pixel_value_many _ _ _ hlen]
    · rw [transform_reduce_append, transform_reduce_cons, transform_reduce_append,
        transform_reduce_cons, transform_reduce_zero _ L1 (fun c hc => (h1 c hc).1),
        transform_reduce_zero _ L2 (fun c hc => (h2 c hc).1), hvw L1 h1, hvw L2 h2]
      simp only [finite_add, finite_mul, double_eq_finite_zero]
      norm_num
      rw [finite_div _ _ one_ne_zero, div_one]
    · intro c hc
      simp only [List.mem_append, List.mem_cons] at hc
      rcases hc with hc | rfl | hc
      · rw [(h1 c hc).1]; rfl
      · rfl
      · rw [(h2 c hc).1]; rfl

theorem mod_div_lt (w h k : Nat) (hk : k < w * h) : k % w < w ∧ k / w < h := by
  have hw : 0 < w := by
    rcases Nat.eq_zero_or_pos w with h0 | h0
    · subst h0; simp at hk
    · exact h0
  exact ⟨Nat.mod_lt _ hw, Nat.div_lt_of_lt_mul hk⟩

theorem convertible_grid (w h : Nat) (hw : w < 2 ^ 64) (hh : h < 2 ^ 64) (v : Nat → Nat → ℚ) :
    ∀ p ∈ grid_points w h v, convertible p := by
  intro p hp
  simp only [grid_points, cells, List.mem_map, List.mem_range] at hp
  obtain ⟨k, hk, rfl⟩ := hp
  obtain ⟨h1, h2⟩ := mod_div_lt w h k hk
  exact convertible_integer _ _ _ (by omega) (by omega)

/-- The value of a pixel of the image of a full grid of points with finite values, the
points being in row-major order. -/
theorem pixel_value_grid (w h : Nat) (hw : w < 2 ^ 64) (hh : h < 2 ^ 64) (v : Nat → Nat → ℚ)
    (a b : Nat) (ha : a < w) (hb : b < h) :
    pixel_value raw_pixel.weight raw_pixel.value
        ((grid_points w h v).flatMap (fun p => contributions p a b)) =
      .ok (.finite (v a b)) := by
  have hk0 : b * w + a < w * h := index_lt w h a b ha hb
  obtain ⟨s, t, hst⟩ := List.append_of_mem (List.mem_range.mpr hk0)
  have hnd := List.nodup_range (w * h)
  rw [hst] at hnd
  have hs : b * w + a ∉ s := by
    intro hc
    have := (List.nodup_append.mp hnd).2.2
    exact this hc (by simp)
  have ht : b * w + a ∉ t := by
    have := (List.nodup_append.mp hnd).2.1
    exact (List.nodup_cons.mp this).1
  have hmem : ∀ k, k ∈ s ∨ k ∈ t → k < w * h ∧ k ≠ b * w + a := by
    intro k hk
    constructor
    · apply List.mem_range.mp
      rw [hst]
      rcases hk with hk | hk
      · exact List.mem_append_left _ hk
      · exact List.mem_append_right _ (List.mem_cons_of_mem _ hk)
    · rintro rfl
      rcases hk with hk | hk
      · exact hs hk
      · exact ht hk
  have hother : ∀ k, k ∈ s ∨ k ∈ t →
      ∀ c ∈ contributions ⟨.finite ((k % w : Nat) : ℚ), .finite ((k / w : Nat) : ℚ),
        .finite (v (k % w) (k / w))⟩ a b, c.weight = .finite 0 ∧ ∃ u, c.value = .finite u := by
    intro k hk c hc
    obtain ⟨hlt, hne⟩ := hmem k hk
    obtain ⟨h1, h2⟩ := mod_div_lt w h k hlt
    rw [contributions_integer _ _ _ (by omega) (by omega)] at hc
    have hne2 : ¬ (a = k % w ∧ b = k / w) := by
      intro c2
      exact hne ((index_eq_iff w a b k ha).mpr ⟨c2.1.symm, c2.2.symm⟩)
    rw [if_neg hne2] at hc
    split at hc
    · simp only [List.mem_singleton] at hc
      subst hc
      exact ⟨rfl, _, rfl⟩
    · simp at hc
  obtain ⟨e1, e2⟩ := (index_eq_iff w a b (b * w + a) ha).mp rfl
  have hself : contributions ⟨.finite (((b * w + a) % w : Nat) : ℚ),
      .finite (((b * w + a) / w : Nat) : ℚ),
      .finite (v ((b * w + a) % w) ((b * w + a) / w))⟩ a b = [⟨.finite 1, .finite (v a b)⟩] := by
    rw [e1, e2, contributions_integer _ _ _ (by omega) (by omega), if_pos ⟨rfl, rfl⟩]
  simp only [grid_points, cells, List.flatMap_map, hst, List.flatMap_append, List.flatMap_cons,
    hself, List.singleton_append]
  apply pixel_value_unit
  intro c hc
  simp only [List.mem_append, List.mem_flatMap] at hc
  rcases hc with ⟨k, hk, hc⟩ | ⟨k, hk, hc⟩
  · exact hother k (Or.inl hk) c hc
  · exact hother k (Or.inr hk) c hc

/-- C14, for finite values. For every width and height and every point list that has
exactly one point at each integer coordinate `(i, j)` with `i < w` and `j < h`, in any
order, with a finite value `v i j`, the dense `to_image` returns the `w × h` image whose
pixel `(i, j)` is `v i j`. -/
theorem C14_full_grid (w h : Nat) (hw : w < 2 ^ 64) (hh : h < 2 ^ 64) (v : Nat → Nat → ℚ)
    (points : List point) (hp : points.Perm (grid_points w h v)) :
    to_image w h points = .ok ⟨w, h, cells w h (fun i j => .finite (v i j))⟩ := by
  have hc : ∀ p ∈ points, convertible p :=
    fun p hm => convertible_grid w h hw hh v p (hp.mem_iff.mp hm)
  rw [to_image, to_vector_image_cells, if_pos hc]
  simp only
  have : transform (pixel_value raw_pixel.weight raw_pixel.value)
      (cells w h (fun a b => points.flatMap (fun p => contributions p a b))) =
      .ok (cells w h (fun i j => (.finite (v i j) : double))) := by
    unfold cells
    apply transform_map_ok
    intro k hk
    obtain ⟨h1, h2⟩ := mod_div_lt w h k (List.mem_range.mp hk)
    rw [pixel_value_perm _ _ _ _ (List.Perm.flatMap_right _ hp)]
    exact pixel_value_grid w h hw hh v _ _ h1 h2
  rw [this]

/-- C14 at the S1 input: the row-major image is `[1, 2, 3, 4]`. -/
theorem C14_full_grid_witness :
    to_image 2 2 [⟨.finite 0, .finite 0, .finite 1⟩, ⟨.finite 1, .finite 0, .finite 2⟩,
        ⟨.finite 0, .finite 1, .finite 3⟩, ⟨.finite 1, .finite 1, .finite 4⟩] =
      .ok ⟨2, 2, [.finite 1, .finite 2, .finite 3, .finite 4]⟩ :=
  (C14_full_grid 2 2 (by norm_num) (by norm_num) (fun i j => 1 + i + 2 * j)
    [⟨.finite 0, .finite 0, .finite 1⟩, ⟨.finite 1, .finite 0, .finite 2⟩,
      ⟨.finite 0, .finite 1, .finite 3⟩, ⟨.finite 1, .finite 1, .finite 4⟩]
    (by
      have e : grid_points 2 2 (fun i j => 1 + i + 2 * j) =
          [⟨.finite 0, .finite 0, .finite 1⟩, ⟨.finite 1, .finite 0, .finite 2⟩,
            ⟨.finite 0, .finite 1, .finite 3⟩, ⟨.finite 1, .finite 1, .finite 4⟩] := by decide!
      rw [e])).trans (by decide!)

/-- C14 as stated fails for a value that is not finite: with the points `(0, 0, ∞)` and
`(1, 0, 2)` in an image of width 2 and height 1, pixel `(1, 0)` receives the contribution
of the first point with weight 0, and `∞ * 0` is NaN, so the pixel is NaN and not 2. -/
theorem C14_infinite_value_counterexample :
    to_vector_image 2 1 [⟨.finite 0, .finite 0, .pos_inf⟩, ⟨.finite 1, .finite 0, .finite 2⟩] =
      .ok ⟨2, 1, [[⟨.finite 1, .pos_inf⟩],
        [⟨.finite 0, .pos_inf⟩, ⟨.finite 1, .finite 2⟩]]⟩ ∧
    to_image 2 1 [⟨.finite 0, .finite 0, .pos_inf⟩, ⟨.finite 1, .finite 0, .finite 2⟩] =
      .ok ⟨2, 1, [.pos_inf, NaN]⟩ := by
  refine ⟨?_, ?_⟩ <;> decide!

/-! ## The order of the points -/

/-- The dense image does not depend on the order of the points. -/
theorem to_image_perm (w h : Nat) (points points' : List point) (hp : points.Perm points') :
    to_image w h points = to_image w h points' := by
  rw [to_image, to_image, to_vector_image_cells, to_vector_image_cells]
  by_cases hc : ∀ p ∈ points, convertible p
  · have hc' : ∀ p ∈ points', convertible p := fun p hm => hc p (hp.mem_iff.mpr hm)
    rw [if_pos hc, if_pos hc']
    simp only
    have : transform (pixel_value raw_pixel.weight raw_pixel.value)
        (cells w h (fun a b => points.flatMap (fun p => contributions p a b))) =
        transform (pixel_value raw_pixel.weight raw_pixel.value)
        (cells w h (fun a b => points'.flatMap (fun p => contributions p a b))) := by
      unfold cells
      apply transform_map_congr
      intro k _
      exact pixel_value_perm _ _ _ _ (List.Perm.flatMap_right _ hp)
    rw [this]
  · have hc' : ¬ ∀ p ∈ points', convertible p := fun c => hc (fun p hm => c p (hp.mem_iff.mp hm))
    rw [if_neg hc, if_neg hc']

theorem find_raster_range_perm (points points' : List raster_point)
    (hp : points.Perm points') : find_raster_range points = find_raster_range points' := by
  unfold find_raster_range
  apply hp.foldl_eq'
  intro p _ q _ r
  simp only [raster_range.mk.injEq]
  refine ⟨?_, ?_, ?_, ?_⟩
  · rw [min_assoc, min_comm p.rx, ← min_assoc]
  · rw [max_assoc, max_comm p.rx, ← max_assoc]
  · rw [min_assoc, min_comm p.ry, ← min_assoc]
  · rw [max_assoc, max_comm p.ry, ← max_assoc]

/-- The range of a fold that starts at any range holds the range it started with and the
coordinates of the points. -/
theorem foldl_range_bounds (points : List raster_point) :
    ∀ (r0 : raster_range),
      let r := points.foldl (fun range p => (⟨min range.min_x p.rx, max range.max_x p.rx,
        min range.min_y p.ry, max range.max_y p.ry⟩ : raster_range)) r0
      (r.min_x ≤ r0.min_x ∧ r0.max_x ≤ r.max_x ∧ r.min_y ≤ r0.min_y ∧ r0.max_y ≤ r.max_y) ∧
      ∀ p ∈ points, r.min_x ≤ p.rx ∧ p.rx ≤ r.max_x ∧ r.min_y ≤ p.ry ∧ p.ry ≤ r.max_y := by
  induction points with
  | nil =>
    intro r0
    simp
  | cons q points ih =>
    intro r0
    simp only [List.foldl_cons, List.mem_cons]
    obtain ⟨⟨h1, h2, h3, h4⟩, h5⟩ := ih ⟨min r0.min_x q.rx, max r0.max_x q.rx,
      min r0.min_y q.ry, max r0.max_y q.ry⟩
    simp only at h1 h2 h3 h4
    refine ⟨⟨?_, ?_, ?_, ?_⟩, ?_⟩
    · exact le_trans h1 (min_le_left _ _)
    · exact le_trans (le_max_left _ _) h2
    · exact le_trans h3 (min_le_left _ _)
    · exact le_trans (le_max_left _ _) h4
    · rintro p (rfl | hp)
      · exact ⟨le_trans h1 (min_le_right _ _), le_trans (le_max_right _ _) h2,
          le_trans h3 (min_le_right _ _), le_trans (le_max_right _ _) h4⟩
      · exact h5 p hp

theorem find_raster_range_bounds (points : List raster_point) (p : raster_point)
    (hp : p ∈ points) :
    (find_raster_range points).min_x ≤ p.rx ∧ p.rx ≤ (find_raster_range points).max_x ∧
    (find_raster_range points).min_y ≤ p.ry ∧ p.ry ≤ (find_raster_range points).max_y :=
  (foldl_range_bounds points _).2 p hp

/-- A coordinate between the bounds of an extent has its offset below the extent. -/
theorem offset_lt_extent (lo hi v : Int) (n : Nat) (h1 : lo ≤ v) (h2 : v ≤ hi)
    (hn : extent hi lo = .ok n) : ∃ x, offset v lo = .ok x ∧ x < n ∧ (x : Int) = v - lo := by
  by_cases c1 : int64_min ≤ hi + 1 ∧ hi + 1 ≤ int64_max
  · by_cases c2 : int64_min ≤ hi + 1 - lo ∧ hi + 1 - lo ≤ int64_max
    · simp only [extent, int64, if_pos c1, if_pos c2, Except.ok.injEq] at hn
      unfold int64_min int64_max at c1 c2
      have c3 : int64_min ≤ v - lo ∧ v - lo ≤ int64_max := by
        unfold int64_min int64_max
        constructor <;> omega
      refine ⟨size_t_of_int64 (v - lo), ?_, ?_, ?_⟩
      · simp only [offset, int64, if_pos c3]
      · rw [← hn]
        unfold size_t_of_int64
        omega
      · unfold size_t_of_int64
        omega
    · simp only [extent, int64, if_pos c1, if_neg c2] at hn
      exact absurd hn (by simp)
  · simp only [extent, int64, if_neg c1] at hn
    exact absurd hn (by simp)

/-- One round of the loop that fills the raster image, for a point whose place is inside
the image and free. -/
theorem fill_raster_image_cons (range : raster_range) (W H : Nat)
    (g : Nat → Nat → Option raster_point) (p : raster_point) (points : List raster_point)
    (x y : Nat) (hx : range.x p.rx = .ok x) (hy : range.y p.ry = .ok y) (hxW : x < W)
    (hyH : y < H) (hfree : g x y = none) :
    fill_raster_image range (p :: points) ⟨W, H, cells W H g⟩ =
      fill_raster_image range points
        ⟨W, H, cells W H (fun a b => if a = x ∧ b = y then some p else g a b)⟩ := by
  rw [fill_raster_image]
  simp only [hx, hy, get?_cells, if_pos (And.intro hxW hyH), hfree, modify_cells W H g x y _ hxW]

/-- The raster image does not depend on the order of the points when their places are
inside the image, free and distinct. -/
theorem fill_raster_image_perm (range : raster_range) (W H : Nat)
    (points points' : List raster_point) (hp : points.Perm points') :
    ∀ (g : Nat → Nat → Option raster_point),
      (∀ p ∈ points, ∃ x y, range.x p.rx = .ok x ∧ range.y p.ry = .ok y ∧ x < W ∧ y < H ∧
        g x y = none ∧ (x : Int) = p.rx - range.min_x ∧ (y : Int) = p.ry - range.min_y) →
      (points.map (fun p => (p.rx, p.ry))).Nodup →
      fill_raster_image range points ⟨W, H, cells W H g⟩ =
        fill_raster_image range points' ⟨W, H, cells W H g⟩ := by
  induction hp with
  | nil => intro g _ _; rfl
  | @cons p l l' hl ih =>
    intro g hg hnd
    obtain ⟨x, y, hx, hy, hxW, hyH, hfree, ex, ey⟩ := hg p (by simp)
    rw [fill_raster_image_cons range W H g p l x y hx hy hxW hyH hfree,
      fill_raster_image_cons range W H g p l' x y hx hy hxW hyH hfree]
    simp only [List.map_cons, List.nodup_cons, List.mem_map, not_exists, not_and] at hnd
    apply ih _ _ hnd.2
    intro q hq
    obtain ⟨x2, y2, hx2, hy2, hxW2, hyH2, hfree2, ex2, ey2⟩ := hg q (by simp [hq])
    refine ⟨x2, y2, hx2, hy2, hxW2, hyH2, ?_, ex2, ey2⟩
    have hne : ¬ (x2 = x ∧ y2 = y) := by
      rintro ⟨rfl, rfl⟩
      apply hnd.1 q hq
      have e1 : q.rx = p.rx := by omega
      have e2 : q.ry = p.ry := by omega
      rw [e1, e2]
    rw [if_neg hne]
    exact hfree2
  | swap p q l =>
    intro g hg hnd
    obtain ⟨x, y, hx, hy, hxW, hyH, hfree, ex, ey⟩ := hg p (by simp)
    obtain ⟨x2, y2, hx2, hy2, hxW2, hyH2, hfree2, ex2, ey2⟩ := hg q (by simp)
    simp only [List.map_cons, List.nodup_cons, List.mem_cons, List.mem_map, not_or,
      Prod.mk.injEq] at hnd
    have hne : ¬ (x = x2 ∧ y = y2) := by
      rintro ⟨rfl, rfl⟩
      apply hnd.1.1
      constructor <;> omega
    have hne' : ¬ (x2 = x ∧ y2 = y) := fun c => hne ⟨c.1.symm, c.2.symm⟩
    rw [fill_raster_image_cons range W H g q (p :: l) x2 y2 hx2 hy2 hxW2 hyH2 hfree2,
      fill_raster_image_cons range W H _ p l x y hx hy hxW hyH (by rw [if_neg hne]; exact hfree),
      fill_raster_image_cons range W H g p (q :: l) x y hx hy hxW hyH hfree,
      fill_raster_image_cons range W H _ q l x2 y2 hx2 hy2 hxW2 hyH2
        (by rw [if_neg hne']; exact hfree2)]
    congr 3
    funext a b
    by_cases c1 : a = x ∧ b = y
    · have c2 : ¬ (a = x2 ∧ b = y2) := by
        rintro ⟨rfl, rfl⟩
        exact hne' c1
      rw [if_pos c1, if_neg c2, if_pos c1]
    · rw [if_neg c1, if_neg c1]
  | @trans l1 l2 l3 h12 _ ih1 ih2 =>
    intro g hg hnd
    rw [ih1 g hg hnd]
    apply ih2 g
    · intro p hp
      exact hg p (h12.mem_iff.mpr hp)
    · exact (h12.map _).nodup_iff.mp hnd

/-- The raster vector image does not depend on the order of the points when no two points
have the same raster coordinates. -/
theorem to_vector_image_raster_perm (root : ℚ → ℚ) (width height : Nat)
    (points points' : List raster_point) (filter : raster_filter) (hp : points.Perm points')
    (hnd : (points.map (fun p => (p.rx, p.ry))).Nodup) :
    to_vector_image_raster root width height points filter =
      to_vector_image_raster root width height points' filter := by
  unfold to_vector_image_raster
  rw [← find_raster_range_perm points points' hp]
  rcases hw : (find_raster_range points).w with e | W
  · rfl
  · simp only
    by_cases c1 : W < 2
    · rw [if_pos c1, if_pos c1]
    · rw [if_neg c1, if_neg c1]
      rcases hh : (find_raster_range points).h with e | H
      · rfl
      · simp only
        by_cases c2 : H < 2
        · rw [if_pos c2, if_pos c2]
        · rw [if_neg c2, if_neg c2, create_cells,
            fill_raster_image_perm (find_raster_range points) W H points points' hp _ _ hnd]
          intro p hm
          obtain ⟨b1, b2, b3, b4⟩ := find_raster_range_bounds points p hm
          obtain ⟨x, hx, hxW, ex⟩ := offset_lt_extent _ _ _ W b1 b2 hw
          obtain ⟨y, hy, hyH, ey⟩ := offset_lt_extent _ _ _ H b3 b4 hh
          exact ⟨x, y, hx, hy, hxW, hyH, rfl, ex, ey⟩

/-! ## The barycentric weights -/

theorem signed_inf_ne_finite (q r : ℚ) : double.signed_inf q ≠ .finite r := by
  unfold double.signed_inf
  split_ifs <;> simp

theorem signed_inf_sum (q0 q1 q2 r : ℚ) :
    double.signed_inf q0 + double.signed_inf q1 + double.signed_inf q2 ≠ .finite r := by
  show double.add (double.add _ _) _ ≠ _
  unfold double.signed_inf
  split_ifs <;> simp [double.add]

theorem finite_div_zero (q : ℚ) : (.finite q : double) / .finite 0 = double.signed_inf q := by
  show double.div _ _ = _
  simp [double.div]

/-- The three weights `areas[i] / area_sum` sum to 1 exactly when `area_sum` is a number
other than 0. -/
theorem weight_sum_iff (a : array3 double) :
    (weight a).t0 + (weight a).t1 + (weight a).t2 = .finite 1 ↔
      ∃ s, area_sum a = .finite s ∧ s ≠ 0 := by
  obtain ⟨a0, a1, a2⟩ := a
  cases a0 with
  | finite q0 =>
    cases a1 with
    | finite q1 =>
      cases a2 with
      | finite q2 =>
        simp only [weight, area_sum, finite_add]
        by_cases hs : q0 + q1 + q2 = 0
        · rw [hs, finite_div_zero, finite_div_zero, finite_div_zero]
          constructor
          · intro h
            exact absurd h (signed_inf_sum _ _ _ _)
          · rintro ⟨s, h1, h2⟩
            simp only [ply.floating.finite.injEq] at h1
            exact absurd h1.symm h2
        · rw [finite_div _ _ hs, finite_div _ _ hs, finite_div _ _ hs, finite_add, finite_add]
          constructor
          · intro _
            exact ⟨_, rfl, hs⟩
          · intro _
            congr 1
            field_simp
      | pos_inf => simp [weight, area_sum, HAdd.hAdd, Add.add, HDiv.hDiv, Div.div, double.add, double.div]
      | neg_inf => simp [weight, area_sum, HAdd.hAdd, Add.add, HDiv.hDiv, Div.div, double.add, double.div]
      | nan => simp [weight, area_sum, HAdd.hAdd, Add.add, HDiv.hDiv, Div.div, double.add, double.div]
    | pos_inf =>
      cases a2 <;> simp [weight, area_sum, HAdd.hAdd, Add.add, HDiv.hDiv, Div.div, double.add, double.div]
    | neg_inf =>
      cases a2 <;> simp [weight, area_sum, HAdd.hAdd, Add.add, HDiv.hDiv, Div.div, double.add, double.div]
    | nan =>
      cases a2 <;> simp [weight, area_sum, HAdd.hAdd, Add.add, HDiv.hDiv, Div.div, double.add, double.div]
  | pos_inf =>
    cases a1 <;> cases a2 <;>
      simp [weight, area_sum, HAdd.hAdd, Add.add, HDiv.hDiv, Div.div, double.add, double.div]
  | neg_inf =>
    cases a1 <;> cases a2 <;>
      simp [weight, area_sum, HAdd.hAdd, Add.add, HDiv.hDiv, Div.div, double.add, double.div]
  | nan =>
    cases a1 <;> cases a2 <;>
      simp [weight, area_sum, HAdd.hAdd, Add.add, HDiv.hDiv, Div.div, double.add, double.div]


theorem distance_self (root : ℚ → ℚ) (h0 : root 0 = 0) (q r : ℚ) :
    distance root ⟨.finite q, .finite r⟩ ⟨.finite q, .finite r⟩ = .finite 0 := by
  simp only [distance, sqr, finite_sub, finite_mul, finite_add, double.sqrt]
  norm_num [h0]

theorem distance_finite (root : ℚ → ℚ) (x y q r : ℚ) :
    distance root ⟨.finite x, .finite y⟩ ⟨.finite q, .finite r⟩ =
      .finite (root ((x - q) * (x - q) + (y - r) * (y - r))) := by
  simp only [distance, sqr, finite_sub, finite_mul, finite_add, double.sqrt]
  rw [if_neg]
  have := mul_self_nonneg (x - q)
  have := mul_self_nonneg (y - r)
  linarith

/-- The area that the source computes for a triangle whose second and third corner
coincide is 0. -/
theorem area_coincident (root : ℚ → ℚ) (h0 : root 0 = 0) (x y q r : ℚ) :
    area root ⟨⟨.finite x, .finite y⟩, ⟨.finite q, .finite r⟩, ⟨.finite q, .finite r⟩⟩ =
      .finite 0 := by
  have e : (q - x) * (q - x) + (r - y) * (r - y) = (x - q) * (x - q) + (y - r) * (y - r) := by
    ring
  simp only [area, distance_self root h0, distance_finite, finite_add, finite_sub, finite_mul,
    e]
  rw [finite_div _ _ (by norm_num)]
  simp only [finite_sub, finite_mul, double.sqrt]
  have : (root ((x - q) * (x - q) + (y - r) * (y - r)) + 0 +
      root ((x - q) * (x - q) + (y - r) * (y - r))) / 2 -
      root ((x - q) * (x - q) + (y - r) * (y - r)) = 0 := by ring
  rw [this]
  norm_num [h0]

/-- The weights of a triangle whose three corners coincide are NaN at every pixel. -/
theorem weight_coincident (root : ℚ → ℚ) (h0 : root 0 = 0) (q r : ℚ) (v0 v1 v2 : double)
    (rx0 ry0 rx1 ry1 rx2 ry2 : Int) (x y : ℚ) :
    weight (areas root ⟨⟨.finite q, .finite r, v0, rx0, ry0⟩, ⟨.finite q, .finite r, v1, rx1, ry1⟩,
      ⟨.finite q, .finite r, v2, rx2, ry2⟩⟩ ⟨.finite x, .finite y⟩) = ⟨.nan, .nan, .nan⟩ := by
  simp only [areas, raster_point.to_point, area_coincident root h0, weight, area_sum, finite_add,
    add_zero, finite_div_zero]
  simp [double.signed_inf]

/-! ## The square root enters the raster mode through the weights only -/

theorem paint_row_congr (root root' : ℚ → ℚ) (t : array3 raster_point)
    (h : ∀ vector_image x y, paint_pixel root t vector_image x y =
      paint_pixel root' t vector_image x y) (y : Nat) (xs : List Nat) :
    ∀ vector_image, paint_row root t y xs vector_image = paint_row root' t y xs vector_image := by
  induction xs with
  | nil => intro vector_image; rfl
  | cons x xs ih =>
    intro vector_image
    simp only [paint_row, h]
    rcases paint_pixel root' t vector_image x y with e | image1
    · rfl
    · exact ih image1

theorem paint_rows_congr (root root' : ℚ → ℚ) (t : array3 raster_point)
    (h : ∀ vector_image x y, paint_pixel root t vector_image x y =
      paint_pixel root' t vector_image x y) (xs ys : List Nat) :
    ∀ vector_image, paint_rows root t xs ys vector_image =
      paint_rows root' t xs ys vector_image := by
  induction ys with
  | nil => intro vector_image; rfl
  | cons y ys ih =>
    intro vector_image
    simp only [paint_rows, paint_row_congr root root' t h]
    rcases paint_row root' t y xs vector_image with e | image1
    · rfl
    · exact ih image1

theorem paint_triangle_congr (root root' : ℚ → ℚ) (width height : Nat)
    (t : array3 raster_point)
    (h : ∀ vector_image x y, paint_pixel root t vector_image x y =
      paint_pixel root' t vector_image x y) (vector_image : bitmap (List raster_raw_pixel)) :
    paint_triangle root width height vector_image t =
      paint_triangle root' width height vector_image t := by
  simp only [paint_triangle, paint_rows_congr root root' t h]

theorem paint_triangles_congr (root root' : ℚ → ℚ) (width height : Nat)
    (ts : List (array3 raster_point))
    (h : ∀ t ∈ ts, ∀ vector_image x y, paint_pixel root t vector_image x y =
      paint_pixel root' t vector_image x y) :
    ∀ vector_image, paint_triangles root width height ts vector_image =
      paint_triangles root' width height ts vector_image := by
  induction ts with
  | nil => intro vector_image; rfl
  | cons t ts ih =>
    intro vector_image
    simp only [paint_triangles,
      paint_triangle_congr root root' width height t (h t (List.mem_cons_self _ _))]
    rcases paint_triangle root' width height vector_image t with e | image1
    · rfl
    · exact ih (fun t' ht' => h t' (List.mem_cons_of_mem _ ht')) image1

theorem paint_block_congr (root root' : ℚ → ℚ) (width height : Nat)
    (raster_image : bitmap (Option raster_point)) (ix iy : Nat)
    (h : ∀ points, region raster_image ix iy = .ok points → ∀ t ∈ triangles points,
      ∀ vector_image x y, paint_pixel root t vector_image x y =
        paint_pixel root' t vector_image x y)
    (vector_image : bitmap (List raster_raw_pixel)) :
    paint_block root width height raster_image vector_image ix iy =
      paint_block root' width height raster_image vector_image ix iy := by
  unfold paint_block
  rcases hr : region raster_image ix iy with e | points
  · rfl
  · exact paint_triangles_congr root root' width height _ (h points hr) vector_image

theorem paint_block_row_congr (root root' : ℚ → ℚ) (width height : Nat)
    (raster_image : bitmap (Option raster_point)) (iy : Nat) (ixs : List Nat)
    (h : ∀ ix ∈ ixs, ∀ points, region raster_image ix iy = .ok points →
      ∀ t ∈ triangles points, ∀ vector_image x y, paint_pixel root t vector_image x y =
        paint_pixel root' t vector_image x y) :
    ∀ vector_image, paint_block_row root width height raster_image iy ixs vector_image =
      paint_block_row root' width height raster_image iy ixs vector_image := by
  induction ixs with
  | nil => intro vector_image; rfl
  | cons ix ixs ih =>
    intro vector_image
    simp only [paint_block_row, paint_block_congr root root' width height raster_image ix iy
      (h ix (List.mem_cons_self _ _))]
    rcases paint_block root' width height raster_image vector_image ix iy with e | image1
    · rfl
    · exact ih (fun ix' hix' => h ix' (List.mem_cons_of_mem _ hix')) image1

theorem paint_block_rows_congr (root root' : ℚ → ℚ) (width height : Nat)
    (raster_image : bitmap (Option raster_point)) (ixs iys : List Nat)
    (h : ∀ iy ∈ iys, ∀ ix ∈ ixs, ∀ points, region raster_image ix iy = .ok points →
      ∀ t ∈ triangles points, ∀ vector_image x y, paint_pixel root t vector_image x y =
        paint_pixel root' t vector_image x y) :
    ∀ vector_image, paint_block_rows root width height raster_image ixs iys vector_image =
      paint_block_rows root' width height raster_image ixs iys vector_image := by
  induction iys with
  | nil => intro vector_image; rfl
  | cons iy iys ih =>
    intro vector_image
    simp only [paint_block_rows, paint_block_row_congr root root' width height raster_image iy
      ixs (h iy (List.mem_cons_self _ _))]
    rcases paint_block_row root' width height raster_image iy ixs vector_image with e | image1
    · rfl
    · exact ih (fun iy' hiy' => h iy' (List.mem_cons_of_mem _ hiy')) image1

/-- Two square roots under which every triangle of every block gives every pixel the same
contribution give the same vector image. -/
theorem interpolate_raster_congr (root root' : ℚ → ℚ) (width height : Nat)
    (raster_image : bitmap (Option raster_point)) (filter : raster_filter)
    (h : ∀ iy < pred_size_t raster_image.h, ∀ ix < pred_size_t raster_image.w,
      ∀ points, region raster_image ix iy = .ok points →
      ∀ t ∈ triangles points, ∀ vector_image x y, paint_pixel root t vector_image x y =
        paint_pixel root' t vector_image x y) :
    interpolate_raster root width height raster_image filter =
      interpolate_raster root' width height raster_image filter := by
  unfold interpolate_raster
  rw [paint_block_rows_congr root root' width height raster_image _ _
    (fun iy hiy ix hix => h iy (List.mem_range.mp hiy) ix (List.mem_range.mp hix))]

theorem to_vector_image_raster_congr (root root' : ℚ → ℚ) (width height : Nat)
    (points : List raster_point) (filter : raster_filter)
    (h : ∀ w h raster_image, (find_raster_range points).w = .ok w →
      (find_raster_range points).h = .ok h →
      fill_raster_image (find_raster_range points) points (bitmap.create w h none) =
        .ok raster_image →
      ∀ iy < pred_size_t raster_image.h, ∀ ix < pred_size_t raster_image.w,
      ∀ region_points, region raster_image ix iy = .ok region_points →
      ∀ t ∈ triangles region_points, ∀ vector_image x y,
        paint_pixel root t vector_image x y = paint_pixel root' t vector_image x y) :
    to_vector_image_raster root width height points filter =
      to_vector_image_raster root' width height points filter := by
  unfold to_vector_image_raster
  rcases hw : (find_raster_range points).w with e | w
  · rfl
  dsimp only
  by_cases c1 : w < 2
  · simp only [if_pos c1]
  simp only [if_neg c1]
  rcases hh : (find_raster_range points).h with e | h'
  · rfl
  dsimp only
  by_cases c2 : h' < 2
  · simp only [if_pos c2]
  simp only [if_neg c2]
  rcases hf : fill_raster_image (find_raster_range points) points (bitmap.create w h' none)
    with e | raster_image
  · rfl
  exact interpolate_raster_congr root root' width height raster_image filter
    (h w h' raster_image hw hh hf)

theorem clamp_double_finite (q : ℚ) :
    clamp_double (.finite q) 0 (.finite 65535) =
      .finite (if q < 0 then 0 else if 65535 < q then 65535 else q) := by
  unfold clamp_double
  rw [double_lt_finite_zero]
  by_cases h1 : q < 0
  · simp only [h1, decide_True, if_true]
    rfl
  · by_cases h2 : (65535 : ℚ) < q
    · simp [h1, h2, double.lt]
    · simp [h1, h2, double.lt]

theorem to_uint16_round (q : ℚ) (h0 : 0 ≤ q) (h1 : q ≤ 65535) :
    double.to_uint16 (double.round (.finite q)) = some ⌊q + 1 / 2⌋.toNat ∧
      ⌊q + 1 / 2⌋.toNat ≤ 65535 := by
  have hf0 : 0 ≤ ⌊q + 1 / 2⌋ := Int.floor_nonneg.mpr (by linarith)
  have hf1 : ⌊q + 1 / 2⌋ < 65536 := by
    rw [Int.floor_lt]
    push_cast
    linarith
  constructor
  · simp only [double.round, if_pos h0, double.to_uint16, truncate_intCast]
    rw [if_pos ⟨hf0, by norm_num; exact hf1⟩]
  · omega

theorem png_pixel_finite (q : ℚ) :
    png_pixel (.finite q) =
      .ok ⟨⌊(if q < 0 then 0 else if 65535 < q then 65535 else q) + 1 / 2⌋.toNat, false⟩ ∧
      ⌊(if q < 0 then 0 else if 65535 < q then 65535 else q) + 1 / 2⌋.toNat ≤ 65535 := by
  have hc0 : (0 : ℚ) ≤ if q < 0 then 0 else if 65535 < q then 65535 else q := by
    split_ifs <;> linarith
  have hc1 : (if q < 0 then 0 else if 65535 < q then 65535 else q) ≤ (65535 : ℚ) := by
    split_ifs <;> linarith
  obtain ⟨h1, h2⟩ := to_uint16_round _ hc0 hc1
  refine ⟨?_, h2⟩
  unfold png_pixel
  simp only [double.isnan, Bool.false_eq_true, if_false, clamp_double_finite, h1]

/-- C27. The lambda of `main` that makes the PNG pixel of a pixel value: NaN gives the
value 0 with the mask set; every other value `v` gives, without the mask, the integer
nearest to `v` clamped to 0..65535, a half being rounded up: 0 for a value below 0
and for minus infinity, 65535 for a value above 65535 and for infinity. The conversion
never fails, the mask is set for NaN only, and every value is at most 65535. -/
theorem C27_png_bridge :
    png_pixel .nan = .ok ⟨0, true⟩ ∧
    (∀ q : ℚ, q < 0 → png_pixel (.finite q) = .ok ⟨0, false⟩) ∧
    (∀ q : ℚ, 65535 < q → png_pixel (.finite q) = .ok ⟨65535, false⟩) ∧
    (∀ q : ℚ, 0 ≤ q → q ≤ 65535 →
      png_pixel (.finite q) = .ok ⟨⌊q + 1 / 2⌋.toNat, false⟩ ∧
      ((⌊q + 1 / 2⌋.toNat : ℚ) - 1 / 2 ≤ q ∧ q < (⌊q + 1 / 2⌋.toNat : ℚ) + 1 / 2)) ∧
    png_pixel .pos_inf = .ok ⟨65535, false⟩ ∧
    png_pixel .neg_inf = .ok ⟨0, false⟩ ∧
    (∀ v : double, ∃ p, png_pixel v = .ok p ∧ (p.m = true ↔ v = .nan) ∧ p.v ≤ 65535) := by
  refine ⟨rfl, ?_, ?_, ?_, ?_, ?_, ?_⟩
  · intro q hq
    rw [(png_pixel_finite q).1, if_pos hq]
    norm_num
  · intro q hq
    rw [(png_pixel_finite q).1, if_neg (by linarith), if_pos hq]
    have : ⌊(65535 : ℚ) + 1 / 2⌋ = 65535 := by
      rw [Int.floor_eq_iff]
      norm_num
    rw [this]
    rfl
  · intro q h0 h1
    refine ⟨?_, ?_, ?_⟩
    · rw [(png_pixel_finite q).1, if_neg (by linarith), if_neg (by linarith)]
    · have hf0 : 0 ≤ ⌊q + 1 / 2⌋ := Int.floor_nonneg.mpr (by linarith)
      have e : ((⌊q + 1 / 2⌋.toNat : ℕ) : ℚ) = (⌊q + 1 / 2⌋ : ℚ) := by
        have := Int.toNat_of_nonneg hf0
        exact_mod_cast this
      rw [e]
      have := Int.floor_le (q + 1 / 2)
      linarith
    · have hf0 : 0 ≤ ⌊q + 1 / 2⌋ := Int.floor_nonneg.mpr (by linarith)
      have e : ((⌊q + 1 / 2⌋.toNat : ℕ) : ℚ) = (⌊q + 1 / 2⌋ : ℚ) := by
        have := Int.toNat_of_nonneg hf0
        exact_mod_cast this
      rw [e]
      have := Int.lt_floor_add_one (q + 1 / 2)
      linarith
  · decide!
  · decide!
  · intro v
    cases v with
    | finite q =>
      exact ⟨_, (png_pixel_finite q).1, by simp, (png_pixel_finite q).2⟩
    | pos_inf => exact ⟨⟨65535, false⟩, by decide!, by simp, by simp⟩
    | neg_inf => exact ⟨⟨0, false⟩, by decide!, by simp, by simp⟩
    | nan => exact ⟨⟨0, true⟩, rfl, by simp, by simp⟩

/-! ## The test of the dimensions of the PNG writer -/

/-- C28 fails for the width: `writer::write` tests `image.h() > max_size` on both sides of
`||` and never looks at the width. An image is turned away, with the report
`dimensions are to large for PNG file format` when an error callable is set, exactly when
its height exceeds `2^31 - 1`; an image of width `2^31` and height 1 passes the test and
the function goes on to `png_create_write_struct`. -/
theorem C28_width_is_not_tested :
    (∀ (α : Type) (error_callable : Bool) (image : bitmap α),
      png.writer.write_start error_callable image ≠ none ↔ 2 ^ 31 - 1 < image.h) ∧
    (∀ (α : Type) (image : bitmap α), 2 ^ 31 - 1 < image.h →
      png.writer.write_start true image =
        some (some "dimensions are to large for PNG file format")) ∧
    (∀ error_callable : Bool,
      png.writer.write_start error_callable (⟨2 ^ 31, 1, []⟩ : bitmap masked_g16u) = none) := by
  refine ⟨?_, ?_, ?_⟩
  · intro α error_callable image
    unfold png.writer.write_start png.max_size
    by_cases h : image.h > 2 ^ 31 - 1
    · simp [h]
    · simp [h]
  · intro α image h
    unfold png.writer.write_start png.max_size
    rw [if_pos (Or.inl h)]
    rfl
  · intro error_callable
    unfold png.writer.write_start png.max_size
    simp

/-! ## The conversion of raster indices -/

/-- The floating branch of `raster_convert` on an integer. -/
theorem raster_convert_integer (T : ply.scalar_type) (bits : Nat) (z : Int)
    (hv : ply.float_value T bits = .finite z) :
    raster_convert T (.float bits) =
      if z < -(2 ^ 63) ∨ 2 ^ 63 < z then
        .error (.runtime_error "raster property value is out of range")
      else if z = 2 ^ 63 then
        .error (.undefined_behavior "static_cast<std::int64_t> out of range")
      else .ok z := by
  unfold raster_convert
  simp only [hv, double.floor, Int.floor_intCast, double.eq, decide_True, Bool.not_true,
    Bool.false_eq_true, if_false, double.lt, double.to_int64, truncate_intCast,
    Bool.or_eq_true, decide_eq_true_eq]
  have e1 : ((z : ℚ) < -(2 ^ 63)) ↔ z < -(2 ^ 63) := by
    constructor
    · intro h
      exact_mod_cast h
    · intro h
      exact_mod_cast h
  have e2 : ((2 : ℚ) ^ 63 < (z : ℚ)) ↔ 2 ^ 63 < z := by
    constructor
    · intro h
      exact_mod_cast h
    · intro h
      exact_mod_cast h
  simp only [e1, e2]
  by_cases h1 : z < -(2 ^ 63) ∨ 2 ^ 63 < z
  · simp only [if_pos h1]
  · simp only [if_neg h1]
    by_cases h2 : z = 2 ^ 63
    · have h3 : ¬ (-(2 ^ 63) ≤ z ∧ z < 2 ^ 63) := by omega
      simp only [if_pos h2, if_neg h3]
    · have h3 : -(2 ^ 63) ≤ z ∧ z < 2 ^ 63 := by omega
      simp only [if_neg h2, if_pos h3]

/-- The floating branch of `raster_convert` on a value that is no integer. -/
theorem raster_convert_not_integer (T : ply.scalar_type) (bits : Nat)
    (hv : ∀ z : Int, ply.float_value T bits ≠ .finite z) :
    raster_convert T (.float bits) =
        .error (.runtime_error "raster property contains at least one non-integer value") ∨
      raster_convert T (.float bits) =
        .error (.runtime_error "raster property value is out of range") := by
  rcases hq : ply.float_value T bits with q | _ | _ | _
  · left
    have hne : (q : ℚ) ≠ (⌊q⌋ : ℚ) := by
      intro h
      apply hv ⌊q⌋
      rw [hq, ← h]
    simp [raster_convert, hq, double.floor, double.eq, hne]
  · right
    simp [raster_convert, hq, double.floor, double.eq, double.lt]
  · right
    simp [raster_convert, hq, double.floor, double.eq, double.lt]
  · left
    simp [raster_convert, hq, double.floor, double.eq]

/-- C24 fails at `2^63`: `raster_convert` returns an integer of at most 32 bits as it is and
never fails for one; for a `float` or `double` other than `2^63` it returns the integer `z`
exactly when the value is `z` and `-2^63 ≤ z ≤ 2^63 - 1`, and throws a
`std::runtime_error` otherwise; but the value `2^63`, which is beyond the range, passes the
test `v > static_cast<T>(limits::max())`, whose right side is `2^63`, and reaches
`static_cast<std::int64_t>(v)`, which is undefined for it. The values `2^63` of `double`
and of `float` have the bit patterns `1086 * 2^52` and `190 * 2^23`. -/
theorem C24_two_pow_63_passes_the_range_test :
    (∀ (T : ply.scalar_type) (z : Int), raster_convert T (.int z) = .ok z) ∧
    (∀ (T : ply.scalar_type) (bits : Nat) (z : Int),
      ply.float_value T bits ≠ .finite (2 ^ 63) →
      (raster_convert T (.float bits) = .ok z ↔
        ply.float_value T bits = .finite z ∧ -(2 ^ 63) ≤ z ∧ z ≤ 2 ^ 63 - 1)) ∧
    (∀ (T : ply.scalar_type) (bits : Nat),
      ply.float_value T bits ≠ .finite (2 ^ 63) →
      (∃ z, raster_convert T (.float bits) = .ok z) ∨
        ∃ what, raster_convert T (.float bits) = .error (.runtime_error what)) ∧
    (∀ (T : ply.scalar_type) (bits : Nat),
      ply.float_value T bits = .finite (2 ^ 63) →
      raster_convert T (.float bits) =
        .error (.undefined_behavior "static_cast<std::int64_t> out of range")) ∧
    ply.float_value .float64 (1086 * 2 ^ 52) = .finite (2 ^ 63) ∧
    ply.float_value .float32 (190 * 2 ^ 23) = .finite (2 ^ 63) := by
  refine ⟨fun T z => rfl, ?_, ?_, ?_, ?_, ?_⟩
  · intro T bits z hne
    by_cases hz : ∃ y : Int, ply.float_value T bits = .finite y
    · obtain ⟨y, hy⟩ := hz
      have hy63 : y ≠ 2 ^ 63 := by
        intro h
        apply hne
        rw [hy, h]
        norm_num
      rw [raster_convert_integer T bits y hy, hy]
      by_cases h1 : y < -(2 ^ 63) ∨ 2 ^ 63 < y
      · rw [if_pos h1]
        constructor
        · intro h
          exact absurd h (by simp)
        · rintro ⟨h2, h3, h4⟩
          simp only [ply.floating.finite.injEq, Int.cast_inj] at h2
          omega
      · rw [if_neg h1, if_neg hy63]
        constructor
        · intro h
          simp only [Except.ok.injEq] at h
          subst h
          exact ⟨rfl, by omega, by omega⟩
        · rintro ⟨h2, _, _⟩
          simp only [ply.floating.finite.injEq, Int.cast_inj] at h2
          rw [h2]
    · have hz' : ∀ y : Int, ply.float_value T bits ≠ .finite y := fun y hy => hz ⟨y, hy⟩
      constructor
      · intro h
        rcases raster_convert_not_integer T bits hz' with e | e <;> rw [e] at h <;>
          exact absurd h (by simp)
      · rintro ⟨h2, _, _⟩
        exact absurd h2 (hz' z)
  · intro T bits hne
    by_cases hz : ∃ y : Int, ply.float_value T bits = .finite y
    · obtain ⟨y, hy⟩ := hz
      have hy63 : y ≠ 2 ^ 63 := by
        intro h
        apply hne
        rw [hy, h]
        norm_num
      rw [raster_convert_integer T bits y hy]
      by_cases h1 : y < -(2 ^ 63) ∨ 2 ^ 63 < y
      · rw [if_pos h1]
        exact Or.inr ⟨_, rfl⟩
      · rw [if_neg h1, if_neg hy63]
        exact Or.inl ⟨_, rfl⟩
    · have hz' : ∀ y : Int, ply.float_value T bits ≠ .finite y := fun y hy => hz ⟨y, hy⟩
      rcases raster_convert_not_integer T bits hz' with e | e <;> rw [e] <;>
        exact Or.inr ⟨_, rfl⟩
  · intro T bits h
    have h' : ply.float_value T bits = .finite ((2 ^ 63 : Int) : ℚ) := by
      rw [h]
      norm_num
    rw [raster_convert_integer T bits (2 ^ 63) h']
    rw [if_neg (by omega), if_pos rfl]
  · decide!
  · decide!

/-! ## The value count -/

theorem same_count_eq (data : ply.ply) (x_count : Nat) (element : List Char) (message : String)
    (c : Nat) (h : data.value_count_by_name element = .ok c) :
    same_count data x_count element message =
      if c = x_count then .ok () else .error (.runtime_error message) := by
  unfold same_count
  rw [h]
  by_cases hc : c = x_count
  · simp [hc]
  · have : x_count ≠ c := fun e => hc e.symm
    simp [hc, this]

theorem same_raster_count_eq (data : ply.ply) (x_count : Nat) (element : Option (List Char))
    (message : String) (cr : List Char → Nat)
    (h : ∀ e, element = some e → data.value_count_by_name e = .ok (cr e)) :
    same_raster_count data x_count element message =
      if ∀ e, element = some e → cr e = x_count then .ok ()
      else .error (.runtime_error message) := by
  cases element with
  | none => simp [same_raster_count]
  | some e =>
    simp only [same_raster_count, same_count_eq data x_count e message (cr e) (h e rfl),
      Option.some.injEq, forall_eq']

/-- C25, with the message as it is: when the elements named for x, y and the value, and for
the raster when it is used, exist with the value counts `cx`, `cy`, `cv` and `cr`, the count
check of `main` fails for the first of the y element, the value element, the x raster element
and the y raster element whose count differs from `cx`, with the message of that element,
which for the value element names `--v-element`; when all counts agree it fails with
`value count is 0` for the count 0 and returns the count otherwise. It returns a count
exactly when all counts agree and are not 0. -/
theorem C25_count_agreement (data : ply.ply) (x y v : List Char) (xr yr : Option (List Char))
    (cx cy cv : Nat) (cr : List Char → Nat)
    (hx : data.value_count_by_name x = .ok cx)
    (hy : data.value_count_by_name y = .ok cy)
    (hv : data.value_count_by_name v = .ok cv)
    (hxr : ∀ e, xr = some e → data.value_count_by_name e = .ok (cr e))
    (hyr : ∀ e, yr = some e → data.value_count_by_name e = .ok (cr e)) :
    (cy ≠ cx → checked_count data x y v xr yr =
      .error (.runtime_error "--y-element has different value count then --x-element")) ∧
    (cy = cx → cv ≠ cx → checked_count data x y v xr yr =
      .error (.runtime_error "--v-element has different value count then --x-element")) ∧
    (cy = cx → cv = cx → (∃ e, xr = some e ∧ cr e ≠ cx) →
      checked_count data x y v xr yr =
        .error (.runtime_error
          "--x-raster-element has different value count then --x-element")) ∧
    (cy = cx → cv = cx → (∀ e, xr = some e → cr e = cx) → (∃ e, yr = some e ∧ cr e ≠ cx) →
      checked_count data x y v xr yr =
        .error (.runtime_error
          "--y-raster-element has different value count then --x-element")) ∧
    (cy = cx → cv = cx → (∀ e, xr = some e → cr e = cx) → (∀ e, yr = some e → cr e = cx) →
      cx = 0 → checked_count data x y v xr yr = .error (.runtime_error "value count is 0")) ∧
    (cy = cx → cv = cx → (∀ e, xr = some e → cr e = cx) → (∀ e, yr = some e → cr e = cx) →
      cx ≠ 0 → checked_count data x y v xr yr = .ok cx) ∧
    (∀ n, checked_count data x y v xr yr = .ok n ↔
      n = cx ∧ cy = cx ∧ cv = cx ∧ (∀ e, xr = some e → cr e = cx) ∧
        (∀ e, yr = some e → cr e = cx) ∧ cx ≠ 0) := by
  have key : checked_count data x y v xr yr =
      if cy = cx then
        if cv = cx then
          if ∀ e, xr = some e → cr e = cx then
            if ∀ e, yr = some e → cr e = cx then
              if cx = 0 then .error (.runtime_error "value count is 0") else .ok cx
            else .error (.runtime_error
              "--y-raster-element has different value count then --x-element")
          else .error (.runtime_error
            "--x-raster-element has different value count then --x-element")
        else .error (.runtime_error "--v-element has different value count then --x-element")
      else .error (.runtime_error "--y-element has different value count then --x-element") := by
    unfold checked_count count
    simp only [hx, same_count_eq data cx y _ cy hy, same_count_eq data cx v _ cv hv,
      same_raster_count_eq data cx xr _ cr hxr, same_raster_count_eq data cx yr _ cr hyr]
    by_cases h1 : cy = cx
    · simp only [if_pos h1]
      by_cases h2 : cv = cx
      · simp only [if_pos h2]
        by_cases h3 : ∀ e, xr = some e → cr e = cx
        · simp only [if_pos h3]
          by_cases h4 : ∀ e, yr = some e → cr e = cx
          · simp only [if_pos h4]
          · simp only [if_neg h4]
        · simp only [if_neg h3]
      · simp only [if_neg h2]
    · simp only [if_neg h1]
  rw [key]
  refine ⟨?_, ?_, ?_, ?_, ?_, ?_, ?_⟩
  · intro h1
    rw [if_neg h1]
  · intro h1 h2
    rw [if_pos h1, if_neg h2]
  · rintro h1 h2 ⟨e, he, hne⟩
    rw [if_pos h1, if_pos h2, if_neg (fun h => hne (h e he))]
  · rintro h1 h2 h3 ⟨e, he, hne⟩
    rw [if_pos h1, if_pos h2, if_pos h3, if_neg (fun h => hne (h e he))]
  · intro h1 h2 h3 h4 h5
    rw [if_pos h1, if_pos h2, if_pos h3, if_pos h4, if_pos h5]
  · intro h1 h2 h3 h4 h5
    rw [if_pos h1, if_pos h2, if_pos h3, if_pos h4, if_neg h5]
  · intro n
    constructor
    · intro h
      by_cases h1 : cy = cx
      · rw [if_pos h1] at h
        by_cases h2 : cv = cx
        · rw [if_pos h2] at h
          by_cases h3 : ∀ e, xr = some e → cr e = cx
          · rw [if_pos h3] at h
            by_cases h4 : ∀ e, yr = some e → cr e = cx
            · rw [if_pos h4] at h
              by_cases h5 : cx = 0
              · rw [if_pos h5] at h
                exact absurd h (by simp)
              · rw [if_neg h5] at h
                simp only [Except.ok.injEq] at h
                exact ⟨h.symm, h1, h2, h3, h4, h5⟩
            · rw [if_neg h4] at h
              exact absurd h (by simp)
          · rw [if_neg h3] at h
            exact absurd h (by simp)
        · rw [if_neg h2] at h
          exact absurd h (by simp)
      · rw [if_neg h1] at h
        exact absurd h (by simp)
    · rintro ⟨rfl, h1, h2, h3, h4, h5⟩
      rw [if_pos h1, if_pos h2, if_pos h3, if_pos h4, if_neg h5]

/-- C25 for a file with the elements `vertex` of 3 values and `face` of 2: with `vertex`
for x, y and the value the check returns 3. -/
theorem C25_count_agreement_witness :
    checked_count ⟨[], [⟨"vertex".toList, 3, []⟩, ⟨"face".toList, 2, []⟩], .ascii⟩
      "vertex".toList "vertex".toList "vertex".toList none none = .ok 3 :=
  (C25_count_agreement ⟨[], [⟨"vertex".toList, 3, []⟩, ⟨"face".toList, 2, []⟩], .ascii⟩
    "vertex".toList "vertex".toList "vertex".toList none none 3 3 3 (fun _ => 3)
    (by decide) (by decide) (by decide) (by simp) (by simp)).2.2.2.2.2.1 rfl rfl (by simp)
    (by simp) (by decide)

/-- C25 as stated fails for the value element: for a file with the elements `vertex` of 3
values and `face` of 2, with `vertex` for x and y and `face` for the value, the message of
the check is `--v-element has different value count then --x-element`, which does not
name the option `--value-element`. -/
theorem C25_value_element_counterexample :
    checked_count ⟨[], [⟨"vertex".toList, 3, []⟩, ⟨"face".toList, 2, []⟩], .ascii⟩
        "vertex".toList "vertex".toList "face".toList none none =
      .error (.runtime_error "--v-element has different value count then --x-element") ∧
    ¬ "--value-element".toList <:+:
      "--v-element has different value count then --x-element".toList := by
  constructor
  · decide
  · decide

/-! ## The raster filter -/

theorem double_lt_trans (a b c : double) (h1 : double.lt a b = true)
    (h2 : double.lt b c = true) : double.lt a c = true := by
  cases a <;> cases b <;> cases c <;> simp_all [double.lt]
  exact lt_trans h1 h2

theorem double_lt_of_not_lt (m b v : double) (hv : double.isnan v = false)
    (h1 : double.lt m b = true) (h2 : double.lt v b = false) : double.lt m v = true := by
  cases m <;> cases b <;> cases v <;> simp_all [double.lt, double.isnan]
  exact lt_of_lt_of_le h1 h2

theorem double_lt_of_not_lt_right (m b v : double) (hv : double.isnan v = false)
    (h1 : double.lt b m = true) (h2 : double.lt b v = false) : double.lt v m = true := by
  cases m <;> cases b <;> cases v <;> simp_all [double.lt, double.isnan]
  exact lt_of_le_of_lt h2 h1

theorem double_le_of_not_lt (a b : double) (ha : double.isnan a = false)
    (hb : double.isnan b = false) (h : double.lt b a = false) : double_le a b = true := by
  cases a <;> cases b <;> simp_all [double.lt, double.isnan, double_le, double.eq]
  exact le_iff_lt_or_eq.mp h

theorem double_not_le_of_lt (a b : double) (h : double.lt a b = true) :
    double_le b a = false := by
  cases a <;> cases b <;> simp_all [double.lt, double_le, double.eq]
  exact ⟨le_of_lt h, fun e => absurd (e ▸ h) (lt_irrefl _)⟩

/-- The relation under which `select_element` replaces the best contribution so far. -/
theorem select_element_cons (largest : Bool) (best v : raster_raw_pixel)
    (vs : List raster_raw_pixel) :
    select_element largest best (v :: vs) =
      select_element largest
        (if (if largest then double.lt best.value v.value else double.lt v.value best.value)
          then v else best) vs := by
  cases largest <;> simp [select_element]

/-- The contribution that `select_element` returns stands in the list behind contributions
that are strictly worse and before contributions that are not better, when no value is
NaN. -/
theorem select_element_split (largest : Bool) (vs : List raster_raw_pixel) :
    ∀ best : raster_raw_pixel, (∀ c ∈ best :: vs, double.isnan c.value = false) →
      ∃ as bs, best :: vs = as ++ select_element largest best vs :: bs ∧
        (∀ a ∈ as, (if largest then double.lt a.value (select_element largest best vs).value
          else double.lt (select_element largest best vs).value a.value) = true) ∧
        (∀ c ∈ bs, (if largest then double.lt (select_element largest best vs).value c.value
          else double.lt c.value (select_element largest best vs).value) = false) := by
  induction vs with
  | nil =>
    intro best _
    exact ⟨[], [], by cases largest <;> rfl, by simp, by simp⟩
  | cons v vs ih =>
    intro best hnan
    rw [select_element_cons]
    by_cases hr : (if largest then double.lt best.value v.value
      else double.lt v.value best.value) = true
    · rw [if_pos hr]
      obtain ⟨as, bs, e, h1, h2⟩ := ih v (fun c hc => hnan c (List.mem_cons_of_mem _ hc))
      refine ⟨best :: as, bs, by rw [List.cons_append, ← e], ?_, h2⟩
      intro a ha
      rcases List.mem_cons.mp ha with rfl | ha
      · rcases as with _ | ⟨a0, as⟩
        · simp only [List.nil_append, List.cons.injEq] at e
          rw [← e.1]
          exact hr
        · simp only [List.cons_append, List.cons.injEq] at e
          have := h1 a0 (List.mem_cons_self _ _)
          rw [← e.1] at this
          cases largest
          · simp only [Bool.false_eq_true, if_false] at this hr ⊢
            exact double_lt_trans _ _ _ this hr
          · simp only [if_true] at this hr ⊢
            exact double_lt_trans _ _ _ hr this
      · exact h1 a ha
    · rw [if_neg hr]
      simp only [Bool.not_eq_true] at hr
      obtain ⟨as, bs, e, h1, h2⟩ := ih best (fun c hc => by
        rcases List.mem_cons.mp hc with rfl | hc
        · exact hnan _ (List.mem_cons_self _ _)
        · exact hnan c (List.mem_cons_of_mem _ (List.mem_cons_of_mem _ hc)))
      have hv : double.isnan v.value = false :=
        hnan v (List.mem_cons_of_mem _ (List.mem_cons_self _ _))
      rcases as with _ | ⟨a0, as⟩
      · simp only [List.nil_append, List.cons.injEq] at e
        refine ⟨[], v :: bs, ?_, by simp, ?_⟩
        · simp only [List.nil_append]
          rw [← e.1, ← e.2]
        · intro c hc
          rcases List.mem_cons.mp hc with rfl | hc
          · rw [← e.1]
            exact hr
          · exact h2 c hc
      · simp only [List.cons_append, List.cons.injEq] at e
        refine ⟨a0 :: v :: as, bs, ?_, ?_, h2⟩
        · simp only [List.cons_append]
          rw [← e.1, ← e.2]
        · intro a ha
          rcases List.mem_cons.mp ha with rfl | ha
          · exact h1 a (List.mem_cons_self _ _)
          · rcases List.mem_cons.mp ha with rfl | ha
            · have h0 := h1 a0 (List.mem_cons_self _ _)
              rw [← e.1] at h0
              cases largest
              · simp only [Bool.false_eq_true, if_false] at h0 hr ⊢
                exact double_lt_of_not_lt _ _ _ hv h0 hr
              · simp only [if_true] at h0 hr ⊢
                exact double_lt_of_not_lt_right _ _ _ hv h0 hr
            · exact h1 a (List.mem_cons_of_mem _ ha)

/-- The reference of the filter is the first contribution with the smallest, or largest,
value when no value is NaN. -/
theorem first_extreme_eq (largest : Bool) (v : raster_raw_pixel) (vs : List raster_raw_pixel)
    (hnan : ∀ c ∈ v :: vs, double.isnan c.value = false) :
    first_extreme largest (v :: vs) = some (select_element largest v vs) := by
  obtain ⟨as, bs, e, h1, h2⟩ := select_element_split largest vs v hnan
  have hm : select_element largest v vs ∈ v :: vs := by
    rw [e]
    simp
  unfold first_extreme
  rw [List.find?_eq_some]
  refine ⟨?_, as, bs, e, ?_⟩
  · rw [List.all_eq_true]
    intro c hc
    have hc' := hc
    rw [e] at hc'
    have hcn := hnan c hc
    have hmn := hnan _ hm
    rcases List.mem_append.mp hc' with hc1 | hc1
    · have := h1 c hc1
      cases largest
      · simp only [Bool.false_eq_true, if_false] at this ⊢
        exact double_le_of_not_lt _ _ hmn hcn (by
          cases hx : double.lt c.value (select_element false v vs).value
          · rfl
          · have := double_lt_trans _ _ _ hx this
            cases hy : c.value <;> simp_all [double.lt])
      · simp only [if_true] at this ⊢
        exact double_le_of_not_lt _ _ hcn hmn (by
          cases hx : double.lt (select_element true v vs).value c.value
          · rfl
          · have := double_lt_trans _ _ _ hx this
            cases hy : (select_element true v vs).value <;> simp_all [double.lt])
    · rcases List.mem_cons.mp hc1 with rfl | hc2
      · cases largest
        · simp only [Bool.false_eq_true, if_false]
          exact double_le_of_not_lt _ _ hmn hmn (by
            cases hy : (select_element false v vs).value <;> simp [double.lt])
        · simp only [if_true]
          exact double_le_of_not_lt _ _ hmn hmn (by
            cases hy : (select_element true v vs).value <;> simp [double.lt])
      · have := h2 c hc2
        cases largest
        · simp only [Bool.false_eq_true, if_false] at this ⊢
          exact double_le_of_not_lt _ _ hmn hcn this
        · simp only [if_true] at this ⊢
          exact double_le_of_not_lt _ _ hcn hmn this
  · intro a ha
    have := h1 a ha
    simp only [Bool.not_eq_true', List.all_eq_false]
    simp only [Bool.not_eq_true]
    refine ⟨select_element largest v vs, hm, ?_⟩
    cases largest
    · simp only [Bool.false_eq_true, if_false] at this ⊢
      exact double_not_le_of_lt _ _ this
    · simp only [if_true] at this ⊢
      exact double_not_le_of_lt _ _ this

theorem out_of_reach_eq (ref c : raster_raw_pixel)
    (hx : |ref.rx - c.rx| ≤ int64_max) (hy : |ref.ry - c.ry| ≤ int64_max) :
    out_of_reach ref.rx ref.ry c = .ok (!near ref c) := by
  unfold int64_max at hx hy
  have ax := abs_le.mp hx
  have ay := abs_le.mp hy
  have a0 := abs_nonneg (ref.rx - c.rx)
  have b0 := abs_nonneg (ref.ry - c.ry)
  have c1 : int64_min ≤ ref.rx - c.rx ∧ ref.rx - c.rx ≤ int64_max := by
    unfold int64_min int64_max
    omega
  have c2 : int64_min ≤ |ref.rx - c.rx| ∧ |ref.rx - c.rx| ≤ int64_max := by
    unfold int64_min int64_max
    omega
  have c3 : int64_min ≤ ref.ry - c.ry ∧ ref.ry - c.ry ≤ int64_max := by
    unfold int64_min int64_max
    omega
  have c4 : int64_min ≤ |ref.ry - c.ry| ∧ |ref.ry - c.ry| ≤ int64_max := by
    unfold int64_min int64_max
    omega
  simp only [out_of_reach, int64, if_pos c1, if_pos c2, if_pos c3, if_pos c4, near]
  rw [abs_sub_comm c.rx ref.rx, abs_sub_comm c.ry ref.ry]
  by_cases h1 : |ref.rx - c.rx| > 1
  · rw [if_pos h1]
    have : ¬ (|ref.rx - c.rx| ≤ 1 ∧ |ref.ry - c.ry| ≤ 1) := fun h => by omega
    simp [this]
  · rw [if_neg h1]
    by_cases h2 : |ref.ry - c.ry| > 1
    · have : ¬ (|ref.rx - c.rx| ≤ 1 ∧ |ref.ry - c.ry| ≤ 1) := fun h => by omega
      simp [this, h2]
    · have : |ref.rx - c.rx| ≤ 1 ∧ |ref.ry - c.ry| ≤ 1 := ⟨by omega, by omega⟩
      simp [this, h2]

theorem erase_out_of_reach_eq (ref : raster_raw_pixel) (p : List raster_raw_pixel)
    (h : ∀ c ∈ p, |ref.rx - c.rx| ≤ int64_max ∧ |ref.ry - c.ry| ≤ int64_max) :
    erase_out_of_reach ref.rx ref.ry p = .ok (p.filter (near ref)) := by
  induction p with
  | nil => rfl
  | cons c p ih =>
    rw [erase_out_of_reach, out_of_reach_eq ref c (h c (List.mem_cons_self _ _)).1
      (h c (List.mem_cons_self _ _)).2]
    simp only [ih (fun d hd => h d (List.mem_cons_of_mem _ hd))]
    cases hn : near ref c
    · simp [List.filter_cons, hn]
    · simp [List.filter_cons, hn]

/-- C21, with the conditions it needs: for a pixel list that is not empty, has no NaN value
and has raster coordinates that differ by less than `2^63`, the list has a first
contribution `ref` with the smallest value (`largest = false`, the filter `min`) or the
largest value (`largest = true`, the filter `max`), and the filter leaves exactly the
contributions within one raster step of `ref` in each axis, in their order. -/
theorem C21_filter_locality (largest : Bool) (p : List raster_raw_pixel) (hne : p ≠ [])
    (hnan : ∀ c ∈ p, double.isnan c.value = false)
    (hrange : ∀ c ∈ p, ∀ d ∈ p, |c.rx - d.rx| ≤ int64_max ∧ |c.ry - d.ry| ≤ int64_max) :
    ∃ ref, first_extreme largest p = some ref ∧
      filter_pixel largest p = .ok (p.filter (near ref)) ∧
      (∀ c ∈ p, c ∈ p.filter (near ref) ↔ |c.rx - ref.rx| ≤ 1 ∧ |c.ry - ref.ry| ≤ 1) := by
  rcases p with _ | ⟨v, vs⟩
  · exact absurd rfl hne
  · obtain ⟨as, bs, e, -, -⟩ := select_element_split largest vs v hnan
    have hm : select_element largest v vs ∈ v :: vs := by
      rw [e]
      simp
    refine ⟨select_element largest v vs, first_extreme_eq largest v vs hnan, ?_, ?_⟩
    · rw [filter_pixel]
      exact erase_out_of_reach_eq _ _ (fun c hc => hrange _ hm c hc)
    · intro c hc
      simp [List.mem_filter, hc, near]

/-- C21 for the contributions with the values 5, 3, 3 and 4 at the raster places `(0, 0)`,
`(1, 1)`, `(5, 5)` and `(2, 1)`: under `min` the reference is the second, and the second and
the fourth are left. -/
theorem C21_filter_locality_witness :
    ∃ ref, first_extreme false
        [⟨.finite 1, .finite 5, 0, 0⟩, ⟨.finite 1, .finite 3, 1, 1⟩, ⟨.finite 1, .finite 3, 5, 5⟩,
          ⟨.finite 1, .finite 4, 2, 1⟩] = some ref ∧
      filter_pixel false
        [⟨.finite 1, .finite 5, 0, 0⟩, ⟨.finite 1, .finite 3, 1, 1⟩, ⟨.finite 1, .finite 3, 5, 5⟩,
          ⟨.finite 1, .finite 4, 2, 1⟩] =
        .ok (List.filter (near ref)
          [⟨.finite 1, .finite 5, 0, 0⟩, ⟨.finite 1, .finite 3, 1, 1⟩,
            ⟨.finite 1, .finite 3, 5, 5⟩, ⟨.finite 1, .finite 4, 2, 1⟩]) ∧
      (∀ c ∈ ([⟨.finite 1, .finite 5, 0, 0⟩, ⟨.finite 1, .finite 3, 1, 1⟩,
            ⟨.finite 1, .finite 3, 5, 5⟩, ⟨.finite 1, .finite 4, 2, 1⟩] : List raster_raw_pixel),
        c ∈ List.filter (near ref)
          [⟨.finite 1, .finite 5, 0, 0⟩, ⟨.finite 1, .finite 3, 1, 1⟩,
            ⟨.finite 1, .finite 3, 5, 5⟩, ⟨.finite 1, .finite 4, 2, 1⟩] ↔
          |c.rx - ref.rx| ≤ 1 ∧ |c.ry - ref.ry| ≤ 1) :=
  C21_filter_locality false _ (by simp) (by decide!) (by decide!)

/-- C21 as stated fails for a list with a NaN value: of the two contributions with the
values NaN at the raster place `(0, 0)` and 1 at `(5, 0)`, no one has a value that is at
most the value of both, so that the list has no first contribution with the smallest
value; `std::ranges::min_element` returns the NaN contribution, because `1 < NaN` is
false, and the filter `min` erases the contribution with the value 1, the only number,
which is 5 raster steps away. -/
theorem C21_nan_value_counterexample :
    first_extreme false [⟨.finite 1, .nan, 0, 0⟩, ⟨.finite 1, .finite 1, 5, 0⟩] = none ∧
    select_element false ⟨.finite 1, .nan, 0, 0⟩ [⟨.finite 1, .finite 1, 5, 0⟩] =
      ⟨.finite 1, .nan, 0, 0⟩ ∧
    filter_pixel false [⟨.finite 1, .nan, 0, 0⟩, ⟨.finite 1, .finite 1, 5, 0⟩] =
      .ok [⟨.finite 1, .nan, 0, 0⟩] ∧
    near ⟨.finite 1, .finite 1, 5, 0⟩ ⟨.finite 1, .nan, 0, 0⟩ = false := by
  refine ⟨by decide!, by decide!, by decide!, by decide!⟩

/-! ## The choice of the mode -/

theorem findIdx_le_length_of {α} (p : α → Bool) (l : List α) : l.findIdx p ≤ l.length :=
  List.findIdx_le_length p

/-- The column of a property that the file does not contain cannot be taken: the call
`data.values(element, property)` throws that there is no such element, or no such property
in the first element of the name. -/
theorem values_by_name_absent (data : ply.ply) (element property : List Char)
    (h : data.contains_property element property = false) :
    data.values_by_name element property =
        .error (.runtime_error (String.mk ("PLY contains no element ".toList ++
          ply.quoted element))) ∨
      ∃ e, data.elements_[data.find_element element]? = some e ∧
        data.values_by_name element property =
          .error (.runtime_error (String.mk ("PLY element ".toList ++ ply.quoted e.name_ ++
            " contains no property ".toList ++ ply.quoted property))) := by
  unfold ply.ply.contains_property at h
  rcases he : data.elements_[data.find_element element]? with _ | e
  · left
    have hlen : data.find_element element = data.elements_.length := by
      have h1 := List.getElem?_eq_none_iff.mp he
      have h2 : data.find_element element ≤ data.elements_.length :=
        findIdx_le_length_of _ _
      omega
    simp only [ply.ply.values_by_name, ply.ply.element_index, if_pos hlen]
  · right
    refine ⟨e, rfl, ?_⟩
    rw [he] at h
    simp only [ply.element.contains, bne_eq_false_iff_eq, beq_iff_eq] at h
    have hlt : data.find_element element ≠ data.elements_.length := by
      intro hc
      rw [hc] at he
      simp at he
    simp only [ply.ply.values_by_name, ply.ply.element_index, if_neg hlt, ply.ply.property_index,
      he, ply.element.property_index, if_pos h]

theorem convert_error {Point : Type} (data : ply.ply)
    (setter : ply.scalar_type → Point → ply.value → Except failure Point)
    (element property : List Char) (points : List Point) (err : ply.failure)
    (h : data.values_by_name element property = .error err) :
    convert data setter element property points = .error (failure.of_ply err) := by
  unfold convert
  rw [h]

/-- The raster coordinates cannot be set when one of the two raster properties is not in
the file. -/
theorem convert_raster_absent (data : ply.ply)
    (xr_element xr_property yr_element yr_property : List Char) (points : List raster_point)
    (h : data.contains_property xr_element xr_property = false ∨
      data.contains_property yr_element yr_property = false) :
    ∃ e, convert_raster data xr_element xr_property yr_element yr_property points = .error e := by
  unfold convert_raster
  split
  · exact ⟨_, rfl⟩
  · rename_i points_rx hx
    rcases h with h | h
    · rcases values_by_name_absent data _ _ h with e1 | ⟨_, _, e1⟩ <;>
        rw [convert_error data _ _ _ _ _ e1] at hx <;> exact absurd hx (by simp)
    · rcases values_by_name_absent data _ _ h with e1 | ⟨_, _, e1⟩ <;>
        exact ⟨_, convert_error data _ _ _ _ _ e1⟩

theorem image_convert_raster_absent (root : ℚ → ℚ) (data : ply.ply) (a : arguments)
    (xr_element xr_property yr_element yr_property : List Char) (count : Nat)
    (h : data.contains_property xr_element xr_property = false ∨
      data.contains_property yr_element yr_property = false) :
    ∃ e, image_convert_raster root data a xr_element xr_property yr_element yr_property count =
      .error e := by
  unfold image_convert_raster
  split
  · exact ⟨_, rfl⟩
  split
  · exact ⟨_, rfl⟩
  split
  · exact ⟨_, rfl⟩
  rename_i points_v _
  obtain ⟨e, he⟩ := convert_raster_absent data xr_element xr_property yr_element yr_property
    points_v h
  exact ⟨e, by simp only [he]⟩

/-- The raster names of a run in which the raster is not disabled. -/
theorem selected_raster_enabled (data : ply.ply) (a : arguments)
    (hd : a.disable_raster = false) :
    selected_raster data a =
      if explicit_raster a = true ∨
          (data.contains_property a.x_raster_element a.x_raster_property = true ∧
            data.contains_property a.y_raster_element a.y_raster_property = true) then
        .ok (⟨some a.x_raster_element, some a.x_raster_property, some a.y_raster_element,
          some a.y_raster_property⟩, false)
      else .ok (⟨none, none, none, none⟩, true) := by
  simp only [selected_raster, get_raster, hd, Bool.false_eq_true, if_false, raster_selection]
  by_cases h1 : explicit_raster a = true
  · simp only [h1, if_true, true_or]
  · simp only [h1, Bool.false_eq_true, if_false, false_or]
    by_cases h2 : data.contains_property a.x_raster_element a.x_raster_property = true
    · by_cases h3 : data.contains_property a.y_raster_element a.y_raster_property = true
      · simp only [h2, h3, if_true, and_self]
      · simp only [h2, h3, if_true, Bool.false_eq_true, if_false, and_false]
    · simp only [h2, Bool.false_eq_true, if_false, false_and]

/-- The loop that fills the raster image, over points whose places are inside the image,
free and distinct: the places of these points are taken afterwards. -/
theorem fill_raster_image_front (range : raster_range) (W H : Nat)
    (pre tail : List raster_point) :
    ∀ (g : Nat → Nat → Option raster_point),
      (∀ p ∈ pre, ∃ x y, range.x p.rx = .ok x ∧ range.y p.ry = .ok y ∧ x < W ∧ y < H ∧
        g x y = none ∧ (x : Int) = p.rx - range.min_x ∧ (y : Int) = p.ry - range.min_y) →
      (pre.map cell).Nodup →
      ∃ g', fill_raster_image range (pre ++ tail) ⟨W, H, cells W H g⟩ =
          fill_raster_image range tail ⟨W, H, cells W H g'⟩ ∧
        (∀ x y, (g x y).isSome = true → (g' x y).isSome = true) ∧
        (∀ p ∈ pre, ∀ x y : Nat, (x : Int) = p.rx - range.min_x →
          (y : Int) = p.ry - range.min_y → (g' x y).isSome = true) := by
  induction pre with
  | nil =>
    intro g _ _
    exact ⟨g, rfl, fun _ _ h => h, by simp⟩
  | cons p pre ih =>
    intro g hg hnd
    obtain ⟨x, y, hx, hy, hxW, hyH, hfree, ex, ey⟩ := hg p (by simp)
    simp only [List.map_cons, List.nodup_cons, List.mem_map, not_exists, not_and] at hnd
    obtain ⟨g', e, h1, h2⟩ := ih (fun a b => if a = x ∧ b = y then some p else g a b)
      (by
        intro q hq
        obtain ⟨x2, y2, hx2, hy2, hxW2, hyH2, hfree2, ex2, ey2⟩ := hg q (by simp [hq])
        refine ⟨x2, y2, hx2, hy2, hxW2, hyH2, ?_, ex2, ey2⟩
        have hne : ¬ (x2 = x ∧ y2 = y) := by
          rintro ⟨rfl, rfl⟩
          apply hnd.1 q hq
          have e1 : q.rx = p.rx := by omega
          have e2 : q.ry = p.ry := by omega
          simp only [cell, e1, e2]
        show (if x2 = x ∧ y2 = y then some p else g x2 y2) = none
        rw [if_neg hne]
        exact hfree2)
      hnd.2
    refine ⟨g', ?_, ?_, ?_⟩
    · rw [List.cons_append, fill_raster_image_cons range W H g p _ x y hx hy hxW hyH hfree]
      exact e
    · intro a b hab
      apply h1
      by_cases c : a = x ∧ b = y
      · rw [if_pos c]
        rfl
      · rw [if_neg c]
        exact hab
    · intro q hq a b ea eb
      rcases List.mem_cons.mp hq with rfl | hq
      · apply h1
        have c : a = x ∧ b = y := ⟨by omega, by omega⟩
        rw [if_pos c]
        rfl
      · exact h2 q hq a b ea eb

/-- One round of the loop that fills the raster image, for a point whose place is taken. -/
theorem fill_raster_image_taken (range : raster_range) (W H : Nat)
    (g : Nat → Nat → Option raster_point) (p : raster_point) (points : List raster_point)
    (x y : Nat) (hx : range.x p.rx = .ok x) (hy : range.y p.ry = .ok y) (hxW : x < W)
    (hyH : y < H) (htaken : (g x y).isSome = true) :
    fill_raster_image range (p :: points) ⟨W, H, cells W H g⟩ =
      .error (.runtime_error
        ("raster point " ++ format_d p.rx ++ "x" ++ format_d p.ry ++ " exists twice")) := by
  obtain ⟨q, hq⟩ := Option.isSome_iff_exists.mp htaken
  rw [fill_raster_image]
  simp only [hx, hy, get?_cells, if_pos (And.intro hxW hyH), hq]

/-- C22, with the conditions it needs: when the raster of the points has at least 2 columns
and 2 rows, its extents being computed without overflow, and a point `p` has the raster
cell of a point before it, the points before `p` having distinct cells, the raster
`to_vector_image` throws `raster point axb exists twice` with the cell `(a, b)` of `p`,
whatever follows `p`. -/
theorem C22_raster_duplicate (root : ℚ → ℚ) (width height : Nat)
    (pre : List raster_point) (p : raster_point) (rest : List raster_point)
    (filter : raster_filter) (w h : Nat)
    (hw : (find_raster_range (pre ++ p :: rest)).w = .ok w) (hw2 : 2 ≤ w)
    (hh : (find_raster_range (pre ++ p :: rest)).h = .ok h) (hh2 : 2 ≤ h)
    (hnd : (pre.map cell).Nodup) (hdup : cell p ∈ pre.map cell) :
    to_vector_image_raster root width height (pre ++ p :: rest) filter =
      .error (.runtime_error
        ("raster point " ++ format_d p.rx ++ "x" ++ format_d p.ry ++ " exists twice")) := by
  have hplace : ∀ q ∈ pre ++ p :: rest, ∃ x y,
      (find_raster_range (pre ++ p :: rest)).x q.rx = .ok x ∧
      (find_raster_range (pre ++ p :: rest)).y q.ry = .ok y ∧ x < w ∧ y < h ∧
      (x : Int) = q.rx - (find_raster_range (pre ++ p :: rest)).min_x ∧
      (y : Int) = q.ry - (find_raster_range (pre ++ p :: rest)).min_y := by
    intro q hq
    obtain ⟨b1, b2, b3, b4⟩ := find_raster_range_bounds _ q hq
    obtain ⟨x, hx, hxW, ex⟩ := offset_lt_extent _ _ _ w b1 b2 hw
    obtain ⟨y, hy, hyH, ey⟩ := offset_lt_extent _ _ _ h b3 b4 hh
    exact ⟨x, y, hx, hy, hxW, hyH, ex, ey⟩
  obtain ⟨g', e, -, h2⟩ := fill_raster_image_front (find_raster_range (pre ++ p :: rest)) w h
    pre (p :: rest) (fun _ _ => none)
    (by
      intro q hq
      obtain ⟨x, y, hx, hy, hxW, hyH, ex, ey⟩ := hplace q (by simp [hq])
      exact ⟨x, y, hx, hy, hxW, hyH, rfl, ex, ey⟩)
    hnd
  obtain ⟨x, y, hx, hy, hxW, hyH, ex, ey⟩ := hplace p (by simp)
  obtain ⟨q, hq, hc⟩ := List.mem_map.mp hdup
  simp only [cell, Prod.mk.injEq] at hc
  have htaken : (g' x y).isSome = true :=
    h2 q hq x y (by rw [hc.1]; exact ex) (by rw [hc.2]; exact ey)
  unfold to_vector_image_raster
  rw [hw]
  simp only
  rw [if_neg (by omega), hh]
  simp only
  rw [if_neg (by omega), create_cells, e,
    fill_raster_image_taken _ w h g' p rest x y hx hy hxW hyH htaken]

/-- C22 for the points with the raster cells `(3, 7)`, `(4, 8)` and `(3, 7)`: the message is
`raster point 3x7 exists twice`. -/
theorem C22_raster_duplicate_witness :
    to_vector_image_raster (fun q => q) 4 4
        ([⟨.finite 0, .finite 0, .finite 1, 3, 7⟩, ⟨.finite 1, .finite 1, .finite 2, 4, 8⟩] ++
          ⟨.finite 0, .finite 0, .finite 3, 3, 7⟩ :: []) .none =
      .error (.runtime_error "raster point 3x7 exists twice") :=
  (C22_raster_duplicate (fun q => q) 4 4
    [⟨.finite 0, .finite 0, .finite 1, 3, 7⟩, ⟨.finite 1, .finite 1, .finite 2, 4, 8⟩]
    ⟨.finite 0, .finite 0, .finite 3, 3, 7⟩ [] .none 2 2 (by decide!) (by decide)
    (by decide!) (by decide) (by decide!) (by decide!)).trans (by decide)

/-- C22 as stated fails when the two points are all there is: two points in the raster
cell `(3, 7)` span one column and one row, and the raster `to_vector_image` throws
`raster interpolation requires at least 2 columns and 2 rows` before it fills the raster
image. -/
theorem C22_single_cell_counterexample :
    (∀ (root : ℚ → ℚ) (width height : Nat) (filter : raster_filter),
      to_vector_image_raster root width height
        [⟨.finite 0, .finite 0, .finite 1, 3, 7⟩, ⟨.finite 1, .finite 1, .finite 2, 3, 7⟩]
        filter =
      .error (.runtime_error "raster interpolation requires at least 2 columns and 2 rows")) ∧
    "raster interpolation requires at least 2 columns and 2 rows" ≠
      "raster point " ++ format_d 3 ++ "x" ++ format_d 7 ++ " exists twice" := by
  constructor
  · intro root width height filter
    have hw : (find_raster_range
        [⟨.finite 0, .finite 0, .finite 1, 3, 7⟩, ⟨.finite 1, .finite 1, .finite 2, 3, 7⟩]).w =
        .ok 1 := by decide!
    unfold to_vector_image_raster
    rw [hw]
    rfl
  · decide

/-! ## The size of the raster -/

/-- Each bound of the range of a fold is the bound it started with or a coordinate of a
point. -/
theorem foldl_range_attained (points : List raster_point) :
    ∀ (r0 : raster_range),
      let r := points.foldl (fun range p => (⟨min range.min_x p.rx, max range.max_x p.rx,
        min range.min_y p.ry, max range.max_y p.ry⟩ : raster_range)) r0
      (r.min_x = r0.min_x ∨ ∃ p ∈ points, r.min_x = p.rx) ∧
      (r.max_x = r0.max_x ∨ ∃ p ∈ points, r.max_x = p.rx) ∧
      (r.min_y = r0.min_y ∨ ∃ p ∈ points, r.min_y = p.ry) ∧
      (r.max_y = r0.max_y ∨ ∃ p ∈ points, r.max_y = p.ry) := by
  induction points with
  | nil =>
    intro r0
    simp
  | cons q points ih =>
    intro r0
    simp only [List.foldl_cons, List.mem_cons, exists_eq_or_imp]
    obtain ⟨h1, h2, h3, h4⟩ := ih ⟨min r0.min_x q.rx, max r0.max_x q.rx,
      min r0.min_y q.ry, max r0.max_y q.ry⟩
    simp only at h1 h2 h3 h4
    refine ⟨?_, ?_, ?_, ?_⟩
    · rcases h1 with h | h
      · rcases min_choice r0.min_x q.rx with c | c
        · exact Or.inl (h.trans c)
        · exact Or.inr (Or.inl (h.trans c))
      · exact Or.inr (Or.inr h)
    · rcases h2 with h | h
      · rcases max_choice r0.max_x q.rx with c | c
        · exact Or.inl (h.trans c)
        · exact Or.inr (Or.inl (h.trans c))
      · exact Or.inr (Or.inr h)
    · rcases h3 with h | h
      · rcases min_choice r0.min_y q.ry with c | c
        · exact Or.inl (h.trans c)
        · exact Or.inr (Or.inl (h.trans c))
      · exact Or.inr (Or.inr h)
    · rcases h4 with h | h
      · rcases max_choice r0.max_y q.ry with c | c
        · exact Or.inl (h.trans c)
        · exact Or.inr (Or.inl (h.trans c))
      · exact Or.inr (Or.inr h)

/-- The bounds that `find_raster_range` returns for points of `std::int64_t` coordinates,
of which there is one at least, are coordinates of points. -/
theorem find_raster_range_attained (points : List raster_point) (hne : points ≠ [])
    (hint : ∀ p ∈ points, int64_min ≤ p.rx ∧ p.rx ≤ int64_max ∧
      int64_min ≤ p.ry ∧ p.ry ≤ int64_max) :
    (∃ p ∈ points, (find_raster_range points).min_x = p.rx) ∧
    (∃ p ∈ points, (find_raster_range points).max_x = p.rx) ∧
    (∃ p ∈ points, (find_raster_range points).min_y = p.ry) ∧
    (∃ p ∈ points, (find_raster_range points).max_y = p.ry) := by
  obtain ⟨p0, hp0⟩ := List.exists_mem_of_ne_nil points hne
  obtain ⟨b1, b2, b3, b4⟩ := find_raster_range_bounds points p0 hp0
  obtain ⟨i1, i2, i3, i4⟩ := hint p0 hp0
  obtain ⟨h1, h2, h3, h4⟩ := foldl_range_attained points ⟨int64_max, int64_min, int64_max,
    int64_min⟩
  simp only at h1 h2 h3 h4
  refine ⟨?_, ?_, ?_, ?_⟩
  · rcases h1 with h | h
    · exact ⟨p0, hp0, le_antisymm b1 (by
        have : (find_raster_range points).min_x = int64_max := h
        rw [this]
        exact i2)⟩
    · exact h
  · rcases h2 with h | h
    · exact ⟨p0, hp0, le_antisymm (by
        have : (find_raster_range points).max_x = int64_min := h
        rw [this]
        exact i1) b2⟩
    · exact h
  · rcases h3 with h | h
    · exact ⟨p0, hp0, le_antisymm b3 (by
        have : (find_raster_range points).min_y = int64_max := h
        rw [this]
        exact i4)⟩
    · exact h
  · rcases h4 with h | h
    · exact ⟨p0, hp0, le_antisymm (by
        have : (find_raster_range points).max_y = int64_min := h
        rw [this]
        exact i3) b4⟩
    · exact h

/-- An extent that is computed without overflow is the number of integers between the
bounds. -/
theorem extent_eq (lo hi : Int) (n : Nat) (h : lo ≤ hi) (hn : extent hi lo = .ok n) :
    (n : Int) = hi - lo + 1 := by
  by_cases c1 : int64_min ≤ hi + 1 ∧ hi + 1 ≤ int64_max
  · by_cases c2 : int64_min ≤ hi + 1 - lo ∧ hi + 1 - lo ≤ int64_max
    · simp only [extent, int64, if_pos c1, if_pos c2, Except.ok.injEq] at hn
      unfold int64_min int64_max at c1 c2
      rw [← hn]
      unfold size_t_of_int64
      omega
    · simp only [extent, int64, if_pos c1, if_neg c2] at hn
      exact absurd hn (by simp)
  · simp only [extent, int64, if_neg c1] at hn
    exact absurd hn (by simp)

/-! ## The exceptions behind the test of the size -/

theorem exists_twice_ne (a b : String) :
    "raster point " ++ a ++ "x" ++ b ++ " exists twice" ≠
      "raster interpolation requires at least 2 columns and 2 rows" := by
  intro h
  have h2 := congrArg (fun s => s.data[7]?) h
  simp only [String.data_append, List.append_assoc] at h2
  simp at h2

theorem int64_error (v : Int) (e : failure) (h : int64 v = .error e) :
    e = .undefined_behavior "signed integer overflow" := by
  unfold int64 at h
  split at h
  · exact absurd h (by simp)
  · simp only [Except.error.injEq] at h
    exact h.symm

theorem offset_error (a b : Int) (e : failure) (h : offset a b = .error e) :
    e = .undefined_behavior "signed integer overflow" := by
  unfold offset at h
  split at h
  · rename_i e1 he1
    simp only [Except.error.injEq] at h
    rw [← h]
    exact int64_error _ _ he1
  · exact absurd h (by simp)

/-- An exception of the loop that fills the raster image is not that of the test of the
size. -/
theorem fill_raster_image_error (range : raster_range) (points : List raster_point) :
    ∀ (raster_image : bitmap (Option raster_point)) (e : failure),
      fill_raster_image range points raster_image = .error e →
      e ≠ .runtime_error "raster interpolation requires at least 2 columns and 2 rows" := by
  induction points with
  | nil =>
    intro raster_image e h
    simp [fill_raster_image] at h
  | cons p points ih =>
    intro raster_image e h
    rw [fill_raster_image] at h
    split at h
    · rename_i e1 he1
      simp only [Except.error.injEq] at h
      rw [← h, offset_error _ _ _ he1]
      simp
    · split at h
      · rename_i e1 he1
        simp only [Except.error.injEq] at h
        rw [← h, offset_error _ _ _ he1]
        simp
      · split at h
        · simp only [Except.error.injEq] at h
          rw [← h]
          simp
        · simp only [Except.error.injEq] at h
          rw [← h]
          simp only [ne_eq, failure.runtime_error.injEq]
          exact exists_twice_ne _ _
        · exact ih _ e h

/-! ## The exceptions of the interpolation are undefined behaviour -/

theorem paint_pixel_error (root : ℚ → ℚ) (t : array3 raster_point)
    (vector_image : bitmap (List raster_raw_pixel)) (x y : Nat) (e : failure)
    (h : paint_pixel root t vector_image x y = .error e) : ∃ s, e = .undefined_behavior s := by
  unfold paint_pixel at h
  simp only at h
  split at h
  · exact absurd h (by simp)
  · split at h
    · simp only [Except.error.injEq] at h
      exact ⟨_, h.symm⟩
    · exact absurd h (by simp)

theorem paint_row_error (root : ℚ → ℚ) (t : array3 raster_point) (y : Nat) (xs : List Nat) :
    ∀ (vector_image : bitmap (List raster_raw_pixel)) (e : failure),
      paint_row root t y xs vector_image = .error e → ∃ s, e = .undefined_behavior s := by
  induction xs with
  | nil =>
    intro vector_image e h
    simp [paint_row] at h
  | cons x xs ih =>
    intro vector_image e h
    rw [paint_row] at h
    split at h
    · rename_i e1 he1
      simp only [Except.error.injEq] at h
      rw [← h]
      exact paint_pixel_error _ _ _ _ _ _ he1
    · exact ih _ e h

theorem paint_rows_error (root : ℚ → ℚ) (t : array3 raster_point) (xs ys : List Nat) :
    ∀ (vector_image : bitmap (List raster_raw_pixel)) (e : failure),
      paint_rows root t xs ys vector_image = .error e → ∃ s, e = .undefined_behavior s := by
  induction ys with
  | nil =>
    intro vector_image e h
    simp [paint_rows] at h
  | cons y ys ih =>
    intro vector_image e h
    rw [paint_rows] at h
    split at h
    · rename_i e1 he1
      simp only [Except.error.injEq] at h
      rw [← h]
      exact paint_row_error _ _ _ _ _ _ he1
    · exact ih _ e h

theorem clamp_error (v lo hi : Int) (e : failure) (h : clamp v lo hi = .error e) :
    ∃ s, e = .undefined_behavior s := by
  unfold clamp at h
  split at h
  · simp only [Except.error.injEq] at h
    exact ⟨_, h.symm⟩
  · split at h
    · exact absurd h (by simp)
    · split at h
      · exact absurd h (by simp)
      · exact absurd h (by simp)

theorem box_bound_error (v : double) (size : Nat) (e : failure)
    (h : box_bound v size = .error e) : ∃ s, e = .undefined_behavior s := by
  unfold box_bound at h
  split at h
  · simp only [Except.error.injEq] at h
    exact ⟨_, h.symm⟩
  · split at h
    · rename_i e1 he1
      simp only [Except.error.injEq] at h
      rw [← h]
      exact clamp_error _ _ _ _ he1
    · exact absurd h (by simp)

theorem paint_triangle_error (root : ℚ → ℚ) (width height : Nat)
    (vector_image : bitmap (List raster_raw_pixel)) (t : array3 raster_point) (e : failure)
    (h : paint_triangle root width height vector_image t = .error e) :
    ∃ s, e = .undefined_behavior s := by
  unfold paint_triangle at h
  split at h
  · rename_i e1 he1
    simp only [Except.error.injEq] at h
    rw [← h]
    exact box_bound_error _ _ _ he1
  · split at h
    · rename_i e1 he1
      simp only [Except.error.injEq] at h
      rw [← h]
      exact box_bound_error _ _ _ he1
    · split at h
      · exact absurd h (by simp)
      · split at h
        · rename_i e1 he1
          simp only [Except.error.injEq] at h
          rw [← h]
          exact box_bound_error _ _ _ he1
        · split at h
          · rename_i e1 he1
            simp only [Except.error.injEq] at h
            rw [← h]
            exact box_bound_error _ _ _ he1
          · split at h
            · exact absurd h (by simp)
            · exact paint_rows_error _ _ _ _ _ _ h

theorem paint_triangles_error (root : ℚ → ℚ) (width height : Nat)
    (ts : List (array3 raster_point)) :
    ∀ (vector_image : bitmap (List raster_raw_pixel)) (e : failure),
      paint_triangles root width height ts vector_image = .error e →
      ∃ s, e = .undefined_behavior s := by
  induction ts with
  | nil =>
    intro vector_image e h
    simp [paint_triangles] at h
  | cons t ts ih =>
    intro vector_image e h
    rw [paint_triangles] at h
    split at h
    · rename_i e1 he1
      simp only [Except.error.injEq] at h
      rw [← h]
      exact paint_triangle_error _ _ _ _ _ _ he1
    · exact ih _ e h

theorem corner_error (raster_image : bitmap (Option raster_point)) (x y : Nat) (e : failure)
    (h : corner raster_image x y = .error e) : ∃ s, e = .undefined_behavior s := by
  unfold corner at h
  split at h
  · simp only [Except.error.injEq] at h
    exact ⟨_, h.symm⟩
  · exact absurd h (by simp)
  · exact absurd h (by simp)

theorem region_error (raster_image : bitmap (Option raster_point)) (ix iy : Nat) (e : failure)
    (h : region raster_image ix iy = .error e) : ∃ s, e = .undefined_behavior s := by
  unfold region at h
  split at h
  · rename_i e1 he1
    simp only [Except.error.injEq] at h
    rw [← h]
    exact corner_error _ _ _ _ he1
  · split at h
    · rename_i e1 he1
      simp only [Except.error.injEq] at h
      rw [← h]
      exact corner_error _ _ _ _ he1
    · split at h
      · rename_i e1 he1
        simp only [Except.error.injEq] at h
        rw [← h]
        exact corner_error _ _ _ _ he1
      · split at h
        · rename_i e1 he1
          simp only [Except.error.injEq] at h
          rw [← h]
          exact corner_error _ _ _ _ he1
        · exact absurd h (by simp)

theorem paint_block_error (root : ℚ → ℚ) (width height : Nat)
    (raster_image : bitmap (Option raster_point))
    (vector_image : bitmap (List raster_raw_pixel)) (ix iy : Nat) (e : failure)
    (h : paint_block root width height raster_image vector_image ix iy = .error e) :
    ∃ s, e = .undefined_behavior s := by
  unfold paint_block at h
  split at h
  · rename_i e1 he1
    simp only [Except.error.injEq] at h
    rw [← h]
    exact region_error _ _ _ _ he1
  · exact paint_triangles_error _ _ _ _ _ _ h

theorem paint_block_row_error (root : ℚ → ℚ) (width height : Nat)
    (raster_image : bitmap (Option raster_point)) (iy : Nat) (ixs : List Nat) :
    ∀ (vector_image : bitmap (List raster_raw_pixel)) (e : failure),
      paint_block_row root width height raster_image iy ixs vector_image = .error e →
      ∃ s, e = .undefined_behavior s := by
  induction ixs with
  | nil =>
    intro vector_image e h
    simp [paint_block_row] at h
  | cons ix ixs ih =>
    intro vector_image e h
    rw [paint_block_row] at h
    split at h
    · rename_i e1 he1
      simp only [Except.error.injEq] at h
      rw [← h]
      exact paint_block_error _ _ _ _ _ _ _ _ he1
    · exact ih _ e h

theorem paint_block_rows_error (root : ℚ → ℚ) (width height : Nat)
    (raster_image : bitmap (Option raster_point)) (ixs iys : List Nat) :
    ∀ (vector_image : bitmap (List raster_raw_pixel)) (e : failure),
      paint_block_rows root width height raster_image ixs iys vector_image = .error e →
      ∃ s, e = .undefined_behavior s := by
  induction iys with
  | nil =>
    intro vector_image e h
    simp [paint_block_rows] at h
  | cons iy iys ih =>
    intro vector_image e h
    rw [paint_block_rows] at h
    split at h
    · rename_i e1 he1
      simp only [Except.error.injEq] at h
      rw [← h]
      exact paint_block_row_error _ _ _ _ _ _ _ _ he1
    · exact ih _ e h

theorem out_of_reach_error (ref_rx ref_ry : Int) (v : raster_raw_pixel) (e : failure)
    (h : out_of_reach ref_rx ref_ry v = .error e) : ∃ s, e = .undefined_behavior s := by
  unfold out_of_reach at h
  split at h
  · rename_i e1 he1
    simp only [Except.error.injEq] at h
    rw [← h]
    exact ⟨_, int64_error _ _ he1⟩
  · split at h
    · rename_i e1 he1
      simp only [Except.error.injEq] at h
      rw [← h]
      exact ⟨_, int64_error _ _ he1⟩
    · split at h
      · exact absurd h (by simp)
      · split at h
        · rename_i e1 he1
          simp only [Except.error.injEq] at h
          rw [← h]
          exact ⟨_, int64_error _ _ he1⟩
        · split at h
          · rename_i e1 he1
            simp only [Except.error.injEq] at h
            rw [← h]
            exact ⟨_, int64_error _ _ he1⟩
          · exact absurd h (by simp)

theorem erase_out_of_reach_error (ref_rx ref_ry : Int) (p : List raster_raw_pixel) :
    ∀ e : failure, erase_out_of_reach ref_rx ref_ry p = .error e →
      ∃ s, e = .undefined_behavior s := by
  induction p with
  | nil =>
    intro e h
    simp [erase_out_of_reach] at h
  | cons v vs ih =>
    intro e h
    rw [erase_out_of_reach] at h
    split at h
    · rename_i e1 he1
      simp only [Except.error.injEq] at h
      rw [← h]
      exact out_of_reach_error _ _ _ _ he1
    · split at h
      · rename_i e1 he1
        simp only [Except.error.injEq] at h
        rw [← h]
        exact ih _ he1
      · exact absurd h (by simp)

theorem filter_pixel_error (largest : Bool) (p : List raster_raw_pixel) (e : failure)
    (h : filter_pixel largest p = .error e) : ∃ s, e = .undefined_behavior s := by
  cases p with
  | nil => simp [filter_pixel] at h
  | cons v vs =>
    rw [filter_pixel] at h
    exact erase_out_of_reach_error _ _ _ _ h

theorem transform_error {α β : Type} (f : α → Except failure β) (P : failure → Prop)
    (hf : ∀ a e, f a = .error e → P e) (l : List α) :
    ∀ e, transform f l = .error e → P e := by
  induction l with
  | nil =>
    intro e h
    simp [transform] at h
  | cons a as ih =>
    intro e h
    rw [transform] at h
    split at h
    · rename_i e1 he1
      simp only [Except.error.injEq] at h
      rw [← h]
      exact hf _ _ he1
    · split at h
      · rename_i e1 he1
        simp only [Except.error.injEq] at h
        rw [← h]
        exact ih _ he1
      · exact absurd h (by simp)

theorem filter_image_error (filter : raster_filter)
    (vector_image : bitmap (List raster_raw_pixel)) (e : failure)
    (h : filter_image filter vector_image = .error e) : ∃ s, e = .undefined_behavior s := by
  unfold filter_image at h
  split at h
  · exact absurd h (by simp)
  · split at h
    · rename_i e1 he1
      simp only [Except.error.injEq] at h
      rw [← h]
      exact transform_error _ _ (fun a e => filter_pixel_error false a e) _ _ he1
    · exact absurd h (by simp)
  · split at h
    · rename_i e1 he1
      simp only [Except.error.injEq] at h
      rw [← h]
      exact transform_error _ _ (fun a e => filter_pixel_error true a e) _ _ he1
    · exact absurd h (by simp)

/-- Every exception of the raster `to_vector_image` behind the raster image marks undefined
behaviour: an index outside an image or an overflow. -/
theorem interpolate_raster_error (root : ℚ → ℚ) (width height : Nat)
    (raster_image : bitmap (Option raster_point)) (filter : raster_filter) (e : failure)
    (h : interpolate_raster root width height raster_image filter = .error e) :
    ∃ s, e = .undefined_behavior s := by
  unfold interpolate_raster at h
  split at h
  · rename_i e1 he1
    simp only [Except.error.injEq] at h
    rw [← h]
    exact paint_block_rows_error _ _ _ _ _ _ _ _ he1
  · exact filter_image_error _ _ _ h

/-- C23, with the condition it needs: for points of `std::int64_t` raster coordinates, of
which there is one at least, the bounds that `find_raster_range` returns are the least and
the greatest `rx` and `ry` of the points; and when the extents `max + 1 - min` of both axes
are computed without overflow, they are the numbers `w` and `h` of columns and rows, and
the raster `to_vector_image` throws
`raster interpolation requires at least 2 columns and 2 rows` if and only if
`max_rx - min_rx + 1 < 2` or `max_ry - min_ry + 1 < 2`. -/
theorem C23_raster_size (root : ℚ → ℚ) (width height : Nat) (points : List raster_point)
    (filter : raster_filter) (hne : points ≠ [])
    (hint : ∀ p ∈ points, int64_min ≤ p.rx ∧ p.rx ≤ int64_max ∧
      int64_min ≤ p.ry ∧ p.ry ≤ int64_max)
    (w h : Nat) (hw : (find_raster_range points).w = .ok w)
    (hh : (find_raster_range points).h = .ok h) :
    ((∃ p ∈ points, (find_raster_range points).min_x = p.rx) ∧
      (∀ p ∈ points, (find_raster_range points).min_x ≤ p.rx)) ∧
    ((∃ p ∈ points, (find_raster_range points).max_x = p.rx) ∧
      (∀ p ∈ points, p.rx ≤ (find_raster_range points).max_x)) ∧
    ((∃ p ∈ points, (find_raster_range points).min_y = p.ry) ∧
      (∀ p ∈ points, (find_raster_range points).min_y ≤ p.ry)) ∧
    ((∃ p ∈ points, (find_raster_range points).max_y = p.ry) ∧
      (∀ p ∈ points, p.ry ≤ (find_raster_range points).max_y)) ∧
    (w : Int) = (find_raster_range points).max_x - (find_raster_range points).min_x + 1 ∧
    (h : Int) = (find_raster_range points).max_y - (find_raster_range points).min_y + 1 ∧
    (to_vector_image_raster root width height points filter =
        .error (.runtime_error "raster interpolation requires at least 2 columns and 2 rows") ↔
      ((find_raster_range points).max_x - (find_raster_range points).min_x + 1 < 2 ∨
        (find_raster_range points).max_y - (find_raster_range points).min_y + 1 < 2)) := by
  obtain ⟨a1, a2, a3, a4⟩ := find_raster_range_attained points hne hint
  obtain ⟨p0, hp0⟩ := List.exists_mem_of_ne_nil points hne
  obtain ⟨b1, b2, b3, b4⟩ := find_raster_range_bounds points p0 hp0
  have ew := extent_eq _ _ w (le_trans b1 b2) hw
  have eh := extent_eq _ _ h (le_trans b3 b4) hh
  refine ⟨⟨a1, fun p hp => (find_raster_range_bounds points p hp).1⟩,
    ⟨a2, fun p hp => (find_raster_range_bounds points p hp).2.1⟩,
    ⟨a3, fun p hp => (find_raster_range_bounds points p hp).2.2.1⟩,
    ⟨a4, fun p hp => (find_raster_range_bounds points p hp).2.2.2⟩, ew, eh, ?_⟩
  unfold to_vector_image_raster
  rw [hw]
  simp only
  by_cases c1 : w < 2
  · rw [if_pos c1]
    constructor
    · intro _
      left
      omega
    · intro _
      rfl
  · rw [if_neg c1, hh]
    simp only
    by_cases c2 : h < 2
    · rw [if_pos c2]
      constructor
      · intro _
        right
        omega
      · intro _
        rfl
    · rw [if_neg c2]
      constructor
      · intro hres
        exfalso
        split at hres
        · rename_i e1 he1
          simp only [Except.error.injEq] at hres
          exact fill_raster_image_error _ _ _ _ he1 hres
        · obtain ⟨s, hs⟩ := interpolate_raster_error _ _ _ _ _ _ hres
          exact absurd hs (by simp)
      · intro hc
        omega

/-- C23 for the two points with the raster cells `(0, 0)` and `(1, 1)`, which span 2 columns
and 2 rows: the raster `to_vector_image` does not throw the exception of the size. -/
theorem C23_raster_size_witness :
    to_vector_image_raster (fun q => q) 4 4
        [⟨.finite 0, .finite 0, .finite 1, 0, 0⟩, ⟨.finite 1, .finite 1, .finite 2, 1, 1⟩]
        .none ≠
      .error (.runtime_error "raster interpolation requires at least 2 columns and 2 rows") :=
  fun hres => absurd
    ((C23_raster_size (fun q => q) 4 4
      [⟨.finite 0, .finite 0, .finite 1, 0, 0⟩, ⟨.finite 1, .finite 1, .finite 2, 1, 1⟩]
      .none (by simp) (by decide!) 2 2 (by decide!) (by decide!)).2.2.2.2.2.2.mp hres)
    (by decide!)

/-- C23 as stated fails when an extent overflows: the two points with the raster cells
`(-2^63, 0)` and `(2^63 - 1, 1)` span `2^64` columns and 2 rows, so that neither
`max - min + 1` is below 2, but `max_x + 1` in `raster_range::w` overflows `std::int64_t`,
which is undefined (where the sum wraps, `w()` is 0 and the exception of the size is
thrown). -/
theorem C23_overflow_counterexample :
    (∀ (root : ℚ → ℚ) (width height : Nat) (filter : raster_filter),
      to_vector_image_raster root width height
        [⟨.finite 0, .finite 0, .finite 1, -(2 ^ 63), 0⟩,
          ⟨.finite 1, .finite 1, .finite 2, 2 ^ 63 - 1, 1⟩] filter =
      .error (.undefined_behavior "signed integer overflow")) ∧
    (find_raster_range
        [⟨.finite 0, .finite 0, .finite 1, -(2 ^ 63), 0⟩,
          ⟨.finite 1, .finite 1, .finite 2, 2 ^ 63 - 1, 1⟩]).max_x -
      (find_raster_range
        [⟨.finite 0, .finite 0, .finite 1, -(2 ^ 63), 0⟩,
          ⟨.finite 1, .finite 1, .finite 2, 2 ^ 63 - 1, 1⟩]).min_x + 1 = 2 ^ 64 ∧
    (find_raster_range
        [⟨.finite 0, .finite 0, .finite 1, -(2 ^ 63), 0⟩,
          ⟨.finite 1, .finite 1, .finite 2, 2 ^ 63 - 1, 1⟩]).max_y -
      (find_raster_range
        [⟨.finite 0, .finite 0, .finite 1, -(2 ^ 63), 0⟩,
          ⟨.finite 1, .finite 1, .finite 2, 2 ^ 63 - 1, 1⟩]).min_y + 1 = 2 := by
  refine ⟨?_, by decide!, by decide!⟩
  intro root width height filter
  have hw : (find_raster_range
      [⟨.finite 0, .finite 0, .finite 1, -(2 ^ 63), 0⟩,
        ⟨.finite 1, .finite 1, .finite 2, 2 ^ 63 - 1, 1⟩]).w =
      .error (.undefined_behavior "signed integer overflow") := by decide!
  unfold to_vector_image_raster
  rw [hw]

/-! ## The triangles of a block -/

/-- C33. The triangles of a block of the raster image: the region of the block `(ix, iy)`
holds the points that are present at `(ix, iy)`, `(ix + 1, iy)`, `(ix, iy + 1)` and
`(ix + 1, iy + 1)`, in this order; a region of fewer than three points gives no triangle, a
region `p0, p1, p2` gives the triangle `(p0, p1, p2)`, a region `p0, p1, p2, p3` gives the
triangles `(p0, p1, p2)`, `(p1, p2, p3)`, `(p2, p3, p0)`, `(p3, p0, p1)` in this order, and
these are the triangles that the block paints. -/
theorem C33_triangulation :
    (∀ (raster_image : bitmap (Option raster_point)) (ix iy : Nat)
      (o0 o1 o2 o3 : Option raster_point),
      raster_image.get? ix iy = some o0 →
      raster_image.get? (succ_size_t ix) iy = some o1 →
      raster_image.get? ix (succ_size_t iy) = some o2 →
      raster_image.get? (succ_size_t ix) (succ_size_t iy) = some o3 →
      region raster_image ix iy = .ok (o0.toList ++ o1.toList ++ o2.toList ++ o3.toList)) ∧
    (∀ i : Nat, i + 1 < 2 ^ 64 → succ_size_t i = i + 1) ∧
    (∀ region : List raster_point, region.length < 3 → triangles region = []) ∧
    (∀ p0 p1 p2 : raster_point, triangles [p0, p1, p2] = [⟨p0, p1, p2⟩]) ∧
    (∀ p0 p1 p2 p3 : raster_point, triangles [p0, p1, p2, p3] =
      [⟨p0, p1, p2⟩, ⟨p1, p2, p3⟩, ⟨p2, p3, p0⟩, ⟨p3, p0, p1⟩]) ∧
    (∀ (root : ℚ → ℚ) (width height : Nat) (raster_image : bitmap (Option raster_point))
      (vector_image : bitmap (List raster_raw_pixel)) (ix iy : Nat)
      (points : List raster_point), region raster_image ix iy = .ok points →
      paint_block root width height raster_image vector_image ix iy =
        paint_triangles root width height (triangles points) vector_image) := by
  refine ⟨?_, ?_, ?_, fun _ _ _ => rfl, fun _ _ _ _ => rfl, ?_⟩
  · intro raster_image ix iy o0 o1 o2 o3 h0 h1 h2 h3
    have hc : ∀ (x y : Nat) (o : Option raster_point), raster_image.get? x y = some o →
        corner raster_image x y = .ok o.toList := by
      intro x y o h
      unfold corner
      rw [h]
      cases o <;> rfl
    simp only [region, hc _ _ _ h0, hc _ _ _ h1, hc _ _ _ h2, hc _ _ _ h3]
  · intro i hi
    unfold succ_size_t
    exact Nat.mod_eq_of_lt hi
  · intro region h
    match region, h with
    | [], _ => rfl
    | [_], _ => rfl
    | [_, _], _ => rfl
    | _ :: _ :: _ :: _, h => exact absurd h (by simp only [List.length_cons]; omega)
  · intro root width height raster_image vector_image ix iy points h
    unfold paint_block
    rw [h]

/-! ## The weight that is negative -/

/-- C36, with the size of the cell: the lambda of `to_image` throws the `std::logic_error`
`negative weight` exactly for a cell with two or more contributions of which one has a
weight below 0, and it throws nothing else; a cell with one contribution gives the value of
this contribution, whatever its weight, and an empty cell gives NaN. -/
theorem C36_negative_weight :
    (∀ (α : Type) (weight value : α → double) (data : List α),
      pixel_value weight value data = .error (.logic_error "negative weight") ↔
        2 ≤ data.length ∧ ∃ c ∈ data, double.lt (weight c) 0 = true) ∧
    (∀ (α : Type) (weight value : α → double) (data : List α) (e : failure),
      pixel_value weight value data = .error e → e = .logic_error "negative weight") ∧
    (∀ (α : Type) (weight value : α → double) (single : α),
      pixel_value weight value [single] = .ok (value single)) ∧
    (∀ (α : Type) (weight value : α → double), pixel_value weight value [] = .ok NaN) := by
  refine ⟨?_, ?_, fun _ _ _ _ => rfl, fun _ _ _ => rfl⟩
  · intro α weight value data
    match data with
    | [] => simp [pixel_value]
    | [single] => simp [pixel_value]
    | a :: b :: rest =>
      simp only [pixel_value, List.length_cons]
      by_cases h : (a :: b :: rest).any (fun v => double.lt (weight v) 0) = true
      · rw [if_pos h]
        simp only [true_iff]
        refine ⟨by omega, ?_⟩
        obtain ⟨c, hc, hlt⟩ := List.any_eq_true.mp h
        exact ⟨c, hc, hlt⟩
      · rw [if_neg h]
        constructor
        · intro hres
          split at hres <;> exact absurd hres (by simp)
        · rintro ⟨_, c, hc, hlt⟩
          exact absurd (List.any_eq_true.mpr ⟨c, hc, hlt⟩) h
  · intro α weight value data e hres
    match data with
    | [] => simp [pixel_value] at hres
    | [single] => simp [pixel_value] at hres
    | a :: b :: rest =>
      simp only [pixel_value] at hres
      split at hres
      · simp only [Except.error.injEq] at hres
        exact hres.symm
      · split at hres <;> exact absurd hres (by simp)

/-- C36 as stated fails for a cell with one contribution: the contribution with the weight
`-1` and the value 5 has a weight below 0, and the lambda returns 5. -/
theorem C36_single_contribution_counterexample :
    pixel_value raw_pixel.weight raw_pixel.value [⟨.finite (-1), .finite 5⟩] =
      .ok (.finite 5) ∧
    double.lt (raw_pixel.weight ⟨.finite (-1), .finite 5⟩) 0 = true := by
  constructor
  · rfl
  · decide!

/-! ## The reference of the filter stays -/

theorem select_element_mem (largest : Bool) (vs : List raster_raw_pixel) :
    ∀ best : raster_raw_pixel, select_element largest best vs ∈ best :: vs := by
  induction vs with
  | nil =>
    intro best
    cases largest <;> simp [select_element]
  | cons v vs ih =>
    intro best
    rw [select_element_cons]
    by_cases hr : (if largest then double.lt best.value v.value
      else double.lt v.value best.value) = true
    · rw [if_pos hr]
      exact List.mem_cons_of_mem _ (ih v)
    · rw [if_neg hr]
      rcases List.mem_cons.mp (ih best) with h | h
      · rw [h]
        exact List.mem_cons_self _ _
      · exact List.mem_cons_of_mem _ (List.mem_cons_of_mem _ h)

theorem out_of_reach_self (ref : raster_raw_pixel) :
    out_of_reach ref.rx ref.ry ref = .ok false := by
  have h := out_of_reach_eq ref ref (by simp [int64_max]) (by simp [int64_max])
  rw [h]
  simp [near]

/-- A contribution that `std::erase_if` does not erase is in the list that is left. -/
theorem erase_out_of_reach_keeps (ref_rx ref_ry : Int) (p : List raster_raw_pixel) :
    ∀ (q : List raster_raw_pixel), erase_out_of_reach ref_rx ref_ry p = .ok q →
      ∀ c ∈ p, out_of_reach ref_rx ref_ry c = .ok false → c ∈ q := by
  induction p with
  | nil =>
    intro q _ c hc
    simp at hc
  | cons v vs ih =>
    intro q hq c hc hkeep
    rw [erase_out_of_reach] at hq
    split at hq
    · exact absurd hq (by simp)
    · rename_i erase he
      split at hq
      · exact absurd hq (by simp)
      · rename_i rest hrest
        simp only [Except.ok.injEq] at hq
        rcases List.mem_cons.mp hc with rfl | hc
        · rw [hkeep] at he
          simp only [Except.ok.injEq] at he
          rw [← hq, ← he]
          simp
        · have := ih rest hrest c hc hkeep
          rw [← hq]
          split
          · exact this
          · exact List.mem_cons_of_mem _ this

theorem filter_pixel_keeps_reference (largest : Bool) (v : raster_raw_pixel)
    (vs q : List raster_raw_pixel) (h : filter_pixel largest (v :: vs) = .ok q) :
    select_element largest v vs ∈ q := by
  rw [filter_pixel] at h
  exact erase_out_of_reach_keeps _ _ _ q h _ (select_element_mem largest vs v)
    (out_of_reach_self _)

theorem transform_getElem? {α β : Type} (f : α → Except failure β) (l : List α) :
    ∀ (r : List β), transform f l = .ok r →
      r.length = l.length ∧ ∀ (k : Nat) (a : α), l[k]? = some a →
        ∃ b, r[k]? = some b ∧ f a = .ok b := by
  induction l with
  | nil =>
    intro r h
    simp only [transform, Except.ok.injEq] at h
    rw [← h]
    simp
  | cons a as ih =>
    intro r h
    rw [transform] at h
    split at h
    · exact absurd h (by simp)
    · rename_i b hb
      split at h
      · exact absurd h (by simp)
      · rename_i bs hbs
        simp only [Except.ok.injEq] at h
        obtain ⟨h1, h2⟩ := ih bs hbs
        rw [← h]
        refine ⟨by simp [h1], ?_⟩
        intro k a' hk
        cases k with
        | zero =>
          simp only [List.getElem?_cons_zero, Option.some.injEq] at hk
          rw [← hk]
          exact ⟨b, by simp, hb⟩
        | succ k =>
          simp only [List.getElem?_cons_succ] at hk
          obtain ⟨b', hb1, hb2⟩ := h2 k a' hk
          exact ⟨b', by simpa using hb1, hb2⟩

/-- C38. The filters `min` and `max` never empty a pixel: the reference of a list of
contributions that is not empty is in the list that the filter leaves, whenever the filter
returns; the filter returns when the raster coordinates of the list differ by less than
`2^63`, as they do in a raster that has its extents; and a pixel of the vector image that
has contributions before `filter_image` has contributions afterwards. -/
theorem C38_reference_survives :
    (∀ (largest : Bool) (v : raster_raw_pixel) (vs q : List raster_raw_pixel),
      filter_pixel largest (v :: vs) = .ok q →
      select_element largest v vs ∈ q ∧ q ≠ []) ∧
    (∀ (largest : Bool) (v : raster_raw_pixel) (vs : List raster_raw_pixel),
      (∀ c ∈ v :: vs, ∀ d ∈ v :: vs,
        |c.rx - d.rx| ≤ int64_max ∧ |c.ry - d.ry| ≤ int64_max) →
      ∃ q, filter_pixel largest (v :: vs) = .ok q ∧ select_element largest v vs ∈ q ∧
        q ≠ []) ∧
    (∀ (filter : raster_filter) (vector_image filtered : bitmap (List raster_raw_pixel)),
      filter_image filter vector_image = .ok filtered →
      filtered.w = vector_image.w ∧ filtered.h = vector_image.h ∧
      filtered.data.length = vector_image.data.length ∧
      ∀ (k : Nat) (p : List raster_raw_pixel), vector_image.data[k]? = some p → p ≠ [] →
        ∃ q, filtered.data[k]? = some q ∧ q ≠ []) := by
  refine ⟨?_, ?_, ?_⟩
  · intro largest v vs q h
    have hm := filter_pixel_keeps_reference largest v vs q h
    exact ⟨hm, List.ne_nil_of_mem hm⟩
  · intro largest v vs hrange
    have hm := select_element_mem largest vs v
    have e : filter_pixel largest (v :: vs) =
        .ok ((v :: vs).filter (near (select_element largest v vs))) := by
      rw [filter_pixel]
      exact erase_out_of_reach_eq _ _ (fun c hc => hrange _ hm c hc)
    have hq := filter_pixel_keeps_reference largest v vs _ e
    exact ⟨_, e, hq, List.ne_nil_of_mem hq⟩
  · intro filter vector_image filtered h
    have key : ∀ (largest : Bool) (data : List (List raster_raw_pixel)),
        transform (filter_pixel largest) vector_image.data = .ok data →
        data.length = vector_image.data.length ∧
        ∀ (k : Nat) (p : List raster_raw_pixel), vector_image.data[k]? = some p → p ≠ [] →
          ∃ q, data[k]? = some q ∧ q ≠ [] := by
      intro largest data hd
      obtain ⟨h1, h2⟩ := transform_getElem? _ _ data hd
      refine ⟨h1, ?_⟩
      intro k p hk hp
      obtain ⟨q, hq1, hq2⟩ := h2 k p hk
      refine ⟨q, hq1, ?_⟩
      rcases p with _ | ⟨v, vs⟩
      · exact absurd rfl hp
      · exact List.ne_nil_of_mem (filter_pixel_keeps_reference largest v vs q hq2)
    unfold filter_image at h
    split at h
    · simp only [Except.ok.injEq] at h
      rw [← h]
      refine ⟨rfl, rfl, rfl, ?_⟩
      intro k p hk hp
      exact ⟨p, hk, hp⟩
    · split at h
      · exact absurd h (by simp)
      · rename_i data hd
        simp only [Except.ok.injEq] at h
        rw [← h]
        obtain ⟨h1, h2⟩ := key false data hd
        exact ⟨rfl, rfl, h1, h2⟩
    · split at h
      · exact absurd h (by simp)
      · rename_i data hd
        simp only [Except.ok.injEq] at h
        rw [← h]
        obtain ⟨h1, h2⟩ := key true data hd
        exact ⟨rfl, rfl, h1, h2⟩

/-! ## The test of a point against a triangle -/

theorem double_zero_lt_finite (a : ℚ) : double.lt 0 (.finite a) = decide (0 < a) := rfl

/-- The test `is_inside` on numbers: no two of the three edge functions have opposite
signs. -/
theorem is_inside_finite (x0 y0 x1 y1 x2 y2 px py : ℚ) (v0 v1 v2 : double)
    (rx0 ry0 rx1 ry1 rx2 ry2 : Int) :
    is_inside ⟨⟨.finite x0, .finite y0, v0, rx0, ry0⟩, ⟨.finite x1, .finite y1, v1, rx1, ry1⟩,
        ⟨.finite x2, .finite y2, v2, rx2, ry2⟩⟩ ⟨.finite px, .finite py⟩ = true ↔
      ¬ (((px - x1) * (y0 - y1) - (x0 - x1) * (py - y1) < 0 ∨
          (px - x2) * (y1 - y2) - (x1 - x2) * (py - y2) < 0 ∨
          (px - x0) * (y2 - y0) - (x2 - x0) * (py - y0) < 0) ∧
        (0 < (px - x1) * (y0 - y1) - (x0 - x1) * (py - y1) ∨
          0 < (px - x2) * (y1 - y2) - (x1 - x2) * (py - y2) ∨
          0 < (px - x0) * (y2 - y0) - (x2 - x0) * (py - y0))) := by
  simp only [is_inside, sign, finite_sub, finite_mul, double_lt_finite_zero,
    double_zero_lt_finite, Bool.not_eq_true', Bool.and_eq_false_iff, Bool.or_eq_false_iff,
    decide_eq_false_iff_not, Bool.or_eq_true, decide_eq_true_eq]
  tauto

theorem distance_value (root : ℚ → ℚ) (ax ay bx b_y : ℚ) :
    distance root ⟨.finite ax, .finite ay⟩ ⟨.finite bx, .finite b_y⟩ =
      .finite (root ((ax - bx) * (ax - bx) + (ay - b_y) * (ay - b_y))) :=
  distance_finite root ax ay bx b_y

/-- The value of `area` for sides whose distances are the numbers `a`, `b`, `c`. -/
theorem area_value (root : ℚ → ℚ) (t : array3 bmp_point) (a b c : ℚ)
    (ha : distance root t.t0 t.t1 = .finite a) (hb : distance root t.t1 t.t2 = .finite b)
    (hc : distance root t.t2 t.t0 = .finite c)
    (h0 : 0 ≤ (a + b + c) / 2 * ((a + b + c) / 2 - a) * ((a + b + c) / 2 - b) *
      ((a + b + c) / 2 - a)) :
    area root t = .finite (root ((a + b + c) / 2 * ((a + b + c) / 2 - a) *
      ((a + b + c) / 2 - b) * ((a + b + c) / 2 - a))) := by
  simp only [area, ha, hb, hc, finite_add, finite_div _ _ (two_ne_zero), finite_sub,
    finite_mul, double.sqrt]
  rw [if_neg (not_lt.mpr h0)]

/-- The value of the formula of Heron for sides whose distances are the numbers `a`, `b`,
`c`. -/
theorem heron_value (root : ℚ → ℚ) (t : array3 bmp_point) (a b c : ℚ)
    (ha : distance root t.t0 t.t1 = .finite a) (hb : distance root t.t1 t.t2 = .finite b)
    (hc : distance root t.t2 t.t0 = .finite c)
    (h0 : 0 ≤ (a + b + c) / 2 * ((a + b + c) / 2 - a) * ((a + b + c) / 2 - b) *
      ((a + b + c) / 2 - c)) :
    heron root t = .finite (root ((a + b + c) / 2 * ((a + b + c) / 2 - a) *
      ((a + b + c) / 2 - b) * ((a + b + c) / 2 - c))) := by
  simp only [heron, ha, hb, hc, finite_add, finite_div _ _ (two_ne_zero), finite_sub,
    finite_mul, double.sqrt]
  rw [if_neg (not_lt.mpr h0)]

/-- C34 fails for the triangle `(0, 0)`, `(12, 9)`, `(24, 0)` and the pixel `(12, 5)`, which
is inside: the distances are 13, 4, 13 from the pixel and 15, 15, 24 between the corners;
the formula of Heron gives the areas 24, 60, 24 of the three parts and 108 of the triangle,
hence the weights `2/9`, `5/9`, `2/9`; the function `area`, with `s - a` in the place of
`s - c`, gives 48, 60 and 12, hence the weights `2/5`, `1/2`, `1/10`, for every function
that is the square root at the eight squares met. The triangle and the pixel are
symmetric, the weights of the first and the third corner are not. -/
theorem C34_heron_defect_changes_weights :
    is_inside ⟨⟨.finite 0, .finite 0, .finite 0, 0, 0⟩, ⟨.finite 12, .finite 9, .finite 0, 1, 0⟩,
        ⟨.finite 24, .finite 0, .finite 0, 0, 1⟩⟩ ⟨double.of_size_t 12, double.of_size_t 5⟩ =
      true ∧
    ∀ root : ℚ → ℚ, root 16 = 4 → root 169 = 13 → root 225 = 15 → root 576 = 24 →
      root 144 = 12 → root 2304 = 48 → root 3600 = 60 → root 11664 = 108 →
      weight (areas root
          ⟨⟨.finite 0, .finite 0, .finite 0, 0, 0⟩, ⟨.finite 12, .finite 9, .finite 0, 1, 0⟩,
            ⟨.finite 24, .finite 0, .finite 0, 0, 1⟩⟩
          ⟨double.of_size_t 12, double.of_size_t 5⟩) =
        ⟨.finite (2 / 5), .finite (1 / 2), .finite (1 / 10)⟩ ∧
      heron root ⟨⟨.finite 12, .finite 5⟩, ⟨.finite 12, .finite 9⟩, ⟨.finite 24, .finite 0⟩⟩ /
          heron root ⟨⟨.finite 0, .finite 0⟩, ⟨.finite 12, .finite 9⟩, ⟨.finite 24, .finite 0⟩⟩ =
        .finite (2 / 9) ∧
      heron root ⟨⟨.finite 12, .finite 5⟩, ⟨.finite 24, .finite 0⟩, ⟨.finite 0, .finite 0⟩⟩ /
          heron root ⟨⟨.finite 0, .finite 0⟩, ⟨.finite 12, .finite 9⟩, ⟨.finite 24, .finite 0⟩⟩ =
        .finite (5 / 9) ∧
      heron root ⟨⟨.finite 12, .finite 5⟩, ⟨.finite 0, .finite 0⟩, ⟨.finite 12, .finite 9⟩⟩ /
          heron root ⟨⟨.finite 0, .finite 0⟩, ⟨.finite 12, .finite 9⟩, ⟨.finite 24, .finite 0⟩⟩ =
        .finite (2 / 9) := by
  refine ⟨by decide!, ?_⟩
  intro root h16 h169 h225 h576 h144 h2304 h3600 h11664
  have d1 : distance root ⟨.finite 12, .finite 5⟩ ⟨.finite 12, .finite 9⟩ = .finite 4 := by
    rw [distance_value]; norm_num [h16]
  have d1' : distance root ⟨.finite 12, .finite 9⟩ ⟨.finite 12, .finite 5⟩ = .finite 4 := by
    rw [distance_value]; norm_num [h16]
  have d2 : distance root ⟨.finite 12, .finite 5⟩ ⟨.finite 24, .finite 0⟩ = .finite 13 := by
    rw [distance_value]; norm_num [h169]
  have d2' : distance root ⟨.finite 24, .finite 0⟩ ⟨.finite 12, .finite 5⟩ = .finite 13 := by
    rw [distance_value]; norm_num [h169]
  have d0 : distance root ⟨.finite 12, .finite 5⟩ ⟨.finite 0, .finite 0⟩ = .finite 13 := by
    rw [distance_value]; norm_num [h169]
  have d0' : distance root ⟨.finite 0, .finite 0⟩ ⟨.finite 12, .finite 5⟩ = .finite 13 := by
    rw [distance_value]; norm_num [h169]
  have s01 : distance root ⟨.finite 0, .finite 0⟩ ⟨.finite 12, .finite 9⟩ = .finite 15 := by
    rw [distance_value]; norm_num [h225]
  have s12 : distance root ⟨.finite 12, .finite 9⟩ ⟨.finite 24, .finite 0⟩ = .finite 15 := by
    rw [distance_value]; norm_num [h225]
  have s20 : distance root ⟨.finite 24, .finite 0⟩ ⟨.finite 0, .finite 0⟩ = .finite 24 := by
    rw [distance_value]; norm_num [h576]
  have a0 : area root ⟨⟨.finite 12, .finite 5⟩, ⟨.finite 12, .finite 9⟩,
      ⟨.finite 24, .finite 0⟩⟩ = .finite 48 := by
    rw [area_value root _ 4 15 13 d1 s12 d2' (by norm_num)]; norm_num [h2304]
  have a1 : area root ⟨⟨.finite 12, .finite 5⟩, ⟨.finite 24, .finite 0⟩,
      ⟨.finite 0, .finite 0⟩⟩ = .finite 60 := by
    rw [area_value root _ 13 24 13 d2 s20 d0' (by norm_num)]; norm_num [h3600]
  have a2 : area root ⟨⟨.finite 12, .finite 5⟩, ⟨.finite 0, .finite 0⟩,
      ⟨.finite 12, .finite 9⟩⟩ = .finite 12 := by
    rw [area_value root _ 13 15 4 d0 s01 d1' (by norm_num)]; norm_num [h144]
  have t0 : heron root ⟨⟨.finite 12, .finite 5⟩, ⟨.finite 12, .finite 9⟩,
      ⟨.finite 24, .finite 0⟩⟩ = .finite 24 := by
    rw [heron_value root _ 4 15 13 d1 s12 d2' (by norm_num)]; norm_num [h576]
  have t1 : heron root ⟨⟨.finite 12, .finite 5⟩, ⟨.finite 24, .finite 0⟩,
      ⟨.finite 0, .finite 0⟩⟩ = .finite 60 := by
    rw [heron_value root _ 13 24 13 d2 s20 d0' (by norm_num)]; norm_num [h3600]
  have t2 : heron root ⟨⟨.finite 12, .finite 5⟩, ⟨.finite 0, .finite 0⟩,
      ⟨.finite 12, .finite 9⟩⟩ = .finite 24 := by
    rw [heron_value root _ 13 15 4 d0 s01 d1' (by norm_num)]; norm_num [h576]
  have tt : heron root ⟨⟨.finite 0, .finite 0⟩, ⟨.finite 12, .finite 9⟩,
      ⟨.finite 24, .finite 0⟩⟩ = .finite 108 := by
    rw [heron_value root _ 15 15 24 s01 s12 s20 (by norm_num)]; norm_num [h11664]
  refine ⟨?_, ?_, ?_, ?_⟩
  · have e12 : double.of_size_t 12 = .finite 12 := by simp [double.of_size_t]
    have e5 : double.of_size_t 5 = .finite 5 := by simp [double.of_size_t]
    simp only [e12, e5, weight, areas, raster_point.to_point, a0, a1, a2, area_sum, finite_add]
    rw [finite_div _ _ (by norm_num), finite_div _ _ (by norm_num),
      finite_div _ _ (by norm_num)]
    norm_num
  · rw [t0, tt, finite_div _ _ (by norm_num)]
    norm_num
  · rw [t1, tt, finite_div _ _ (by norm_num)]
    norm_num
  · rw [t2, tt, finite_div _ _ (by norm_num)]
    norm_num

/-! ## The rectangle of whole numbers in `subbitmap` -/

/-- A loop over `0, …, n - 1` whose body keeps an invariant returns, and the invariant
holds of what it returns. -/
theorem foldlM_range_invariant {β : Type} (body : β → Nat → Except bmp.failure β)
    (P : Nat → β → Prop) (n : Nat) (b0 : β) (h0 : P 0 b0)
    (hstep : ∀ k b, k < n → P k b → ∃ b', body b k = .ok b' ∧ P (k + 1) b') :
    ∃ b', (List.range n).foldlM body b0 = .ok b' ∧ P n b' := by
  induction n with
  | zero => exact ⟨b0, rfl, h0⟩
  | succ n ih =>
    obtain ⟨b1, e1, p1⟩ := ih (fun k b hk hp => hstep k b (by omega) hp)
    obtain ⟨b2, e2, p2⟩ := hstep n b1 (by omega) p1
    refine ⟨b2, ?_, p2⟩
    rw [List.range_succ, List.foldlM_append, e1]
    show List.foldlM body b1 [n] = _
    rw [List.foldlM_cons, e2]
    rfl

theorem add_size_t_eq (a b : Nat) (h : a + b < 2 ^ 64) : bmp.add_size_t a b = a + b :=
  Nat.mod_eq_of_lt h

theorem mul_size_t_eq (a b : Nat) (h : a * b < 2 ^ 64) : bmp.mul_size_t a b = a * b :=
  Nat.mod_eq_of_lt h

/-- A coordinate that is the whole number `x`, of an integral type or a `double`. -/
theorem coordinate_whole (c : bmp.coordinate) (x : Nat) (hx : x < 2 ^ 64)
    (hc : c = .integral x ∨ c = .floating (.finite x)) :
    c.lt_zero = false ∧ bmp.detail.to_size_t c = .ok x ∧ bmp.detail.is_integral c = true := by
  rcases hc with hc | hc
  · subst hc
    refine ⟨by simp [bmp.coordinate.lt_zero], ?_, rfl⟩
    simp only [bmp.detail.to_size_t, bmp.detail.size_t_of_integral]
    congr 1
    have : ((x : Int)) % 2 ^ 64 = x := Int.emod_eq_of_lt (by omega) (by exact_mod_cast hx)
    rw [this]
    rfl
  · subst hc
    refine ⟨by simp [bmp.coordinate.lt_zero, double.lt], ?_, ?_⟩
    · have e : double.floor (.finite (x : ℚ)) = .finite ((x : Int) : ℚ) := by
        simp [double.floor]
      have hx2 : (x : Int) < 2 ^ 64 := by exact_mod_cast hx
      simp only [bmp.detail.to_size_t, e, double.to_size_t, truncate_intCast]
      rw [if_pos ⟨by omega, hx2⟩]
      rfl
    · simp [bmp.detail.is_integral, double.floor, double.eq]

theorem size_t_of_integral_natCast (w : Nat) (hw : w < 2 ^ 64) :
    bmp.detail.size_t_of_integral (w : Int) = w := by
  unfold bmp.detail.size_t_of_integral
  have : ((w : Int)) % 2 ^ 64 = w := Int.emod_eq_of_lt (by omega) (by exact_mod_cast hw)
  rw [this]
  rfl

/-- A rectangle of whole numbers goes to the first branch of `detail::subbitmap`. -/
theorem subbitmap_whole (org : bitmap double) (cx cy : bmp.coordinate) (x y w h : Nat)
    (hcx : cx = .integral x ∨ cx = .floating (.finite x))
    (hcy : cy = .integral y ∨ cy = .floating (.finite y))
    (hx : x + w < 2 ^ 64) (hy : y + h < 2 ^ 64) :
    bmp.subbitmap org ⟨cx, cy, w, h⟩ =
      bmp.detail.subbitmap org (.integral x) (.integral y) ⟨x, y, w, h⟩ := by
  obtain ⟨a1, a2, a3⟩ := coordinate_whole cx x (by omega) hcx
  obtain ⟨b1, b2, b3⟩ := coordinate_whole cy y (by omega) hcy
  have c1 : bmp.detail.subbitmap_check_rect ⟨cx, cy, w, h⟩ = .ok () := by
    unfold bmp.detail.subbitmap_check_rect
    rw [if_neg]
    simp
  unfold bmp.subbitmap
  simp only [c1, a1, a2, a3, b1, b2, b3, size_t_of_integral_natCast w (by omega),
    size_t_of_integral_natCast h (by omega)]
  simp

/-- The rows that `copy` has written. -/
theorem copy_row_invariant (org : bitmap double) (x y w h k : Nat) (t : bitmap double)
    (hv : bmp.valid org) (hx : x + w ≤ org.w) (hy : y + h ≤ org.h) (hk : k < h)
    (h1 : t.w = w) (h2 : t.h = h) (h3 : t.data.length = w * h)
    (h4 : ∀ j i, j < k → i < w → t.data[j * w + i]? = org.data[(y + j) * org.w + (x + i)]?) :
    ∃ t', bmp.detail.copy_row org ⟨x, y, w, h⟩ t k = .ok t' ∧ t'.w = w ∧ t'.h = h ∧
      t'.data.length = w * h ∧
      ∀ j i, j < k + 1 → i < w → t'.data[j * w + i]? = org.data[(y + j) * org.w + (x + i)]? := by
  obtain ⟨v1, v2, v3, v4⟩ := hv
  have m1 : (y + k + 1) * org.w ≤ org.h * org.w := Nat.mul_le_mul_right _ (by omega)
  have m1' : (y + k + 1) * org.w = (y + k) * org.w + org.w := by ring
  have m2 : (k + 1) * w ≤ h * w := Nat.mul_le_mul_right _ (by omega)
  have m2' : (k + 1) * w = k * w + w := by ring
  have m3 : h * w ≤ org.h * org.w := Nat.mul_le_mul (by omega) (by omega)
  have m4 : org.h * org.w = org.w * org.h := Nat.mul_comm _ _
  have m5 : h * w = w * h := Nat.mul_comm _ _
  have e1 : bmp.add_size_t (bmp.mul_size_t (bmp.add_size_t y k) org.w) x =
      (y + k) * org.w + x := by
    rw [add_size_t_eq y k (by omega), mul_size_t_eq _ _ (by omega), add_size_t_eq _ _ (by omega)]
  have e2 : bmp.add_size_t (bmp.mul_size_t (bmp.add_size_t 0 k) t.w) 0 = k * w := by
    rw [add_size_t_eq 0 k (by omega), h1, Nat.zero_add, mul_size_t_eq _ _ (by omega),
      add_size_t_eq _ _ (by omega), Nat.add_zero]
  unfold bmp.detail.copy_row
  simp only [e1, e2]
  rw [if_pos ⟨by omega, by omega⟩]
  refine ⟨_, rfl, h1, h2, ?_, ?_⟩
  · simp only [List.length_append, List.length_take, List.length_drop]
    omega
  · intro j i hj hi
    show (List.take (k * w) t.data ++ List.take w (List.drop ((y + k) * org.w + x) org.data) ++
      List.drop (k * w + w) t.data)[j * w + i]? = _
    have lt : (List.take (k * w) t.data).length = k * w := by
      rw [List.length_take]; omega
    have lm : (List.take w (List.drop ((y + k) * org.w + x) org.data)).length = w := by
      rw [List.length_take, List.length_drop]; omega
    rw [List.append_assoc]
    by_cases c : j < k
    · have m6 : (j + 1) * w ≤ k * w := Nat.mul_le_mul_right _ (by omega)
      have m6' : (j + 1) * w = j * w + w := by ring
      rw [List.getElem?_append_left (by omega), List.getElem?_take_of_lt (by omega)]
      exact h4 j i c hi
    · have ej : j = k := by omega
      subst ej
      rw [List.getElem?_append_right (by omega), lt, Nat.add_sub_cancel_left,
        List.getElem?_append_left (by omega), List.getElem?_take_of_lt hi, List.getElem?_drop]
      congr 1
      omega

/-- The first branch of `detail::subbitmap` on a rectangle inside the bitmap. -/
theorem subbitmap_copy (org : bitmap double) (x y w h : Nat)
    (hv : bmp.valid org) (hx : x + w ≤ org.w) (hy : y + h ≤ org.h) :
    ∃ r, bmp.detail.copy (bitmap.create w h (.finite 0)) org ⟨x, y, w, h⟩ = .ok r ∧
      r.w = w ∧ r.h = h ∧ r.data.length = w * h ∧
      ∀ j i, j < h → i < w → r.data[j * w + i]? = org.data[(y + j) * org.w + (x + i)]? := by
  unfold bmp.detail.copy
  exact foldlM_range_invariant (bmp.detail.copy_row org ⟨x, y, w, h⟩)
    (fun k t => t.w = w ∧ t.h = h ∧ t.data.length = w * h ∧
      ∀ j i, j < k → i < w → t.data[j * w + i]? = org.data[(y + j) * org.w + (x + i)]?)
    h _ ⟨rfl, rfl, by simp [bitmap.create], fun j i hj _ => absurd hj (by omega)⟩
    (fun k t hk ⟨h1, h2, h3, h4⟩ => copy_row_invariant org x y w h k t hv hx hy hk h1 h2 h3 h4)

/-- C32, with the sums that `std::size_t` holds: for a bitmap `org` and a rectangle with
the corner `(x, y)` of whole numbers that are not negative, given in an integral type or
as a `double`, and the size `w`, `h`, such that `x + w` and `y + h` are below `2 ^ 64`:
when `x + w ≤ org.w` and `y + h ≤ org.h`, `subbitmap` returns a bitmap `r` of `w × h`
values with `r(i, j) = org(x + i, y + j)`; otherwise it throws `std::out_of_range`.
For every rectangle, a negative `w` or `h` throws a `std::logic_error` that is no
`std::out_of_range`, and with a size that is not negative a negative `x` or `y` throws
`std::out_of_range`. -/
theorem C32_subbitmap_whole_rectangle (org : bitmap double) (cx cy : bmp.coordinate)
    (x y w h : Nat) (hv : bmp.valid org)
    (hcx : cx = .integral x ∨ cx = .floating (.finite x))
    (hcy : cy = .integral y ∨ cy = .floating (.finite y))
    (hx : x + w < 2 ^ 64) (hy : y + h < 2 ^ 64) :
    (x + w ≤ org.w ∧ y + h ≤ org.h →
      ∃ r, bmp.subbitmap org ⟨cx, cy, w, h⟩ = .ok r ∧ r.w = w ∧ r.h = h ∧
        r.data.length = w * h ∧
        ∀ i j, i < w → j < h →
          ∃ v, r.get? i j = some v ∧ org.get? (x + i) (y + j) = some v) ∧
    (¬ (x + w ≤ org.w ∧ y + h ≤ org.h) →
      bmp.subbitmap org ⟨cx, cy, w, h⟩ = .error .out_of_range) ∧
    (∀ r : bmp.rect, r.w < 0 ∨ r.h < 0 → bmp.subbitmap org r = .error .logic_error) ∧
    (∀ r : bmp.rect, 0 ≤ r.w → 0 ≤ r.h → r.x.lt_zero = true ∨ r.y.lt_zero = true →
      bmp.subbitmap org r = .error .out_of_range) := by
  refine ⟨?_, ?_, ?_, ?_⟩
  · rintro ⟨gx, gy⟩
    obtain ⟨r, e, r1, r2, r3, r4⟩ := subbitmap_copy org x y w h hv gx gy
    refine ⟨r, ?_, r1, r2, r3, ?_⟩
    · rw [subbitmap_whole org cx cy x y w h hcx hcy hx hy]
      unfold bmp.detail.subbitmap
      simp only [add_size_t_eq x w hx, add_size_t_eq y h hy]
      rw [if_neg (by omega)]
      exact e
    · intro i j hi hj
      obtain ⟨v1, v2, v3, v4⟩ := hv
      have m1 : (y + j + 1) * org.w ≤ org.h * org.w := Nat.mul_le_mul_right _ (by omega)
      have m1' : (y + j + 1) * org.w = (y + j) * org.w + org.w := by ring
      have m4 : org.h * org.w = org.w * org.h := Nat.mul_comm _ _
      have hl : (y + j) * org.w + (x + i) < org.data.length := by omega
      refine ⟨org.data[(y + j) * org.w + (x + i)], ?_, ?_⟩
      · unfold bitmap.get?
        rw [if_pos ⟨by omega, by omega⟩, r1, r4 j i hj hi, List.getElem?_eq_getElem hl]
      · unfold bitmap.get?
        rw [if_pos ⟨by omega, by omega⟩, List.getElem?_eq_getElem hl]
  · intro g
    rw [subbitmap_whole org cx cy x y w h hcx hcy hx hy]
    unfold bmp.detail.subbitmap
    simp only [add_size_t_eq x w hx, add_size_t_eq y h hy]
    rw [if_pos (by omega)]
  · intro r g
    unfold bmp.subbitmap bmp.detail.subbitmap_check_rect
    rw [if_pos g]
  · intro r g1 g2 g
    unfold bmp.subbitmap bmp.detail.subbitmap_check_rect
    rw [if_neg (by omega)]
    simp only []
    rw [if_pos g]

/-- An instance of C32: the rectangle with the corner `(1, 0)` and the size `1 × 2` of a
`2 × 2` bitmap. -/
theorem C32_subbitmap_whole_rectangle_witness :
    bmp.valid ⟨2, 2, [.finite 1, .finite 2, .finite 3, .finite 4]⟩ ∧
    (∃ r, bmp.subbitmap ⟨2, 2, [.finite 1, .finite 2, .finite 3, .finite 4]⟩
        ⟨.floating (.finite (1 : Nat)), .integral (0 : Nat), (1 : Nat), (2 : Nat)⟩ = .ok r ∧
      r.w = 1 ∧ r.h = 2 ∧ r.data.length = 1 * 2 ∧
      ∀ i j, i < 1 → j < 2 →
        ∃ v, r.get? i j = some v ∧
          (bitmap.mk 2 2 [.finite 1, .finite 2, .finite 3, .finite 4]).get? (1 + i) (0 + j) =
            some v) :=
  ⟨by decide,
    (C32_subbitmap_whole_rectangle ⟨2, 2, [.finite 1, .finite 2, .finite 3, .finite 4]⟩
      (.floating (.finite (1 : Nat))) (.integral (0 : Nat)) 1 0 1 2 (by decide)
      (Or.inr rfl) (Or.inl rfl) (by decide) (by decide)).1 ⟨by decide, by decide⟩⟩

/-- C32 fails when a sum wraps: for a `1 × 1` bitmap and the rectangle of `std::size_t`
with `x = 2 ^ 64 - 1` and `w = 1`, and for the rectangle with the `double`
`x = 2 ^ 64 - 2048` and `w = 2048`, the sum `x + w` is `2 ^ 64`, which is above the
width 1, and wraps to 0; the test passes, `copy` reads behind the values of the bitmap,
which is undefined, and no `std::out_of_range` is thrown. -/
theorem C32_wrapped_sum_counterexample :
    bmp.subbitmap ⟨1, 1, [.finite 7]⟩ ⟨.integral 18446744073709551615, .integral 0, 1, 1⟩ =
      .error .undefined_behavior ∧
    bmp.subbitmap ⟨1, 1, [.finite 7]⟩
        ⟨.floating (.finite 18446744073709549568), .integral 0, 2048, 1⟩ =
      .error .undefined_behavior ∧
    ¬ ((18446744073709551615 : Nat) + 1 ≤ (bitmap.mk 1 1 [double.of_size_t 7]).w) := by
  refine ⟨by decide!, by decide!, by decide⟩

/-! ## The ratio of the interpolation in one direction -/

/-- Two loops over the pixels of a `w × h` bitmap, whose body writes the value `val x y`
to the pixel `(x, y)`, give the grid of these values. -/
theorem pixel_loops (w h : Nat) (z : double) (val : Nat → Nat → double)
    (body : Nat → bitmap double → Nat → Except bmp.failure (bitmap double))
    (hb : ∀ y x g, y < h → x < w →
      body y ⟨w, h, cells w h g⟩ x =
        .ok ((bitmap.mk w h (cells w h g)).modify x y (fun _ => val x y))) :
    (List.range h).foldlM (fun t y => (List.range w).foldlM (body y) t)
        (bitmap.create w h z) = .ok ⟨w, h, cells w h val⟩ := by
  obtain ⟨r, e, p⟩ := foldlM_range_invariant
    (fun t y => (List.range w).foldlM (body y) t)
    (fun k t => t = ⟨w, h, cells w h (fun i j => if j < k then val i j else z)⟩)
    h (bitmap.create w h z)
    (by
      rw [create_cells]
      simp only [bitmap.mk.injEq, true_and]
      exact cells_congr w h _ _ (fun a b _ _ => by rw [if_neg (by omega)]))
    (by
      intro k t hk ht
      obtain ⟨r, e, p⟩ := foldlM_range_invariant (body k)
        (fun m t => t = ⟨w, h, cells w h
          (fun i j => if j < k ∨ (j = k ∧ i < m) then val i j else z)⟩)
        w t
        (by
          rw [ht]
          simp only [bitmap.mk.injEq, true_and]
          exact cells_congr w h _ _ (fun a b _ _ => by
            by_cases c : b < k
            · rw [if_pos c, if_pos (Or.inl c)]
            · rw [if_neg c, if_neg (by omega)]))
        (by
          intro m t hm ht
          refine ⟨_, by rw [ht]; exact hb k m _ hk hm, ?_⟩
          rw [modify_cells w h _ m k _ hm]
          simp only [bitmap.mk.injEq, true_and]
          exact cells_congr w h _ _ (fun a b _ _ => by
            by_cases c : a = m ∧ b = k
            · rw [if_pos c, if_pos (by omega), c.1, c.2]
            · by_cases d : b < k ∨ (b = k ∧ a < m)
              · rw [if_neg c, if_pos d, if_pos (by omega)]
              · rw [if_neg c, if_neg d, if_neg (by omega)]))
      refine ⟨r, e, ?_⟩
      rw [p]
      simp only [bitmap.mk.injEq, true_and]
      exact cells_congr w h _ _ (fun a b ha _ => by
        by_cases c : b < k + 1
        · rw [if_pos c, if_pos (by omega)]
        · rw [if_neg c, if_neg (by omega)]))
  rw [e, p]
  congr 2
  exact cells_congr w h _ _ (fun a b _ hb2 => by rw [if_pos hb2])

/-- A read inside a grid. -/
theorem read_cells (w h : Nat) (g : Nat → Nat → double) (x y : Nat) (hx : x < w) (hy : y < h) :
    bmp.read ⟨w, h, cells w h g⟩ x y = .ok (g x y) := by
  unfold bmp.read
  rw [get?_cells, if_pos ⟨hx, hy⟩]

/-- The function `y_interpolate` on a rectangle whose rows and the row below are inside the
bitmap. -/
theorem y_interpolate_cells (W H : Nat) (g : Nat → Nat → double) (x y w h : Nat) (ratio : double)
    (hW : W < 2 ^ 64) (hH : H < 2 ^ 64) (hx : x + w ≤ W) (hy : y + 1 + h ≤ H) :
    bmp.detail.y_interpolate (bitmap.create w h (.finite 0)) ⟨W, H, cells W H g⟩ ⟨x, y, w, h⟩
        ratio =
      .ok ⟨w, h, cells w h
        (fun i j => bmp.interpolate ratio (g (x + i) (y + j)) (g (x + i) (y + j + 1)))⟩ := by
  unfold bmp.detail.y_interpolate
  apply pixel_loops w h (.finite 0)
    (fun i j => bmp.interpolate ratio (g (x + i) (y + j)) (g (x + i) (y + j + 1)))
  intro b a g2 hb ha
  unfold bmp.detail.y_interpolate_pixel
  simp only [add_size_t_eq x a (by omega), add_size_t_eq y b (by omega),
    add_size_t_eq (y + b) 1 (by omega), add_size_t_eq 0 a (by omega),
    add_size_t_eq 0 b (by omega), Nat.zero_add,
    read_cells W H g (x + a) (y + b) (by omega) (by omega),
    read_cells W H g (x + a) (y + b + 1) (by omega) (by omega)]
  unfold bmp.write
  rw [if_pos ⟨ha, hb⟩]

/-- The function `x_interpolate` on a rectangle whose columns and the column to the right
are inside the bitmap. -/
theorem x_interpolate_cells (W H : Nat) (g : Nat → Nat → double) (x y w h : Nat) (ratio : double)
    (hW : W < 2 ^ 64) (hH : H < 2 ^ 64) (hx : x + 1 + w ≤ W) (hy : y + h ≤ H) :
    bmp.detail.x_interpolate (bitmap.create w h (.finite 0)) ⟨W, H, cells W H g⟩ ⟨x, y, w, h⟩
        ratio =
      .ok ⟨w, h, cells w h
        (fun i j => bmp.interpolate ratio (g (x + i) (y + j)) (g (x + i + 1) (y + j)))⟩ := by
  unfold bmp.detail.x_interpolate
  apply pixel_loops w h (.finite 0)
    (fun i j => bmp.interpolate ratio (g (x + i) (y + j)) (g (x + i + 1) (y + j)))
  intro b a g2 hb ha
  unfold bmp.detail.x_interpolate_pixel
  simp only [add_size_t_eq x a (by omega), add_size_t_eq y b (by omega),
    add_size_t_eq (x + a) 1 (by omega), add_size_t_eq 0 a (by omega),
    add_size_t_eq 0 b (by omega), Nat.zero_add,
    read_cells W H g (x + a) (y + b) (by omega) (by omega),
    read_cells W H g (x + a + 1) (y + b) (by omega) (by omega)]
  unfold bmp.write
  rw [if_pos ⟨ha, hb⟩]

/-- A coordinate of the type `double` between the whole numbers `y` and `y + 1`. -/
theorem coordinate_between (y : Nat) (f : ℚ) (hy : y < 2 ^ 64) (hf0 : 0 < f) (hf1 : f < 1) :
    (bmp.coordinate.floating (.finite (y + f))).lt_zero = false ∧
      bmp.detail.to_size_t (.floating (.finite (y + f))) = .ok y ∧
      bmp.detail.is_integral (.floating (.finite (y + f))) = false ∧
      (1 : double) - ((.finite (y + f) : double) - double.floor (.finite (y + f))) =
        .finite (1 - f) := by
  have y0 : (0 : ℚ) ≤ y := Nat.cast_nonneg y
  have fl : ⌊(y : ℚ) + f⌋ = (y : Int) := by
    rw [Int.floor_eq_iff]
    constructor
    · push_cast; linarith
    · push_cast; linarith
  have e : double.floor (.finite ((y : ℚ) + f)) = .finite ((y : Int) : ℚ) := by
    simp only [double.floor, fl]
  have hy2 : (y : Int) < 2 ^ 64 := by exact_mod_cast hy
  refine ⟨?_, ?_, ?_, ?_⟩
  · simp only [bmp.coordinate.lt_zero, double.lt, decide_eq_false_iff_not, not_lt]
    linarith
  · simp only [bmp.detail.to_size_t, e, double.to_size_t, truncate_intCast]
    rw [if_pos ⟨by omega, hy2⟩]
    rfl
  · simp only [bmp.detail.is_integral, e, double.eq, decide_eq_false_iff_not]
    intro c
    injection c with c
    push_cast at c
    linarith
  · rw [e, finite_sub]
    show (.finite 1 : double) - _ = _
    rw [finite_sub]
    congr 1
    push_cast
    ring

/-- The comparison `<=` of `double` on numbers. -/
theorem le_finite (a b : ℚ) : bmp.le (.finite a) (.finite b) = decide (a ≤ b) := by
  unfold bmp.le
  simp only [double.lt, double.eq]
  rw [Bool.eq_iff_iff]
  simp only [Bool.or_eq_true, decide_eq_true_eq, ply.floating.finite.injEq]
  exact le_iff_lt_or_eq.symm

/-- The function `std::lerp` of libstdc++ on numbers, in exact arithmetic. -/
theorem lerp_finite (a b t : ℚ) :
    bmp.lerp (.finite a) (.finite b) (.finite t) = .finite ((1 - t) * a + t * b) := by
  unfold bmp.lerp
  have z : (0 : double) = .finite 0 := rfl
  have o : (1 : double) = .finite 1 := rfl
  simp only [z, o, le_finite, finite_sub, finite_mul, finite_add, double.lt, double.eq,
    decide_eq_true_eq, ply.floating.finite.injEq]
  split
  · congr 1
    ring
  · split
    · rename_i ht
      rw [ht]
      congr 1
      ring
    · rename_i h1 ht
      have hx : a + t * (b - a) - b = (1 - t) * (a - b) := by ring
      have e : (1 - t) * a + t * b = a + t * (b - a) := by ring
      rw [e]
      split
      · rename_i hc
        split
        · rfl
        · rename_i hlt
          congr 1
          have hle : a + t * (b - a) ≤ b := not_lt.mp hlt
          rcases lt_trichotomy t 1 with h | h | h
          · have hab : ¬ a < b := by
              intro hab
              have : decide (1 < t) = decide (a < b) := hc
              simp [hab, not_lt.mpr (le_of_lt h)] at this
            nlinarith
          · exact absurd h ht
          · have hab : a < b := by
              have : decide (1 < t) = decide (a < b) := hc
              simpa [h] using this.symm
            nlinarith
      · rename_i hc
        split
        · rfl
        · rename_i hlt
          congr 1
          have hle : b ≤ a + t * (b - a) := not_lt.mp hlt
          rcases lt_trichotomy t 1 with h | h | h
          · have hab : a < b := by
              by_contra hab
              apply hc
              simp [hab, not_lt.mpr (le_of_lt h)]
            nlinarith
          · exact absurd h ht
          · have hab : ¬ a < b := by
              intro hab
              apply hc
              simp [hab, h]
            nlinarith

/-- The value of `interpolate` on numbers. -/
theorem interpolate_finite (r a b : ℚ) :
    bmp.interpolate (.finite r) (.finite a) (.finite b) = .finite ((1 - r) * a + r * b) := by
  unfold bmp.interpolate
  exact lerp_finite a b r

/-- C40 fails, for every rectangle that is in range for the bilinear path, with a corner
`(x, y)` of whole numbers and a fraction `f` strictly between 0 and 1, on a bitmap of the
numbers `q`: with the corner `(x, y + f)` the result pixel `(i, j)` is
`f q(x + i, y + j) + (1 - f) q(x + i, y + j + 1)`, since `detail::subbitmap` passes the
ratio `1 - f` to `y_interpolate`, and with the corner `(x + f, y)` it is
`f q(x + i, y + j) + (1 - f) q(x + i + 1, y + j)`; the bilinear function `interpolate_2d`
with the ratios `0` and `f` gives `(1 - f) tl + f bl`, and with `f` and `0` it gives
`(1 - f) tl + f tr`. The two values of a pixel are equal only for `f = 1/2` or for equal
values of the two pixels that are read. -/
theorem C40_one_direction_ratio (W H : Nat) (q : Nat → Nat → ℚ) (cx cy : bmp.coordinate)
    (x y w h : Nat) (f : ℚ)
    (hW : W < 2 ^ 64) (hH : H < 2 ^ 64) (hf0 : 0 < f) (hf1 : f < 1)
    (hcx : cx = .integral x ∨ cx = .floating (.finite x))
    (hcy : cy = .integral y ∨ cy = .floating (.finite y))
    (hx : x + 1 + w ≤ W) (hy : y + 1 + h ≤ H) :
    bmp.subbitmap ⟨W, H, cells W H (fun i j => .finite (q i j))⟩
        ⟨cx, .floating (.finite (y + f)), w, h⟩ =
      .ok ⟨w, h, cells w h
        (fun i j => .finite (f * q (x + i) (y + j) + (1 - f) * q (x + i) (y + j + 1)))⟩ ∧
    bmp.subbitmap ⟨W, H, cells W H (fun i j => .finite (q i j))⟩
        ⟨.floating (.finite (x + f)), cy, w, h⟩ =
      .ok ⟨w, h, cells w h
        (fun i j => .finite (f * q (x + i) (y + j) + (1 - f) * q (x + i + 1) (y + j)))⟩ ∧
    (∀ tl tr bl br : ℚ,
      bmp.interpolate_2d (.finite 0) (.finite f) (.finite tl) (.finite tr) (.finite bl)
          (.finite br) = .finite ((1 - f) * tl + f * bl) ∧
      bmp.interpolate_2d (.finite f) (.finite 0) (.finite tl) (.finite tr) (.finite bl)
          (.finite br) = .finite ((1 - f) * tl + f * tr)) ∧
    (∀ a b : ℚ, f * a + (1 - f) * b = (1 - f) * a + f * b ↔ f = 1 / 2 ∨ a = b) := by
  obtain ⟨a1, a2, a3⟩ := coordinate_whole cx x (by omega) hcx
  obtain ⟨b1, b2, b3⟩ := coordinate_whole cy y (by omega) hcy
  obtain ⟨c1, c2, c3, c4⟩ := coordinate_between x f (by omega) hf0 hf1
  obtain ⟨d1, d2, d3, d4⟩ := coordinate_between y f (by omega) hf0 hf1
  have k1 : ∀ c1 c2, bmp.detail.subbitmap_check_rect ⟨c1, c2, w, h⟩ = .ok () := by
    intro c1 c2
    unfold bmp.detail.subbitmap_check_rect
    rw [if_neg]
    simp
  refine ⟨?_, ?_, ?_, ?_⟩
  · unfold bmp.subbitmap
    simp only [k1, a1, a2, a3, d1, d2, d3, size_t_of_integral_natCast w (by omega),
      size_t_of_integral_natCast h (by omega)]
    simp only [Bool.false_eq_true, or_self, if_false, and_false, if_true]
    unfold bmp.detail.subbitmap
    simp only [add_size_t_eq x w (by omega), add_size_t_eq y 1 (by omega),
      add_size_t_eq (y + 1) h (by omega)]
    rw [if_neg (by omega), d4, y_interpolate_cells W H _ x y w h _ hW hH (by omega) hy]
    congr 2
    exact cells_congr w h _ _ (fun a b _ _ => by
      rw [interpolate_finite]
      congr 1
      ring)
  · unfold bmp.subbitmap
    simp only [k1, b1, b2, b3, c1, c2, c3, size_t_of_integral_natCast w (by omega),
      size_t_of_integral_natCast h (by omega)]
    simp only [Bool.false_eq_true, or_self, if_false, false_and, if_true]
    unfold bmp.detail.subbitmap
    simp only [add_size_t_eq y h (by omega), add_size_t_eq x 1 (by omega),
      add_size_t_eq (x + 1) w (by omega)]
    rw [if_neg (by omega), c4, x_interpolate_cells W H _ x y w h _ hW hH hx (by omega)]
    congr 2
    exact cells_congr w h _ _ (fun a b _ _ => by
      rw [interpolate_finite]
      congr 1
      ring)
  · intro tl tr bl br
    unfold bmp.interpolate_2d
    simp only [interpolate_finite]
    constructor
    · congr 1; ring
    · congr 1; ring
  · intro a b
    constructor
    · intro e
      have e2 : (2 * f - 1) * (a - b) = 0 := by linear_combination e
      rcases mul_eq_zero.mp e2 with e3 | e3
      · left; linarith
      · right; linarith
    · rintro (e | e)
      · rw [e]; ring
      · rw [e]; ring

/-- An instance of C40, which is the failing input: the `2 × 2` bitmap with the rows
`0 0` and `1 1` and the rectangle with the corner `(0, 1/4)` and the size `1 × 1`; the
result pixel is `3/4`, the bilinear value is `1/4`. -/
theorem C40_one_direction_ratio_witness :
    ((0 : ℚ) < 1 / 4 ∧ (1 / 4 : ℚ) < 1 ∧ 0 + 1 + 1 ≤ 2) ∧
    bmp.subbitmap ⟨2, 2, cells 2 2 (fun _ j => .finite (j : ℚ))⟩
        ⟨.integral (0 : Nat), .floating (.finite ((0 : Nat) + 1 / 4)), (1 : Nat), (1 : Nat)⟩ =
      .ok ⟨1, 1, [.finite (3 / 4)]⟩ ∧
    bmp.interpolate_2d (.finite 0) (.finite (1 / 4)) (.finite 0) (.finite 0) (.finite 1)
        (.finite 1) = .finite (1 / 4) :=
  ⟨⟨by norm_num, by norm_num, by decide⟩,
    (C40_one_direction_ratio 2 2 (fun _ j => j) (.integral (0 : Nat))
      (.integral (0 : Nat)) 0 0 1 1 (1 / 4) (by decide) (by decide) (by norm_num) (by norm_num)
      (Or.inl rfl) (Or.inl rfl) (by decide) (by decide)).1.trans (by decide!),
    by decide!⟩

/-! ## The accesses of the raster mode stay inside the images -/

theorem overflow_not_index_failure :
    ¬ index_failure (.undefined_behavior "signed integer overflow") := by
  unfold index_failure
  decide

theorem extent_error (a b : Int) (e : failure) (h : extent a b = .error e) :
    e = .undefined_behavior "signed integer overflow" := by
  unfold extent at h
  split at h
  · rename_i e1 he1
    simp only [Except.error.injEq] at h
    rw [← h]
    exact int64_error _ _ he1
  · split at h
    · rename_i e1 he1
      simp only [Except.error.injEq] at h
      rw [← h]
      exact int64_error _ _ he1
    · exact absurd h (by simp)

/-- An extent is a value of `std::size_t`. -/
theorem extent_lt (a b : Int) (n : Nat) (h : extent a b = .ok n) : n < 2 ^ 64 := by
  unfold extent at h
  split at h
  · exact absurd h (by simp)
  · split at h
    · exact absurd h (by simp)
    · simp only [Except.ok.injEq] at h
      rw [← h]
      unfold size_t_of_int64
      omega

theorem clamp_bounds (v lo hi c : Int) (h : clamp v lo hi = .ok c) : lo ≤ c ∧ c ≤ hi := by
  unfold clamp at h
  split at h
  · exact absurd h (by simp)
  · split at h
    · simp only [Except.ok.injEq] at h
      omega
    · split at h
      · simp only [Except.ok.injEq] at h
        omega
      · simp only [Except.ok.injEq] at h
        omega

/-- The greatest index of a size, as a `std::int64_t`, is below the size. -/
theorem int64_of_pred_lt (size : Nat) : int64_of_size_t (pred_size_t size) < size := by
  unfold int64_of_size_t pred_size_t
  by_cases c : size = 0
  · rw [if_pos c, if_neg (by omega)]
    omega
  · rw [if_neg c]
    by_cases d : size - 1 < 2 ^ 63
    · rw [if_pos d]
      omega
    · rw [if_neg d]
      omega

/-- A bound of the bounding box is below the size of the image. -/
theorem box_bound_lt (v : double) (size b : Nat) (h : box_bound v size = .ok b) : b < size := by
  unfold box_bound at h
  split at h
  · exact absurd h (by simp)
  · rename_i z hz
    split at h
    · exact absurd h (by simp)
    · rename_i c hc
      simp only [Except.ok.injEq] at h
      rw [← h]
      obtain ⟨c1, c2⟩ := clamp_bounds _ _ _ _ hc
      have c3 := int64_of_pred_lt size
      unfold size_t_of_int64
      omega

theorem box_bound_not_index_failure (v : double) (size : Nat) (e : failure)
    (h : box_bound v size = .error e) : ¬ index_failure e := by
  unfold box_bound at h
  split at h
  · simp only [Except.error.injEq] at h
    rw [← h]
    unfold index_failure
    decide
  · split at h
    · rename_i e1 he1
      simp only [Except.error.injEq] at h
      rw [← h]
      unfold clamp at he1
      split at he1
      · simp only [Except.error.injEq] at he1
        rw [← he1]
        unfold index_failure
        decide
      · split at he1
        · exact absurd he1 (by simp)
        · split at he1
          · exact absurd he1 (by simp)
          · exact absurd he1 (by simp)
    · exact absurd h (by simp)

/-- A pixel inside the vector image is painted without an exception. -/
theorem paint_pixel_grid (root : ℚ → ℚ) (t : array3 raster_point) (W H : Nat)
    (g : Nat → Nat → List raster_raw_pixel) (x y : Nat) (hx : x < W) (hy : y < H) :
    ∃ g', paint_pixel root t ⟨W, H, cells W H g⟩ x y = .ok ⟨W, H, cells W H g'⟩ := by
  unfold paint_pixel
  simp only [get?_cells, if_pos (And.intro hx hy)]
  split
  · exact ⟨g, rfl⟩
  · have e := push_back_cells W H g x y
    simp only [if_pos (And.intro hx hy)] at e
    exact ⟨_, congrArg Except.ok (e _)⟩

theorem paint_row_grid (root : ℚ → ℚ) (t : array3 raster_point) (W H : Nat) (y : Nat)
    (hy : y < H) (xs : List Nat) (hxs : ∀ x ∈ xs, x < W) :
    ∀ g : Nat → Nat → List raster_raw_pixel,
      ∃ g', paint_row root t y xs ⟨W, H, cells W H g⟩ = .ok ⟨W, H, cells W H g'⟩ := by
  induction xs with
  | nil => exact fun g => ⟨g, rfl⟩
  | cons x xs ih =>
    intro g
    obtain ⟨g1, e1⟩ := paint_pixel_grid root t W H g x y (hxs x (List.mem_cons_self _ _)) hy
    rw [paint_row, e1]
    exact ih (fun a ha => hxs a (List.mem_cons_of_mem _ ha)) g1

theorem paint_rows_grid (root : ℚ → ℚ) (t : array3 raster_point) (W H : Nat)
    (xs : List Nat) (hxs : ∀ x ∈ xs, x < W) (ys : List Nat) (hys : ∀ y ∈ ys, y < H) :
    ∀ g : Nat → Nat → List raster_raw_pixel,
      ∃ g', paint_rows root t xs ys ⟨W, H, cells W H g⟩ = .ok ⟨W, H, cells W H g'⟩ := by
  induction ys with
  | nil => exact fun g => ⟨g, rfl⟩
  | cons y ys ih =>
    intro g
    obtain ⟨g1, e1⟩ := paint_row_grid root t W H y (hys y (List.mem_cons_self _ _)) xs hxs g
    rw [paint_rows, e1]
    exact ih (fun a ha => hys a (List.mem_cons_of_mem _ ha)) g1

/-- The values of a loop `for(i = from; i <= to; ++i)` are at most `to`. -/
theorem from_to_le (i_from i_to i : Nat) (h : i ∈ from_to i_from i_to) : i ≤ i_to := by
  unfold from_to at h
  rw [List.mem_range'_1] at h
  omega

theorem paint_triangle_grid (root : ℚ → ℚ) (W H : Nat)
    (g : Nat → Nat → List raster_raw_pixel) (t : array3 raster_point) :
    keeps_grid W H (paint_triangle root W H ⟨W, H, cells W H g⟩ t) := by
  unfold paint_triangle
  split
  · rename_i e1 he1
    exact Or.inr ⟨_, rfl, box_bound_not_index_failure _ _ _ he1⟩
  · rename_i fx hfx
    split
    · rename_i e1 he1
      exact Or.inr ⟨_, rfl, box_bound_not_index_failure _ _ _ he1⟩
    · rename_i tx htx
      split
      · exact Or.inl ⟨g, rfl⟩
      · split
        · rename_i e1 he1
          exact Or.inr ⟨_, rfl, box_bound_not_index_failure _ _ _ he1⟩
        · rename_i fy hfy
          split
          · rename_i e1 he1
            exact Or.inr ⟨_, rfl, box_bound_not_index_failure _ _ _ he1⟩
          · rename_i ty hty
            split
            · exact Or.inl ⟨g, rfl⟩
            · have bx := box_bound_lt _ _ _ htx
              have b_y := box_bound_lt _ _ _ hty
              exact Or.inl (paint_rows_grid root t W H _
                (fun x hx => by have := from_to_le _ _ _ hx; omega) _
                (fun y hy => by have := from_to_le _ _ _ hy; omega) g)

theorem paint_triangles_grid (root : ℚ → ℚ) (W H : Nat) (ts : List (array3 raster_point)) :
    ∀ g : Nat → Nat → List raster_raw_pixel,
      keeps_grid W H (paint_triangles root W H ts ⟨W, H, cells W H g⟩) := by
  induction ts with
  | nil => exact fun g => Or.inl ⟨g, rfl⟩
  | cons t ts ih =>
    intro g
    rw [paint_triangles]
    rcases paint_triangle_grid root W H g t with ⟨g1, e1⟩ | ⟨e, e1, ne⟩
    · rw [e1]
      exact ih g1
    · rw [e1]
      exact Or.inr ⟨e, rfl, ne⟩

/-- A corner inside the raster image is read without an exception. -/
theorem corner_grid (w h : Nat) (g : Nat → Nat → Option raster_point) (x y : Nat)
    (hx : x < w) (hy : y < h) : ∃ c, corner ⟨w, h, cells w h g⟩ x y = .ok c := by
  unfold corner
  rw [get?_cells, if_pos ⟨hx, hy⟩]
  rcases g x y with _ | p
  · exact ⟨_, rfl⟩
  · exact ⟨_, rfl⟩

/-- The four corners of a block are inside the raster image. -/
theorem region_grid (w h : Nat) (g : Nat → Nat → Option raster_point) (ix iy : Nat)
    (hw : w ≤ 2 ^ 64) (hh : h ≤ 2 ^ 64) (hx : ix + 1 < w) (hy : iy + 1 < h) :
    succ_size_t ix < w ∧ succ_size_t iy < h ∧
      ∃ points, region ⟨w, h, cells w h g⟩ ix iy = .ok points := by
  have sx : succ_size_t ix = ix + 1 := Nat.mod_eq_of_lt (by omega)
  have sy : succ_size_t iy = iy + 1 := Nat.mod_eq_of_lt (by omega)
  refine ⟨by omega, by omega, ?_⟩
  obtain ⟨c0, e0⟩ := corner_grid w h g ix iy (by omega) (by omega)
  obtain ⟨c1, e1⟩ := corner_grid w h g (ix + 1) iy (by omega) (by omega)
  obtain ⟨c2, e2⟩ := corner_grid w h g ix (iy + 1) (by omega) (by omega)
  obtain ⟨c3, e3⟩ := corner_grid w h g (ix + 1) (iy + 1) (by omega) (by omega)
  unfold region
  rw [sx, sy]
  simp only [e0, e1, e2, e3]
  exact ⟨_, rfl⟩

theorem paint_block_grid (root : ℚ → ℚ) (W H w h : Nat) (r : Nat → Nat → Option raster_point)
    (g : Nat → Nat → List raster_raw_pixel) (ix iy : Nat)
    (hw : w ≤ 2 ^ 64) (hh : h ≤ 2 ^ 64) (hx : ix + 1 < w) (hy : iy + 1 < h) :
    keeps_grid W H (paint_block root W H ⟨w, h, cells w h r⟩ ⟨W, H, cells W H g⟩ ix iy) := by
  obtain ⟨_, _, points, e⟩ := region_grid w h r ix iy hw hh hx hy
  unfold paint_block
  rw [e]
  exact paint_triangles_grid root W H _ g

theorem paint_block_row_grid (root : ℚ → ℚ) (W H w h : Nat)
    (r : Nat → Nat → Option raster_point) (iy : Nat)
    (hw : w ≤ 2 ^ 64) (hh : h ≤ 2 ^ 64) (hy : iy + 1 < h) (ixs : List Nat)
    (hxs : ∀ ix ∈ ixs, ix + 1 < w) :
    ∀ g : Nat → Nat → List raster_raw_pixel,
      keeps_grid W H
        (paint_block_row root W H ⟨w, h, cells w h r⟩ iy ixs ⟨W, H, cells W H g⟩) := by
  induction ixs with
  | nil => exact fun g => Or.inl ⟨g, rfl⟩
  | cons ix ixs ih =>
    intro g
    rw [paint_block_row]
    rcases paint_block_grid root W H w h r g ix iy hw hh (hxs ix (List.mem_cons_self _ _)) hy
      with ⟨g1, e1⟩ | ⟨e, e1, ne⟩
    · rw [e1]
      exact ih (fun a ha => hxs a (List.mem_cons_of_mem _ ha)) g1
    · rw [e1]
      exact Or.inr ⟨e, rfl, ne⟩

theorem paint_block_rows_grid (root : ℚ → ℚ) (W H w h : Nat)
    (r : Nat → Nat → Option raster_point)
    (hw : w ≤ 2 ^ 64) (hh : h ≤ 2 ^ 64) (ixs : List Nat) (hxs : ∀ ix ∈ ixs, ix + 1 < w)
    (iys : List Nat) (hys : ∀ iy ∈ iys, iy + 1 < h) :
    ∀ g : Nat → Nat → List raster_raw_pixel,
      keeps_grid W H
        (paint_block_rows root W H ⟨w, h, cells w h r⟩ ixs iys ⟨W, H, cells W H g⟩) := by
  induction iys with
  | nil => exact fun g => Or.inl ⟨g, rfl⟩
  | cons iy iys ih =>
    intro g
    rw [paint_block_rows]
    rcases paint_block_row_grid root W H w h r iy hw hh (hys iy (List.mem_cons_self _ _)) ixs hxs g
      with ⟨g1, e1⟩ | ⟨e, e1, ne⟩
    · rw [e1]
      exact ih (fun a ha => hys a (List.mem_cons_of_mem _ ha)) g1
    · rw [e1]
      exact Or.inr ⟨e, rfl, ne⟩

theorem out_of_reach_overflow (ref_rx ref_ry : Int) (v : raster_raw_pixel) (e : failure)
    (h : out_of_reach ref_rx ref_ry v = .error e) : ¬ index_failure e := by
  unfold out_of_reach at h
  split at h
  · rename_i e1 he1
    simp only [Except.error.injEq] at h
    rw [← h, int64_error _ _ he1]
    exact overflow_not_index_failure
  · split at h
    · rename_i e1 he1
      simp only [Except.error.injEq] at h
      rw [← h, int64_error _ _ he1]
      exact overflow_not_index_failure
    · split at h
      · exact absurd h (by simp)
      · split at h
        · rename_i e1 he1
          simp only [Except.error.injEq] at h
          rw [← h, int64_error _ _ he1]
          exact overflow_not_index_failure
        · split at h
          · rename_i e1 he1
            simp only [Except.error.injEq] at h
            rw [← h, int64_error _ _ he1]
            exact overflow_not_index_failure
          · exact absurd h (by simp)

theorem erase_out_of_reach_overflow (ref_rx ref_ry : Int) (p : List raster_raw_pixel) :
    ∀ e : failure, erase_out_of_reach ref_rx ref_ry p = .error e → ¬ index_failure e := by
  induction p with
  | nil =>
    intro e h
    simp [erase_out_of_reach] at h
  | cons v vs ih =>
    intro e h
    rw [erase_out_of_reach] at h
    split at h
    · rename_i e1 he1
      simp only [Except.error.injEq] at h
      rw [← h]
      exact out_of_reach_overflow _ _ _ _ he1
    · split at h
      · rename_i e1 he1
        simp only [Except.error.injEq] at h
        rw [← h]
        exact ih _ he1
      · exact absurd h (by simp)

theorem filter_pixel_overflow (largest : Bool) (p : List raster_raw_pixel) (e : failure)
    (h : filter_pixel largest p = .error e) : ¬ index_failure e := by
  cases p with
  | nil => simp [filter_pixel] at h
  | cons v vs =>
    rw [filter_pixel] at h
    exact erase_out_of_reach_overflow _ _ _ _ h

theorem filter_image_overflow (filter : raster_filter)
    (vector_image : bitmap (List raster_raw_pixel)) (e : failure)
    (h : filter_image filter vector_image = .error e) : ¬ index_failure e := by
  unfold filter_image at h
  split at h
  · exact absurd h (by simp)
  · split at h
    · rename_i e1 he1
      simp only [Except.error.injEq] at h
      rw [← h]
      exact transform_error _ _ (fun a e => filter_pixel_overflow false a e) _ _ he1
    · exact absurd h (by simp)
  · split at h
    · rename_i e1 he1
      simp only [Except.error.injEq] at h
      rw [← h]
      exact transform_error _ _ (fun a e => filter_pixel_overflow true a e) _ _ he1
    · exact absurd h (by simp)

/-- The loop that fills the raster image, for points whose places are inside it. -/
theorem fill_raster_image_grid (range : raster_range) (w h : Nat) (points : List raster_point)
    (hp : ∀ p ∈ points, ∃ x y, range.x p.rx = .ok x ∧ range.y p.ry = .ok y ∧ x < w ∧ y < h) :
    ∀ g : Nat → Nat → Option raster_point,
      keeps_grid w h (fill_raster_image range points ⟨w, h, cells w h g⟩) := by
  induction points with
  | nil => exact fun g => Or.inl ⟨g, rfl⟩
  | cons p points ih =>
    intro g
    obtain ⟨x, y, hx, hy, hxw, hyh⟩ := hp p (List.mem_cons_self _ _)
    rcases hg : g x y with _ | q
    · rw [fill_raster_image_cons range w h g p points x y hx hy hxw hyh hg]
      exact ih (fun a ha => hp a (List.mem_cons_of_mem _ ha)) _
    · rw [fill_raster_image_taken range w h g p points x y hx hy hxw hyh (by rw [hg]; rfl)]
      refine Or.inr ⟨_, rfl, ?_⟩
      unfold index_failure
      simp

/-- The places of the points are inside the raster image. -/
theorem range_places (points : List raster_point) (w h : Nat)
    (hw : (find_raster_range points).w = .ok w) (hh : (find_raster_range points).h = .ok h) :
    ∀ p ∈ points, ∃ x y, (find_raster_range points).x p.rx = .ok x ∧
      (find_raster_range points).y p.ry = .ok y ∧ x < w ∧ y < h := by
  intro p hp
  obtain ⟨b1, b2, b3, b4⟩ := find_raster_range_bounds points p hp
  obtain ⟨x, ex, lx, _⟩ := offset_lt_extent _ _ p.rx w b1 b2 hw
  obtain ⟨y, ey, ly, _⟩ := offset_lt_extent _ _ p.ry h b3 b4 hh
  exact ⟨x, y, ex, ey, lx, ly⟩

/-- The raster mode raises no exception of an access outside an image. -/
theorem to_vector_image_raster_index (root : ℚ → ℚ) (width height : Nat)
    (points : List raster_point) (filter : raster_filter) (e : failure)
    (h : to_vector_image_raster root width height points filter = .error e) :
    ¬ index_failure e := by
  unfold to_vector_image_raster at h
  split at h
  · rename_i e1 he1
    simp only [Except.error.injEq] at h
    rw [← h, extent_error _ _ _ he1]
    exact overflow_not_index_failure
  · rename_i w hw
    split at h
    · simp only [Except.error.injEq] at h
      rw [← h]
      unfold index_failure
      simp
    · rename_i w2
      split at h
      · rename_i e1 he1
        simp only [Except.error.injEq] at h
        rw [← h, extent_error _ _ _ he1]
        exact overflow_not_index_failure
      · rename_i h' hh
        split at h
        · simp only [Except.error.injEq] at h
          rw [← h]
          unfold index_failure
          simp
        · rename_i h2
          rw [create_cells] at h
          rcases fill_raster_image_grid (find_raster_range points) w h' points
              (range_places points w h' hw hh) (fun _ _ => none) with ⟨r, e1⟩ | ⟨e', e1, ne⟩
          · rw [e1] at h
            simp only [] at h
            unfold interpolate_raster at h
            rw [create_cells] at h
            have p1 : pred_size_t w = w - 1 := by
              unfold pred_size_t
              rw [if_neg (by omega)]
            have p2 : pred_size_t h' = h' - 1 := by
              unfold pred_size_t
              rw [if_neg (by omega)]
            simp only [p1, p2] at h
            rcases paint_block_rows_grid root width height w h' r
                (Nat.le_of_lt (extent_lt _ _ _ hw)) (Nat.le_of_lt (extent_lt _ _ _ hh))
                (List.range (w - 1)) (fun ix hix => by rw [List.mem_range] at hix; omega)
                (List.range (h' - 1)) (fun iy hiy => by rw [List.mem_range] at hiy; omega)
                (fun _ _ => []) with ⟨g1, e2⟩ | ⟨e', e2, ne⟩
            · rw [e2] at h
              exact filter_image_overflow _ _ _ h
            · rw [e2] at h
              simp only [Except.error.injEq] at h
              rw [← h]
              exact ne
          · rw [e1] at h
            simp only [Except.error.injEq] at h
            rw [← h]
            exact ne

/-- C39: for points whose raster range has `w` columns and `h` rows, 2 at least of each,
and a target image of `width × height` pixels: the place `(range.x(p.rx), range.y(p.ry))`
of every point is inside the `w × h` raster image; for every block `(ix, iy)` of the
loops, `ix < w - 1` and `iy < h - 1`, the corner `(ix + 1, iy + 1)` is inside it and the
four corners are read; every bound of a bounding box is below the size of the target
image, so that the pixels `(x, y)` of the paint loop have `x < width` and `y < height`,
and the pixel of the paint loop is written; and the raster `to_vector_image` raises no
exception of an access outside the raster image or the vector image. -/
theorem C39_index_safety (root : ℚ → ℚ) (width height : Nat) (points : List raster_point)
    (filter : raster_filter) (w h : Nat)
    (hw : (find_raster_range points).w = .ok w) (hh : (find_raster_range points).h = .ok h)
    (h2w : 2 ≤ w) (h2h : 2 ≤ h) :
    (∀ p ∈ points, ∃ x y, (find_raster_range points).x p.rx = .ok x ∧
      (find_raster_range points).y p.ry = .ok y ∧ x < w ∧ y < h) ∧
    (∀ (g : Nat → Nat → Option raster_point) (ix iy : Nat),
      ix < pred_size_t w → iy < pred_size_t h →
        succ_size_t ix < w ∧ succ_size_t iy < h ∧
          ∃ region_points, region ⟨w, h, cells w h g⟩ ix iy = .ok region_points) ∧
    (∀ (v : double) (b : Nat), box_bound v width = .ok b → b < width) ∧
    (∀ (v : double) (b : Nat), box_bound v height = .ok b → b < height) ∧
    (∀ fx tx x : Nat, tx < width → x ∈ from_to fx tx → x < width) ∧
    (∀ (t : array3 raster_point) (g : Nat → Nat → List raster_raw_pixel) (x y : Nat),
      x < width → y < height →
        ∃ g', paint_pixel root t ⟨width, height, cells width height g⟩ x y =
          .ok ⟨width, height, cells width height g'⟩) ∧
    (∀ e, to_vector_image_raster root width height points filter = .error e →
      ¬ index_failure e) := by
  have p1 : pred_size_t w = w - 1 := by
    unfold pred_size_t
    rw [if_neg (by omega)]
  have p2 : pred_size_t h = h - 1 := by
    unfold pred_size_t
    rw [if_neg (by omega)]
  refine ⟨range_places points w h hw hh, ?_, ?_, ?_, ?_, ?_, ?_⟩
  · intro g ix iy hx hy
    rw [p1] at hx
    rw [p2] at hy
    exact region_grid w h g ix iy (Nat.le_of_lt (extent_lt _ _ _ hw))
      (Nat.le_of_lt (extent_lt _ _ _ hh)) (by omega) (by omega)
  · exact fun v b hb => box_bound_lt v width b hb
  · exact fun v b hb => box_bound_lt v height b hb
  · intro fx tx x htx hx
    have := from_to_le _ _ _ hx
    omega
  · exact fun t g x y hx hy => paint_pixel_grid root t width height g x y hx hy
  · exact fun e he => to_vector_image_raster_index root width height points filter e he

/-- An instance of C39: two points with the raster coordinates `(0, 0)` and `(1, 1)`,
whose raster range has 2 columns and 2 rows, and a target image of `4 × 4` pixels. -/
theorem C39_index_safety_witness :
    ((find_raster_range [⟨.finite 0, .finite 0, .finite 1, 0, 0⟩,
        ⟨.finite 3, .finite 3, .finite 2, 1, 1⟩]).w = .ok 2 ∧
      (find_raster_range [⟨.finite 0, .finite 0, .finite 1, 0, 0⟩,
        ⟨.finite 3, .finite 3, .finite 2, 1, 1⟩]).h = .ok 2) ∧
    (∀ p ∈ [(⟨.finite 0, .finite 0, .finite 1, 0, 0⟩ : raster_point),
        ⟨.finite 3, .finite 3, .finite 2, 1, 1⟩],
      ∃ x y, (find_raster_range [⟨.finite 0, .finite 0, .finite 1, 0, 0⟩,
          ⟨.finite 3, .finite 3, .finite 2, 1, 1⟩]).x p.rx = .ok x ∧
        (find_raster_range [⟨.finite 0, .finite 0, .finite 1, 0, 0⟩,
          ⟨.finite 3, .finite 3, .finite 2, 1, 1⟩]).y p.ry = .ok y ∧ x < 2 ∧ y < 2) ∧
    (∀ e, to_vector_image_raster (fun _ => 0) 4 4
        [⟨.finite 0, .finite 0, .finite 1, 0, 0⟩, ⟨.finite 3, .finite 3, .finite 2, 1, 1⟩]
        .none = .error e → ¬ index_failure e) :=
  ⟨⟨by decide, by decide⟩,
    (C39_index_safety (fun _ => 0) 4 4
      [⟨.finite 0, .finite 0, .finite 1, 0, 0⟩, ⟨.finite 3, .finite 3, .finite 2, 1, 1⟩]
      .none 2 2 (by decide) (by decide) (by decide) (by decide)).1,
    (C39_index_safety (fun _ => 0) 4 4
      [⟨.finite 0, .finite 0, .finite 1, 0, 0⟩, ⟨.finite 3, .finite 3, .finite 2, 1, 1⟩]
      .none 2 2 (by decide) (by decide) (by decide) (by decide)).2.2.2.2.2.2⟩

/-! ## The sums of a pixel that stay in the range of `double` -/

theorem overflow_finite (q : ℚ) (h : |q| < 2 ^ 1024) : ieee.overflow (.finite q) = .finite q := by
  simp only [ieee.overflow, if_neg (not_le.mpr h)]

theorem ieee_add_finite (a b : ℚ) (h : |a + b| < 2 ^ 1024) :
    ieee.add (.finite a) (.finite b) = .finite (a + b) := by
  unfold ieee.add
  rw [finite_add, overflow_finite _ h]

theorem ieee_mul_finite (a b : ℚ) (h : |a * b| < 2 ^ 1024) :
    ieee.mul (.finite a) (.finite b) = .finite (a * b) := by
  unfold ieee.mul
  rw [finite_mul, overflow_finite _ h]

theorem ieee_div_finite (a b : ℚ) (hb : b ≠ 0) (h : |a / b| < 2 ^ 1024) :
    ieee.div (.finite a) (.finite b) = .finite (a / b) := by
  unfold ieee.div
  rw [finite_div _ _ hb, overflow_finite _ h]

/-- The sum of libstdc++ of numbers whose magnitudes add up to less than `2 ^ 1024` is
their sum. -/
theorem ieee_transform_reduce_from_finite {α : Type} (f : α → double) (q : α → ℚ) :
    ∀ (n : Nat) (l : List α) (init : ℚ), l.length = n → (∀ c ∈ l, f c = .finite (q c)) →
      |init| + (l.map (fun c => |q c|)).sum < 2 ^ 1024 →
      ieee.transform_reduce_from f (.finite init) l = .finite (init + (l.map q).sum) := by
  intro n
  induction n using Nat.strong_induction_on with
  | _ n ih =>
    intro l init hn hf hb
    match l, hn, hf, hb with
    | [], _, _, _ => simp [ieee.transform_reduce_from]
    | [a], _, hf, hb =>
      simp only [List.map_cons, List.map_nil, List.sum_cons, List.sum_nil, add_zero] at hb ⊢
      have t1 := abs_add init (q a)
      rw [ieee.transform_reduce_from, hf a (by simp), ieee_add_finite _ _ (by linarith)]
    | [a, b], _, hf, hb =>
      simp only [List.map_cons, List.map_nil, List.sum_cons, List.sum_nil, add_zero] at hb ⊢
      have t1 := abs_add init (q a)
      have t2 := abs_add (init + q a) (q b)
      have p1 := abs_nonneg (q a)
      have p2 := abs_nonneg (q b)
      rw [ieee.transform_reduce_from, hf a (by simp), hf b (by simp),
        ieee_add_finite _ _ (by linarith), ieee_add_finite _ _ (by linarith)]
      congr 1
      ring
    | [a, b, c], _, hf, hb =>
      simp only [List.map_cons, List.map_nil, List.sum_cons, List.sum_nil, add_zero] at hb ⊢
      have t1 := abs_add init (q a)
      have t2 := abs_add (init + q a) (q b)
      have t3 := abs_add (init + q a + q b) (q c)
      have p1 := abs_nonneg (q a)
      have p2 := abs_nonneg (q b)
      have p3 := abs_nonneg (q c)
      rw [ieee.transform_reduce_from, hf a (by simp), hf b (by simp), hf c (by simp),
        ieee_add_finite _ _ (by linarith), ieee_add_finite _ _ (by linarith),
        ieee_add_finite _ _ (by linarith)]
      congr 1
      ring
    | a :: b :: c :: d :: rest, hn, hf, hb =>
      simp only [List.map_cons, List.sum_cons] at hb ⊢
      have t1 := abs_add (q a) (q b)
      have t2 := abs_add (q c) (q d)
      have t3 := abs_add (q a + q b) (q c + q d)
      have t4 := abs_add init (q a + q b + (q c + q d))
      have p0 := abs_nonneg init
      have p1 := abs_nonneg (q a)
      have p2 := abs_nonneg (q b)
      have p3 := abs_nonneg (q c)
      have p4 := abs_nonneg (q d)
      have p5 : 0 ≤ (rest.map (fun c => |q c|)).sum :=
        List.sum_nonneg (fun x hx => by
          simp only [List.mem_map] at hx
          obtain ⟨y, _, rfl⟩ := hx
          exact abs_nonneg _)
      rw [ieee.transform_reduce_from, hf a (by simp), hf b (by simp), hf c (by simp),
        hf d (by simp), ieee_add_finite _ _ (by linarith), ieee_add_finite _ _ (by linarith),
        ieee_add_finite _ _ (by linarith), ieee_add_finite _ _ (by linarith),
        ih rest.length (by simp only [List.length_cons] at hn; omega) rest _ rfl
          (fun x hx => hf x (by simp [hx])) (by linarith)]
      congr 1
      ring

theorem ieee_transform_reduce_finite {α : Type} (f : α → double) (q : α → ℚ) (l : List α)
    (hf : ∀ c ∈ l, f c = .finite (q c)) (hb : (l.map (fun c => |q c|)).sum < 2 ^ 1024) :
    ieee.transform_reduce f l = .finite (l.map q).sum := by
  unfold ieee.transform_reduce
  rw [ieee_transform_reduce_from_finite f q l.length l 0 rfl hf (by simpa using hb), zero_add]

/-- A term of a sum of magnitudes is at most the sum. -/
theorem abs_le_sum_abs {α : Type} (q : α → ℚ) (l : List α) (c : α) (hc : c ∈ l) :
    |q c| ≤ (l.map (fun c => |q c|)).sum := by
  induction l with
  | nil => simp at hc
  | cons a l ih =>
    have p : 0 ≤ (l.map (fun c => |q c|)).sum :=
      List.sum_nonneg (fun x hx => by
        simp only [List.mem_map] at hx
        obtain ⟨y, _, rfl⟩ := hx
        exact abs_nonneg _)
    simp only [List.map_cons, List.sum_cons]
    rcases List.mem_cons.mp hc with rfl | h
    · linarith
    · have := ih h
      have := abs_nonneg (q a)
      linarith

/-- A weighted sum is at most the greatest magnitude of the values times the sum of the
weights. -/
theorem abs_weighted_sum_le (l : List raw_pixel) (m : ℚ)
    (hw : ∀ c ∈ l, 0 ≤ number c.weight) (hv : ∀ c ∈ l, |number c.value| ≤ m) :
    |(l.map (fun c => number c.value * number c.weight)).sum| ≤
      m * (l.map (fun c => number c.weight)).sum := by
  induction l with
  | nil => simp
  | cons a l ih =>
    simp only [List.map_cons, List.sum_cons]
    have h1 := ih (fun c hc => hw c (by simp [hc])) (fun c hc => hv c (by simp [hc]))
    have h2 := abs_add (number a.value * number a.weight)
      (l.map (fun c => number c.value * number c.weight)).sum
    have h3 : |number a.value * number a.weight| ≤ m * number a.weight := by
      rw [abs_mul, abs_of_nonneg (hw a (by simp))]
      exact mul_le_mul_of_nonneg_right (hv a (by simp)) (hw a (by simp))
    rw [mul_add]
    linarith

theorem max_double_lt : ieee.max_double < 2 ^ 1024 := by
  unfold ieee.max_double
  have : (0 : ℚ) < 2 ^ 971 := by positivity
  linarith

/-- With sums in the range of `double`, the value of a pixel is that of exact
arithmetic. -/
theorem ieee_pixel_value_eq (cell : List raw_pixel) (h : no_overflow cell) :
    ieee.pixel_value raw_pixel.weight raw_pixel.value cell =
      pixel_value raw_pixel.weight raw_pixel.value cell := by
  obtain ⟨h1, h2, h3⟩ := h
  match cell, h1, h2, h3 with
  | [], _, _, _ => rfl
  | [single], _, _, _ => rfl
  | a :: b :: l, h1, h2, h3 =>
    have hw0 : ∀ c ∈ a :: b :: l, 0 ≤ number c.weight := fun c hc => (h1 c hc).2.1
    have e1 : ieee.transform_reduce raw_pixel.weight (a :: b :: l) =
        .finite ((a :: b :: l).map (fun c => number c.weight)).sum := by
      apply ieee_transform_reduce_finite raw_pixel.weight (fun c => number c.weight)
      · exact fun c hc => (h1 c hc).1
      · have : (a :: b :: l).map (fun c => |number c.weight|) =
            (a :: b :: l).map (fun c => number c.weight) :=
          List.map_congr_left (fun c hc => abs_of_nonneg (hw0 c hc))
        rw [this]
        exact h2
    have e2 : transform_reduce raw_pixel.weight (a :: b :: l) =
        .finite ((a :: b :: l).map (fun c => number c.weight)).sum :=
      transform_reduce_finite raw_pixel.weight (fun c => number c.weight) _
        (fun c hc => (h1 c hc).1)
    have e3 : ieee.transform_reduce (fun v => ieee.mul v.value v.weight) (a :: b :: l) =
        .finite ((a :: b :: l).map (fun c => number c.value * number c.weight)).sum := by
      apply ieee_transform_reduce_finite (fun v : raw_pixel => ieee.mul v.value v.weight)
        (fun c : raw_pixel => number c.value * number c.weight)
      · intro c hc
        show ieee.mul c.value c.weight = _
        rw [(h1 c hc).1, (h1 c hc).2.2.1]
        apply ieee_mul_finite
        have := abs_le_sum_abs (fun c : raw_pixel => number c.value * number c.weight)
          (a :: b :: l) c hc
        exact lt_of_le_of_lt this h3
      · exact h3
    have e4 : transform_reduce (fun v => v.value * v.weight) (a :: b :: l) =
        .finite ((a :: b :: l).map (fun c => number c.value * number c.weight)).sum := by
      apply transform_reduce_finite (fun v : raw_pixel => v.value * v.weight)
        (fun c : raw_pixel => number c.value * number c.weight)
      intro c hc
      show c.value * c.weight = _
      rw [(h1 c hc).1, (h1 c hc).2.2.1, finite_mul]
      rfl
    simp only [ieee.pixel_value, pixel_value, e1, e2, e3, e4]
    split
    · rfl
    · rw [double_eq_finite_zero]
      by_cases h0 : ((a :: b :: l).map (fun c => number c.weight)).sum = 0
      · simp only [h0, decide_True, if_true]
      · simp only [h0, decide_False, Bool.false_eq_true, if_false]
        have hpos : 0 < ((a :: b :: l).map (fun c => number c.weight)).sum :=
          lt_of_le_of_ne (List.sum_nonneg (fun x hx => by
            simp only [List.mem_map] at hx
            obtain ⟨y, hy, rfl⟩ := hx
            exact hw0 y hy)) (Ne.symm h0)
        have hq := abs_weighted_sum_le (a :: b :: l) ieee.max_double hw0
          (fun c hc => (h1 c hc).2.2.2)
        rw [ieee_div_finite _ _ h0, finite_div _ _ h0]
        rw [abs_div, abs_of_pos hpos, div_lt_iff₀ hpos]
        have := max_double_lt
        nlinarith

theorem no_overflow_perm (l1 l2 : List raw_pixel) (hp : l1.Perm l2) (h : no_overflow l1) :
    no_overflow l2 := by
  obtain ⟨h1, h2, h3⟩ := h
  refine ⟨fun c hc => h1 c (hp.mem_iff.mpr hc), ?_, ?_⟩
  · rw [← (hp.map _).sum_eq]
    exact h2
  · rw [← (hp.map _).sum_eq]
    exact h3

theorem transform_congr_mem {α β : Type} (f g : α → Except failure β) (l : List α)
    (h : ∀ a ∈ l, f a = g a) : transform f l = transform g l := by
  induction l with
  | nil => rfl
  | cons a l ih =>
    simp only [transform, h a (by simp), ih (fun b hb => h b (by simp [hb]))]

/-- With sums in the range of `double` at every pixel, the dense image is that of exact
arithmetic. -/
theorem ieee_to_image_eq (w h : Nat) (points : List point)
    (hc : ∀ vector_image, to_vector_image w h points = .ok vector_image →
      ∀ cell ∈ vector_image.data, no_overflow cell) :
    ieee.to_image w h points = to_image w h points := by
  unfold ieee.to_image to_image
  rcases hv : to_vector_image w h points with e | vi
  · rfl
  · simp only
    rw [transform_congr_mem (ieee.pixel_value raw_pixel.weight raw_pixel.value)
      (pixel_value raw_pixel.weight raw_pixel.value) _
      (fun cell hcell => ieee_pixel_value_eq cell (hc vi hv cell hcell))]

/-- The vector images of two orders of the same points have the same contributions at
every pixel, in some order. -/
theorem to_vector_image_perm_cells (w h : Nat) (points points' : List point)
    (hp : points.Perm points') (vi' : bitmap (List raw_pixel))
    (hv' : to_vector_image w h points' = .ok vi') :
    ∃ vi, to_vector_image w h points = .ok vi ∧
      ∀ cell' ∈ vi'.data, ∃ cell ∈ vi.data, cell.Perm cell' := by
  rw [to_vector_image_cells] at hv' ⊢
  by_cases hc' : ∀ p ∈ points', convertible p
  · have hc : ∀ p ∈ points, convertible p := fun p hm => hc' p (hp.mem_iff.mp hm)
    rw [if_pos hc'] at hv'
    rw [if_pos hc]
    simp only [Except.ok.injEq] at hv'
    refine ⟨_, rfl, ?_⟩
    intro cell' hcell'
    rw [← hv'] at hcell'
    simp only [cells, List.mem_map] at hcell' ⊢
    obtain ⟨k, hk, rfl⟩ := hcell'
    exact ⟨_, ⟨k, hk, rfl⟩, List.Perm.flatMap_right _ hp⟩
  · rw [if_neg hc'] at hv'
    simp at hv'

/-! ## The value of a pixel in the arithmetic of `double` -/

/-- The value of a pixel with two or more contributions whose weights are not negative,
with the overflow of `double`. -/
theorem ieee_pixel_value_many {α : Type} (weight value : α → double) (data : List α)
    (hlen : 2 ≤ data.length) (hw : ∀ c ∈ data, double.lt (weight c) 0 = false) :
    ieee.pixel_value weight value data =
      .ok (if double.eq (ieee.transform_reduce weight data) 0 = true then NaN
        else ieee.div (ieee.transform_reduce (fun c => ieee.mul (value c) (weight c)) data)
          (ieee.transform_reduce weight data)) := by
  match data, hlen, hw with
  | a :: b :: l, _, hw =>
    simp only [ieee.pixel_value]
    have : (a :: b :: l).any (fun v => double.lt (weight v) 0) = false := by
      rw [List.any_eq_false]
      intro x hx
      simp [hw x hx]
    rw [this]
    simp only [Bool.false_eq_true, if_false]
    split <;> rfl

end ply2image
